import Mathlib

/-! # sntable: a sorted table keyed by 64-bit integers

A shallow embedding of the writer (`writer.go`), the reader (`reader.go`) and the
shared declarations (`sntable.go`) of the package, followed by theorems about them.

Conventions of the embedding.

* A byte is a `Fin 256`; a byte slice is a list of bytes.
* `uint64` keys are natural numbers, reduced modulo `2 ^ 64` wherever the source
  performs arithmetic on them; `uint32` conversions reduce modulo `2 ^ 32`.
* `int` and `int64` values are integers (`Int`) where the source can make them
  negative, and natural numbers (`Nat`) where they are lengths or counters.
* The `io.Writer` a writer wraps is a `Sink`: the bytes it has taken so far and a
  script that says, call by call, whether the next `Write` is accepted.
* The `io.ReaderAt` a reader wraps is a byte slice read the way `bytes.Reader` does.
* The snappy codec is a parameter (`Codec`): an encoder and a decoder.
* A Go function returning `(T, error)` returns `Res T`, which also records a
  run-time panic (an index or slice bound failure) as an outcome of its own.
-/

namespace Sntable

/-! ## Bytes and the primitives of `encoding/binary` -/

abbrev Byte := Fin 256
abbrev Bytes := List Byte

/-- Conversion `byte(n)`: the low eight bits of `n`. -/
def toByte (n : Nat) : Byte := ⟨n % 256, Nat.mod_lt n (by decide)⟩

/-- Constant `binary.MaxVarintLen64`. -/
def MaxVarintLen64 : Nat := 10

/-- Loop of `binary.PutUvarint`: while `x >= 0x80` emit `byte(x) | 0x80` and shift
`x` right by seven bits, then emit `byte(x)`. A `uint64` needs at most ten rounds. -/
def putUvarintLoop : Nat → Nat → Bytes
  | 0, _ => []
  | fuel + 1, x =>
    if 0x80 ≤ x then toByte (x % 0x80 + 0x80) :: putUvarintLoop fuel (x / 0x80)
    else [toByte x]

/-- The bytes `binary.PutUvarint(buf, x)` stores for the `uint64` value `x`. -/
def PutUvarint (x : Nat) : Bytes := putUvarintLoop MaxVarintLen64 (x % 2 ^ 64)

/-- Loop of `binary.Uvarint` at byte index `i` with accumulator `x` (the shift `s`
of the source is `7 * i`). The result is the value and the number of bytes read;
the count is `0` when the buffer ends early and `-(i + 1)` on overflow. -/
def uvarintLoop : Bytes → Nat → Nat → Nat × Int
  | [], _, _ => (0, 0)
  | b :: bs, i, x =>
    if i = MaxVarintLen64 then (0, -((i : Int) + 1))
    else if b.val < 0x80 then
      if i = MaxVarintLen64 - 1 ∧ 1 < b.val then (0, -((i : Int) + 1))
      else (x + b.val * 2 ^ (7 * i), (i : Int) + 1)
    else uvarintLoop bs (i + 1) (x + (b.val % 0x80) * 2 ^ (7 * i))

/-- Function `binary.Uvarint(buf)`. -/
def Uvarint (buf : Bytes) : Nat × Int := uvarintLoop buf 0 0

/-- The four bytes `binary.LittleEndian.PutUint32` stores for `uint32(v)`. -/
def PutUint32 (v : Nat) : Bytes :=
  let u := v % 2 ^ 32
  [toByte u, toByte (u / 2 ^ 8), toByte (u / 2 ^ 16), toByte (u / 2 ^ 24)]

/-- The eight bytes `binary.LittleEndian.PutUint64` stores for a `uint64`. -/
def PutUint64 (v : Nat) : Bytes :=
  let u := v % 2 ^ 64
  [toByte u, toByte (u / 2 ^ 8), toByte (u / 2 ^ 16), toByte (u / 2 ^ 24),
   toByte (u / 2 ^ 32), toByte (u / 2 ^ 40), toByte (u / 2 ^ 48), toByte (u / 2 ^ 56)]

/-- Function `binary.LittleEndian.Uint32(b)`; `none` is the bounds panic on a
slice shorter than four bytes. -/
def Uint32 : Bytes → Option Nat
  | b0 :: b1 :: b2 :: b3 :: _ =>
    some (b0.val + b1.val * 2 ^ 8 + b2.val * 2 ^ 16 + b3.val * 2 ^ 24)
  | _ => none

/-- Function `binary.LittleEndian.Uint64(b)`; `none` is the bounds panic on a
slice shorter than eight bytes. -/
def Uint64 : Bytes → Option Nat
  | b0 :: b1 :: b2 :: b3 :: b4 :: b5 :: b6 :: b7 :: _ =>
    some (b0.val + b1.val * 2 ^ 8 + b2.val * 2 ^ 16 + b3.val * 2 ^ 24
      + b4.val * 2 ^ 32 + b5.val * 2 ^ 40 + b6.val * 2 ^ 48 + b7.val * 2 ^ 56)
  | _ => none

/-- Conversion `uint64(i)` of a signed integer. -/
def toUint64 (i : Int) : Nat := (i % 2 ^ 64).toNat

/-- Conversion `int64(u)` of a `uint64`. -/
def toInt64 (u : Nat) : Int :=
  if u % 2 ^ 64 < 2 ^ 63 then ((u % 2 ^ 64 : Nat) : Int) else ((u % 2 ^ 64 : Nat) : Int) - 2 ^ 64

/-! ## Declarations of `sntable.go` -/

/-- The magic byte sequence that ends every table. -/
def magic : Bytes := [71, 39, 134, 190, 31, 122, 101, 219]

def blockNoCompression : Byte := 0
def blockSnappyCompression : Byte := 1

/-- The errors of the package, and the errors of its collaborators. -/
inductive Error where
  /-- `ErrNotFound`, "sntable: not found". -/
  | ErrNotFound
  /-- `errClosed`, "sntable: is closed". -/
  | errClosed
  /-- `errBadMagic`, "sntable: bad magic byte sequence". -/
  | errBadMagic
  /-- `errBadCompression`, "sntable: bad compression codec". -/
  | errBadCompression
  /-- `errReleased`, "sntable: iterator was released". -/
  | errReleased
  /-- The error `Writer.Append` builds with `fmt.Errorf` for an out-of-order key. -/
  | outOfOrder (key max : Nat)
  /-- An error returned by the wrapped `io.Writer`. -/
  | sinkError
  /-- An error returned by the wrapped `io.ReaderAt` (for instance `io.EOF`). -/
  | sourceError
  /-- An error returned by `snappy.DecodedLen` or `snappy.Decode`. -/
  | snappyError
  deriving DecidableEq, Repr

/-- The text of an error (`err.Error()`). -/
def Error.text : Error → String
  | .ErrNotFound => "sntable: not found"
  | .errClosed => "sntable: is closed"
  | .errBadMagic => "sntable: bad magic byte sequence"
  | .errBadCompression => "sntable: bad compression codec"
  | .errReleased => "sntable: iterator was released"
  | .outOfOrder key max =>
    "sntable: attempted an out-of-order append, " ++ toString key ++ " must be > " ++ toString max
  | .sinkError => "io: write failed"
  | .sourceError => "io: read failed"
  | .snappyError => "snappy: corrupt input"

/-- Record `blockInfo`: the maximum key of a block and its offset in the file. -/
structure blockInfo where
  MaxKey : Nat
  Offset : Int
  deriving DecidableEq, Repr

/-- Type `Compression` is a byte. -/
abbrev Compression := Byte

def SnappyCompression : Compression := 0
def NoCompression : Compression := 1
def unknownCompression : Compression := 2

/-- Method `Compression.isValid`. -/
def Compression.isValid (c : Compression) : Bool :=
  decide (SnappyCompression ≤ c) && decide (c ≤ unknownCompression)

/-! ## The collaborators: sink, source and codec -/

/-- An `io.Writer`: the bytes written so far and a script for the calls to come.
An entry `none` accepts the whole write; an entry `some k` takes at most `k` bytes
and returns an error. When the script is used up every write is accepted. -/
structure Sink where
  data : Bytes
  script : List (Option Nat)
  deriving DecidableEq, Repr

/-- Method `Write` of the sink: the new sink, the count `n` and the error. -/
def Sink.Write (s : Sink) (p : Bytes) : Sink × Nat × Option Error :=
  match s.script with
  | [] => ({ s with data := s.data ++ p }, p.length, none)
  | none :: rest => ({ data := s.data ++ p, script := rest }, p.length, none)
  | some k :: rest =>
    ({ data := s.data ++ p.take k, script := rest }, min k p.length, some Error.sinkError)

/-- A sink that accepts every write. -/
def Sink.accepting (s : Sink) : Prop := ∀ x ∈ s.script, x = none

instance (s : Sink) : Decidable s.accepting := by
  unfold Sink.accepting; exact inferInstance

/-- The snappy codec: `Encode` is `snappy.Encode`, and `Decode` is
`snappy.DecodedLen` followed by `snappy.Decode` (`none` when either fails). -/
structure Codec where
  Encode : Bytes → Bytes
  Decode : Bytes → Option Bytes

/-- A codec whose decoder inverts its encoder. -/
def Codec.lawful (sn : Codec) : Prop := ∀ b, sn.Decode (sn.Encode b) = some b

/-! ## The writer (`writer.go`) -/

/-- Record `WriterOptions`. -/
structure WriterOptions where
  BlockSize : Int
  BlockRestartInterval : Int
  Compression : Compression
  deriving DecidableEq, Repr

/-- Method `(*WriterOptions).norm`; `none` is the nil pointer. -/
def WriterOptions.norm (o : Option WriterOptions) : WriterOptions :=
  let oo : WriterOptions := match o with
    | some o => o
    | none => { BlockSize := 0, BlockRestartInterval := 0, Compression := 0 }
  let oo := if oo.BlockSize < 1 then { oo with BlockSize := 2 ^ 12 } else oo
  let oo := if oo.BlockRestartInterval < 1 then { oo with BlockRestartInterval := 16 } else oo
  let oo := if !Compression.isValid oo.Compression then
    { oo with Compression := SnappyCompression } else oo
  oo

/-- Record `Writer`. The scratch buffer `tmp` is kept as a flag: `true` while the
buffer is allocated, `false` once `Close` has set it to nil. -/
structure Writer where
  w : Sink
  o : WriterOptions
  block : blockInfo
  blen : Nat
  soffs : List Nat
  buf : Bytes
  snp : Bytes
  tmp : Bool
  index : List blockInfo
  deriving DecidableEq, Repr

/-- Function `NewWriter`. -/
def NewWriter (w : Sink) (o : Option WriterOptions) : Writer :=
  { w := w, o := WriterOptions.norm o, block := { MaxKey := 0, Offset := 0 }, blen := 0,
    soffs := [], buf := [], snp := [], tmp := true, index := [] }

/-- Method `Writer.writeRaw`. -/
def Writer.writeRaw (w : Writer) (p : Bytes) : Writer × Option Error :=
  match w.w.Write p with
  | (s, n, err) =>
    ({ w with w := s, block := { w.block with Offset := w.block.Offset + (n : Int) } }, err)

/-- The section offset table `flush` appends: every offset `o > 0` as a `uint32`. -/
def appendSoffs (buf : Bytes) : List Nat → Bytes
  | [] => buf
  | o :: rest => appendSoffs (if 0 < o then buf ++ PutUint32 o else buf) rest

/-- The framed block payload of `flush`: the buffer, the section offsets and the
section count. -/
def framed (buf : Bytes) (soffs : List Nat) : Bytes :=
  appendSoffs buf soffs ++ PutUint32 soffs.length

/-- Method `Writer.flush`. -/
def Writer.flush (sn : Codec) (w : Writer) : Writer × Option Error :=
  if w.buf.length = 0 then (w, none)
  else
    let buf := framed w.buf w.soffs
    let snp := if w.o.Compression = SnappyCompression then sn.Encode buf else w.snp
    let block :=
      if w.o.Compression = SnappyCompression then
        if (snp.length : Int) < (buf.length : Int) - (buf.length : Int) / 4 then
          snp ++ [blockSnappyCompression]
        else buf ++ [blockNoCompression]
      else buf ++ [blockNoCompression]
    Writer.writeRaw
      { w with index := w.index ++ [w.block], buf := [], soffs := [], blen := 0, snp := snp }
      block

/-- Method `Writer.Append`. -/
def Writer.Append (sn : Codec) (w : Writer) (key : Nat) (value : Bytes) :
    Writer × Option Error :=
  if w.tmp = false then (w, some Error.errClosed)
  else if key ≤ w.block.MaxKey ∧ (w.blen ≠ 0 ∨ w.index.length ≠ 0) then
    (w, some (Error.outOfOrder key w.block.MaxKey))
  else
    let r :=
      if w.buf.length ≠ 0 ∧
          ((w.buf.length + value.length + 2 * MaxVarintLen64 : Nat) : Int) > w.o.BlockSize then
        Writer.flush sn w
      else (w, none)
    match r with
    | (w, some err) => (w, some err)
    | (w, none) =>
      let fresh : Bool := decide ((w.blen : Int) % w.o.BlockRestartInterval = 0)
      let skey := if fresh then key else (key + 2 ^ 64 - w.block.MaxKey) % 2 ^ 64
      let soffs := if fresh then w.soffs ++ [w.buf.length] else w.soffs
      ({ w with
          soffs := soffs
          buf := w.buf ++ (PutUvarint skey ++ PutUvarint value.length) ++ value
          blen := w.blen + 1
          block := { w.block with MaxKey := key } }, none)

/-- Loop of `Writer.writeIndex` over the remaining index entries. -/
def Writer.writeIndexLoop (w : Writer) : List blockInfo → Nat → blockInfo → Writer × Option Error
  | [], _, _ => (w, none)
  | ent :: rest, i, prev =>
    let key := if i ≠ 0 then (ent.MaxKey + 2 ^ 64 - prev.MaxKey) % 2 ^ 64 else ent.MaxKey
    let off := if i ≠ 0 then ent.Offset - prev.Offset else ent.Offset
    match Writer.writeRaw w (PutUvarint key ++ PutUvarint (toUint64 off)) with
    | (w, some err) => (w, some err)
    | (w, none) => Writer.writeIndexLoop w rest (i + 1) ent

/-- Method `Writer.writeIndex`. -/
def Writer.writeIndex (w : Writer) : Writer × Option Error :=
  Writer.writeIndexLoop w w.index 0 { MaxKey := 0, Offset := 0 }

/-- Method `Writer.writeFooter`. -/
def Writer.writeFooter (w : Writer) (indexOffset : Int) : Writer × Option Error :=
  match Writer.writeRaw w (PutUint64 (toUint64 indexOffset)) with
  | (w, some err) => (w, some err)
  | (w, none) =>
    match Writer.writeRaw w magic with
    | (w, some err) => (w, some err)
    | (w, none) => (w, none)

/-- Method `Writer.Close`. -/
def Writer.Close (sn : Codec) (w : Writer) : Writer × Option Error :=
  if w.tmp = false then (w, some Error.errClosed)
  else
    match Writer.flush sn w with
    | (w, some err) => (w, some err)
    | (w, none) =>
      let indexOffset := w.block.Offset
      match Writer.writeIndex w with
      | (w, some err) => (w, some err)
      | (w, none) =>
        match Writer.writeFooter w indexOffset with
        | (w, some err) => (w, some err)
        | (w, none) => ({ w with tmp := false }, none)

/-! ## Outcomes of the reader's functions -/

/-- Outcome of a function of the reader: a result, a returned error, a run-time
panic, or `outOfFuel` when the embedding of a loop was given too few steps. -/
inductive Res (α : Type) where
  | ok (a : α)
  | err (e : Error)
  | panic
  | outOfFuel
  deriving DecidableEq, Repr

/-- Sequencing of outcomes: the first failure ends the computation. -/
def Res.bind {α β : Type} (x : Res α) (f : α → Res β) : Res β :=
  match x with
  | .ok a => f a
  | .err e => .err e
  | .panic => .panic
  | .outOfFuel => .outOfFuel

instance : Monad Res where
  pure := Res.ok
  bind := Res.bind

/-- Slice expression `s[a:]`; it panics unless `0 <= a <= len(s)`. -/
def sliceFrom (s : Bytes) (a : Int) : Res Bytes :=
  if 0 ≤ a ∧ a ≤ (s.length : Int) then .ok (s.drop a.toNat) else .panic

/-- Slice expression `s[a:b]`; it panics unless `0 <= a <= b <= len(s)`. Go lets
`b` reach the capacity of `s`; the embedding takes the capacity of every slice to
be its length, which differs only on malformed blocks. -/
def slice (s : Bytes) (a b : Int) : Res Bytes :=
  if 0 ≤ a ∧ a ≤ b ∧ b ≤ (s.length : Int) then .ok ((s.drop a.toNat).take (b.toNat - a.toNat))
  else .panic

/-- Method `ReadAt` of a `bytes.Reader` over `src`, reading `n` bytes at `off`:
an error for a negative offset, for an offset at or past the end, and for a
short read. -/
def ReadAt (src : Bytes) (n : Nat) (off : Int) : Res Bytes :=
  if off < 0 then .err Error.sourceError
  else if (src.length : Int) ≤ off then .err Error.sourceError
  else if src.length < off.toNat + n then .err Error.sourceError
  else .ok ((src.drop off.toNat).take n)

/-- Loop of `sort.Search` on the interval `[i, j)`. -/
def searchLoop (f : Nat → Res Bool) : Nat → Nat → Nat → Res Nat
  | 0, i, j => if i < j then .outOfFuel else .ok i
  | fuel + 1, i, j =>
    if i < j then
      let h := (i + j) / 2
      match f h with
      | .ok true => searchLoop f fuel i h
      | .ok false => searchLoop f fuel (h + 1) j
      | .err e => .err e
      | .panic => .panic
      | .outOfFuel => .outOfFuel
    else .ok i

/-- Function `sort.Search(n, f)`. The loop halves an interval of length `n`, so
`n` rounds are enough. -/
def Search (n : Nat) (f : Nat → Res Bool) : Res Nat := searchLoop f n 0 n

/-! ## The reader (`reader.go`) -/

/-- Record `Reader`. -/
structure Reader where
  r : Bytes
  index : List blockInfo
  maxOffset : Int
  deriving DecidableEq, Repr

/-- Record `BlockReader`. -/
structure BlockReader where
  block : Bytes
  bpos : Nat
  scnt : Nat
  maxKey : Nat
  deriving DecidableEq, Repr

/-- Record `SectionReader`; the field `sec` is the field `section` of the source. -/
structure SectionReader where
  sec : Bytes
  spos : Nat
  read : Int
  key : Nat
  val : Bytes
  deriving DecidableEq, Repr

/-- Record `Iterator`. -/
structure Iterator where
  r : Reader
  b : BlockReader
  s : SectionReader
  err : Option Error
  deriving DecidableEq, Repr

/-- Loop of `NewReader` that walks the block index from `pos` to `footerOffset`. -/
def NewReader.loop (r : Bytes) (footerOffset : Int) :
    Nat → Int → blockInfo → List blockInfo → Res (List blockInfo)
  | 0, pos, _, index => if pos < footerOffset then .outOfFuel else .ok index
  | fuel + 1, pos, info, index =>
    if pos < footerOffset then
      let x := footerOffset - pos
      let len : Nat := if x < ((2 * MaxVarintLen64 : Nat) : Int) then x.toNat else 2 * MaxVarintLen64
      match ReadAt r len pos with
      | .ok tmp =>
        let (u1, n) := Uvarint tmp
        let pos := pos + n
        match sliceFrom tmp n with
        | .ok rest =>
          let (u2, n) := Uvarint rest
          let pos := pos + n
          let info : blockInfo :=
            { MaxKey := (info.MaxKey + u1) % 2 ^ 64
              Offset := toInt64 (toUint64 (info.Offset + toInt64 u2)) }
          NewReader.loop r footerOffset fuel pos info (index ++ [info])
        | .err e => .err e
        | .panic => .panic
        | .outOfFuel => .outOfFuel
      | .err e => .err e
      | .panic => .panic
      | .outOfFuel => .outOfFuel
    else .ok index

/-- Function `NewReader(r, size)`; `fuel` bounds the rounds of the index loop. -/
def NewReader (fuel : Nat) (r : Bytes) (size : Int) : Res Reader :=
  let footerOffset := size - 16
  match ReadAt r 16 footerOffset with
  | .ok tmp =>
    if tmp.drop 8 ≠ magic then .err Error.errBadMagic
    else
      match Uint64 tmp with
      | none => .panic
      | some u =>
        let indexOffset := toInt64 u
        match NewReader.loop r footerOffset fuel indexOffset { MaxKey := 0, Offset := 0 } [] with
        | .ok index => .ok { r := r, index := index, maxOffset := indexOffset }
        | .err e => .err e
        | .panic => .panic
        | .outOfFuel => .outOfFuel
  | .err e => .err e
  | .panic => .panic
  | .outOfFuel => .outOfFuel

/-- Method `Reader.NumBlocks`. -/
def Reader.NumBlocks (r : Reader) : Nat := r.index.length

/-- Method `Reader.readBlock`, for `bpos` within the index. -/
def Reader.readBlock (sn : Codec) (r : Reader) (bpos : Nat) : Res BlockReader :=
  match r.index.get? bpos with
  | none => .panic
  | some ent =>
    let min := ent.Offset
    let max := match r.index.get? (bpos + 1) with
      | some next => next.Offset
      | none => r.maxOffset
    if max - min < 0 then .panic
    else
      match ReadAt r.r (max - min).toNat min with
      | .ok raw =>
        match raw.getLast? with
        | none => .panic
        | some tag =>
          let stored := raw.dropLast
          let decoded : Res Bytes :=
            if tag = blockNoCompression then .ok stored
            else if tag = blockSnappyCompression then
              match sn.Decode stored with
              | some plain => .ok plain
              | none => .err Error.snappyError
            else .err Error.errBadCompression
          match decoded with
          | .ok block =>
            match sliceFrom block ((block.length : Int) - 4) with
            | .ok tail =>
              match Uint32 tail with
              | some scnt => .ok { block := block, bpos := bpos, scnt := scnt, maxKey := ent.MaxKey }
              | none => .panic
            | .err e => .err e
            | .panic => .panic
            | .outOfFuel => .outOfFuel
          | .err e => .err e
          | .panic => .panic
          | .outOfFuel => .outOfFuel
      | .err e => .err e
      | .panic => .panic
      | .outOfFuel => .outOfFuel

/-- Method `Reader.GetBlock`. -/
def Reader.GetBlock (sn : Codec) (r : Reader) (bpos : Int) : Res BlockReader :=
  if r.index.length = 0 then .ok { block := [], bpos := 0, scnt := 0, maxKey := 0 }
  else
    let bpos := if bpos < 0 then 0 else bpos
    if (r.index.length : Int) ≤ bpos then
      .ok { block := [], bpos := r.index.length, scnt := 0, maxKey := 0 }
    else Reader.readBlock sn r bpos.toNat

/-- The function `SeekBlock` hands to `sort.Search`: whether block `i` has a
max-key at or above `key`. -/
def Reader.seekBlockPred (r : Reader) (key : Nat) (i : Nat) : Res Bool :=
  match r.index.get? i with
  | some ent => .ok (decide (key ≤ ent.MaxKey))
  | none => .panic

/-- Method `Reader.SeekBlock`. -/
def Reader.SeekBlock (sn : Codec) (r : Reader) (key : Nat) : Res BlockReader :=
  match Search r.index.length (r.seekBlockPred key) with
  | .ok bpos => Reader.GetBlock sn r bpos
  | .err e => .err e
  | .panic => .panic
  | .outOfFuel => .outOfFuel

/-- Method `BlockReader.NumSections`. -/
def BlockReader.NumSections (r : BlockReader) : Nat := r.scnt

/-- Method `BlockReader.Pos`. -/
def BlockReader.Pos (r : BlockReader) : Nat := r.bpos

/-- Method `BlockReader.sectionOffset`. -/
def BlockReader.sectionOffset (r : BlockReader) (spos : Int) : Res Int :=
  if spos < 1 then .ok 0
  else if (r.scnt : Int) ≤ spos then .ok ((r.block.length : Int) - (r.scnt : Int) * 4)
  else
    let nn : Int := (r.block.length : Int) - (r.scnt : Int) * 4 + (spos - 1) * 4
    match sliceFrom r.block nn with
    | .ok tail =>
      match Uint32 tail with
      | some v => .ok (v : Int)
      | none => .panic
    | .err e => .err e
    | .panic => .panic
    | .outOfFuel => .outOfFuel

/-- Method `BlockReader.GetSection`. -/
def BlockReader.GetSection (r : BlockReader) (spos : Int) : Res SectionReader :=
  let spos := if spos < 0 then 0 else spos
  if (r.scnt : Int) ≤ spos then .ok { sec := [], spos := r.scnt, read := 0, key := 0, val := [] }
  else
    match r.sectionOffset spos with
    | .ok min =>
      match r.sectionOffset (spos + 1) with
      | .ok max =>
        match slice r.block min max with
        | .ok sec => .ok { sec := sec, spos := spos.toNat, read := 0, key := 0, val := [] }
        | .err e => .err e
        | .panic => .panic
        | .outOfFuel => .outOfFuel
      | .err e => .err e
      | .panic => .panic
      | .outOfFuel => .outOfFuel
    | .err e => .err e
    | .panic => .panic
    | .outOfFuel => .outOfFuel

/-- The function `SeekSection` hands to `sort.Search`: whether the first key of
section `i`, the varint at the section's offset, is above `key`. -/
def BlockReader.seekSectionPred (r : BlockReader) (key : Nat) (i : Nat) : Res Bool :=
  match r.sectionOffset i with
  | .ok off =>
    match sliceFrom r.block off with
    | .ok tail => .ok (decide (key < (Uvarint tail).1))
    | .err e => .err e
    | .panic => .panic
    | .outOfFuel => .outOfFuel
  | .err e => .err e
  | .panic => .panic
  | .outOfFuel => .outOfFuel

/-- Method `BlockReader.SeekSection`. -/
def BlockReader.SeekSection (r : BlockReader) (key : Nat) : Res SectionReader :=
  if r.maxKey < key then r.GetSection r.scnt
  else
    match Search r.scnt (r.seekSectionPred key) with
    | .ok n => r.GetSection ((n : Int) - 1)
    | .err e => .err e
    | .panic => .panic
    | .outOfFuel => .outOfFuel

/-- Method `SectionReader.Pos`. -/
def SectionReader.Pos (r : SectionReader) : Nat := r.spos

/-- Method `SectionReader.Key`. -/
def SectionReader.Key (r : SectionReader) : Nat := r.key

/-- Method `SectionReader.Value`. -/
def SectionReader.Value (r : SectionReader) : Bytes := r.val

/-- Method `SectionReader.More`. -/
def SectionReader.More (r : SectionReader) : Bool := decide (r.read < (r.sec.length : Int))

/-- The second half of `SectionReader.Next` and of a round of `SectionReader.Seek`:
read the value length and the value. -/
def SectionReader.readValue (r : SectionReader) : Res SectionReader :=
  match sliceFrom r.sec r.read with
  | .ok tail =>
    let (vln, n) := Uvarint tail
    let read := r.read + n
    match slice r.sec read (read + toInt64 vln) with
    | .ok val => .ok { r with read := read + toInt64 vln, val := val }
    | .err e => .err e
    | .panic => .panic
    | .outOfFuel => .outOfFuel
  | .err e => .err e
  | .panic => .panic
  | .outOfFuel => .outOfFuel

/-- Method `SectionReader.Seek`; `fuel` bounds the rounds of its loop. -/
def SectionReader.Seek : Nat → SectionReader → Nat → Res (SectionReader × Bool)
  | 0, r, _ => if r.More then .outOfFuel else .ok (r, false)
  | fuel + 1, r, key =>
    if r.More then
      match sliceFrom r.sec r.read with
      | .ok tail =>
        let (inc, n) := Uvarint tail
        let r1 : SectionReader := { r with read := r.read + n, key := (r.key + inc) % 2 ^ 64 }
        if key ≤ r1.key then
          .ok ({ r1 with read := r1.read - n, key := (r1.key + 2 ^ 64 - inc) % 2 ^ 64 }, true)
        else if r1.More then
          match r1.readValue with
          | .ok r2 => SectionReader.Seek fuel r2 key
          | .err e => .err e
          | .panic => .panic
          | .outOfFuel => .outOfFuel
        else SectionReader.Seek fuel r1 key
      | .err e => .err e
      | .panic => .panic
      | .outOfFuel => .outOfFuel
    else .ok (r, false)

/-- Method `SectionReader.Next`. -/
def SectionReader.Next (r : SectionReader) : Res (SectionReader × Bool) :=
  let r1 : Res SectionReader :=
    if r.More then
      match sliceFrom r.sec r.read with
      | .ok tail =>
        let (inc, n) := Uvarint tail
        .ok { r with read := r.read + n, key := (r.key + inc) % 2 ^ 64 }
      | .err e => .err e
      | .panic => .panic
      | .outOfFuel => .outOfFuel
    else .ok r
  match r1 with
  | .ok r1 =>
    if r1.More then
      match r1.readValue with
      | .ok r2 => .ok (r2, true)
      | .err e => .err e
      | .panic => .panic
      | .outOfFuel => .outOfFuel
    else .ok (r1, false)
  | .err e => .err e
  | .panic => .panic
  | .outOfFuel => .outOfFuel

/-- Method `Reader.Seek`; `fuel` bounds the rounds of the section scan. -/
def Reader.Seek (sn : Codec) (fuel : Nat) (r : Reader) (key : Nat) : Res Iterator :=
  match r.SeekBlock sn key with
  | .ok b =>
    match b.SeekSection key with
    | .ok s =>
      match s.Seek fuel key with
      | .ok (s, _) => .ok { r := r, b := b, s := s, err := none }
      | .err e => .err e
      | .panic => .panic
      | .outOfFuel => .outOfFuel
    | .err e => .err e
    | .panic => .panic
    | .outOfFuel => .outOfFuel
  | .err e => .err e
  | .panic => .panic
  | .outOfFuel => .outOfFuel

/-- Method `Iterator.Key`. -/
def Iterator.Key (i : Iterator) : Nat := i.s.Key

/-- Method `Iterator.Value`. -/
def Iterator.Value (i : Iterator) : Bytes := i.s.Value

/-- Method `Iterator.Err`. -/
def Iterator.Err (i : Iterator) : Option Error := i.err

/-- Method `Iterator.More`. -/
def Iterator.More (i : Iterator) : Bool :=
  if i.err ≠ none then false
  else i.s.More || decide (i.s.Pos + 1 < i.b.NumSections) || decide (i.b.Pos + 1 < i.r.NumBlocks)

/-- Method `Iterator.Next`: the iterator after the call and the boolean returned.
When the fetch of the next block fails, `i.b` becomes nil and the call of
`GetSection` on it is a nil dereference, which is the outcome `panic`. -/
def Iterator.Next (sn : Codec) (i : Iterator) : Res (Iterator × Bool) :=
  if i.err ≠ none then .ok (i, false)
  else if i.s.More then
    match i.s.Next with
    | .ok (s, b) => .ok ({ i with s := s }, b)
    | .err e => .err e
    | .panic => .panic
    | .outOfFuel => .outOfFuel
  else if i.s.Pos + 1 < i.b.NumSections then
    match i.b.GetSection ((i.s.Pos : Int) + 1) with
    | .ok s0 =>
      match s0.Next with
      | .ok (s, b) => .ok ({ i with s := s }, b)
      | .err e => .err e
      | .panic => .panic
      | .outOfFuel => .outOfFuel
    | .err e => .err e
    | .panic => .panic
    | .outOfFuel => .outOfFuel
  else if i.b.Pos + 1 < i.r.NumBlocks then
    match i.r.GetBlock sn ((i.b.Pos : Int) + 1) with
    | .ok b1 =>
      match b1.GetSection 0 with
      | .ok s0 =>
        match s0.Next with
        | .ok (s, b) => .ok ({ i with b := b1, s := s }, b)
        | .err e => .err e
        | .panic => .panic
        | .outOfFuel => .outOfFuel
      | .err e => .err e
      | .panic => .panic
      | .outOfFuel => .outOfFuel
    | .err _ => .panic
    | .panic => .panic
    | .outOfFuel => .outOfFuel
  else .ok (i, false)

/-- Method `Reader.Append`: the slice and the error it returns. -/
def Reader.Append (sn : Codec) (fuel : Nat) (r : Reader) (dst : Bytes) (key : Nat) :
    Res (Bytes × Option Error) :=
  match r.Seek sn fuel key with
  | .ok iter =>
    match iter.Next sn with
    | .ok (iter, more) =>
      if !more || iter.Key ≠ key then .ok (dst, some Error.ErrNotFound)
      else .ok (dst ++ iter.Value, none)
    | .err e => .err e
    | .panic => .panic
    | .outOfFuel => .outOfFuel
  | .err e => .ok (dst, some e)
  | .panic => .panic
  | .outOfFuel => .outOfFuel

/-- Method `Reader.Get`, a shortcut for `Append(nil, key)`. -/
def Reader.Get (sn : Codec) (fuel : Nat) (r : Reader) (key : Nat) : Res (Bytes × Option Error) :=
  r.Append sn fuel [] key

/-! ## Runs of a writer -/

/-- A call on a writer. -/
inductive Op where
  | append (key : Nat) (value : Bytes)
  | close
  deriving DecidableEq, Repr

/-- One call on a writer: the writer after the call and the error returned. -/
def Writer.step (sn : Codec) (w : Writer) : Op → Writer × Option Error
  | .append key value => w.Append sn key value
  | .close => w.Close sn

/-- A sequence of calls: the writer after them and, call by call, what was returned. -/
def Writer.run (sn : Codec) : Writer → List Op → Writer × List (Op × Option Error)
  | w, [] => (w, [])
  | w, op :: ops =>
    let r := w.step sn op
    let rest := Writer.run sn r.1 ops
    (rest.1, (op, r.2) :: rest.2)

/-- The entries of the calls of `Append` that returned no error, in order. -/
def accepted : List (Op × Option Error) → List (Nat × Bytes)
  | [] => []
  | (.append key value, none) :: t => (key, value) :: accepted t
  | _ :: t => accepted t

/-- Whether some call of `Close` returned no error. -/
def closedOk : List (Op × Option Error) → Bool
  | [] => false
  | (.close, none) :: _ => true
  | _ :: t => closedOk t

/-- Whether an error is the out-of-order error of `Append`. -/
def Error.isOutOfOrder : Error → Bool
  | .outOfOrder _ _ => true
  | _ => false

/-- The calls that append the given entries in order. -/
def appends (es : List (Nat × Bytes)) : List Op := es.map (fun e => Op.append e.1 e.2)

/-- The table written for a list of entries: `Append` for each, then `Close`, on
a fresh writer over an empty sink that accepts every write. -/
def writeTable (sn : Codec) (o : Option WriterOptions) (es : List (Nat × Bytes)) : Bytes :=
  (Writer.run sn (NewWriter { data := [], script := [] } o) (appends es ++ [Op.close])).1.w.data

/-- Encoder of a run-length codec used in examples: the bytes become pairs
(count, byte), a count being at most 255. -/
def rleEncode : Bytes → Bytes
  | [] => []
  | b :: rest =>
    match rleEncode rest with
    | n :: c :: tail =>
      if c = b ∧ n.val < 255 then toByte (n.val + 1) :: c :: tail else 1 :: b :: n :: c :: tail
    | _ => [1, b]

/-- Decoder of the run-length codec. -/
def rleDecode : Bytes → Option Bytes
  | [] => some []
  | [_] => none
  | n :: c :: tail =>
    match rleDecode tail with
    | some t => some (List.replicate n.val c ++ t)
    | none => none

/-- A codec for examples, standing for snappy: run-length encoding. -/
def rleCodec : Codec where
  Encode := rleEncode
  Decode := rleDecode

/-- What a writer's fields record about the calls made on it so far: it is open
exactly when no `Close` has succeeded, its block holds entries or its index holds
blocks exactly when some `Append` has succeeded, its max-key is the key of the
last entry appended, and its buffer is empty exactly when its block is. -/
def Writer.tracks (w : Writer) (t : List (Op × Option Error)) : Prop :=
  (w.tmp = true ↔ closedOk t = false) ∧
  ((w.blen ≠ 0 ∨ w.index ≠ []) ↔ accepted t ≠ []) ∧
  (∀ e, (accepted t).getLast? = some e → w.block.MaxKey = e.1) ∧
  (w.buf = [] ↔ w.blen = 0)

/-- The condition under which `Append` flushes the block before adding a value. -/
def Writer.needsFlush (w : Writer) (value : Bytes) : Prop :=
  w.buf.length ≠ 0 ∧
    ((w.buf.length + value.length + 2 * MaxVarintLen64 : Nat) : Int) > w.o.BlockSize

instance (w : Writer) (value : Bytes) : Decidable (w.needsFlush value) := by
  unfold Writer.needsFlush; exact inferInstance

/-- The last part of `Append`: the entry is encoded into the buffer, opening a
section when the entry count is a multiple of the restart interval. -/
def Writer.put (w : Writer) (key : Nat) (value : Bytes) : Writer :=
  let fresh : Bool := decide ((w.blen : Int) % w.o.BlockRestartInterval = 0)
  let skey := if fresh then key else (key + 2 ^ 64 - w.block.MaxKey) % 2 ^ 64
  let soffs := if fresh then w.soffs ++ [w.buf.length] else w.soffs
  { w with
      soffs := soffs
      buf := w.buf ++ (PutUvarint skey ++ PutUvarint value.length) ++ value
      blen := w.blen + 1
      block := { w.block with MaxKey := key } }

/-- The block `flush` hands to the sink for the framed payload `u`: the compressed
form and tag 1 when snappy is selected and the compressed form is short enough,
the payload itself and tag 0 otherwise. -/
def emitted (sn : Codec) (c : Compression) (u : Bytes) : Bytes :=
  if c = SnappyCompression then
    if ((sn.Encode u).length : Int) < (u.length : Int) - (u.length : Int) / 4 then
      sn.Encode u ++ [blockSnappyCompression]
    else u ++ [blockNoCompression]
  else u ++ [blockNoCompression]

/-- The bytes `writeIndex` writes for the index entries `l`, the first of which has
position `i` and predecessor `prev`. -/
def encIndexLoop : List blockInfo → Nat → blockInfo → Bytes
  | [], _, _ => []
  | ent :: rest, i, prev =>
    let key := if i ≠ 0 then (ent.MaxKey + 2 ^ 64 - prev.MaxKey) % 2 ^ 64 else ent.MaxKey
    let off := if i ≠ 0 then ent.Offset - prev.Offset else ent.Offset
    (PutUvarint key ++ PutUvarint (toUint64 off)) ++ encIndexLoop rest (i + 1) ent

/-- The bytes `writeIndex` writes for an index. -/
def encIndex (l : List blockInfo) : Bytes := encIndexLoop l 0 { MaxKey := 0, Offset := 0 }

/-! ## The layout of a table, as the writer produces it -/

/-- An entry of a table: a key and a value. -/
abbrev Entry := Nat × Bytes

/-- The bytes of one entry: the key (or key delta) `d`, the value length, the value. -/
def encEntry (d : Nat) (v : Bytes) : Bytes := (PutUvarint d ++ PutUvarint v.length) ++ v

/-- The bytes of a run of entries within a section, `prev` being the key before the
run (0 at the start of a section): each key is stored as its difference from the
key before it. -/
def encSec (prev : Nat) : List Entry → Bytes
  | [] => []
  | e :: es => encEntry (e.1 - prev) e.2 ++ encSec e.1 es

/-- Entries that can follow the key `p` in a section: keys do not decrease, they fit
a `uint64`, and value lengths fit an `int`. -/
def okFrom (p : Nat) : List Entry → Prop
  | [] => True
  | e :: es => p ≤ e.1 ∧ e.1 < 2 ^ 64 ∧ e.2.length < 2 ^ 63 ∧ okFrom e.1 es

/-- The key of the last of the entries `es`, or `p` when there is none. -/
def lastKey (p : Nat) : List Entry → Nat
  | [] => p
  | e :: es => lastKey e.1 es

/-- The entries region of a block: its sections one after the other, each encoded
from the key 0. -/
def secsBytes : List (List Entry) → Bytes
  | [] => []
  | s :: rest => encSec 0 s ++ secsBytes rest

/-- The offsets at which the sections start in a block, the first being at `base`. -/
def secOffsets (base : Nat) : List (List Entry) → List Nat
  | [] => []
  | s :: rest => base :: secOffsets (base + (encSec 0 s).length) rest

/-- The payload of a block before compression: entries, section offsets, count. -/
def blockPayload (secs : List (List Entry)) : Bytes :=
  framed (secsBytes secs) (secOffsets 0 secs)

/-- The four-byte encodings of a list of offsets, one after the other. -/
def offTable : List Nat → Bytes
  | [] => []
  | o :: rest => PutUint32 o ++ offTable rest

/-- A block the reader can decode: it has a section, no section is empty, and the
section offsets and the section count fit a `uint32`. -/
def blockOk (secs : List (List Entry)) : Prop :=
  secs ≠ [] ∧ (∀ s ∈ secs, s ≠ []) ∧ (∀ o ∈ secOffsets 0 secs, o < 2 ^ 32) ∧
    secs.length < 2 ^ 32

/-- The first key of section `i` of a block (0 when there is no such section). -/
def firstKeyAt (secs : List (List Entry)) (i : Nat) : Nat :=
  match secs.drop i with
  | (e :: _) :: _ => e.1
  | _ => 0

/-! ## The layout of a file -/

/-- The blocks of a file one after the other; a block is given by its max-key and
its bytes on disk. -/
def fileBlocks : List (Nat × Bytes) → Bytes
  | [] => []
  | b :: rest => b.2 ++ fileBlocks rest

/-- The block index of a file whose first block starts at `off`. -/
def fileIndex (off : Nat) : List (Nat × Bytes) → List blockInfo
  | [] => []
  | b :: rest => { MaxKey := b.1, Offset := (off : Int) } :: fileIndex (off + b.2.length) rest

/-- The bytes of a file: blocks, block index, footer. -/
def fileBytes (raw : List (Nat × Bytes)) : Bytes :=
  fileBlocks raw ++ encIndex (fileIndex 0 raw) ++
    (PutUint64 (fileBlocks raw).length ++ magic)

/-- Index entries that can follow the entry `prev`: max-keys fit a `uint64`, offsets
do not decrease and fit an `int64`. -/
def idxOk (prev : blockInfo) : List blockInfo → Prop
  | [] => True
  | ent :: rest =>
    ent.MaxKey < 2 ^ 64 ∧ prev.Offset ≤ ent.Offset ∧ ent.Offset < 2 ^ 63 ∧ idxOk ent rest

/-- The reader `NewReader` returns for a file of the given blocks. -/
def fileReader (raw : List (Nat × Bytes)) : Reader :=
  { r := fileBytes raw, index := fileIndex 0 raw, maxOffset := ((fileBlocks raw).length : Int) }

/-- The max-key of block `i` of a file (0 when there is no such block). -/
def maxKeyAt (raw : List (Nat × Bytes)) (i : Nat) : Nat :=
  match raw.drop i with
  | b :: _ => b.1
  | [] => 0

/-! ## Tables: blocks of sections of entries -/

/-- The bytes on disk of a block with the given sections. -/
def blockBytes (sn : Codec) (c : Compression) (secs : List (List Entry)) : Bytes :=
  emitted sn c (blockPayload secs)

/-- The blocks of a table as the file holds them: max-key and bytes on disk. -/
def tableRaw (sn : Codec) (c : Compression) (blks : List (List (List Entry))) :
    List (Nat × Bytes) :=
  blks.map (fun b => (lastKey 0 b.flatten, blockBytes sn c b))

/-- A table the reader can decode: every block is decodable, keys increase strictly
through the table and fit a `uint64`, value lengths fit an `int`. -/
def tableOk (blks : List (List (List Entry))) : Prop :=
  (∀ b ∈ blks, blockOk b) ∧ (blks.flatten.flatten).Pairwise (fun a b => a.1 < b.1) ∧
    ∀ e ∈ blks.flatten.flatten, e.1 < 2 ^ 64 ∧ e.2.length < 2 ^ 63

/-- An iterator over the table `blks` that stands before the entries `rem`: either
its section reader is inside a section of a block, with `rem` what is left of the
section, of the block and of the table, or nothing is left at all. -/
def IterAt (sn : Codec) (c : Compression) (blks : List (List (List Entry))) (it : Iterator)
    (rem : List Entry) : Prop :=
  it.r = fileReader (tableRaw sn c blks) ∧ it.err = none ∧
  ((∃ bpre blk bpost spre sec spost pre p post,
      blks = bpre ++ blk :: bpost ∧ blk = spre ++ sec :: spost ∧
      it.b = { block := blockPayload blk, bpos := bpre.length, scnt := blk.length,
               maxKey := lastKey 0 blk.flatten } ∧
      it.s.sec = pre ++ encSec p post ∧ it.s.read = (pre.length : Int) ∧ it.s.key = p ∧
      okFrom p post ∧ it.s.spos = spre.length ∧
      rem = post ++ spost.flatten ++ bpost.flatten.flatten) ∨
   (it.s.More = false ∧ ¬ (it.s.spos + 1 < it.b.scnt) ∧ ¬ (it.b.bpos + 1 < blks.length) ∧
      rem = []))

/-- The first key of a section (0 for an empty one). -/
def firstKey : List Entry → Nat
  | e :: _ => e.1
  | [] => 0

/-- What an open writer holds after appending entries to an accepting sink that was
empty at the start: the blocks `done` are on the sink and in the index, the sections
`cur` are in the buffer, and the max-key is the key of the last entry. -/
def Writer.lays (sn : Codec) (w : Writer) (done : List (List (List Entry)))
    (cur : List (List Entry)) : Prop :=
  w.tmp = true ∧ w.w.accepting ∧
  w.w.data = fileBlocks (tableRaw sn w.o.Compression done) ∧
  w.index = fileIndex 0 (tableRaw sn w.o.Compression done) ∧
  w.block.Offset = ((fileBlocks (tableRaw sn w.o.Compression done)).length : Int) ∧
  w.buf = secsBytes cur ∧ w.soffs = secOffsets 0 cur ∧ (w.blen = 0 ↔ cur = []) ∧
  w.block.MaxKey = lastKey 0 (done.flatten.flatten ++ cur.flatten) ∧
  (∀ s ∈ cur, s ≠ []) ∧ (∀ o ∈ secOffsets 0 cur, o < 2 ^ 32) ∧ (∀ b ∈ done, blockOk b)

/-- Calls of `Next` on an iterator until one returns false: the pairs
`(Key(), Value())` seen after the calls that returned true. `fuel` bounds the
number of calls. -/
def Iterator.drain (sn : Codec) : Nat → Iterator → Res (List Entry)
  | 0, _ => .outOfFuel
  | fuel + 1, it =>
    match it.Next sn with
    | .ok (it', true) =>
      match Iterator.drain sn fuel it' with
      | .ok rest => .ok ((it'.Key, it'.Value) :: rest)
      | .err e => .err e
      | .panic => .panic
      | .outOfFuel => .outOfFuel
    | .ok (_, false) => .ok []
    | .err e => .err e
    | .panic => .panic
    | .outOfFuel => .outOfFuel

/-! ## Two inputs whose block has a section at offset `2^32` or beyond -/

/-- Options with a block size of `2^32 + 20` bytes, a restart interval of 1 and no
compression. -/
def wideOptions : Option WriterOptions :=
  some { BlockSize := 2 ^ 32 + 20, BlockRestartInterval := 1, Compression := NoCompression }

/-- The framed block the writer builds for the entries `(1, V)` and `(2, [])` under
`wideOptions` when `V` has `2^32 - 6` bytes: the second section starts at offset
`2^32`. -/
def widePayload (V : Bytes) : Bytes :=
  (encEntry 1 V ++ encEntry 2 []) ++ (PutUint32 (2 ^ 32) ++ PutUint32 2)

/-- The block reader over `widePayload V`. -/
def wideBlock (V : Bytes) : BlockReader :=
  { block := widePayload V, bpos := 0, scnt := 2, maxKey := 2 }

/-- A value of `2^32 - 6` zero bytes. With its key and its length prefix it fills
`2^32` bytes of a block. -/
def wideValue : Bytes := List.replicate (2 ^ 32 - 6) 0

/-- Two entries with increasing keys, the first with the value `wideValue`. -/
def wideEntries : List Entry := [(1, wideValue), (2, [])]

/-- Options with a block size of `2^32 + 28` bytes, a restart interval of 1 and no
compression. -/
def wrapOptions : Option WriterOptions :=
  some { BlockSize := 2 ^ 32 + 28, BlockRestartInterval := 1, Compression := NoCompression }

/-- A value of `2^32` bytes that starts with 5, 0, 6 and is zero after that. -/
def wrapValue : Bytes := 5 :: 0 :: 6 :: List.replicate (2 ^ 32 - 3) 0

/-- Three entries with increasing keys, the first with the value `wrapValue`. -/
def wrapEntries : List Entry := [(1, wrapValue), (7, []), (9, [])]

/-- The framed block the writer builds for the entries `(1, V)`, `(7, [])` and
`(9, [])` under `wrapOptions` when `V` has `2^32` bytes: the second and the third
section start at the offsets `2^32 + 6` and `2^32 + 8`. -/
def wrapPayload (V : Bytes) : Bytes :=
  ((encEntry 1 V ++ encEntry 7 []) ++ encEntry 9 []) ++
    ((PutUint32 (2 ^ 32 + 6) ++ PutUint32 (2 ^ 32 + 8)) ++ PutUint32 3)

/-- The block reader over `wrapPayload V`. -/
def wrapBlock (V : Bytes) : BlockReader :=
  { block := wrapPayload V, bpos := 0, scnt := 3, maxKey := 9 }

/-! ## Damaged files -/

/-- A file of 17 bytes with a valid footer: the index offset is 0, so the block index
is the single byte `0x80`, a varint cut off before its last byte. -/
def truncatedIndexFile : Bytes := [0x80] ++ PutUint64 0 ++ magic

/-- A file of two blocks, as the writer lays it out for the entries `(1, [])` and
`(2, [])` in a block each, except for the last byte of the second block: the
compression tag is 7 instead of 0. Blocks (14 bytes), index (4 bytes), footer. -/
def badTagFile : Bytes :=
  [1, 0, 1, 0, 0, 0, 0] ++ [2, 0, 1, 0, 0, 0, 7] ++ [1, 0, 1, 7] ++
    [14, 0, 0, 0, 0, 0, 0, 0, 71, 39, 134, 190, 31, 122, 101, 219]

/-! ## Files of readable blocks, whatever the section offsets -/

/-- Bytes of a block that `readBlock` can turn into a block reader: a compression tag
0 after the payload, or a tag 1 after bytes the codec decodes to the payload, the
payload ending with the four bytes of a section count. -/
def blockReadable (sn : Codec) (bytes : Bytes) : Prop :=
  ∃ stored tag block body n, bytes = stored ++ [tag] ∧
    ((tag = blockNoCompression ∧ block = stored) ∨
      (tag = blockSnappyCompression ∧ sn.Decode stored = some block)) ∧
    block = body ++ PutUint32 n

/-- What an open writer holds after at most `cnt` calls of `Append` on an accepting
sink that was empty at the start, for every block size: the blocks `raw` are on the
sink and in the index, each can be read back, and their max-keys increase and stay
below the key of the entry appended last. -/
def Writer.laysRaw (sn : Codec) (w : Writer) (raw : List (Nat × Bytes)) (cnt : Nat) : Prop :=
  w.tmp = true ∧ w.w.accepting ∧ w.w.data = fileBlocks raw ∧ w.index = fileIndex 0 raw ∧
  w.block.Offset = ((fileBlocks raw).length : Int) ∧ (∀ b ∈ raw, blockReadable sn b.2) ∧
  (raw.map Prod.fst).Pairwise (fun a b => a < b) ∧ (∀ b ∈ raw, b.1 ≤ w.block.MaxKey) ∧
  (w.buf ≠ [] → ∀ b ∈ raw, b.1 < w.block.MaxKey) ∧ w.block.MaxKey < 2 ^ 64 ∧
  raw.length + (if w.buf = [] then 0 else 1) ≤ cnt ∧ (w.buf = [] ↔ w.blen = 0)

/-! ## Counting the flushes of a run -/

/-- The number of calls, among the calls `Append(e.1, e.2)` made in order on the writer
`w` for the entries `e` of a list, that are accepted and find the condition of a flush
true: the buffer is not empty and `len(buf) + len(value) + 2 * MaxVarintLen64`
exceeds the block size. -/
def flushCount (sn : Codec) : Writer → List Entry → Nat
  | _, [] => 0
  | w, e :: es =>
    (if (w.Append sn e.1 e.2).2 = none ∧ w.buf.length ≠ 0 ∧
        ((w.buf.length + e.2.length + 2 * MaxVarintLen64 : Nat) : Int) > w.o.BlockSize
      then 1 else 0) + flushCount sn (w.Append sn e.1 e.2).1 es

/-! ## Blocks of a written table -/

/-- The block reader `b` is over the block that the writer lays out for the sections
`secs`: its bytes are the framed sections, its section count and max-key are theirs,
the section offsets fit a `uint32`, and the keys increase and fit the types. -/
def BlockReader.holds (b : BlockReader) (secs : List (List Entry)) : Prop :=
  b.block = blockPayload secs ∧ b.scnt = secs.length ∧ b.maxKey = lastKey 0 secs.flatten ∧
  blockOk secs ∧ secs.flatten.Pairwise (fun a b => a.1 < b.1) ∧
  ∀ e ∈ secs.flatten, e.1 < 2 ^ 64 ∧ e.2.length < 2 ^ 63

/-- Calls of `Next` on a section reader until one returns false: the pairs
`(Key(), Value())` seen after the calls that returned true, that is, the entries the
section holds from the cursor on. `fuel` bounds the number of calls. -/
def SectionReader.drain : Nat → SectionReader → Res (List Entry)
  | 0, _ => .outOfFuel
  | fuel + 1, s =>
    match s.Next with
    | .ok (s', true) =>
      match SectionReader.drain fuel s' with
      | .ok rest => .ok ((s'.Key, s'.Value) :: rest)
      | .err e => .err e
      | .panic => .panic
      | .outOfFuel => .outOfFuel
    | .ok (_, false) => .ok []
    | .err e => .err e
    | .panic => .panic
    | .outOfFuel => .outOfFuel

/-- A value of `2^32 - 8` zero bytes. After an entry of two bytes, with its key and its
length prefix it ends at offset `2^32` of a block. -/
def foldValue : Bytes := List.replicate (2 ^ 32 - 8) 0

/-- Three entries with increasing keys, the second with the value `foldValue`. -/
def foldEntries : List Entry := [(1, []), (2, foldValue), (3, [])]

/-- The framed block the writer builds for the entries `(1, [])`, `(2, V)` and
`(3, [])` under `wideOptions` when `V` has `2^32 - 8` bytes: the second and the third
section start at the offsets 2 and `2^32`. -/
def foldPayload (V : Bytes) : Bytes :=
  ((encEntry 1 [] ++ encEntry 2 V) ++ encEntry 3 []) ++
    ((PutUint32 2 ++ PutUint32 (2 ^ 32)) ++ PutUint32 3)

/-- The block reader over `foldPayload V`. -/
def foldBlock (V : Bytes) : BlockReader :=
  { block := foldPayload V, bpos := 0, scnt := 3, maxKey := 3 }

/-! ## The table of the repository's tests -/

/-- The entries `seedTable` of the tests appends: `n` entries with the keys
0, 4, 8, ... and the values `vals 0`, `vals 1`, ... (128 bytes each in the tests). -/
def seedEntries (vals : Nat → Bytes) (n : Nat) : List Entry :=
  (List.range n).map (fun i => (4 * i, vals i))

/-- The options `seedTable` passes: no compression, everything else unset. -/
def seedOptions : Option WriterOptions :=
  some { BlockSize := 0, BlockRestartInterval := 0, Compression := NoCompression }

/-- The state of the writer of `seedTable` once the entry with the number `i` (key
`4 * i`) has been appended: every block takes 31 entries, so `i / 31` blocks are in the
index, with the max-keys 120, 244, ..., and the buffer holds `i % 31 + 1` entries of
131 bytes each, plus at most two bytes for each of the at most two section keys. -/
def Writer.seeded (w : Writer) (i : Nat) : Prop :=
  w.o = { BlockSize := 2 ^ 12, BlockRestartInterval := 16, Compression := NoCompression } ∧
  w.block.MaxKey = 4 * i ∧ w.blen = i % 31 + 1 ∧
  w.index.map (fun e => e.MaxKey) = (List.range (i / 31)).map (fun q => 124 * q + 120) ∧
  131 * w.blen ≤ w.buf.length ∧
  w.buf.length ≤ 131 * w.blen + (if w.blen ≤ 16 then 2 else 4)

/-! ## A block shorter than its section count -/

/-- A file whose only block is the single byte 0, a compression tag with no payload
before it: the block (1 byte), the index entry for max-key 5 at offset 0 (2 bytes), the
footer with the index offset 1. -/
def tagOnlyFile : Bytes :=
  [0] ++ [5, 0] ++ [1, 0, 0, 0, 0, 0, 0, 0, 71, 39, 134, 190, 31, 122, 101, 219]

/-! ## The blocks of a run, entry by entry, for every block size -/

/-- The bytes `Append` adds to the buffer for the entry `e` when the block holds `i`
entries and the key before it is `prev`: the key itself when `i` is a multiple of the
restart interval `R`, its difference from `prev` otherwise, then the value length and
the value. -/
def encStep (R : Int) (i prev : Nat) (e : Entry) : Bytes :=
  encEntry (if (i : Int) % R = 0 then e.1 else (e.1 + 2 ^ 64 - prev) % 2 ^ 64) e.2

/-- The bytes `Append` adds to the buffer for the entries `es` in order, the first of
them being entry number `i` of its block and following the key `prev`. -/
def encRun (R : Int) : Nat → Nat → List Entry → Bytes
  | _, _, [] => []
  | i, prev, e :: es => encStep R i prev e ++ encRun R (i + 1) e.1 es

/-- The section offsets `Append` records for the entries `es`, the first of them being
entry number `i` of its block, following the key `prev` and starting at the offset
`base` of the buffer: the offset of every entry whose number is a multiple of the
restart interval `R`. -/
def runOffs (R : Int) : Nat → Nat → Nat → List Entry → List Nat
  | _, _, _, [] => []
  | i, prev, base, e :: es =>
    (if (i : Int) % R = 0 then [base] else []) ++
      runOffs R (i + 1) e.1 (base + (encStep R i prev e).length) es

/-- The bytes `flush` hands to the sink for a block that holds the entries `b`. -/
def diskBlock (sn : Codec) (o : WriterOptions) (b : List Entry) : Bytes :=
  emitted sn o.Compression
    (framed (encRun o.BlockRestartInterval 0 0 b) (runOffs o.BlockRestartInterval 0 0 0 b))

/-- The blocks of a file whose blocks hold the entries `done`: the max-key and the
bytes on disk of each. -/
def diskBlocks (sn : Codec) (o : WriterOptions) (done : List (List Entry)) :
    List (Nat × Bytes) :=
  done.map (fun b => (lastKey 0 b, diskBlock sn o b))

/-- A block in which every entry but the first found room: where the entry starts, the
bytes before it, the length of its value and `2 * MaxVarintLen64` together do not
exceed the block size. This is the condition under which `Append` adds an entry to a
block that is not empty. -/
def blockFits (o : WriterOptions) (b : List Entry) : Prop :=
  ∀ pre e post, b = pre ++ e :: post → pre ≠ [] →
    (((encRun o.BlockRestartInterval 0 0 pre).length + e.2.length + 20 : Nat) : Int) ≤
      o.BlockSize

/-- What a writer holds after calls on a sink that accepts every write and held the
bytes `d0` at the start, for every block size. The blocks flushed so far hold the
entries `done`, the current block holds the entries `cur`; keys increase through them.
The index has an entry for each flushed block, with its last key and the number of
bytes written before it. In every block each entry but the first found room. While the writer is open the sink holds the flushed blocks and the
buffer holds the current block; once it is closed the sink holds the file. -/
def Writer.carries (sn : Codec) (w : Writer) (d0 : Bytes) (done : List (List Entry))
    (cur : List Entry) : Prop :=
  w.index = fileIndex 0 (diskBlocks sn w.o done) ∧
  (∀ b ∈ done, b ≠ []) ∧
  (done.flatten ++ cur).Pairwise (fun a b => a.1 < b.1) ∧
  (∀ e ∈ done.flatten ++ cur, e.1 < 2 ^ 64) ∧
  (∀ b ∈ done ++ [cur], blockFits w.o b) ∧
  (w.tmp = true → w.w.accepting ∧
    w.w.data = d0 ++ fileBlocks (diskBlocks sn w.o done) ∧
    w.block.Offset = ((fileBlocks (diskBlocks sn w.o done)).length : Int) ∧
    w.block.MaxKey = lastKey 0 (done.flatten ++ cur) ∧
    w.buf = encRun w.o.BlockRestartInterval 0 0 cur ∧
    w.soffs = runOffs w.o.BlockRestartInterval 0 0 0 cur ∧ w.blen = cur.length) ∧
  (w.tmp = false → cur = [] ∧ w.w.data = d0 ++ fileBytes (diskBlocks sn w.o done))

/-! ## The layout of a block, in the words of the specification -/

/-- The sections of a block that holds the entries `es` under the restart interval `R`:
`ceil(m / R)` sections for `m` entries, section `j` holding the entries number `j * R`
to `min ((j + 1) * R, m) - 1`. -/
def specSections (R : Nat) (es : List Entry) : List (List Entry) :=
  (List.range ((es.length + R - 1) / R)).map (fun j => (es.drop (j * R)).take R)

/-- The bytes of a block that holds the entries `es` under the restart interval `R`,
stored without compression: the sections one after the other (in a section the first
key is stored as it is, each later key as its difference from the key before it, each
key followed by the length of the value and the value), then the start offsets of the
sections 1 to `N - 1` as little-endian `u32`, then the number `N` of sections as a
little-endian `u32`, then the tag byte 0x00. There are no such bytes, `none`, when a
start offset or the number of sections does not fit a `u32`. -/
def specBlock (R : Nat) (es : List Entry) : Option Bytes :=
  let secs := specSections R es
  let offs := (secOffsets 0 secs).tail
  if (∀ x ∈ offs, x < 2 ^ 32) ∧ secs.length < 2 ^ 32 then
    some (((secsBytes secs ++ offTable offs) ++ PutUint32 secs.length) ++ [0x00])
  else none

/-- Calls of `Next` on an iterator, `n` in a row, whatever they return: the iterator
after them. -/
def Iterator.nexts (sn : Codec) : Nat → Iterator → Res Iterator
  | 0, it => .ok it
  | n + 1, it =>
    match it.Next sn with
    | .ok (it', _) => Iterator.nexts sn n it'
    | .err e => .err e
    | .panic => .panic
    | .outOfFuel => .outOfFuel

/-! ## An input whose block has two sections at the same stored offset -/

/-- Three entries with increasing keys, the second with the value `wideValue`: with its
key and its length prefix it fills `2^32` bytes of a block. -/
def gapEntries : List Entry := [(1, []), (2, wideValue), (3, [])]

/-- The framed block the writer builds for the entries `(1, [])`, `(2, V)` and
`(3, [])` under `wrapOptions` when `V` has `2^32 - 6` bytes: the second and the third
section start at the offsets 2 and `2^32 + 2`. -/
def gapPayload (V : Bytes) : Bytes :=
  ((encEntry 1 [] ++ encEntry 2 V) ++ encEntry 3 []) ++
    ((PutUint32 2 ++ PutUint32 (2 ^ 32 + 2)) ++ PutUint32 3)

/-- The block reader over `gapPayload V`. -/
def gapBlock (V : Bytes) : BlockReader :=
  { block := gapPayload V, bpos := 0, scnt := 3, maxKey := 3 }

/-! ## An index whose max-keys do not increase -/

/-- A file of three blocks, each as the writer lays it out for the entry `(1, [])`
(7 bytes), with an index whose key differences are 5, `2^64 - 4` and 2: the reader adds
them up in a `uint64`, so the max-keys are 5, 1 and 3. Blocks (21 bytes), index
(15 bytes: the difference `2^64 - 4` takes ten bytes), footer. -/
def wrappedIndexFile : Bytes :=
  [1, 0, 1, 0, 0, 0, 0] ++ [1, 0, 1, 0, 0, 0, 0] ++ [1, 0, 1, 0, 0, 0, 0] ++
    [5, 0] ++ [0xFC, 0xFF, 0xFF, 0xFF, 0xFF, 0xFF, 0xFF, 0xFF, 0xFF, 0x01, 7] ++ [2, 7] ++
    [21, 0, 0, 0, 0, 0, 0, 0, 71, 39, 134, 190, 31, 122, 101, 219]

/-! ## Why a block was flushed -/

/-- Blocks that were flushed for the entry that came next: for every block of `done`
that an entry `e` follows (the first entry of the next block, or of the current block
`cur` after the last of them), the encoded entries of the block, the value of `e` and
`2 * MaxVarintLen64` together exceed the block size. This is the condition under which
`Append` flushes the block before it adds `e`. -/
def flushedLate (o : WriterOptions) (done : List (List Entry)) (cur : List Entry) : Prop :=
  ∀ pre b post e tl, done = pre ++ b :: post → post.flatten ++ cur = e :: tl →
    o.BlockSize <
      (((encRun o.BlockRestartInterval 0 0 b).length + e.2.length + 20 : Nat) : Int)

/-! # Theorems -/

/-! ## The writer: which fields a call changes -/

theorem writeRaw_fields (w : Writer) (p : Bytes) :
    (w.writeRaw p).1.o = w.o ∧ (w.writeRaw p).1.block.MaxKey = w.block.MaxKey ∧
    (w.writeRaw p).1.blen = w.blen ∧ (w.writeRaw p).1.soffs = w.soffs ∧
    (w.writeRaw p).1.buf = w.buf ∧ (w.writeRaw p).1.tmp = w.tmp ∧
    (w.writeRaw p).1.index = w.index ∧ (w.writeRaw p).1.snp = w.snp := by
  simp [Writer.writeRaw]

theorem flush_of_empty (sn : Codec) (w : Writer) (h : w.buf = []) : w.flush sn = (w, none) := by
  simp [Writer.flush, h]

theorem flush_fields (sn : Codec) (w : Writer) :
    (w.flush sn).1.o = w.o ∧ (w.flush sn).1.block.MaxKey = w.block.MaxKey ∧
    (w.flush sn).1.tmp = w.tmp ∧
    ((w.buf = [] ∧ (w.flush sn).1 = w) ∨
     (w.buf ≠ [] ∧ (w.flush sn).1.blen = 0 ∧ (w.flush sn).1.soffs = [] ∧ (w.flush sn).1.buf = [] ∧
      (w.flush sn).1.index = w.index ++ [w.block])) := by
  by_cases h : w.buf = []
  · simp [Writer.flush, h]
  · have h' : w.buf.length ≠ 0 := by simpa using h
    simp [Writer.flush, h, Writer.writeRaw]

theorem writeIndexLoop_fields (l : List blockInfo) : ∀ (w : Writer) (i : Nat) (prev : blockInfo),
    (w.writeIndexLoop l i prev).1.o = w.o ∧
    (w.writeIndexLoop l i prev).1.block.MaxKey = w.block.MaxKey ∧
    (w.writeIndexLoop l i prev).1.blen = w.blen ∧ (w.writeIndexLoop l i prev).1.soffs = w.soffs ∧
    (w.writeIndexLoop l i prev).1.buf = w.buf ∧ (w.writeIndexLoop l i prev).1.tmp = w.tmp ∧
    (w.writeIndexLoop l i prev).1.index = w.index ∧ (w.writeIndexLoop l i prev).1.snp = w.snp := by
  induction l with
  | nil => intro w i prev; simp [Writer.writeIndexLoop]
  | cons ent rest ih =>
    intro w i prev
    simp only [Writer.writeIndexLoop]
    split
    · rename_i w1 err heq
      have := writeRaw_fields w (PutUvarint (if i ≠ 0 then (ent.MaxKey + 2 ^ 64 - prev.MaxKey) % 2 ^ 64 else ent.MaxKey) ++
        PutUvarint (toUint64 (if i ≠ 0 then ent.Offset - prev.Offset else ent.Offset)))
      rw [heq] at this
      exact this
    · rename_i w1 heq
      have := writeRaw_fields w (PutUvarint (if i ≠ 0 then (ent.MaxKey + 2 ^ 64 - prev.MaxKey) % 2 ^ 64 else ent.MaxKey) ++
        PutUvarint (toUint64 (if i ≠ 0 then ent.Offset - prev.Offset else ent.Offset)))
      rw [heq] at this
      have h2 := ih w1 (i + 1) ent
      simp only at this
      obtain ⟨a1, a2, a3, a4, a5, a6, a7, a8⟩ := this
      obtain ⟨b1, b2, b3, b4, b5, b6, b7, b8⟩ := h2
      exact ⟨b1.trans a1, b2.trans a2, b3.trans a3, b4.trans a4, b5.trans a5, b6.trans a6,
        b7.trans a7, b8.trans a8⟩


theorem putUvarintLoop_ne_nil (fuel x : Nat) : putUvarintLoop (fuel + 1) x ≠ [] := by
  simp only [putUvarintLoop]
  split <;> simp

theorem PutUvarint_ne_nil (x : Nat) : PutUvarint x ≠ [] := by
  simp only [PutUvarint, MaxVarintLen64]
  exact putUvarintLoop_ne_nil 9 _

theorem run_snoc (sn : Codec) (ops : List Op) (op : Op) : ∀ w : Writer,
    Writer.run sn w (ops ++ [op]) =
      (((Writer.run sn w ops).1.step sn op).1,
        (Writer.run sn w ops).2 ++ [(op, ((Writer.run sn w ops).1.step sn op).2)]) := by
  induction ops with
  | nil => intro w; simp [Writer.run]
  | cons a rest ih => intro w; simp [Writer.run, ih]

theorem accepted_snoc (t : List (Op × Option Error)) (op : Op) (e : Option Error) :
    accepted (t ++ [(op, e)]) = accepted t ++ accepted [(op, e)] := by
  induction t with
  | nil => simp [accepted]
  | cons a rest ih =>
    obtain ⟨o, r⟩ := a
    cases o with
    | close => simpa [accepted] using ih
    | append k v =>
      cases r with
      | none => simpa [accepted] using ih
      | some x => simpa [accepted] using ih

theorem closedOk_snoc (t : List (Op × Option Error)) (op : Op) (e : Option Error) :
    closedOk (t ++ [(op, e)]) = (closedOk t || closedOk [(op, e)]) := by
  induction t with
  | nil => simp [closedOk]
  | cons a rest ih =>
    obtain ⟨o, r⟩ := a
    cases o with
    | append k v => simpa [closedOk] using ih
    | close =>
      cases r with
      | none => simp [closedOk]
      | some x => simpa [closedOk] using ih

theorem writeFooter_fields (w : Writer) (off : Int) :
    (w.writeFooter off).1.o = w.o ∧ (w.writeFooter off).1.block.MaxKey = w.block.MaxKey ∧
    (w.writeFooter off).1.blen = w.blen ∧ (w.writeFooter off).1.soffs = w.soffs ∧
    (w.writeFooter off).1.buf = w.buf ∧ (w.writeFooter off).1.tmp = w.tmp ∧
    (w.writeFooter off).1.index = w.index ∧ (w.writeFooter off).1.snp = w.snp := by
  simp only [Writer.writeFooter]
  split
  · rename_i w1 err heq
    have := writeRaw_fields w (PutUint64 (toUint64 off))
    rw [heq] at this; exact this
  · rename_i w1 heq
    have h1 := writeRaw_fields w (PutUint64 (toUint64 off))
    rw [heq] at h1
    have h2 := writeRaw_fields w1 magic
    split
    · rename_i w2 err heq2
      rw [heq2] at h2
      simp only at h1 h2 ⊢
      obtain ⟨a1, a2, a3, a4, a5, a6, a7, a8⟩ := h1
      obtain ⟨b1, b2, b3, b4, b5, b6, b7, b8⟩ := h2
      exact ⟨b1.trans a1, b2.trans a2, b3.trans a3, b4.trans a4, b5.trans a5, b6.trans a6,
        b7.trans a7, b8.trans a8⟩
    · rename_i w2 heq2
      rw [heq2] at h2
      simp only at h1 h2 ⊢
      obtain ⟨a1, a2, a3, a4, a5, a6, a7, a8⟩ := h1
      obtain ⟨b1, b2, b3, b4, b5, b6, b7, b8⟩ := h2
      exact ⟨b1.trans a1, b2.trans a2, b3.trans a3, b4.trans a4, b5.trans a5, b6.trans a6,
        b7.trans a7, b8.trans a8⟩

theorem Sink.Write_err (s : Sink) (p : Bytes) :
    (s.Write p).2.2 = none ∨ (s.Write p).2.2 = some Error.sinkError := by
  unfold Sink.Write
  split <;> simp

theorem writeRaw_err (w : Writer) (p : Bytes) :
    (w.writeRaw p).2 = none ∨ (w.writeRaw p).2 = some Error.sinkError := by
  have := Sink.Write_err w.w p
  simpa [Writer.writeRaw] using this

theorem flush_err (sn : Codec) (w : Writer) :
    (w.flush sn).2 = none ∨ (w.flush sn).2 = some Error.sinkError := by
  unfold Writer.flush
  split
  · simp
  · exact writeRaw_err _ _

theorem writeIndexLoop_err (l : List blockInfo) : ∀ (w : Writer) (i : Nat) (prev : blockInfo),
    (w.writeIndexLoop l i prev).2 = none ∨
      (w.writeIndexLoop l i prev).2 = some Error.sinkError := by
  induction l with
  | nil => intro w i prev; simp [Writer.writeIndexLoop]
  | cons ent rest ih =>
    intro w i prev
    simp only [Writer.writeIndexLoop]
    split
    · rename_i w1 err heq
      have := writeRaw_err w (PutUvarint (if i ≠ 0 then (ent.MaxKey + 2 ^ 64 - prev.MaxKey) % 2 ^ 64 else ent.MaxKey) ++
        PutUvarint (toUint64 (if i ≠ 0 then ent.Offset - prev.Offset else ent.Offset)))
      rw [heq] at this
      exact this
    · exact ih _ _ _

theorem writeFooter_err (w : Writer) (off : Int) :
    (w.writeFooter off).2 = none ∨ (w.writeFooter off).2 = some Error.sinkError := by
  simp only [Writer.writeFooter]
  split
  · rename_i w1 err heq
    have := writeRaw_err w (PutUint64 (toUint64 off))
    rw [heq] at this; exact this
  · rename_i w1 heq
    split
    · rename_i w2 err heq2
      have := writeRaw_err w1 magic
      rw [heq2] at this; exact this
    · simp

theorem Close_fields (sn : Codec) (w : Writer) :
    (w.tmp = false ∧ w.Close sn = (w, some Error.errClosed)) ∨
    (w.tmp = true ∧ (w.Close sn).2 ≠ some Error.errClosed ∧
      (w.Close sn).1.o = w.o ∧ (w.Close sn).1.block.MaxKey = w.block.MaxKey ∧
      (w.Close sn).1.blen = (w.flush sn).1.blen ∧ (w.Close sn).1.buf = (w.flush sn).1.buf ∧
      (w.Close sn).1.index = (w.flush sn).1.index ∧
      ((w.Close sn).1.tmp = true ↔ (w.Close sn).2 ≠ none)) := by
  by_cases ht : w.tmp = false
  · left; simp [Writer.Close, ht]
  · right
    have ht' : w.tmp = true := by simpa using ht
    refine ⟨ht', ?_⟩
    have hfe := flush_err sn w
    have hff := flush_fields sn w
    simp only [Writer.Close, ht', Bool.true_eq_false, if_false]
    rcases hf : w.flush sn with ⟨f, _ | e⟩
    · rw [hf] at hff hfe
      simp only at hff hfe ⊢
      have hie := writeIndexLoop_err f.index f 0 { MaxKey := 0, Offset := 0 }
      have hif := writeIndexLoop_fields f.index f 0 { MaxKey := 0, Offset := 0 }
      simp only [Writer.writeIndex]
      rcases hi : f.writeIndexLoop f.index 0 { MaxKey := 0, Offset := 0 } with ⟨g, _ | e⟩
      · rw [hi] at hie hif
        simp only at hie hif ⊢
        have hge := writeFooter_err g f.block.Offset
        have hgf := writeFooter_fields g f.block.Offset
        rcases hg : g.writeFooter f.block.Offset with ⟨k, _ | e⟩
        · rw [hg] at hge hgf
          simp only at hge hgf ⊢
          refine ⟨by simp, ?_, ?_, ?_, ?_, ?_, by simp⟩
          · rw [hgf.1, hif.1, hff.1]
          · rw [hgf.2.1, hif.2.1, hff.2.1]
          · rw [hgf.2.2.1, hif.2.2.1]
          · rw [hgf.2.2.2.2.1, hif.2.2.2.2.1]
          · rw [hgf.2.2.2.2.2.2.1, hif.2.2.2.2.2.2.1]
        · rw [hg] at hge hgf
          simp only at hge hgf ⊢
          refine ⟨?_, ?_, ?_, ?_, ?_, ?_, ?_⟩
          · rcases hge with h | h
            · simp at h
            · rw [h]; simp
          · rw [hgf.1, hif.1, hff.1]
          · rw [hgf.2.1, hif.2.1, hff.2.1]
          · rw [hgf.2.2.1, hif.2.2.1]
          · rw [hgf.2.2.2.2.1, hif.2.2.2.2.1]
          · rw [hgf.2.2.2.2.2.2.1, hif.2.2.2.2.2.2.1]
          · rw [hgf.2.2.2.2.2.1, hif.2.2.2.2.2.1, hff.2.2.1, ht']; simp
      · rw [hi] at hie hif
        simp only at hie hif ⊢
        refine ⟨?_, ?_, ?_, ?_, ?_, ?_, ?_⟩
        · rcases hie with h | h
          · simp at h
          · rw [h]; simp
        · rw [hif.1, hff.1]
        · rw [hif.2.1, hff.2.1]
        · rw [hif.2.2.1]
        · rw [hif.2.2.2.2.1]
        · rw [hif.2.2.2.2.2.2.1]
        · rw [hif.2.2.2.2.2.1, hff.2.2.1, ht']; simp
    · rw [hf] at hff hfe
      simp only at hff hfe ⊢
      refine ⟨?_, hff.1, hff.2.1, trivial, trivial, trivial, ?_⟩
      · rcases hfe with h | h
        · simp at h
        · rw [h]; simp
      · rw [hff.2.2.1, ht']; simp

theorem Append_eq (sn : Codec) (w : Writer) (key : Nat) (value : Bytes) :
    w.Append sn key value =
      if w.tmp = false then (w, some Error.errClosed)
      else if key ≤ w.block.MaxKey ∧ (w.blen ≠ 0 ∨ w.index.length ≠ 0) then
        (w, some (Error.outOfOrder key w.block.MaxKey))
      else if w.needsFlush value then
        (if (w.flush sn).2 = none then ((w.flush sn).1.put key value, none)
          else ((w.flush sn).1, (w.flush sn).2))
      else (w.put key value, none) := by
  unfold Writer.Append
  by_cases h1 : w.tmp = false
  · simp [h1]
  · by_cases h2 : key ≤ w.block.MaxKey ∧ (w.blen ≠ 0 ∨ w.index.length ≠ 0)
    · simp only [h1, h2, if_true, if_false, and_self]
    · simp only [h1, h2, if_false]
      by_cases h3 : w.needsFlush value
      · have h3' := h3
        unfold Writer.needsFlush at h3'
        rw [if_pos h3', if_pos h3]
        rcases hf : w.flush sn with ⟨f, _ | e⟩
        · simp [Writer.put]
        · simp
      · have h3' := h3
        unfold Writer.needsFlush at h3'
        rw [if_neg h3', if_neg h3]
        simp [Writer.put]

theorem put_fields (w : Writer) (key : Nat) (value : Bytes) :
    (w.put key value).o = w.o ∧ (w.put key value).block.MaxKey = key ∧
    (w.put key value).blen = w.blen + 1 ∧ (w.put key value).buf ≠ [] ∧
    (w.put key value).tmp = w.tmp ∧ (w.put key value).index = w.index ∧
    (w.put key value).w = w.w ∧ (w.put key value).block.Offset = w.block.Offset := by
  refine ⟨rfl, rfl, rfl, ?_, rfl, rfl, rfl, rfl⟩
  simp only [Writer.put]
  intro h
  have h1 := List.append_eq_nil.1 h
  have h2 := List.append_eq_nil.1 h1.1
  have h3 := List.append_eq_nil.1 h2.2
  exact PutUvarint_ne_nil _ h3.1

theorem tracks_new (w : Sink) (o : Option WriterOptions) : (NewWriter w o).tracks [] := by
  simp [Writer.tracks, NewWriter, closedOk, accepted]

theorem tracks_append (sn : Codec) (w : Writer) (t : List (Op × Option Error))
    (key : Nat) (value : Bytes) (h : w.tracks t) :
    (w.Append sn key value).1.tracks (t ++ [(Op.append key value, (w.Append sn key value).2)]) := by
  obtain ⟨ha, hb, hc, hd⟩ := h
  rw [Append_eq]
  by_cases h1 : w.tmp = false
  · simp only [h1, if_true]
    refine ⟨?_, ?_, ?_, hd⟩
    · rw [closedOk_snoc]; simpa [closedOk] using ha
    · rw [accepted_snoc]; simpa [accepted] using hb
    · rw [accepted_snoc]; simpa [accepted] using hc
  · rw [if_neg h1]
    by_cases h2 : key ≤ w.block.MaxKey ∧ (w.blen ≠ 0 ∨ w.index.length ≠ 0)
    · rw [if_pos h2]
      refine ⟨?_, ?_, ?_, hd⟩
      · rw [closedOk_snoc]; simpa [closedOk] using ha
      · rw [accepted_snoc]; simpa [accepted] using hb
      · rw [accepted_snoc]; simpa [accepted] using hc
    · rw [if_neg h2]
      have hput : ∀ f : Writer, f.tmp = w.tmp →
          (f.put key value).tracks (t ++ [(Op.append key value, none)]) := by
        intro f hf
        obtain ⟨p1, p2, p3, p4, p5, p6, p7, p8⟩ := put_fields f key value
        refine ⟨?_, ?_, ?_, ?_⟩
        · rw [closedOk_snoc, p5, hf]; simpa [closedOk] using ha
        · rw [accepted_snoc, p3]; simp [accepted]
        · rw [accepted_snoc]; simp [accepted, p2]
        · rw [p3]; simp [p4]
      by_cases h3 : w.needsFlush value
      · rw [if_pos h3]
        obtain ⟨f1, f2, f3, f4⟩ := flush_fields sn w
        by_cases h4 : (w.flush sn).2 = none
        · rw [if_pos h4]
          exact hput _ f3
        · rw [if_neg h4]
          have hbuf : w.buf ≠ [] := by
            have := h3.1
            intro hh; rw [hh] at this; simp at this
          rcases f4 with ⟨g1, _⟩ | ⟨_, g2, g3, g4, g5⟩
          · exact absurd g1 hbuf
          · have hacc : accepted t ≠ [] := hb.1 (Or.inl (fun hh => hbuf (hd.2 hh)))
            rcases hx : (w.flush sn).2 with _ | e
            · exact absurd hx h4
            · refine ⟨?_, ?_, ?_, ?_⟩
              · rw [closedOk_snoc, f3]; simpa [closedOk] using ha
              · rw [accepted_snoc, g5]; simpa [accepted] using hacc
              · rw [accepted_snoc, f2]; simpa [accepted] using hc
              · simp [g2, g4]
      · rw [if_neg h3]
        exact hput w rfl

theorem tracks_close (sn : Codec) (w : Writer) (t : List (Op × Option Error))
    (h : w.tracks t) : (w.Close sn).1.tracks (t ++ [(Op.close, (w.Close sn).2)]) := by
  obtain ⟨ha, hb, hc, hd⟩ := h
  rcases Close_fields sn w with ⟨c1, c2⟩ | ⟨c1, c2, c3, c4, c5, c6, c7, c8⟩
  · rw [c2]
    refine ⟨?_, ?_, ?_, hd⟩
    · rw [closedOk_snoc]; simpa [closedOk] using ha
    · rw [accepted_snoc]; simpa [accepted] using hb
    · rw [accepted_snoc]; simpa [accepted] using hc
  · have hcl : closedOk t = false := ha.1 c1
    have hacc : accepted (t ++ [(Op.close, (w.Close sn).2)]) = accepted t := by
      rw [accepted_snoc]
      rcases (w.Close sn).2 with _ | e <;> simp [accepted]
    obtain ⟨f1, f2, f3, f4⟩ := flush_fields sn w
    refine ⟨?_, ?_, ?_, ?_⟩
    · rw [closedOk_snoc, hcl, c8]
      rcases (w.Close sn).2 with _ | e <;> simp [closedOk]
    · rw [hacc, c5, c7]
      rcases f4 with ⟨g1, g2⟩ | ⟨g1, g2, g3, g4, g5⟩
      · rw [g2]; exact hb
      · rw [g2, g5]
        have : accepted t ≠ [] := hb.1 (Or.inl (fun hh => g1 (hd.2 hh)))
        simp [this]
    · rw [hacc, c4]; exact hc
    · rw [c5, c6]
      rcases f4 with ⟨g1, g2⟩ | ⟨g1, g2, g3, g4, g5⟩
      · rw [g2]; exact hd
      · simp [g2, g4]

theorem tracks_run (sn : Codec) (w : Sink) (o : Option WriterOptions) (ops : List Op) :
    (Writer.run sn (NewWriter w o) ops).1.tracks (Writer.run sn (NewWriter w o) ops).2 := by
  induction ops using List.reverseRecOn with
  | nil => exact tracks_new w o
  | append_singleton ops op ih =>
    rw [run_snoc]
    cases op with
    | append key value => exact tracks_append sn _ _ key value ih
    | close => exact tracks_close sn _ _ ih

theorem Append_err_cases (sn : Codec) (w : Writer) (key : Nat) (value : Bytes) :
    (w.Append sn key value).2 = none ∨ (w.Append sn key value).2 = some Error.sinkError ∨
    (w.tmp = false ∧ w.Append sn key value = (w, some Error.errClosed)) ∨
    (w.tmp = true ∧ key ≤ w.block.MaxKey ∧ (w.blen ≠ 0 ∨ w.index ≠ []) ∧
      w.Append sn key value = (w, some (Error.outOfOrder key w.block.MaxKey))) := by
  rw [Append_eq]
  by_cases h1 : w.tmp = false
  · simp [h1]
  · rw [if_neg h1]
    have h1' : w.tmp = true := by simpa using h1
    by_cases h2 : key ≤ w.block.MaxKey ∧ (w.blen ≠ 0 ∨ w.index.length ≠ 0)
    · rw [if_pos h2]
      right; right; right
      refine ⟨h1', h2.1, ?_, rfl⟩
      simpa using h2.2
    · rw [if_neg h2]
      by_cases h3 : w.needsFlush value
      · rw [if_pos h3]
        by_cases h4 : (w.flush sn).2 = none
        · rw [if_pos h4]; left; rfl
        · rw [if_neg h4]
          rcases flush_err sn w with h | h
          · exact absurd h h4
          · right; left; exact h
      · rw [if_neg h3]; left; rfl

/-- C5. Out-of-order rejection. After any calls on a fresh writer none of which was
a successful `Close`, `Append(key, value)` returns the out-of-order error exactly when
some entry has been appended successfully and `key` is at most the key of the last
such entry; the error then carries `key` and that key, and its text is
"sntable: attempted an out-of-order append, key must be > max"; and when no entry
has been appended yet, `Append` returns no error whatever the key. The calls made
before may include flushes, rejected appends and failed writes. -/
theorem C5_out_of_order_iff (sn : Codec) (sink : Sink) (o : Option WriterOptions)
    (ops : List Op) (key : Nat) (value : Bytes)
    (hopen : closedOk (Writer.run sn (NewWriter sink o) ops).2 = false) :
    ((∃ e, ((Writer.run sn (NewWriter sink o) ops).1.Append sn key value).2 = some e ∧
        e.isOutOfOrder = true) ↔
      (∃ last, (accepted (Writer.run sn (NewWriter sink o) ops).2).getLast? = some last ∧
        key ≤ last.1)) ∧
    (∀ last, (accepted (Writer.run sn (NewWriter sink o) ops).2).getLast? = some last →
      key ≤ last.1 →
      ((Writer.run sn (NewWriter sink o) ops).1.Append sn key value).2 =
          some (Error.outOfOrder key last.1) ∧
        (Error.outOfOrder key last.1).text =
          "sntable: attempted an out-of-order append, " ++ toString key ++ " must be > " ++
            toString last.1) ∧
    (accepted (Writer.run sn (NewWriter sink o) ops).2 = [] →
      ((Writer.run sn (NewWriter sink o) ops).1.Append sn key value).2 = none) := by
  obtain ⟨ha, hb, hc, hd⟩ := tracks_run sn sink o ops
  generalize (Writer.run sn (NewWriter sink o) ops).1 = w at *
  generalize (Writer.run sn (NewWriter sink o) ops).2 = t at *
  have htmp : w.tmp = true := ha.2 hopen
  have key_fact : ∀ last, (accepted t).getLast? = some last → key ≤ last.1 →
      (w.Append sn key value).2 = some (Error.outOfOrder key last.1) := by
    intro last hl hk
    have hne : accepted t ≠ [] := by
      intro h; rw [h] at hl; simp at hl
    have h1 := hb.2 hne
    have h2 := hc last hl
    rw [Append_eq]
    have h3 : key ≤ w.block.MaxKey ∧ (w.blen ≠ 0 ∨ w.index.length ≠ 0) := by
      refine ⟨by rw [h2]; exact hk, ?_⟩
      simpa using h1
    rw [if_neg (by simp [htmp]), if_pos h3, h2]
  refine ⟨⟨?_, ?_⟩, ?_, ?_⟩
  · rintro ⟨e, he, hoo⟩
    rcases Append_err_cases sn w key value with h | h | h | ⟨h1, h2, h3, h4⟩
    · rw [h] at he; simp at he
    · rw [h] at he
      have : e = Error.sinkError := by simpa using he.symm
      rw [this] at hoo; simp [Error.isOutOfOrder] at hoo
    · rw [h.1] at htmp; simp at htmp
    · have hne := hb.1 h3
      obtain ⟨last, hl⟩ : ∃ last, (accepted t).getLast? = some last := by
        rcases hx : (accepted t).getLast? with _ | x
        · exact absurd (List.getLast?_eq_none_iff.1 hx) hne
        · exact ⟨x, rfl⟩
      refine ⟨last, hl, ?_⟩
      rw [← hc last hl]; exact h2
  · rintro ⟨last, hl, hk⟩
    exact ⟨_, key_fact last hl hk, rfl⟩
  · intro last hl hk
    exact ⟨key_fact last hl hk, rfl⟩
  · intro hnil
    have h1 : ¬ (w.blen ≠ 0 ∨ w.index ≠ []) := fun h => hb.1 h hnil
    have h2 : w.blen = 0 := by
      by_contra h; exact h1 (Or.inl h)
    have h3 : w.buf = [] := hd.2 h2
    have h4 : w.index = [] := by
      by_contra h; exact h1 (Or.inr h)
    rw [Append_eq]
    have h5 : ¬ w.needsFlush value := by
      unfold Writer.needsFlush; simp [h3]
    simp [htmp, h2, h4, h5]

theorem C5_out_of_order_iff_witness :
    closedOk (Writer.run rleCodec (NewWriter ⟨[], []⟩ none) [Op.append 20 [1, 2]]).2 = false ∧
    ((Writer.run rleCodec (NewWriter ⟨[], []⟩ none) [Op.append 20 [1, 2]]).1.Append
        rleCodec 19 [3]).2 = some (Error.outOfOrder 19 20) ∧
    (Error.outOfOrder 19 20).text = "sntable: attempted an out-of-order append, 19 must be > 20" :=
  ⟨by decide,
    ((C5_out_of_order_iff rleCodec ⟨[], []⟩ none [Op.append 20 [1, 2]] 19 [3] (by decide)).2.1
      (20, [1, 2]) (by decide) (by decide)).1,
    by decide⟩

/-- C6. Out-of-order atomicity. In any writer state, a call of `Append` that returns
the out-of-order error returns the writer unchanged in every field (sink, options,
block info, entry counter, section offsets, buffers, index), so every sequence of
calls made afterwards behaves as it would have without the rejected call. -/
theorem C6_out_of_order_atomic (sn : Codec) (w : Writer) (key : Nat) (value : Bytes)
    (e : Error) (herr : (w.Append sn key value).2 = some e) (hoo : e.isOutOfOrder = true) :
    (w.Append sn key value).1 = w ∧
    ∀ ops, Writer.run sn (w.Append sn key value).1 ops = Writer.run sn w ops := by
  have hw : (w.Append sn key value).1 = w := by
    rcases Append_err_cases sn w key value with h | h | h | ⟨_, _, _, h⟩
    · rw [h] at herr; simp at herr
    · rw [h] at herr
      have : e = Error.sinkError := by simpa using herr.symm
      rw [this] at hoo; simp [Error.isOutOfOrder] at hoo
    · rw [h.2]
    · rw [h]
  exact ⟨hw, fun ops => by rw [hw]⟩

theorem C6_out_of_order_atomic_witness :
    ((NewWriter ⟨[], []⟩ none).Append rleCodec 20 [1, 2]).1.Append rleCodec 19 [3] =
      (((NewWriter ⟨[], []⟩ none).Append rleCodec 20 [1, 2]).1, some (Error.outOfOrder 19 20)) ∧
    Writer.run rleCodec
        ((((NewWriter ⟨[], []⟩ none).Append rleCodec 20 [1, 2]).1.Append rleCodec 19 [3]).1)
        [Op.append 22 [4], Op.close] =
      Writer.run rleCodec ((NewWriter ⟨[], []⟩ none).Append rleCodec 20 [1, 2]).1
        [Op.append 22 [4], Op.close] :=
  ⟨by decide,
    (C6_out_of_order_atomic rleCodec ((NewWriter ⟨[], []⟩ none).Append rleCodec 20 [1, 2]).1
      19 [3] (Error.outOfOrder 19 20) (by decide) (by decide)).2 _⟩

/-- C7. Writer state machine. After any calls on a fresh writer: if some `Close` has
succeeded, then every further call (`Append` with any key and value, or `Close`)
returns the closed error and leaves the writer, its sink included, unchanged; and if
no `Close` has succeeded, then no call returns the closed error. -/
theorem C7_closed_state (sn : Codec) (sink : Sink) (o : Option WriterOptions)
    (ops : List Op) (op : Op) :
    (closedOk (Writer.run sn (NewWriter sink o) ops).2 = true →
      (Writer.run sn (NewWriter sink o) ops).1.step sn op =
        ((Writer.run sn (NewWriter sink o) ops).1, some Error.errClosed)) ∧
    (closedOk (Writer.run sn (NewWriter sink o) ops).2 = false →
      ((Writer.run sn (NewWriter sink o) ops).1.step sn op).2 ≠ some Error.errClosed) := by
  obtain ⟨ha, -, -, -⟩ := tracks_run sn sink o ops
  generalize (Writer.run sn (NewWriter sink o) ops).1 = w at *
  generalize (Writer.run sn (NewWriter sink o) ops).2 = t at *
  constructor
  · intro hc
    have htmp : w.tmp = false := by
      rcases hx : w.tmp with _ | _
      · rfl
      · rw [ha.1 hx] at hc; simp at hc
    cases op with
    | append key value => simp [Writer.step, Append_eq, htmp]
    | close => simp [Writer.step, Writer.Close, htmp]
  · intro hc
    have htmp : w.tmp = true := ha.2 hc
    cases op with
    | append key value =>
      simp only [Writer.step]
      rcases Append_err_cases sn w key value with h | h | h | ⟨_, _, _, h⟩
      · rw [h]; simp
      · rw [h]; simp
      · rw [h.1] at htmp; simp at htmp
      · rw [h]; simp
    | close =>
      simp only [Writer.step]
      rcases Close_fields sn w with ⟨c1, _⟩ | ⟨_, c2, _⟩
      · rw [c1] at htmp; simp at htmp
      · exact c2

theorem C7_closed_state_witness :
    closedOk (Writer.run rleCodec (NewWriter ⟨[], []⟩ none) [Op.append 5 [1], Op.close]).2 = true ∧
    (Writer.run rleCodec (NewWriter ⟨[], []⟩ none) [Op.append 5 [1], Op.close]).1.step rleCodec
        (Op.append 9 [2]) =
      ((Writer.run rleCodec (NewWriter ⟨[], []⟩ none) [Op.append 5 [1], Op.close]).1,
        some Error.errClosed) ∧
    closedOk (Writer.run rleCodec (NewWriter ⟨[], []⟩ none) [Op.append 5 [1]]).2 = false ∧
    ((Writer.run rleCodec (NewWriter ⟨[], []⟩ none) [Op.append 5 [1]]).1.step rleCodec
        Op.close).2 ≠ some Error.errClosed :=
  ⟨by decide,
    (C7_closed_state rleCodec ⟨[], []⟩ none [Op.append 5 [1], Op.close] (Op.append 9 [2])).1
      (by decide),
    by decide,
    (C7_closed_state rleCodec ⟨[], []⟩ none [Op.append 5 [1]] Op.close).2 (by decide)⟩

/-! ## Writes that the sink accepts -/

theorem Sink.Write_ok (s : Sink) (p : Bytes) (h : (s.Write p).2.2 = none) :
    (s.Write p).1.data = s.data ++ p ∧ (s.Write p).2.1 = p.length ∧
      (s.Write p).1.script = s.script.tail := by
  unfold Sink.Write at h ⊢
  split at h <;> simp_all

theorem Sink.Write_accepting (s : Sink) (p : Bytes) (h : s.accepting) :
    (s.Write p).2.2 = none ∧ (s.Write p).1.accepting := by
  unfold Sink.accepting at h
  unfold Sink.Write
  rcases hs : s.script with _ | ⟨x, rest⟩
  · simp [Sink.accepting, hs]
  · rw [hs] at h
    have hx : x = none := h x (by simp)
    subst hx
    refine ⟨rfl, ?_⟩
    intro y hy
    exact h y (by simp [hy])

theorem writeRaw_ok (w : Writer) (p : Bytes) (h : (w.writeRaw p).2 = none) :
    (w.writeRaw p).1.w.data = w.w.data ++ p ∧
      (w.writeRaw p).1.block.Offset = w.block.Offset + (p.length : Int) := by
  have h' : (w.w.Write p).2.2 = none := by simpa [Writer.writeRaw] using h
  obtain ⟨h1, h2, -⟩ := Sink.Write_ok w.w p h'
  simp [Writer.writeRaw, h1, h2]

theorem writeRaw_accepting (w : Writer) (p : Bytes) (h : w.w.accepting) :
    (w.writeRaw p).2 = none ∧ (w.writeRaw p).1.w.accepting := by
  obtain ⟨h1, h2⟩ := Sink.Write_accepting w.w p h
  simp [Writer.writeRaw, h1, h2]

theorem flush_eq (sn : Codec) (w : Writer) (h : w.buf ≠ []) :
    w.flush sn =
      Writer.writeRaw
        { w with
            index := w.index ++ [w.block], buf := [], soffs := [], blen := 0,
            snp := if w.o.Compression = SnappyCompression then sn.Encode (framed w.buf w.soffs)
              else w.snp }
        (emitted sn w.o.Compression (framed w.buf w.soffs)) := by
  have h' : ¬ w.buf.length = 0 := by simpa using h
  unfold Writer.flush emitted
  rw [if_neg h']
  by_cases hc : w.o.Compression = SnappyCompression
  · simp only [hc, if_true]
  · simp only [hc, if_false]

theorem flush_ok (sn : Codec) (w : Writer) (h : w.buf ≠ []) (hok : (w.flush sn).2 = none) :
    (w.flush sn).1.w.data = w.w.data ++ emitted sn w.o.Compression (framed w.buf w.soffs) ∧
      (w.flush sn).1.block.Offset =
        w.block.Offset + ((emitted sn w.o.Compression (framed w.buf w.soffs)).length : Int) := by
  rw [flush_eq sn w h] at hok ⊢
  exact writeRaw_ok _ _ hok

theorem flush_accepting (sn : Codec) (w : Writer) (h : w.w.accepting) :
    (w.flush sn).2 = none ∧ (w.flush sn).1.w.accepting := by
  by_cases hb : w.buf = []
  · rw [flush_of_empty sn w hb]; exact ⟨rfl, h⟩
  · rw [flush_eq sn w hb]
    exact writeRaw_accepting _ _ h

/-- C10. Compression acceptance. When `flush` writes a block whose framed payload is
`u` (the entries, the section offsets and the section count) to a sink that accepts
the write, with `c` the snappy encoding of `u`: if snappy is selected, the bytes
written are `c` followed by the tag 1 exactly when `4 * len(c) < 3 * len(u)`, and
they are `u` followed by the tag 0 otherwise; if no compression is selected, the
bytes written are `u` followed by the tag 0. -/
theorem C10_compression_acceptance (sn : Codec) (w : Writer) (hbuf : w.buf ≠ [])
    (hsink : w.w.accepting) :
    (w.o.Compression = SnappyCompression →
      ((w.flush sn).1.w.data =
          w.w.data ++ (sn.Encode (framed w.buf w.soffs) ++ [blockSnappyCompression]) ↔
        4 * (sn.Encode (framed w.buf w.soffs)).length < 3 * (framed w.buf w.soffs).length) ∧
      (¬ 4 * (sn.Encode (framed w.buf w.soffs)).length < 3 * (framed w.buf w.soffs).length →
        (w.flush sn).1.w.data = w.w.data ++ (framed w.buf w.soffs ++ [blockNoCompression]))) ∧
    (w.o.Compression = NoCompression →
      (w.flush sn).1.w.data = w.w.data ++ (framed w.buf w.soffs ++ [blockNoCompression])) := by
  have hdata := (flush_ok sn w hbuf (flush_accepting sn w hsink).1).1
  constructor
  · intro hc
    have hiff : ((sn.Encode (framed w.buf w.soffs)).length : Int) <
          ((framed w.buf w.soffs).length : Int) - ((framed w.buf w.soffs).length : Int) / 4 ↔
        4 * (sn.Encode (framed w.buf w.soffs)).length < 3 * (framed w.buf w.soffs).length := by
      omega
    by_cases hlt : 4 * (sn.Encode (framed w.buf w.soffs)).length <
        3 * (framed w.buf w.soffs).length
    · have : emitted sn w.o.Compression (framed w.buf w.soffs) =
          sn.Encode (framed w.buf w.soffs) ++ [blockSnappyCompression] := by
        unfold emitted; rw [if_pos hc, if_pos (hiff.2 hlt)]
      rw [hdata, this]
      exact ⟨⟨fun _ => hlt, fun _ => rfl⟩, fun h => absurd hlt h⟩
    · have : emitted sn w.o.Compression (framed w.buf w.soffs) =
          framed w.buf w.soffs ++ [blockNoCompression] := by
        unfold emitted; rw [if_pos hc, if_neg (fun h => hlt (hiff.1 h))]
      rw [hdata, this]
      refine ⟨⟨fun h => ?_, fun h => absurd h hlt⟩, fun _ => rfl⟩
      have h1 := List.append_cancel_left h
      have h2 := congrArg List.getLast? h1
      simp [blockNoCompression, blockSnappyCompression] at h2
  · intro hc
    have : emitted sn w.o.Compression (framed w.buf w.soffs) =
        framed w.buf w.soffs ++ [blockNoCompression] := by
      unfold emitted; rw [if_neg (by rw [hc]; decide)]
    rw [hdata, this]

theorem C10_compression_acceptance_witness :
    (((NewWriter ⟨[], []⟩ none).Append rleCodec 7 [0, 0, 0, 0, 0, 0, 0, 0, 0, 0, 0, 0]).1.flush
        rleCodec).1.w.data = [1, 7, 1, 12, 12, 0, 1, 1, 3, 0, 1] ∧
    (((NewWriter ⟨[], []⟩ (some ⟨0, 0, NoCompression⟩)).Append rleCodec 7 [0, 0]).1.flush
        rleCodec).1.w.data = [7, 2, 0, 0, 1, 0, 0, 0, 0] := by
  have h1 := C10_compression_acceptance rleCodec
    ((NewWriter ⟨[], []⟩ none).Append rleCodec 7 [0, 0, 0, 0, 0, 0, 0, 0, 0, 0, 0, 0]).1
    (by decide) (by decide)
  have h2 := C10_compression_acceptance rleCodec
    ((NewWriter ⟨[], []⟩ (some ⟨0, 0, NoCompression⟩)).Append rleCodec 7 [0, 0]).1
    (by decide) (by decide)
  refine ⟨?_, ?_⟩
  · rw [((h1.1 (by decide)).1).2 (by decide)]; decide
  · rw [h2.2 (by decide)]; decide

theorem writeIndexLoop_ok (l : List blockInfo) : ∀ (w : Writer) (i : Nat) (prev : blockInfo),
    (w.writeIndexLoop l i prev).2 = none →
    (w.writeIndexLoop l i prev).1.w.data = w.w.data ++ encIndexLoop l i prev ∧
      (w.writeIndexLoop l i prev).1.block.Offset =
        w.block.Offset + ((encIndexLoop l i prev).length : Int) := by
  induction l with
  | nil => intro w i prev _; simp [Writer.writeIndexLoop, encIndexLoop]
  | cons ent rest ih =>
    intro w i prev h
    simp only [Writer.writeIndexLoop] at h ⊢
    have hr := writeRaw_ok w (PutUvarint (if i ≠ 0 then (ent.MaxKey + 2 ^ 64 - prev.MaxKey) % 2 ^ 64 else ent.MaxKey) ++
        PutUvarint (toUint64 (if i ≠ 0 then ent.Offset - prev.Offset else ent.Offset)))
    rcases hx : w.writeRaw (PutUvarint (if i ≠ 0 then (ent.MaxKey + 2 ^ 64 - prev.MaxKey) % 2 ^ 64 else ent.MaxKey) ++
        PutUvarint (toUint64 (if i ≠ 0 then ent.Offset - prev.Offset else ent.Offset))) with ⟨w1, _ | e⟩
    · rw [hx] at h hr
      simp only at h hr ⊢
      obtain ⟨h1, h2⟩ := ih w1 (i + 1) ent h
      obtain ⟨h3, h4⟩ := hr trivial
      rw [h1, h2, h3, h4]
      simp only [encIndexLoop, List.append_assoc, List.length_append, Nat.cast_add]
      exact ⟨trivial, by omega⟩
    · rw [hx] at h; simp at h

theorem writeFooter_ok (w : Writer) (off : Int) (h : (w.writeFooter off).2 = none) :
    (w.writeFooter off).1.w.data = w.w.data ++ (PutUint64 (toUint64 off) ++ magic) := by
  simp only [Writer.writeFooter] at h ⊢
  have hr := writeRaw_ok w (PutUint64 (toUint64 off))
  rcases hx : w.writeRaw (PutUint64 (toUint64 off)) with ⟨w1, _ | e⟩
  · rw [hx] at h hr
    simp only at h hr ⊢
    have hr2 := writeRaw_ok w1 magic
    rcases hy : w1.writeRaw magic with ⟨w2, _ | e⟩
    · rw [hy] at hr2
      simp only at hr2 ⊢
      rw [(hr2 trivial).1, (hr trivial).1, List.append_assoc]
    · rw [hy] at h; simp at h
  · rw [hx] at h; simp at h

theorem Close_ok (sn : Codec) (w : Writer) (ht : w.tmp = true) (h : (w.Close sn).2 = none) :
    (w.flush sn).2 = none ∧
    (w.Close sn).1.w.data =
      (w.flush sn).1.w.data ++ encIndex (w.flush sn).1.index ++
        (PutUint64 (toUint64 (w.flush sn).1.block.Offset) ++ magic) := by
  simp only [Writer.Close, ht, Bool.true_eq_false, if_false] at h ⊢
  rcases hf : w.flush sn with ⟨f, _ | e⟩
  · rw [hf] at h
    simp only at h ⊢
    have hi := writeIndexLoop_ok f.index f 0 { MaxKey := 0, Offset := 0 }
    simp only [Writer.writeIndex] at h ⊢
    rcases hx : f.writeIndexLoop f.index 0 { MaxKey := 0, Offset := 0 } with ⟨g, _ | e⟩
    · rw [hx] at h hi
      simp only at h hi ⊢
      have hg := writeFooter_ok g f.block.Offset
      rcases hy : g.writeFooter f.block.Offset with ⟨k, _ | e⟩
      · rw [hy] at hg
        simp only at hg ⊢
        rw [hg trivial, (hi trivial).1]
        exact ⟨trivial, rfl⟩
      · rw [hy] at h; simp at h
    · rw [hx] at h; simp at h
  · rw [hf] at h; simp at h

/-! ## The offset a writer records is the number of bytes its sink has taken -/

theorem writeRaw_offset (w : Writer) (p : Bytes) :
    (w.writeRaw p).1.block.Offset - ((w.writeRaw p).1.w.data.length : Int) =
      w.block.Offset - (w.w.data.length : Int) := by
  unfold Writer.writeRaw Sink.Write
  rcases hs : w.w.script with _ | ⟨x, rest⟩
  · simp only [List.length_append, Nat.cast_add]; omega
  · cases x with
    | none => simp only [List.length_append, Nat.cast_add]; omega
    | some k =>
      simp only [List.length_append, Nat.cast_add, List.length_take, Nat.cast_min]; omega

theorem flush_offset (sn : Codec) (w : Writer) :
    (w.flush sn).1.block.Offset - ((w.flush sn).1.w.data.length : Int) =
      w.block.Offset - (w.w.data.length : Int) := by
  by_cases hb : w.buf = []
  · rw [flush_of_empty sn w hb]
  · rw [flush_eq sn w hb, writeRaw_offset]

theorem writeIndexLoop_offset (l : List blockInfo) : ∀ (w : Writer) (i : Nat) (prev : blockInfo),
    (w.writeIndexLoop l i prev).1.block.Offset -
        ((w.writeIndexLoop l i prev).1.w.data.length : Int) =
      w.block.Offset - (w.w.data.length : Int) := by
  induction l with
  | nil => intro w i prev; simp [Writer.writeIndexLoop]
  | cons ent rest ih =>
    intro w i prev
    simp only [Writer.writeIndexLoop]
    have hr := writeRaw_offset w (PutUvarint (if i ≠ 0 then (ent.MaxKey + 2 ^ 64 - prev.MaxKey) % 2 ^ 64 else ent.MaxKey) ++
        PutUvarint (toUint64 (if i ≠ 0 then ent.Offset - prev.Offset else ent.Offset)))
    rcases hx : w.writeRaw (PutUvarint (if i ≠ 0 then (ent.MaxKey + 2 ^ 64 - prev.MaxKey) % 2 ^ 64 else ent.MaxKey) ++
        PutUvarint (toUint64 (if i ≠ 0 then ent.Offset - prev.Offset else ent.Offset))) with ⟨w1, _ | e⟩
    · rw [hx] at hr
      simp only at hr ⊢
      rw [ih w1 (i + 1) ent, hr]
    · rw [hx] at hr
      exact hr

theorem writeFooter_offset (w : Writer) (off : Int) :
    (w.writeFooter off).1.block.Offset - ((w.writeFooter off).1.w.data.length : Int) =
      w.block.Offset - (w.w.data.length : Int) := by
  simp only [Writer.writeFooter]
  have hr := writeRaw_offset w (PutUint64 (toUint64 off))
  rcases hx : w.writeRaw (PutUint64 (toUint64 off)) with ⟨w1, _ | e⟩
  · rw [hx] at hr
    simp only at hr ⊢
    have hr2 := writeRaw_offset w1 magic
    rcases hy : w1.writeRaw magic with ⟨w2, _ | e⟩
    · rw [hy] at hr2; simp only at hr2 ⊢; rw [hr2, hr]
    · rw [hy] at hr2; simp only at hr2 ⊢; rw [hr2, hr]
  · rw [hx] at hr; exact hr

theorem Close_offset (sn : Codec) (w : Writer) :
    (w.Close sn).1.block.Offset - ((w.Close sn).1.w.data.length : Int) =
      w.block.Offset - (w.w.data.length : Int) := by
  unfold Writer.Close
  by_cases ht : w.tmp = false
  · rw [if_pos ht]
  · rw [if_neg ht]
    have hf := flush_offset sn w
    rcases hx : w.flush sn with ⟨f, _ | e⟩
    · rw [hx] at hf
      simp only at hf ⊢
      have hi := writeIndexLoop_offset f.index f 0 { MaxKey := 0, Offset := 0 }
      simp only [Writer.writeIndex]
      rcases hy : f.writeIndexLoop f.index 0 { MaxKey := 0, Offset := 0 } with ⟨g, _ | e⟩
      · rw [hy] at hi
        simp only at hi ⊢
        have hg := writeFooter_offset g f.block.Offset
        rcases hz : g.writeFooter f.block.Offset with ⟨k, _ | e⟩
        · rw [hz] at hg; simp only at hg ⊢; rw [hg, hi, hf]
        · rw [hz] at hg; simp only at hg ⊢; rw [hg, hi, hf]
      · rw [hy] at hi; simp only at hi ⊢; rw [hi, hf]
    · rw [hx] at hf; exact hf

theorem Append_offset (sn : Codec) (w : Writer) (key : Nat) (value : Bytes) :
    (w.Append sn key value).1.block.Offset - ((w.Append sn key value).1.w.data.length : Int) =
      w.block.Offset - (w.w.data.length : Int) := by
  rw [Append_eq]
  have hf := flush_offset sn w
  split
  · rfl
  · split
    · rfl
    · split
      · split
        · exact hf
        · exact hf
      · rfl

theorem run_offset (sn : Codec) (sink : Sink) (o : Option WriterOptions) (ops : List Op) :
    (Writer.run sn (NewWriter sink o) ops).1.block.Offset =
      ((Writer.run sn (NewWriter sink o) ops).1.w.data.length : Int) - (sink.data.length : Int) := by
  have key : (Writer.run sn (NewWriter sink o) ops).1.block.Offset -
      ((Writer.run sn (NewWriter sink o) ops).1.w.data.length : Int) =
        - (sink.data.length : Int) := by
    induction ops using List.reverseRecOn with
    | nil => simp [Writer.run, NewWriter]
    | append_singleton ops op ih =>
      rw [run_snoc]
      cases op with
      | append key value => simp only [Writer.step]; rw [Append_offset, ih]
      | close => simp only [Writer.step]; rw [Close_offset, ih]
  omega

theorem toUint64_natCast (n : Nat) : toUint64 (n : Int) = n % 2 ^ 64 := by
  unfold toUint64
  have : ((n : Int) % 2 ^ 64) = ((n % 2 ^ 64 : Nat) : Int) := by omega
  rw [this, Int.toNat_natCast]

theorem PutUint64_mod (n : Nat) : PutUint64 (n % 2 ^ 64) = PutUint64 n := by
  simp [PutUint64]

theorem PutUint64_length (n : Nat) : (PutUint64 n).length = 8 := rfl

theorem magic_length : magic.length = 8 := rfl

theorem writeRaw_offset_le (w : Writer) (p : Bytes) :
    w.block.Offset ≤ (w.writeRaw p).1.block.Offset := by
  simp only [Writer.writeRaw]; omega

theorem flush_offset_le (sn : Codec) (w : Writer) :
    w.block.Offset ≤ (w.flush sn).1.block.Offset := by
  by_cases hb : w.buf = []
  · rw [flush_of_empty sn w hb]
  · rw [flush_eq sn w hb]; exact writeRaw_offset_le _ _

theorem writeIndexLoop_offset_le (l : List blockInfo) :
    ∀ (w : Writer) (i : Nat) (prev : blockInfo),
      w.block.Offset ≤ (w.writeIndexLoop l i prev).1.block.Offset := by
  induction l with
  | nil => intro w i prev; simp [Writer.writeIndexLoop]
  | cons ent rest ih =>
    intro w i prev
    simp only [Writer.writeIndexLoop]
    have hr := writeRaw_offset_le w (PutUvarint (if i ≠ 0 then (ent.MaxKey + 2 ^ 64 - prev.MaxKey) % 2 ^ 64 else ent.MaxKey) ++
        PutUvarint (toUint64 (if i ≠ 0 then ent.Offset - prev.Offset else ent.Offset)))
    rcases hx : w.writeRaw (PutUvarint (if i ≠ 0 then (ent.MaxKey + 2 ^ 64 - prev.MaxKey) % 2 ^ 64 else ent.MaxKey) ++
        PutUvarint (toUint64 (if i ≠ 0 then ent.Offset - prev.Offset else ent.Offset))) with ⟨w1, _ | e⟩
    · rw [hx] at hr
      exact le_trans hr (ih w1 (i + 1) ent)
    · rw [hx] at hr
      exact hr

theorem writeFooter_offset_le (w : Writer) (off : Int) :
    w.block.Offset ≤ (w.writeFooter off).1.block.Offset := by
  simp only [Writer.writeFooter]
  have hr := writeRaw_offset_le w (PutUint64 (toUint64 off))
  rcases hx : w.writeRaw (PutUint64 (toUint64 off)) with ⟨w1, _ | e⟩
  · rw [hx] at hr
    simp only at hr ⊢
    have hr2 := writeRaw_offset_le w1 magic
    rcases hy : w1.writeRaw magic with ⟨w2, _ | e⟩
    · rw [hy] at hr2; exact le_trans hr hr2
    · rw [hy] at hr2; exact le_trans hr hr2
  · rw [hx] at hr; exact hr

theorem Close_offset_le (sn : Codec) (w : Writer) :
    w.block.Offset ≤ (w.Close sn).1.block.Offset := by
  unfold Writer.Close
  by_cases ht : w.tmp = false
  · rw [if_pos ht]
  · rw [if_neg ht]
    have hf := flush_offset_le sn w
    rcases hx : w.flush sn with ⟨f, _ | e⟩
    · rw [hx] at hf
      have hi := writeIndexLoop_offset_le f.index f 0 { MaxKey := 0, Offset := 0 }
      simp only [Writer.writeIndex] at hf ⊢
      rcases hy : f.writeIndexLoop f.index 0 { MaxKey := 0, Offset := 0 } with ⟨g, _ | e⟩
      · rw [hy] at hi
        simp only at hi ⊢
        have hg := writeFooter_offset_le g f.block.Offset
        rcases hz : g.writeFooter f.block.Offset with ⟨k, _ | e⟩
        · rw [hz] at hg; exact le_trans hf (le_trans hi hg)
        · rw [hz] at hg; exact le_trans hf (le_trans hi hg)
      · rw [hy] at hi; exact le_trans hf hi
    · rw [hx] at hf; exact hf

theorem Append_offset_le (sn : Codec) (w : Writer) (key : Nat) (value : Bytes) :
    w.block.Offset ≤ (w.Append sn key value).1.block.Offset := by
  rw [Append_eq]
  have hf := flush_offset_le sn w
  split
  · exact le_refl _
  · split
    · exact le_refl _
    · split
      · split
        · exact hf
        · exact hf
      · exact le_refl _

theorem run_offset_nonneg (sn : Codec) (sink : Sink) (o : Option WriterOptions)
    (ops : List Op) : 0 ≤ (Writer.run sn (NewWriter sink o) ops).1.block.Offset := by
  induction ops using List.reverseRecOn with
  | nil => simp [Writer.run, NewWriter]
  | append_singleton ops op ih =>
    rw [run_snoc]
    cases op with
    | append key value => exact le_trans ih (Append_offset_le sn _ key value)
    | close => exact le_trans ih (Close_offset_le sn _)

/-- C9. Footer. After any calls on a fresh writer none of which was a successful
`Close` (in particular after any sequence of successful calls of `Append`), a call
of `Close` that returns no error leaves an output that consists of the bytes written
up to the end of the last block, then the block index, then the 8-byte little-endian
encoding of `P` and the magic `47 27 86 BE 1F 7A 65 DB`, where `P` is the number of
bytes written up to the end of the last block; so the last 16 bytes of the output
are the encoding of `P` followed by the magic. -/
theorem C9_footer (sn : Codec) (sink : Sink) (o : Option WriterOptions) (ops : List Op)
    (hopen : closedOk (Writer.run sn (NewWriter sink o) ops).2 = false)
    (hclose : ((Writer.run sn (NewWriter sink o) ops).1.Close sn).2 = none) :
    ((Writer.run sn (NewWriter sink o) ops).1.Close sn).1.w.data =
      ((Writer.run sn (NewWriter sink o) ops).1.flush sn).1.w.data ++
        encIndex ((Writer.run sn (NewWriter sink o) ops).1.flush sn).1.index ++
        (PutUint64 (((Writer.run sn (NewWriter sink o) ops).1.flush sn).1.w.data.length -
            sink.data.length) ++ magic) ∧
    (((Writer.run sn (NewWriter sink o) ops).1.Close sn).1.w.data).drop
        ((((Writer.run sn (NewWriter sink o) ops).1.Close sn).1.w.data).length - 16) =
      PutUint64 (((Writer.run sn (NewWriter sink o) ops).1.flush sn).1.w.data.length -
          sink.data.length) ++ magic ∧
    magic = [0x47, 0x27, 0x86, 0xBE, 0x1F, 0x7A, 0x65, 0xDB] := by
  have htr := tracks_run sn sink o ops
  have hoff := run_offset sn sink o ops
  have hnn := run_offset_nonneg sn sink o ops
  have hfl := flush_offset_le sn (Writer.run sn (NewWriter sink o) ops).1
  have hfo := flush_offset sn (Writer.run sn (NewWriter sink o) ops).1
  generalize (Writer.run sn (NewWriter sink o) ops).1 = w at *
  have ht : w.tmp = true := htr.1.2 hopen
  obtain ⟨-, hdata⟩ := Close_ok sn w ht hclose
  have hP : PutUint64 (toUint64 (w.flush sn).1.block.Offset) =
      PutUint64 ((w.flush sn).1.w.data.length - sink.data.length) := by
    have h1 : (w.flush sn).1.block.Offset =
        (((w.flush sn).1.w.data.length - sink.data.length : Nat) : Int) := by
      omega
    rw [h1, toUint64_natCast, PutUint64_mod]
  rw [hP] at hdata
  refine ⟨hdata, ?_, rfl⟩
  rw [hdata]
  have hlen : ∀ (a b : Bytes), b.length = 16 → (a ++ b).drop ((a ++ b).length - 16) = b := by
    intro a b hb
    have : (a ++ b).length - 16 = a.length := by simp [hb]
    rw [this, List.drop_left]
  exact hlen _ _ (by simp [PutUint64_length, magic_length])

theorem C9_footer_witness :
    ((Writer.run rleCodec (NewWriter ⟨[], []⟩ none) [Op.append 5 [9], Op.append 6 []]).1.Close
        rleCodec).1.w.data =
      [5, 1, 9, 1, 0, 1, 0, 0, 0, 0] ++ [6, 0] ++
        ([10, 0, 0, 0, 0, 0, 0, 0] ++ [0x47, 0x27, 0x86, 0xBE, 0x1F, 0x7A, 0x65, 0xDB]) := by
  have h := (C9_footer rleCodec ⟨[], []⟩ none [Op.append 5 [9], Op.append 6 []]
    (by decide) (by decide)).1
  rw [h]
  decide

theorem NewWriter_Close_eq (sn : Codec) (sink : Sink) (o : Option WriterOptions)
    (hsink : sink.accepting) :
    ((NewWriter sink o).Close sn).2 = none ∧
      ((NewWriter sink o).Close sn).1.w.data = sink.data ++ (List.replicate 8 0 ++ magic) := by
  have hw1 := writeRaw_accepting (NewWriter sink o) (PutUint64 (toUint64 0)) hsink
  have hd1 := writeRaw_ok (NewWriter sink o) (PutUint64 (toUint64 0)) hw1.1
  have hw2 := writeRaw_accepting ((NewWriter sink o).writeRaw (PutUint64 (toUint64 0))).1 magic hw1.2
  have hd2 := writeRaw_ok ((NewWriter sink o).writeRaw (PutUint64 (toUint64 0))).1 magic hw2.1
  have hclose : (NewWriter sink o).Close sn =
      ({ (((NewWriter sink o).writeRaw (PutUint64 (toUint64 0))).1.writeRaw magic).1 with
          tmp := false }, none) := by
    rcases hx : (NewWriter sink o).writeRaw (PutUint64 (toUint64 0)) with ⟨w1, e1⟩
    rw [hx] at hw1 hw2
    simp only at hw1 hw2
    rcases hy : w1.writeRaw magic with ⟨w2, e2⟩
    rw [hy] at hw2
    simp only at hw2
    have he1 : e1 = none := hw1.1
    have he2 : e2 = none := hw2.1
    subst he1 he2
    have hnew : (NewWriter sink o).tmp = true ∧ (NewWriter sink o).buf = [] ∧
        (NewWriter sink o).index = [] ∧ (NewWriter sink o).block.Offset = 0 := ⟨rfl, rfl, rfl, rfl⟩
    obtain ⟨n1, n2, n3, n4⟩ := hnew
    simp only [Writer.Close, n1, Bool.true_eq_false, if_false, flush_of_empty sn _ n2,
      Writer.writeIndex, n3, Writer.writeIndexLoop, Writer.writeFooter, n4, hx, hy]
  rw [hclose]
  refine ⟨rfl, ?_⟩
  simp only
  rw [hd2.1, hd1.1, List.append_assoc]
  rfl

/-- C8. Empty file. A fresh writer closed at once, on a sink that accepts every
write, returns no error and writes exactly 16 bytes: eight zero bytes and the magic
`47 27 86 BE 1F 7A 65 DB`. `NewReader` over those 16 bytes returns a reader with
`NumBlocks() == 0`, and on it `Get(k)` returns `ErrNotFound` for every key `k`
(it neither panics nor runs on). -/
theorem C8_empty_file (sn : Codec) (sink : Sink) (o : Option WriterOptions)
    (hsink : sink.accepting) :
    ((NewWriter sink o).Close sn).2 = none ∧
    ((NewWriter sink o).Close sn).1.w.data = sink.data ++ (List.replicate 8 0 ++ magic) ∧
    (List.replicate 8 (0 : Byte) ++ magic).length = 16 ∧
    magic = [0x47, 0x27, 0x86, 0xBE, 0x1F, 0x7A, 0x65, 0xDB] ∧
    ∀ fuel, ∃ r, NewReader fuel (List.replicate 8 0 ++ magic) 16 = Res.ok r ∧
      r.NumBlocks = 0 ∧
      ∀ fuel2 key, r.Get sn fuel2 key = Res.ok ([], some Error.ErrNotFound) := by
  obtain ⟨h1, h2⟩ := NewWriter_Close_eq sn sink o hsink
  refine ⟨h1, h2, rfl, rfl, ?_⟩
  intro fuel
  refine ⟨{ r := List.replicate 8 0 ++ magic, index := [], maxOffset := 0 }, ?_, rfl, ?_⟩
  · cases fuel <;> rfl
  · intro fuel2 key
    by_cases hk : 0 < key
    · cases fuel2 <;>
        simp [Reader.Get, Reader.Append, Reader.Seek, Reader.SeekBlock, Search, searchLoop,
          Reader.seekBlockPred, BlockReader.seekSectionPred,
          Reader.GetBlock, BlockReader.SeekSection, BlockReader.GetSection, hk,
          SectionReader.Seek, SectionReader.More, Iterator.Next, SectionReader.Pos,
          BlockReader.NumSections, BlockReader.Pos, Reader.NumBlocks]
    · have hk0 : key = 0 := by omega
      subst hk0
      cases fuel2 <;>
        simp [Reader.Get, Reader.Append, Reader.Seek, Reader.SeekBlock, Search, searchLoop,
          Reader.seekBlockPred, BlockReader.seekSectionPred,
          Reader.GetBlock, BlockReader.SeekSection, BlockReader.GetSection,
          SectionReader.Seek, SectionReader.More, Iterator.Next, SectionReader.Pos,
          BlockReader.NumSections, BlockReader.Pos, Reader.NumBlocks]

theorem C8_empty_file_witness :
    ((NewWriter ⟨[], []⟩ none).Close rleCodec).1.w.data =
      [0, 0, 0, 0, 0, 0, 0, 0, 0x47, 0x27, 0x86, 0xBE, 0x1F, 0x7A, 0x65, 0xDB] :=
  (C8_empty_file rleCodec ⟨[], []⟩ none (by decide)).2.1

/-! ## The primitives invert each other -/

theorem toByte_val (n : Nat) : (toByte n).val = n % 256 := rfl

theorem uvarintLoop_putUvarintLoop (rest : Bytes) : ∀ (fuel i x acc : Nat),
    i + fuel = 10 → x * 2 ^ (7 * i) < 2 ^ 64 → 0 < fuel →
    uvarintLoop (putUvarintLoop fuel x ++ rest) i acc =
      (acc + x * 2 ^ (7 * i), ((i + (putUvarintLoop fuel x).length : Nat) : Int)) := by
  intro fuel
  induction fuel with
  | zero => intro i x acc _ _ h; omega
  | succ fuel ih =>
    intro i x acc hi hx _
    have hi10 : i ≠ MaxVarintLen64 := by simp only [MaxVarintLen64]; omega
    by_cases hge : 0x80 ≤ x
    · have hb : (toByte (x % 0x80 + 0x80)).val = x % 0x80 + 0x80 := by
        rw [toByte_val]; omega
      have hfuel : 0 < fuel := by
        by_contra hf
        have hf0 : fuel = 0 := by omega
        have hi9 : i = 9 := by omega
        subst hi9
        have : x * 2 ^ 63 < 2 ^ 64 := hx
        omega
      have hx' : x / 0x80 * 2 ^ (7 * (i + 1)) < 2 ^ 64 := by
        have h1 : 2 ^ (7 * (i + 1)) = 0x80 * 2 ^ (7 * i) := by
          rw [show 7 * (i + 1) = 7 + 7 * i by ring, pow_add]; rfl
        rw [h1]
        calc x / 0x80 * (0x80 * 2 ^ (7 * i)) = (x / 0x80 * 0x80) * 2 ^ (7 * i) := by ring
          _ ≤ x * 2 ^ (7 * i) := Nat.mul_le_mul_right _ (Nat.div_mul_le_self x 0x80)
          _ < 2 ^ 64 := hx
      simp only [putUvarintLoop, if_pos hge, List.cons_append, uvarintLoop, if_neg hi10, hb]
      rw [if_neg (by omega)]
      rw [ih (i + 1) (x / 0x80) _ (by omega) hx' hfuel]
      have h1 : 2 ^ (7 * (i + 1)) = 0x80 * 2 ^ (7 * i) := by
        rw [show 7 * (i + 1) = 7 + 7 * i by ring, pow_add]; rfl
      have h2 : (x % 0x80 + 0x80) % 0x80 = x % 0x80 := by omega
      rw [h1, h2]
      refine Prod.ext ?_ ?_
      · simp only
        have h3 : x = x % 0x80 + x / 0x80 * 0x80 := by omega
        calc acc + x % 0x80 * 2 ^ (7 * i) + x / 0x80 * (0x80 * 2 ^ (7 * i))
            = acc + (x % 0x80 + x / 0x80 * 0x80) * 2 ^ (7 * i) := by ring
          _ = acc + x * 2 ^ (7 * i) := by rw [← h3]
      · simp only [List.length_cons]
        push_cast; ring
    · have hlt : x < 0x80 := by omega
      have hb : (toByte x).val = x := by rw [toByte_val]; omega
      have hov : ¬ (i = MaxVarintLen64 - 1 ∧ 1 < x) := by
        rintro ⟨h9, h1⟩
        simp only [MaxVarintLen64] at h9
        have hi9 : i = 9 := by omega
        subst hi9
        have : x * 2 ^ 63 < 2 ^ 64 := hx
        omega
      simp only [putUvarintLoop, if_neg hge, List.singleton_append, uvarintLoop, if_neg hi10, hb,
        if_pos hlt, if_neg hov, List.length_singleton]
      push_cast; rfl

theorem Uvarint_PutUvarint (x : Nat) (rest : Bytes) (hx : x < 2 ^ 64) :
    Uvarint (PutUvarint x ++ rest) = (x, ((PutUvarint x).length : Int)) := by
  have h := uvarintLoop_putUvarintLoop rest 10 0 x 0 rfl (by simpa using hx) (by decide)
  have hm : x % 2 ^ 64 = x := Nat.mod_eq_of_lt hx
  simp only [Uvarint, PutUvarint, MaxVarintLen64, hm]
  rw [h]; simp

theorem putUvarintLoop_length_le : ∀ (fuel x : Nat), (putUvarintLoop fuel x).length ≤ fuel := by
  intro fuel
  induction fuel with
  | zero => intro x; simp [putUvarintLoop]
  | succ fuel ih =>
    intro x
    simp only [putUvarintLoop]
    split
    · simp only [List.length_cons]; have := ih (x / 0x80); omega
    · simp

theorem PutUvarint_length_le (x : Nat) : (PutUvarint x).length ≤ 10 :=
  putUvarintLoop_length_le 10 _

theorem PutUvarint_length_pos (x : Nat) : 0 < (PutUvarint x).length :=
  List.length_pos.2 (PutUvarint_ne_nil x)

theorem PutUint32_length (v : Nat) : (PutUint32 v).length = 4 := rfl

theorem Uint32_PutUint32 (v : Nat) (rest : Bytes) :
    Uint32 (PutUint32 v ++ rest) = some (v % 2 ^ 32) := by
  simp only [PutUint32, List.cons_append, List.nil_append, Uint32, toByte_val, Option.some.injEq]
  have : v % 2 ^ 32 < 2 ^ 32 := Nat.mod_lt _ (by decide)
  omega

theorem Uint64_PutUint64 (v : Nat) (rest : Bytes) :
    Uint64 (PutUint64 v ++ rest) = some (v % 2 ^ 64) := by
  simp only [PutUint64, List.cons_append, List.nil_append, Uint64, toByte_val, Option.some.injEq]
  have : v % 2 ^ 64 < 2 ^ 64 := Nat.mod_lt _ (by decide)
  omega

theorem toInt64_of_lt (n : Nat) (h : n < 2 ^ 63) : toInt64 n = (n : Int) := by
  unfold toInt64
  have h1 : n % 2 ^ 64 = n := Nat.mod_eq_of_lt (by omega)
  rw [h1, if_pos h]

theorem toUint64_of_nonneg (i : Int) (h0 : 0 ≤ i) (h1 : i < 2 ^ 64) :
    toUint64 i = i.toNat := by
  unfold toUint64
  rw [Int.emod_eq_of_lt h0 h1]

/-! ## Slices -/

theorem sliceFrom_eq (s a b : Bytes) (i : Int) (hs : s = a ++ b) (hi : i = (a.length : Int)) :
    sliceFrom s i = Res.ok b := by
  subst hs hi
  have h : (0 : Int) ≤ (a.length : Int) ∧ (a.length : Int) ≤ ((a ++ b).length : Int) := by
    constructor
    · exact Int.natCast_nonneg _
    · simp
  simp only [sliceFrom, if_pos h, Int.toNat_natCast, List.drop_left]

theorem slice_eq (s a b c : Bytes) (i j : Int) (hs : s = a ++ b ++ c)
    (hi : i = (a.length : Int)) (hj : j = (a.length : Int) + (b.length : Int)) :
    slice s i j = Res.ok b := by
  subst hs hi hj
  have h : (0 : Int) ≤ (a.length : Int) ∧ (a.length : Int) ≤ (a.length : Int) + (b.length : Int) ∧
      (a.length : Int) + (b.length : Int) ≤ ((a ++ b ++ c).length : Int) := by
    refine ⟨Int.natCast_nonneg _, ?_, ?_⟩
    · have := Int.natCast_nonneg b.length; omega
    · simp only [List.length_append, Nat.cast_add]
      have := Int.natCast_nonneg c.length; omega
  have h2 : ((a.length : Int) + (b.length : Int)).toNat - a.length = b.length := by
    have : ((a.length : Int) + (b.length : Int)).toNat = a.length + b.length := by omega
    omega
  unfold slice
  rw [if_pos h]
  simp only [Int.toNat_natCast, h2, List.append_assoc, List.drop_left, List.take_left]

/-! ## The section reader on a section the writer has encoded -/

theorem encEntry_ne_nil (d : Nat) (v : Bytes) : encEntry d v ≠ [] := by
  unfold encEntry
  intro h
  have h1 := List.append_eq_nil.1 h
  have h2 := List.append_eq_nil.1 h1.1
  exact PutUvarint_ne_nil _ h2.1

theorem encEntry_length (d : Nat) (v : Bytes) :
    (encEntry d v).length = (PutUvarint d).length + (PutUvarint v.length).length + v.length := by
  simp only [encEntry, List.length_append]

theorem encSec_append (p : Nat) (a b : List Entry) :
    encSec p (a ++ b) = encSec p a ++ encSec (lastKey p a) b := by
  induction a generalizing p with
  | nil => simp [encSec, lastKey]
  | cons e rest ih =>
    show encEntry (e.1 - p) e.2 ++ encSec e.1 (rest ++ b) =
      (encEntry (e.1 - p) e.2 ++ encSec e.1 rest) ++ encSec (lastKey e.1 rest) b
    rw [ih, List.append_assoc]

theorem SectionReader.More_iff (r : SectionReader) (pre : Bytes) (p : Nat) (post : List Entry)
    (hsec : r.sec = pre ++ encSec p post) (hread : r.read = (pre.length : Int)) :
    r.More = true ↔ post ≠ [] := by
  unfold SectionReader.More
  rw [hsec, hread]
  cases post with
  | nil => simp [encSec]
  | cons e es =>
    have := List.length_pos.2 (encEntry_ne_nil (e.1 - p) e.2)
    simp only [encSec, List.length_append, Nat.cast_add, decide_eq_true_eq, ne_eq,
      reduceCtorEq, not_false_eq_true, iff_true]
    omega

theorem SectionReader.readValue_eq (r : SectionReader) (pre : Bytes) (v rest : Bytes)
    (hsec : r.sec = pre ++ ((PutUvarint v.length ++ v) ++ rest))
    (hread : r.read = (pre.length : Int)) (hv : v.length < 2 ^ 63) :
    r.readValue =
      Res.ok { r with
        read := ((pre.length + (PutUvarint v.length).length + v.length : Nat) : Int), val := v } := by
  unfold SectionReader.readValue
  rw [sliceFrom_eq r.sec pre ((PutUvarint v.length ++ v) ++ rest) r.read hsec hread]
  simp only
  rw [List.append_assoc, Uvarint_PutUvarint v.length _ (by omega)]
  simp only
  rw [toInt64_of_lt _ hv]
  rw [slice_eq r.sec (pre ++ PutUvarint v.length) v rest _ _ (by rw [hsec]; simp) (by rw [hread]; simp)
    (by rw [hread]; simp)]
  simp only [hread, Nat.cast_add]

theorem SectionReader.Next_cons (r : SectionReader) (pre : Bytes) (p : Nat) (e : Entry)
    (post : List Entry) (hsec : r.sec = pre ++ encSec p (e :: post))
    (hread : r.read = (pre.length : Int)) (hkey : r.key = p)
    (hp : p ≤ e.1) (h64 : e.1 < 2 ^ 64) (hv : e.2.length < 2 ^ 63) :
    r.Next =
      Res.ok ({ r with
        read := (((pre ++ encEntry (e.1 - p) e.2).length : Nat) : Int), key := e.1, val := e.2 },
        true) := by
  have hmore : r.More = true :=
    (SectionReader.More_iff r pre p (e :: post) hsec hread).2 (by simp)
  have hsec' : r.sec = pre ++ (PutUvarint (e.1 - p) ++
      ((PutUvarint e.2.length ++ e.2) ++ encSec e.1 post)) := by
    rw [hsec]; simp [encSec, encEntry]
  unfold SectionReader.Next
  rw [if_pos hmore, sliceFrom_eq r.sec pre _ r.read hsec' hread]
  simp only
  rw [Uvarint_PutUvarint (e.1 - p) _ (by omega)]
  simp only
  have hk : (r.key + (e.1 - p)) % 2 ^ 64 = e.1 := by
    rw [hkey]; rw [Nat.mod_eq_of_lt (by omega)]; omega
  rw [hk]
  have hsec2 : r.sec = (pre ++ PutUvarint (e.1 - p)) ++
      ((PutUvarint e.2.length ++ e.2) ++ encSec e.1 post) := by
    rw [hsec']; simp
  have hmore1 : SectionReader.More
      { r with read := r.read + ((PutUvarint (e.1 - p)).length : Int), key := e.1 } = true := by
    have := PutUvarint_length_pos e.2.length
    simp only [SectionReader.More, hsec2, hread, List.length_append, Nat.cast_add,
      decide_eq_true_eq]
    omega
  rw [if_pos hmore1]
  rw [SectionReader.readValue_eq
    { r with read := r.read + ((PutUvarint (e.1 - p)).length : Int), key := e.1 }
    (pre ++ PutUvarint (e.1 - p)) e.2 (encSec e.1 post) hsec2 (by simp [hread]) hv]
  simp only [List.length_append, encEntry_length, Nat.cast_add]
  congr 3
  ring

theorem SectionReader.Seek_spec (k : Nat) : ∀ (post : List Entry) (fuel : Nat)
    (r : SectionReader) (pre : Bytes) (p : Nat),
    r.sec = pre ++ encSec p post → r.read = (pre.length : Int) → r.key = p → okFrom p post →
    post.length ≤ fuel →
    ∃ r' pre' p',
      r.Seek fuel k = Res.ok (r', decide (post.dropWhile (fun e => decide (e.1 < k)) ≠ [])) ∧
      r'.sec = r.sec ∧ r'.spos = r.spos ∧
      r.sec = pre' ++ encSec p' (post.dropWhile (fun e => decide (e.1 < k))) ∧
      r'.read = (pre'.length : Int) ∧ r'.key = p' ∧
      okFrom p' (post.dropWhile (fun e => decide (e.1 < k))) := by
  intro post
  induction post with
  | nil =>
    intro fuel r pre p hsec hread hkey hok _
    have hmore : r.More = false := by
      have := (SectionReader.More_iff r pre p [] hsec hread)
      simpa using this
    refine ⟨r, pre, p, ?_, rfl, rfl, hsec, hread, hkey, hok⟩
    cases fuel <;> simp [SectionReader.Seek, hmore]
  | cons e post ih =>
    intro fuel r pre p hsec hread hkey hok hfuel
    obtain ⟨hp, h64, hv, hok'⟩ := hok
    cases fuel with
    | zero => simp at hfuel
    | succ f =>
      have hmore : r.More = true :=
        (SectionReader.More_iff r pre p (e :: post) hsec hread).2 (by simp)
      have hsec' : r.sec = pre ++ (PutUvarint (e.1 - p) ++
          ((PutUvarint e.2.length ++ e.2) ++ encSec e.1 post)) := by
        rw [hsec]; simp [encSec, encEntry]
      have hsec2 : r.sec = (pre ++ PutUvarint (e.1 - p)) ++
          ((PutUvarint e.2.length ++ e.2) ++ encSec e.1 post) := by
        rw [hsec']; simp
      have hk : (r.key + (e.1 - p)) % 2 ^ 64 = e.1 := by
        rw [hkey]; rw [Nat.mod_eq_of_lt (by omega)]; omega
      simp only [SectionReader.Seek]
      rw [if_pos hmore, sliceFrom_eq r.sec pre _ r.read hsec' hread]
      simp only
      rw [Uvarint_PutUvarint (e.1 - p) _ (by omega)]
      simp only
      rw [hk]
      by_cases hke : k ≤ e.1
      · rw [if_pos hke]
        have hdw : (e :: post).dropWhile (fun e => decide (e.1 < k)) = e :: post := by
          exact List.dropWhile_cons_of_neg (by simpa using hke)
        rw [hdw]
        have hkp : (e.1 + 2 ^ 64 - (e.1 - p)) % 2 ^ 64 = r.key := by
          rw [hkey]
          have : e.1 + 2 ^ 64 - (e.1 - p) = p + 2 ^ 64 := by omega
          rw [this]; omega
        refine ⟨r, pre, p, ?_, rfl, rfl, hsec, hread, hkey, ⟨hp, h64, hv, hok'⟩⟩
        simp only [add_sub_cancel_right, hkp, ne_eq, reduceCtorEq, not_false_eq_true,
          decide_True]
      · rw [if_neg hke]
        have hmore1 : SectionReader.More
            { r with read := r.read + ((PutUvarint (e.1 - p)).length : Int), key := e.1 } = true := by
          have := PutUvarint_length_pos e.2.length
          simp only [SectionReader.More, hsec2, hread, List.length_append, Nat.cast_add,
            decide_eq_true_eq]
          omega
        rw [if_pos hmore1]
        rw [SectionReader.readValue_eq
          { r with read := r.read + ((PutUvarint (e.1 - p)).length : Int), key := e.1 }
          (pre ++ PutUvarint (e.1 - p)) e.2 (encSec e.1 post) hsec2 (by simp [hread]) hv]
        simp only
        have hdw : (e :: post).dropWhile (fun e => decide (e.1 < k)) =
            post.dropWhile (fun e => decide (e.1 < k)) := by
          have : e.1 < k := by omega
          exact List.dropWhile_cons_of_pos (by simpa using this)
        rw [hdw]
        have hsec3 : r.sec = (pre ++ encEntry (e.1 - p) e.2) ++ encSec e.1 post := by
          rw [hsec]; simp [encSec]
        obtain ⟨r', pre', p', h1, h2, h3, h4, h5, h6, h7⟩ := ih f
          { r with
            read := ((pre ++ PutUvarint (e.1 - p)).length + (PutUvarint e.2.length).length +
              e.2.length : Nat)
            key := e.1, val := e.2 }
          (pre ++ encEntry (e.1 - p) e.2) e.1 hsec3
          (by simp only [List.length_append, encEntry_length, Nat.cast_add]; ring) rfl hok'
          (by simpa using hfuel)
        exact ⟨r', pre', p', h1, h2, h3, h4, h5, h6, h7⟩

/-! ## Binary search -/

theorem searchLoop_spec (n : Nat) (f : Nat → Res Bool) (p : Nat → Bool)
    (hf : ∀ i, i < n → f i = Res.ok (p i))
    (hmono : ∀ i j, i ≤ j → j < n → p i = true → p j = true) :
    ∀ (fuel i j : Nat), j - i ≤ fuel → i ≤ j → j ≤ n →
      (∀ x, x < i → p x = false) → (∀ x, j ≤ x → x < n → p x = true) →
      ∃ m, searchLoop f fuel i j = Res.ok m ∧ m ≤ n ∧
        (∀ x, x < m → p x = false) ∧ (∀ x, m ≤ x → x < n → p x = true) := by
  intro fuel
  induction fuel with
  | zero =>
    intro i j hfu hij hjn hlo hhi
    have : i = j := by omega
    subst this
    exact ⟨i, by simp [searchLoop], hjn, hlo, hhi⟩
  | succ fuel ih =>
    intro i j hfu hij hjn hlo hhi
    by_cases hlt : i < j
    · have hh : (i + j) / 2 < n := by omega
      simp only [searchLoop, if_pos hlt, hf _ hh]
      rcases hp : p ((i + j) / 2) with _ | _
      · simp only
        refine ih ((i + j) / 2 + 1) j (by omega) (by omega) hjn ?_ hhi
        intro x hx
        by_contra hc
        have hxt : p x = true := by simpa using hc
        have := hmono x ((i + j) / 2) (by omega) hh hxt
        rw [hp] at this; exact absurd this (by simp)
      · simp only
        refine ih i ((i + j) / 2) (by omega) (by omega) (by omega) hlo ?_
        intro x hx hxn
        exact hmono _ x hx hxn hp
    · have : i = j := by omega
      subst this
      exact ⟨i, by simp [searchLoop], hjn, hlo, hhi⟩

theorem Search_spec (n : Nat) (f : Nat → Res Bool) (p : Nat → Bool)
    (hf : ∀ i, i < n → f i = Res.ok (p i))
    (hmono : ∀ i j, i ≤ j → j < n → p i = true → p j = true) :
    ∃ m, Search n f = Res.ok m ∧ m ≤ n ∧
      (∀ x, x < m → p x = false) ∧ (∀ x, m ≤ x → x < n → p x = true) :=
  searchLoop_spec n f p hf hmono n 0 n (by omega) (by omega) (le_refl n)
    (by intro x hx; omega) (by intro x hx hxn; omega)

/-! ## The layout of a block -/

theorem secsBytes_append (a b : List (List Entry)) :
    secsBytes (a ++ b) = secsBytes a ++ secsBytes b := by
  induction a with
  | nil => simp [secsBytes]
  | cons s rest ih =>
    show encSec 0 s ++ secsBytes (rest ++ b) = (encSec 0 s ++ secsBytes rest) ++ secsBytes b
    rw [ih, List.append_assoc]

theorem secOffsets_append (base : Nat) (a b : List (List Entry)) :
    secOffsets base (a ++ b) = secOffsets base a ++ secOffsets (base + (secsBytes a).length) b := by
  induction a generalizing base with
  | nil => simp [secOffsets, secsBytes]
  | cons s rest ih =>
    show base :: secOffsets (base + (encSec 0 s).length) (rest ++ b) =
      (base :: secOffsets (base + (encSec 0 s).length) rest) ++
        secOffsets (base + (encSec 0 s ++ secsBytes rest).length) b
    rw [ih, List.length_append, Nat.add_assoc]
    rfl

theorem secOffsets_length (base : Nat) (a : List (List Entry)) :
    (secOffsets base a).length = a.length := by
  induction a generalizing base with
  | nil => rfl
  | cons s rest ih => simp [secOffsets, ih]

theorem offTable_length (l : List Nat) : (offTable l).length = 4 * l.length := by
  induction l with
  | nil => rfl
  | cons o rest ih => simp [offTable, PutUint32_length, ih]; omega

theorem offTable_append (a b : List Nat) : offTable (a ++ b) = offTable a ++ offTable b := by
  induction a with
  | nil => rfl
  | cons o rest ih =>
    show PutUint32 o ++ offTable (rest ++ b) = (PutUint32 o ++ offTable rest) ++ offTable b
    rw [ih, List.append_assoc]

theorem appendSoffs_pos (l : List Nat) : ∀ (buf : Bytes), (∀ o ∈ l, 0 < o) →
    appendSoffs buf l = buf ++ offTable l := by
  induction l with
  | nil => intro buf _; simp [appendSoffs, offTable]
  | cons o rest ih =>
    intro buf h
    have ho : 0 < o := h o (by simp)
    simp only [appendSoffs, if_pos ho]
    rw [ih _ (fun x hx => h x (by simp [hx]))]
    simp [offTable]

theorem encSec_ne_nil (p : Nat) (s : List Entry) (h : s ≠ []) : encSec p s ≠ [] := by
  cases s with
  | nil => exact absurd rfl h
  | cons e rest =>
    simp only [encSec]
    intro hh
    exact encEntry_ne_nil _ _ (List.append_eq_nil.1 hh).1

theorem secOffsets_pos (a : List (List Entry)) : ∀ (base : Nat), 0 < base →
    ∀ o ∈ secOffsets base a, 0 < o := by
  induction a with
  | nil => intro base _ o ho; simp [secOffsets] at ho
  | cons s rest ih =>
    intro base hb o ho
    simp only [secOffsets, List.mem_cons] at ho
    rcases ho with h | h
    · rw [h]; exact hb
    · exact ih _ (by omega) o h

theorem blockPayload_eq (s : List Entry) (rest : List (List Entry)) (hs : s ≠ []) :
    blockPayload (s :: rest) =
      secsBytes (s :: rest) ++ offTable (secOffsets (encSec 0 s).length rest) ++
        PutUint32 (s :: rest).length := by
  have hpos : 0 < (encSec 0 s).length := List.length_pos.2 (encSec_ne_nil 0 s hs)
  simp only [blockPayload, framed, secOffsets, appendSoffs, lt_irrefl, if_false, Nat.zero_add,
    secOffsets_length]
  rw [appendSoffs_pos _ _ (secOffsets_pos rest _ hpos)]
  simp only [List.length_cons, secOffsets_length]

theorem blockPayload_length (secs : List (List Entry)) (hok : blockOk secs) :
    (blockPayload secs).length = (secsBytes secs).length + 4 * secs.length := by
  obtain ⟨hne, hsec, -, -⟩ := hok
  cases secs with
  | nil => exact absurd rfl hne
  | cons s rest =>
    rw [blockPayload_eq s rest (hsec s (by simp))]
    simp only [List.length_append, offTable_length, secOffsets_length, PutUint32_length,
      List.length_cons]
    omega

theorem secsBytes_mem_secOffsets (a c : List (List Entry)) (hc : c ≠ []) :
    (secsBytes a).length ∈ secOffsets 0 (a ++ c) := by
  rw [secOffsets_append]
  cases c with
  | nil => exact absurd rfl hc
  | cons t rest => simp [secOffsets]

theorem BlockReader.sectionOffset_split (b : BlockReader) (a c : List (List Entry))
    (hblock : b.block = blockPayload (a ++ c)) (hscnt : b.scnt = (a ++ c).length)
    (hok : blockOk (a ++ c)) :
    b.sectionOffset (a.length : Int) = Res.ok ((secsBytes a).length : Int) := by
  have hlen := blockPayload_length (a ++ c) hok
  obtain ⟨hne, hsec, hoff, hcnt⟩ := hok
  unfold BlockReader.sectionOffset
  cases a with
  | nil => simp [secsBytes]
  | cons s a' =>
    have h1 : ¬ (((s :: a').length : Nat) : Int) < 1 := by simp
    rw [if_neg h1]
    cases c with
    | nil =>
      have h2 : (b.scnt : Int) ≤ (((s :: a').length : Nat) : Int) := by
        rw [hscnt]; simp
      rw [if_pos h2, hblock, hlen, hscnt]
      simp only [List.append_nil, Nat.cast_add, Nat.cast_mul, Nat.cast_ofNat]
      congr 1
      ring
    | cons t c' =>
      have h2 : ¬ (b.scnt : Int) ≤ (((s :: a').length : Nat) : Int) := by
        rw [hscnt]; simp
      rw [if_neg h2]
      have hmem : (secsBytes (s :: a')).length < 2 ^ 32 :=
        hoff _ (secsBytes_mem_secOffsets (s :: a') (t :: c') (by simp))
      have hsplit : b.block =
          (secsBytes (s :: a' ++ t :: c') ++ offTable (secOffsets (encSec 0 s).length a')) ++
            (PutUint32 (secsBytes (s :: a')).length ++
              (offTable (secOffsets ((secsBytes (s :: a')).length + (encSec 0 t).length) c') ++
                PutUint32 (s :: a' ++ t :: c').length)) := by
        rw [hblock]
        show blockPayload (s :: (a' ++ t :: c')) = _
        rw [blockPayload_eq s (a' ++ t :: c') (hsec s (by simp)), secOffsets_append,
          offTable_append]
        simp only [secOffsets, offTable, secsBytes, List.length_append, List.append_assoc,
          List.cons_append]
        rfl
      show (match sliceFrom b.block ((b.block.length : Int) - (b.scnt : Int) * 4 +
          ((((s :: a').length : Nat) : Int) - 1) * 4) with
        | Res.ok tail =>
          match Uint32 tail with
          | some v => Res.ok (v : Int)
          | none => Res.panic
        | Res.err e => Res.err e
        | Res.panic => Res.panic
        | Res.outOfFuel => Res.outOfFuel) = _
      rw [sliceFrom_eq b.block _ _ _ hsplit
        (by
          rw [hblock, hlen, hscnt]
          simp only [List.length_append, offTable_length, secOffsets_length, List.length_cons,
            Nat.cast_add, Nat.cast_mul, Nat.cast_ofNat, Nat.cast_one]
          ring)]
      simp only
      rw [Uint32_PutUint32, Nat.mod_eq_of_lt hmem]

theorem List.split_at {α : Type} (l : List α) (i : Nat) (h : i < l.length) :
    ∃ a x c, l = a ++ x :: c ∧ a.length = i ∧ l.drop i = x :: c := by
  refine ⟨l.take i, l[i], l.drop (i + 1), ?_, ?_, ?_⟩
  · rw [← List.drop_eq_getElem_cons h, List.take_append_drop]
  · rw [List.length_take]; omega
  · exact List.drop_eq_getElem_cons h

theorem blockPayload_prefix (secs : List (List Entry)) (hok : blockOk secs) :
    ∃ T, blockPayload secs = secsBytes secs ++ T := by
  obtain ⟨hne, hsec, -, -⟩ := hok
  cases secs with
  | nil => exact absurd rfl hne
  | cons s rest =>
    exact ⟨_, by rw [blockPayload_eq s rest (hsec s (by simp)), List.append_assoc]⟩

theorem BlockReader.GetSection_split (b : BlockReader) (a : List (List Entry)) (s : List Entry)
    (c : List (List Entry)) (hblock : b.block = blockPayload (a ++ s :: c))
    (hscnt : b.scnt = (a ++ s :: c).length) (hok : blockOk (a ++ s :: c)) :
    b.GetSection (a.length : Int) =
      Res.ok { sec := encSec 0 s, spos := a.length, read := 0, key := 0, val := [] } := by
  have hassoc : a ++ s :: c = (a ++ [s]) ++ c := by simp
  have hmin := BlockReader.sectionOffset_split b a (s :: c) hblock hscnt hok
  have hmax := BlockReader.sectionOffset_split b (a ++ [s]) c (by rw [hblock, hassoc])
    (by rw [hscnt, hassoc]) (by rw [← hassoc]; exact hok)
  have hcast : (((a ++ [s]).length : Nat) : Int) = (a.length : Int) + 1 := by simp
  rw [hcast] at hmax
  obtain ⟨T, hT⟩ := blockPayload_prefix _ hok
  have hsplit : b.block = secsBytes a ++ encSec 0 s ++ (secsBytes c ++ T) := by
    rw [hblock, hT, secsBytes_append]
    simp [secsBytes]
  have h0 : ¬ (a.length : Int) < 0 := by simp
  have h1 : ¬ (b.scnt : Int) ≤ (a.length : Int) := by rw [hscnt]; simp
  unfold BlockReader.GetSection
  simp only [if_neg h0, if_neg h1, hmin, hmax]
  rw [slice_eq b.block (secsBytes a) (encSec 0 s) (secsBytes c ++ T) _ _ hsplit rfl
    (by rw [secsBytes_append]; simp [secsBytes])]
  simp

theorem BlockReader.seekSectionPred_eq (b : BlockReader) (secs : List (List Entry)) (k i : Nat)
    (hblock : b.block = blockPayload secs) (hscnt : b.scnt = secs.length) (hok : blockOk secs)
    (h64 : ∀ s ∈ secs, ∀ e ∈ s, e.1 < 2 ^ 64) (hi : i < secs.length) :
    b.seekSectionPred k i = Res.ok (decide (k < firstKeyAt secs i)) := by
  obtain ⟨a, s, c, hsecs, hlen, hdrop⟩ := List.split_at secs i hi
  subst hsecs
  have hsne : s ≠ [] := hok.2.1 s (by simp)
  cases s with
  | nil => exact absurd rfl hsne
  | cons e s' =>
    have he : e.1 < 2 ^ 64 := h64 (e :: s') (by simp) e (by simp)
    have hmin := BlockReader.sectionOffset_split b a ((e :: s') :: c) hblock hscnt hok
    rw [hlen] at hmin
    obtain ⟨T, hT⟩ := blockPayload_prefix _ hok
    have hsplit : b.block = secsBytes a ++
        (PutUvarint e.1 ++ (PutUvarint e.2.length ++ e.2 ++ encSec e.1 s' ++ (secsBytes c ++ T))) := by
      rw [hblock, hT, secsBytes_append]
      simp [secsBytes, encSec, encEntry]
    unfold BlockReader.seekSectionPred
    rw [hmin]
    simp only
    rw [sliceFrom_eq b.block _ _ _ hsplit rfl]
    simp only
    rw [Uvarint_PutUvarint e.1 _ he]
    simp only [firstKeyAt, hdrop]

theorem BlockReader.SeekSection_spec (b : BlockReader) (secs : List (List Entry)) (k : Nat)
    (hblock : b.block = blockPayload secs) (hscnt : b.scnt = secs.length) (hok : blockOk secs)
    (hmax : k ≤ b.maxKey) (h64 : ∀ s ∈ secs, ∀ e ∈ s, e.1 < 2 ^ 64)
    (hmono : ∀ i j, i ≤ j → j < secs.length → firstKeyAt secs i ≤ firstKeyAt secs j) :
    ∃ m, m ≤ secs.length ∧ (∀ i, i < m → firstKeyAt secs i ≤ k) ∧
      (∀ i, m ≤ i → i < secs.length → k < firstKeyAt secs i) ∧
      b.SeekSection k = b.GetSection ((m : Int) - 1) := by
  obtain ⟨m, hm, hle, hlo, hhi⟩ := Search_spec secs.length (b.seekSectionPred k)
    (fun i => decide (k < firstKeyAt secs i))
    (fun i hi => BlockReader.seekSectionPred_eq b secs k i hblock hscnt hok h64 hi)
    (by
      intro i j hij hj hp
      have := hmono i j hij hj
      simp only [decide_eq_true_eq] at hp ⊢
      omega)
  refine ⟨m, hle, ?_, ?_, ?_⟩
  · intro i hi
    have := hlo i hi
    simp only [decide_eq_false_iff_not] at this
    omega
  · intro i hmi hi
    have := hhi i hmi hi
    simpa using this
  · unfold BlockReader.SeekSection
    rw [if_neg (by omega), hscnt, hm]

/-! ## Opening a file -/

theorem ReadAt_eq (src a b c : Bytes) (off : Int) (n : Nat) (hsrc : src = a ++ b ++ c)
    (hoff : off = (a.length : Int)) (hn : n = b.length) (hne : b ++ c ≠ []) :
    ReadAt src n off = Res.ok b := by
  subst hsrc hoff hn
  have hpos : 0 < (b ++ c).length := List.length_pos.2 hne
  have h1 : ¬ (a.length : Int) < 0 := by simp
  have h2 : ¬ (((a ++ b ++ c).length : Nat) : Int) ≤ (a.length : Int) := by
    simp only [List.length_append, Nat.cast_add] at hpos ⊢
    omega
  have h3 : ¬ (a ++ b ++ c).length < (a.length : Int).toNat + b.length := by
    simp only [List.length_append, Int.toNat_natCast]; omega
  unfold ReadAt
  rw [if_neg h1, if_neg h2, if_neg h3]
  simp only [Int.toNat_natCast, List.append_assoc, List.drop_left, List.take_left]

theorem PutUvarint_mod (x : Nat) : PutUvarint (x % 2 ^ 64) = PutUvarint x := by
  unfold PutUvarint
  rw [Nat.mod_mod]

theorem encIndexLoop_pos (l : List blockInfo) : ∀ (i j : Nat) (prev : blockInfo),
    i ≠ 0 → j ≠ 0 → encIndexLoop l i prev = encIndexLoop l j prev := by
  induction l with
  | nil => intro i j prev _ _; rfl
  | cons ent rest ih =>
    intro i j prev hi hj
    simp only [encIndexLoop, if_pos hi, if_pos hj]
    rw [ih (i + 1) (j + 1) ent (by omega) (by omega)]

theorem encIndex_eq (l : List blockInfo) :
    encIndex l = encIndexLoop l 1 { MaxKey := 0, Offset := 0 } := by
  unfold encIndex
  cases l with
  | nil => rfl
  | cons ent rest =>
    have h0 : ¬ ((0 : Nat) ≠ 0) := by simp
    have h1 : (1 : Nat) ≠ 0 := by omega
    simp only [encIndexLoop, if_neg h0, if_pos h1, Nat.sub_zero, sub_zero]
    rw [PutUvarint_mod, ← PutUvarint_mod (ent.MaxKey + 2 ^ 64), Nat.add_mod_right, PutUvarint_mod]
    rw [encIndexLoop_pos rest (0 + 1) (1 + 1) ent (by omega) (by omega)]

theorem NewReader.loop_spec (file F : Bytes) :
    ∀ (rest : List blockInfo) (fuel : Nat) (P : Bytes) (prev : blockInfo) (acc : List blockInfo),
      file = P ++ encIndexLoop rest 1 prev ++ F → prev.MaxKey < 2 ^ 64 → 0 ≤ prev.Offset →
      idxOk prev rest → rest.length ≤ fuel →
      NewReader.loop file ((P ++ encIndexLoop rest 1 prev).length : Int) fuel (P.length : Int)
        prev acc = Res.ok (acc ++ rest) := by
  intro rest
  induction rest with
  | nil =>
    intro fuel P prev acc _ _ _ _ _
    cases fuel <;> simp [NewReader.loop, encIndexLoop]
  | cons ent rest ih =>
    intro fuel P prev acc hfile hk hoff hok hfuel
    obtain ⟨hk', hle, hlt, hok'⟩ := hok
    cases fuel with
    | zero => simp at hfuel
    | succ f =>
      have hdo : toUint64 (ent.Offset - prev.Offset) < 2 ^ 64 := by
        unfold toUint64; omega
      have hdoi : toInt64 (toUint64 (ent.Offset - prev.Offset)) = ent.Offset - prev.Offset := by
        have h1 : toUint64 (ent.Offset - prev.Offset) < 2 ^ 63 := by unfold toUint64; omega
        rw [toInt64_of_lt _ h1]; unfold toUint64; omega
      have hoff' : toInt64 (toUint64 ent.Offset) = ent.Offset := by
        have h1 : toUint64 ent.Offset < 2 ^ 63 := by unfold toUint64; omega
        rw [toInt64_of_lt _ h1]; unfold toUint64; omega
      have hkey : (prev.MaxKey + (ent.MaxKey + 2 ^ 64 - prev.MaxKey) % 2 ^ 64) % 2 ^ 64 =
          ent.MaxKey := by omega
      have hE : encIndexLoop (ent :: rest) 1 prev =
          (PutUvarint ((ent.MaxKey + 2 ^ 64 - prev.MaxKey) % 2 ^ 64) ++
            PutUvarint (toUint64 (ent.Offset - prev.Offset))) ++ encIndexLoop rest 1 ent := by
        have h1 : (1 : Nat) ≠ 0 := by omega
        simp only [encIndexLoop, if_pos h1]
        rw [encIndexLoop_pos rest (1 + 1) 1 ent (by omega) (by omega)]
      generalize hdk : (ent.MaxKey + 2 ^ 64 - prev.MaxKey) % 2 ^ 64 = dk at hE hkey
      have hdk64 : dk < 2 ^ 64 := by rw [← hdk]; exact Nat.mod_lt _ (by decide)
      generalize hdov : toUint64 (ent.Offset - prev.Offset) = dov at hE hdo hdoi
      generalize hI : encIndexLoop rest 1 ent = I' at hE
      have hl1 := PutUvarint_length_le dk
      have hl2 := PutUvarint_length_le dov
      have hp1 := PutUvarint_length_pos dk
      have hp2 := PutUvarint_length_pos dov
      rw [hE] at hfile ⊢
      have hpos : (P.length : Int) <
          (((P ++ ((PutUvarint dk ++ PutUvarint dov) ++ I')).length : Nat) : Int) := by
        simp only [List.length_append, Nat.cast_add]; omega
      simp only [NewReader.loop, if_pos hpos]
      generalize hlen : (if (((P ++ ((PutUvarint dk ++ PutUvarint dov) ++ I')).length : Nat) : Int)
          - (P.length : Int) < ((2 * MaxVarintLen64 : Nat) : Int) then
          ((((P ++ ((PutUvarint dk ++ PutUvarint dov) ++ I')).length : Nat) : Int)
            - (P.length : Int)).toNat
          else 2 * MaxVarintLen64) = len
      have hlen1 : (PutUvarint dk).length + (PutUvarint dov).length ≤ len := by
        rw [← hlen]
        simp only [List.length_append, Nat.cast_add, MaxVarintLen64]
        split <;> omega
      have hlen2 : len ≤ (PutUvarint dk).length + (PutUvarint dov).length + I'.length := by
        rw [← hlen]
        simp only [List.length_append, Nat.cast_add, MaxVarintLen64]
        split <;> omega
      have hM : (I'.take (len - ((PutUvarint dk).length + (PutUvarint dov).length))).length =
          len - ((PutUvarint dk).length + (PutUvarint dov).length) := by
        rw [List.length_take]; omega
      have hread : ReadAt file len (P.length : Int) = Res.ok ((PutUvarint dk ++ PutUvarint dov) ++
          I'.take (len - ((PutUvarint dk).length + (PutUvarint dov).length))) := by
        refine ReadAt_eq file P _
          (I'.drop (len - ((PutUvarint dk).length + (PutUvarint dov).length)) ++ F) _ _ ?_ rfl ?_ ?_
        · rw [hfile]
          have ht := List.take_append_drop
            (len - ((PutUvarint dk).length + (PutUvarint dov).length)) I'
          simp only [List.append_assoc]
          rw [← List.append_assoc (List.take _ I') _ F, ht]
        · simp only [List.length_append, hM]; omega
        · intro h
          have := List.append_eq_nil.1 h
          have := List.append_eq_nil.1 this.1
          have := List.append_eq_nil.1 this.1
          exact PutUvarint_ne_nil _ this.1
      rw [hread]
      simp only
      rw [List.append_assoc, Uvarint_PutUvarint dk _ hdk64]
      simp only
      rw [sliceFrom_eq _ (PutUvarint dk) _ _ rfl rfl]
      simp only
      rw [Uvarint_PutUvarint dov _ hdo]
      simp only
      rw [hkey, hdoi]
      have hsum : prev.Offset + (ent.Offset - prev.Offset) = ent.Offset := by ring
      rw [hsum, hoff']
      have hih := ih f (P ++ (PutUvarint dk ++ PutUvarint dov)) ent (acc ++ [ent])
        (by rw [hfile, hI]; simp only [List.append_assoc]) hk' (by omega) hok'
        (by simpa using hfuel)
      rw [hI] at hih
      have e1 : (((P ++ (PutUvarint dk ++ PutUvarint dov) ++ I').length : Nat) : Int) =
          (((P ++ ((PutUvarint dk ++ PutUvarint dov) ++ I')).length : Nat) : Int) := by
        simp only [List.append_assoc]
      have e2 : (((P ++ (PutUvarint dk ++ PutUvarint dov)).length : Nat) : Int) =
          (P.length : Int) + ((PutUvarint dk).length : Int) + ((PutUvarint dov).length : Int) := by
        simp only [List.length_append, Nat.cast_add]; ring
      rw [e1, e2] at hih
      rw [hih]
      simp

theorem fileIndex_length (raw : List (Nat × Bytes)) : ∀ off, (fileIndex off raw).length = raw.length := by
  induction raw with
  | nil => intro off; rfl
  | cons b rest ih => intro off; simp [fileIndex, ih]

theorem idxOk_fileIndex (raw : List (Nat × Bytes)) : ∀ (off : Nat) (prev : blockInfo),
    prev.Offset ≤ (off : Int) → off + (fileBlocks raw).length < 2 ^ 63 →
    (∀ b ∈ raw, b.1 < 2 ^ 64) → idxOk prev (fileIndex off raw) := by
  induction raw with
  | nil => intro off prev _ _ _; trivial
  | cons b rest ih =>
    intro off prev hp hsz hk
    simp only [fileBlocks, List.length_append] at hsz
    refine ⟨hk b (by simp), hp, by simp only; omega, ?_⟩
    exact ih (off + b.2.length) _ (by simp) (by omega) (fun x hx => hk x (by simp [hx]))

theorem NewReader_fileBytes (raw : List (Nat × Bytes)) (fuel : Nat)
    (hkeys : ∀ b ∈ raw, b.1 < 2 ^ 64) (hsize : (fileBlocks raw).length < 2 ^ 63)
    (hfuel : raw.length ≤ fuel) :
    NewReader fuel (fileBytes raw) ((fileBytes raw).length : Int) =
      Res.ok { r := fileBytes raw, index := fileIndex 0 raw,
               maxOffset := ((fileBlocks raw).length : Int) } := by
  have hfile : fileBytes raw = (fileBlocks raw ++ encIndex (fileIndex 0 raw)) ++
      (PutUint64 (fileBlocks raw).length ++ magic) ++ [] := by
    simp [fileBytes]
  have hfoot : ((fileBytes raw).length : Int) - 16 =
      ((fileBlocks raw ++ encIndex (fileIndex 0 raw)).length : Int) := by
    simp only [fileBytes, List.length_append, PutUint64_length, magic_length, Nat.cast_add]
    push_cast; ring
  have hread : ReadAt (fileBytes raw) 16 (((fileBytes raw).length : Int) - 16) =
      Res.ok (PutUint64 (fileBlocks raw).length ++ magic) :=
    ReadAt_eq _ _ _ [] _ _ hfile hfoot (by simp [PutUint64_length, magic_length])
      (by simp [magic])
  have hmagic : ¬ (PutUint64 (fileBlocks raw).length ++ magic).drop 8 ≠ magic := by
    have : (PutUint64 (fileBlocks raw).length ++ magic).drop (PutUint64 (fileBlocks raw).length).length
        = magic := List.drop_left _ _
    rw [PutUint64_length] at this
    simp [this]
  have hloop := NewReader.loop_spec (fileBytes raw) (PutUint64 (fileBlocks raw).length ++ magic)
    (fileIndex 0 raw) fuel (fileBlocks raw) { MaxKey := 0, Offset := 0 } []
    (by rw [← encIndex_eq]; rfl) (by simp) (by simp)
    (idxOk_fileIndex raw 0 _ (by simp) (by omega) hkeys)
    (by rw [fileIndex_length]; exact hfuel)
  rw [← encIndex_eq, ← hfoot] at hloop
  unfold NewReader
  simp only [hread, if_neg hmagic, Uint64_PutUint64]
  rw [Nat.mod_eq_of_lt (by omega), toInt64_of_lt _ hsize, hloop]
  simp

/-! ## Fetching a block -/

theorem fileBlocks_append (a b : List (Nat × Bytes)) :
    fileBlocks (a ++ b) = fileBlocks a ++ fileBlocks b := by
  induction a with
  | nil => rfl
  | cons x rest ih =>
    show x.2 ++ fileBlocks (rest ++ b) = (x.2 ++ fileBlocks rest) ++ fileBlocks b
    rw [ih, List.append_assoc]

theorem fileIndex_append (a b : List (Nat × Bytes)) : ∀ off,
    fileIndex off (a ++ b) = fileIndex off a ++ fileIndex (off + (fileBlocks a).length) b := by
  induction a with
  | nil => intro off; simp [fileIndex, fileBlocks]
  | cons x rest ih =>
    intro off
    show { MaxKey := x.1, Offset := (off : Int) } :: fileIndex (off + x.2.length) (rest ++ b) =
      ({ MaxKey := x.1, Offset := (off : Int) } :: fileIndex (off + x.2.length) rest) ++
        fileIndex (off + (x.2 ++ fileBlocks rest).length) b
    rw [ih, List.length_append, Nat.add_assoc]
    rfl

theorem fileIndex_get (pre : List (Nat × Bytes)) (b : Nat × Bytes) (post : List (Nat × Bytes)) :
    (fileIndex 0 (pre ++ b :: post)).get? pre.length =
      some { MaxKey := b.1, Offset := ((fileBlocks pre).length : Int) } := by
  rw [fileIndex_append]
  have h : pre.length = (fileIndex 0 pre).length := (fileIndex_length pre 0).symm
  rw [h, List.get?_eq_getElem?, List.getElem?_append_right (le_refl _)]
  simp [fileIndex]

theorem fileIndex_get_next (pre : List (Nat × Bytes)) (b : Nat × Bytes)
    (post : List (Nat × Bytes)) :
    ((fileIndex 0 (pre ++ b :: post)).get? (pre.length + 1) = none ∧ post = []) ∨
    (∃ k, (fileIndex 0 (pre ++ b :: post)).get? (pre.length + 1) =
      some { MaxKey := k, Offset := ((fileBlocks pre).length : Int) + (b.2.length : Int) }) := by
  have h : pre.length + 1 = (fileIndex 0 (pre ++ [b])).length := by
    rw [fileIndex_length]; simp
  have hassoc : pre ++ b :: post = (pre ++ [b]) ++ post := by simp
  rw [hassoc, fileIndex_append, h, List.get?_eq_getElem?,
    List.getElem?_append_right (le_refl _)]
  cases post with
  | nil => left; simp [fileIndex]
  | cons x rest =>
    right
    exact ⟨x.1, by simp [fileIndex, fileBlocks_append, fileBlocks]⟩

theorem Reader.readBlock_raw (sn : Codec) (pre : List (Nat × Bytes)) (b : Nat × Bytes)
    (post : List (Nat × Bytes)) (stored : Bytes) (tag : Byte) (block body : Bytes) (n : Nat)
    (hb : b.2 = stored ++ [tag])
    (hdec : (tag = blockNoCompression ∧ block = stored) ∨
      (tag = blockSnappyCompression ∧ sn.Decode stored = some block))
    (hbody : block = body ++ PutUint32 n) :
    (fileReader (pre ++ b :: post)).readBlock sn pre.length =
      Res.ok { block := block, bpos := pre.length, scnt := n % 2 ^ 32, maxKey := b.1 } := by
  have hfile : fileBytes (pre ++ b :: post) = fileBlocks pre ++ b.2 ++
      (fileBlocks post ++ encIndex (fileIndex 0 (pre ++ b :: post)) ++
        (PutUint64 (fileBlocks (pre ++ b :: post)).length ++ magic)) := by
    simp [fileBytes, fileBlocks_append, fileBlocks]
  have hne : b.2 ++ (fileBlocks post ++ encIndex (fileIndex 0 (pre ++ b :: post)) ++
        (PutUint64 (fileBlocks (pre ++ b :: post)).length ++ magic)) ≠ [] := by
    rw [hb]; simp
  have hread : ReadAt (fileBytes (pre ++ b :: post)) b.2.length ((fileBlocks pre).length : Int) =
      Res.ok b.2 := ReadAt_eq _ _ _ _ _ _ hfile rfl rfl hne
  have hnext := fileIndex_get_next pre b post
  have hlast : b.2.getLast? = some tag := by rw [hb]; simp
  have hdrop : b.2.dropLast = stored := by rw [hb]; simp
  have hslice : sliceFrom block ((block.length : Int) - 4) = Res.ok (PutUint32 n) :=
    sliceFrom_eq block body (PutUint32 n) _ hbody
      (by rw [hbody]; simp [PutUint32_length])
  have huint : Uint32 (PutUint32 n) = some (n % 2 ^ 32) := by
    have := Uint32_PutUint32 n []
    simpa using this
  have hfin : ∀ (mx : Int), mx = ((fileBlocks pre).length : Int) + (b.2.length : Int) →
      (if mx - ((fileBlocks pre).length : Int) < 0 then (Res.panic : Res BlockReader)
        else
          match ReadAt (fileBytes (pre ++ b :: post)) (mx - ((fileBlocks pre).length : Int)).toNat
              ((fileBlocks pre).length : Int) with
          | Res.ok raw =>
            match raw.getLast? with
            | none => Res.panic
            | some tag =>
              match (if tag = blockNoCompression then Res.ok raw.dropLast
                else if tag = blockSnappyCompression then
                  match sn.Decode raw.dropLast with
                  | some plain => Res.ok plain
                  | none => Res.err Error.snappyError
                else Res.err Error.errBadCompression : Res Bytes) with
              | Res.ok block =>
                match sliceFrom block ((block.length : Int) - 4) with
                | Res.ok tail =>
                  match Uint32 tail with
                  | some scnt =>
                    Res.ok { block := block, bpos := pre.length, scnt := scnt, maxKey := b.1 }
                  | none => Res.panic
                | Res.err e => Res.err e
                | Res.panic => Res.panic
                | Res.outOfFuel => Res.outOfFuel
              | Res.err e => Res.err e
              | Res.panic => Res.panic
              | Res.outOfFuel => Res.outOfFuel
          | Res.err e => Res.err e
          | Res.panic => Res.panic
          | Res.outOfFuel => Res.outOfFuel) =
        Res.ok { block := block, bpos := pre.length, scnt := n % 2 ^ 32, maxKey := b.1 } := by
    intro mx hmx
    have hnn : ¬ mx - ((fileBlocks pre).length : Int) < 0 := by omega
    have hsz : (mx - ((fileBlocks pre).length : Int)).toNat = b.2.length := by omega
    rw [if_neg hnn, hsz, hread]
    simp only [hlast, hdrop]
    rcases hdec with ⟨ht, hbl⟩ | ⟨ht, hbl⟩
    · subst hbl
      rw [if_pos ht]
      simp only [hslice, huint]
    · have ht0 : ¬ tag = blockNoCompression := by rw [ht]; decide
      rw [if_neg ht0, if_pos ht, hbl]
      simp only [hslice, huint]
  unfold Reader.readBlock
  rcases hnext with ⟨h1, h2⟩ | ⟨k, h1⟩
  · subst h2
    simp only [fileReader, fileIndex_get, h1]
    exact hfin _ (by simp [fileBlocks_append, fileBlocks])
  · simp only [fileReader, fileIndex_get, h1]
    exact hfin _ rfl

theorem Reader.GetBlock_raw (sn : Codec) (pre : List (Nat × Bytes)) (b : Nat × Bytes)
    (post : List (Nat × Bytes)) :
    (fileReader (pre ++ b :: post)).GetBlock sn (pre.length : Int) =
      (fileReader (pre ++ b :: post)).readBlock sn pre.length := by
  have hlen : (fileReader (pre ++ b :: post)).index.length = pre.length + post.length + 1 := by
    simp [fileReader, fileIndex_length]; omega
  have hb : (if (pre.length : Int) < 0 then (0 : Int) else (pre.length : Int)) =
      (pre.length : Int) := if_neg (by omega)
  unfold Reader.GetBlock
  rw [if_neg (by rw [hlen]; omega)]
  simp only [hb]
  rw [if_neg (by rw [hlen]; push_cast; omega), Int.toNat_natCast]

theorem Reader.GetBlock_end (sn : Codec) (raw : List (Nat × Bytes)) :
    ∃ b, (fileReader raw).GetBlock sn (raw.length : Int) = Res.ok b ∧ b.scnt = 0 ∧
      b.maxKey = 0 ∧ b.block = [] ∧ ¬ (b.bpos + 1 < raw.length) := by
  have hlen : (fileReader raw).index.length = raw.length := by
    simp [fileReader, fileIndex_length]
  have hb : (if (raw.length : Int) < 0 then (0 : Int) else (raw.length : Int)) =
      (raw.length : Int) := if_neg (by omega)
  unfold Reader.GetBlock
  by_cases h : (fileReader raw).index.length = 0
  · rw [if_pos h]
    refine ⟨_, rfl, rfl, rfl, rfl, ?_⟩
    have : raw.length = 0 := by rw [← hlen]; exact h
    simp [this]
  · rw [if_neg h]
    simp only [hb]
    rw [if_pos (by rw [hlen])]
    exact ⟨_, rfl, rfl, rfl, rfl, by simp [hlen]⟩

theorem Reader.seekBlockPred_eq (raw : List (Nat × Bytes)) (k i : Nat) (hi : i < raw.length) :
    (fileReader raw).seekBlockPred k i = Res.ok (decide (k ≤ maxKeyAt raw i)) := by
  obtain ⟨a, x, c, hraw, hlen, hdrop⟩ := List.split_at raw i hi
  subst hraw
  subst hlen
  unfold Reader.seekBlockPred
  simp only [fileReader, fileIndex_get, maxKeyAt, hdrop]

theorem Reader.SeekBlock_spec (sn : Codec) (raw : List (Nat × Bytes)) (k : Nat)
    (hmono : ∀ i j, i ≤ j → j < raw.length → maxKeyAt raw i ≤ maxKeyAt raw j) :
    ∃ m, m ≤ raw.length ∧ (∀ i, i < m → maxKeyAt raw i < k) ∧
      (∀ i, m ≤ i → i < raw.length → k ≤ maxKeyAt raw i) ∧
      (fileReader raw).SeekBlock sn k = (fileReader raw).GetBlock sn (m : Int) := by
  have hlen : (fileReader raw).index.length = raw.length := by
    simp [fileReader, fileIndex_length]
  obtain ⟨m, hm, hle, hlo, hhi⟩ := Search_spec raw.length ((fileReader raw).seekBlockPred k)
    (fun i => decide (k ≤ maxKeyAt raw i))
    (fun i hi => Reader.seekBlockPred_eq raw k i hi)
    (by
      intro i j hij hj hp
      have := hmono i j hij hj
      simp only [decide_eq_true_eq] at hp ⊢
      omega)
  refine ⟨m, hle, ?_, ?_, ?_⟩
  · intro i hi
    have := hlo i hi
    simp only [decide_eq_false_iff_not] at this
    omega
  · intro i hmi hi
    have := hhi i hmi hi
    simpa using this
  · unfold Reader.SeekBlock
    rw [hlen, hm]

/-! ## The reader on a table -/

theorem emitted_cases (sn : Codec) (c : Compression) (u : Bytes) :
    emitted sn c u = u ++ [blockNoCompression] ∨
      emitted sn c u = sn.Encode u ++ [blockSnappyCompression] := by
  unfold emitted
  split
  · split
    · right; rfl
    · left; rfl
  · left; rfl

theorem tableRaw_append (sn : Codec) (c : Compression) (a b : List (List (List Entry))) :
    tableRaw sn c (a ++ b) = tableRaw sn c a ++ tableRaw sn c b := by
  simp [tableRaw]

theorem tableRaw_length (sn : Codec) (c : Compression) (a : List (List (List Entry))) :
    (tableRaw sn c a).length = a.length := by
  simp [tableRaw]

theorem Reader.GetBlock_table (sn : Codec) (hsn : sn.lawful) (c : Compression)
    (bpre : List (List (List Entry))) (blk : List (List Entry))
    (bpost : List (List (List Entry))) (hok : blockOk blk) :
    (fileReader (tableRaw sn c (bpre ++ blk :: bpost))).GetBlock sn (bpre.length : Int) =
      Res.ok { block := blockPayload blk, bpos := bpre.length, scnt := blk.length,
               maxKey := lastKey 0 blk.flatten } := by
  have hraw : tableRaw sn c (bpre ++ blk :: bpost) =
      tableRaw sn c bpre ++ (lastKey 0 blk.flatten, blockBytes sn c blk) :: tableRaw sn c bpost := by
    simp [tableRaw]
  have hlen : (tableRaw sn c bpre).length = bpre.length := tableRaw_length sn c bpre
  obtain ⟨hne, hsec, -, hcnt⟩ := hok
  obtain ⟨body, hbody⟩ : ∃ body, blockPayload blk = body ++ PutUint32 blk.length := by
    cases blk with
    | nil => exact absurd rfl hne
    | cons s rest => exact ⟨_, blockPayload_eq s rest (hsec s (by simp))⟩
  rw [hraw, ← hlen, Reader.GetBlock_raw]
  rcases emitted_cases sn c (blockPayload blk) with h | h
  · rw [Reader.readBlock_raw sn _ (lastKey 0 blk.flatten, blockBytes sn c blk) _
      (blockPayload blk) blockNoCompression (blockPayload blk) body blk.length h
      (Or.inl ⟨rfl, rfl⟩) hbody]
    rw [Nat.mod_eq_of_lt hcnt]
  · rw [Reader.readBlock_raw sn _ (lastKey 0 blk.flatten, blockBytes sn c blk) _
      (sn.Encode (blockPayload blk)) blockSnappyCompression (blockPayload blk) body blk.length h
      (Or.inr ⟨rfl, hsn _⟩) hbody]
    rw [Nat.mod_eq_of_lt hcnt]

theorem okFrom_of_pairwise (s : List Entry) : ∀ (p : Nat),
    s.Pairwise (fun a b => a.1 < b.1) → (∀ e ∈ s, e.1 < 2 ^ 64 ∧ e.2.length < 2 ^ 63) →
    (∀ e ∈ s, p ≤ e.1) → okFrom p s := by
  induction s with
  | nil => intro p _ _ _; trivial
  | cons e rest ih =>
    intro p hpw hb hp
    rw [List.pairwise_cons] at hpw
    refine ⟨hp e (by simp), (hb e (by simp)).1, (hb e (by simp)).2, ?_⟩
    exact ih e.1 hpw.2 (fun x hx => hb x (by simp [hx]))
      (fun x hx => Nat.le_of_lt (hpw.1 x hx))

theorem tableOk_section (bpre : List (List (List Entry))) (spre : List (List Entry))
    (sec : List Entry) (spost : List (List Entry)) (bpost : List (List (List Entry)))
    (hok : tableOk (bpre ++ (spre ++ sec :: spost) :: bpost)) :
    blockOk (spre ++ sec :: spost) ∧ okFrom 0 sec ∧ sec ≠ [] := by
  obtain ⟨hblk, hpw, hb⟩ := hok
  have hb1 : blockOk (spre ++ sec :: spost) := hblk _ (by simp)
  refine ⟨hb1, ?_, hb1.2.1 sec (by simp)⟩
  apply okFrom_of_pairwise
  · simp only [List.flatten_append, List.flatten_cons, List.pairwise_append] at hpw
    exact hpw.2.1.1.2.1.1
  · intro e he
    exact hb e (by simp [he])
  · intro e _; exact Nat.zero_le _

theorem SectionReader.Next_fresh (b : BlockReader) (a : List (List Entry)) (e : Entry)
    (post : List Entry) (c : List (List Entry))
    (hblock : b.block = blockPayload (a ++ (e :: post) :: c))
    (hscnt : b.scnt = (a ++ (e :: post) :: c).length) (hok : blockOk (a ++ (e :: post) :: c))
    (hsec : okFrom 0 (e :: post)) :
    ∃ s0 s', b.GetSection (a.length : Int) = Res.ok s0 ∧ s0.Next = Res.ok (s', true) ∧
      s'.sec = encEntry (e.1 - 0) e.2 ++ encSec e.1 post ∧
      s'.read = ((encEntry (e.1 - 0) e.2).length : Int) ∧ s'.key = e.1 ∧ s'.val = e.2 ∧
      s'.spos = a.length := by
  have h := SectionReader.Next_cons
    { sec := encSec 0 (e :: post), spos := a.length, read := 0, key := 0, val := [] }
    [] 0 e post (by simp) (by simp) rfl (Nat.zero_le _) hsec.2.1 hsec.2.2.1
  exact ⟨_, _, BlockReader.GetSection_split b a (e :: post) c hblock hscnt hok, h,
    by simp [encSec], by simp, rfl, rfl, rfl⟩

theorem Iterator.Next_spec (sn : Codec) (hsn : sn.lawful) (c : Compression)
    (blks : List (List (List Entry))) (hok : tableOk blks) (it : Iterator) (rem : List Entry)
    (h : IterAt sn c blks it rem) :
    (rem = [] → it.Next sn = Res.ok (it, false)) ∧
    (∀ e rem', rem = e :: rem' →
      ∃ it', it.Next sn = Res.ok (it', true) ∧ it'.Key = e.1 ∧ it'.Value = e.2 ∧
        IterAt sn c blks it' rem') := by
  obtain ⟨hr, herr, hcase⟩ := h
  have hnb : it.r.NumBlocks = blks.length := by
    rw [hr]; simp [Reader.NumBlocks, fileReader, fileIndex_length, tableRaw_length]
  have herr' : ¬ (it.err ≠ none) := by simp [herr]
  rcases hcase with ⟨bpre, blk, bpost, spre, sec, spost, pre, p, post, hblks, hblk, hb, hsec,
      hread, hkey, hpost, hspos, hrem⟩ | ⟨hmore, hs, hbp, hrem⟩
  · subst hblks
    subst hblk
    have hmore := SectionReader.More_iff it.s pre p post hsec hread
    cases post with
    | cons e post' =>
      have hm : it.s.More = true := hmore.2 (by simp)
      obtain ⟨hp, h64, hv, hok'⟩ := hpost
      have hnext := SectionReader.Next_cons it.s pre p e post' hsec hread hkey hp h64 hv
      constructor
      · intro h0; rw [h0] at hrem; simp at hrem
      · intro e0 rem' hr0
        rw [hr0] at hrem
        simp only [List.cons_append, List.cons.injEq] at hrem
        obtain ⟨he0, hrem'⟩ := hrem
        subst he0
        refine ⟨{ it with s := { it.s with
            read := (((pre ++ encEntry (e0.1 - p) e0.2).length : Nat) : Int),
            key := e0.1, val := e0.2 } }, ?_, ?_, ?_, ?_⟩
        · unfold Iterator.Next
          rw [if_neg herr', if_pos hm, hnext]
        · rfl
        · rfl
        · refine ⟨hr, herr, Or.inl ⟨bpre, _, bpost, spre, sec, spost,
            pre ++ encEntry (e0.1 - p) e0.2, e0.1, post', rfl, rfl, hb, ?_, rfl, rfl, hok',
            hspos, hrem'⟩⟩
          simp only [hsec, encSec, List.append_assoc]
    | nil =>
      have hm : it.s.More = false := by
        rcases hx : it.s.More with _ | _
        · rfl
        · exact absurd (hmore.1 hx) (by simp)
      cases spost with
      | cons sec' spost' =>
        obtain ⟨hbok, -, -⟩ := tableOk_section _ _ _ _ _ hok
        have hassoc : spre ++ sec :: sec' :: spost' = (spre ++ [sec]) ++ sec' :: spost' := by simp
        rw [hassoc] at hok hb hbok
        obtain ⟨-, hsok, hsne⟩ := tableOk_section _ _ _ _ _ hok
        cases sec' with
        | nil => exact absurd rfl hsne
        | cons e post' =>
          obtain ⟨s0, s', hg, hn, h1, h2, h3, h4, h5⟩ := SectionReader.Next_fresh it.b
            (spre ++ [sec]) e post' spost' (by rw [hb]) (by rw [hb]) hbok hsok
          have hlt : it.s.Pos + 1 < it.b.NumSections := by
            simp [SectionReader.Pos, BlockReader.NumSections, hspos, hb]
          have hcast : ((it.s.Pos : Int) + 1) = (((spre ++ [sec]).length : Nat) : Int) := by
            simp [SectionReader.Pos, hspos]
          constructor
          · intro h0; rw [h0] at hrem; simp at hrem
          · intro e0 rem' hr0
            rw [hr0] at hrem
            simp only [List.nil_append, List.flatten_cons, List.cons_append,
              List.cons.injEq] at hrem
            obtain ⟨he0, hrem'⟩ := hrem
            subst he0
            refine ⟨{ it with s := s' }, ?_, h3, h4, ?_⟩
            · unfold Iterator.Next
              rw [if_neg herr', hm]
              simp only [Bool.false_eq_true, if_false, if_pos hlt]
              rw [hcast, hg]
              simp only [hn]
            · refine ⟨hr, herr, Or.inl ⟨bpre, _, bpost, spre ++ [sec], e0 :: post', spost',
                encEntry (e0.1 - 0) e0.2, e0.1, post', by rw [hassoc], rfl, hb, h1, h2, h3,
                hsok.2.2.2, h5, ?_⟩⟩
              exact hrem'
      | nil =>
        have hnlt : ¬ (it.s.Pos + 1 < it.b.NumSections) := by
          simp [SectionReader.Pos, BlockReader.NumSections, hspos, hb]
        cases bpost with
        | cons blk' bpost' =>
          have hassoc : bpre ++ (spre ++ [sec]) :: blk' :: bpost' =
              (bpre ++ [spre ++ [sec]]) ++ blk' :: bpost' := by simp
          have hbok' : blockOk blk' := hok.1 blk' (by simp)
          cases blk' with
          | nil => exact absurd rfl hbok'.1
          | cons sec' spost' =>
            have hok2 : tableOk ((bpre ++ [spre ++ [sec]]) ++ ([] ++ sec' :: spost') :: bpost') := by
              simpa using hok
            obtain ⟨-, hsok, hsne⟩ := tableOk_section _ _ _ _ _ hok2
            cases sec' with
            | nil => exact absurd rfl hsne
            | cons e post' =>
              have hgb := Reader.GetBlock_table sn hsn c (bpre ++ [spre ++ [sec]])
                ((e :: post') :: spost') bpost' hbok'
              rw [← hassoc] at hgb
              obtain ⟨s0, s', hg, hn, h1, h2, h3, h4, h5⟩ := SectionReader.Next_fresh
                { block := blockPayload ((e :: post') :: spost'),
                  bpos := (bpre ++ [spre ++ [sec]]).length,
                  scnt := ((e :: post') :: spost').length,
                  maxKey := lastKey 0 ((e :: post') :: spost').flatten }
                [] e post' spost' rfl rfl hbok' hsok
              have hlt : it.b.Pos + 1 < it.r.NumBlocks := by
                rw [hnb]; simp [BlockReader.Pos, hb]
              have hcast : ((it.b.Pos : Int) + 1) =
                  (((bpre ++ [spre ++ [sec]]).length : Nat) : Int) := by
                simp [BlockReader.Pos, hb]
              constructor
              · intro h0; rw [h0] at hrem; simp at hrem
              · intro e0 rem' hr0
                rw [hr0] at hrem
                simp only [List.nil_append, List.flatten_cons, List.cons_append,
                  List.flatten_nil, List.cons.injEq] at hrem
                obtain ⟨he0, hrem'⟩ := hrem
                subst he0
                refine ⟨{ it with
                  b := { block := blockPayload ((e0 :: post') :: spost'),
                         bpos := (bpre ++ [spre ++ [sec]]).length,
                         scnt := ((e0 :: post') :: spost').length,
                         maxKey := lastKey 0 ((e0 :: post') :: spost').flatten },
                  s := s' }, ?_, h3, h4, ?_⟩
                · unfold Iterator.Next
                  rw [if_neg herr', hm]
                  simp only [Bool.false_eq_true, if_false, if_neg hnlt, if_pos hlt]
                  rw [hcast, hr, hgb]
                  simp only
                  have hg0 : (0 : Int) = ((([] : List (List Entry)).length : Nat) : Int) := rfl
                  rw [hg0, hg]
                  simp only [hn]
                · refine ⟨hr, herr, Or.inl ⟨bpre ++ [spre ++ [sec]], _, bpost', [], e0 :: post',
                    spost', encEntry (e0.1 - 0) e0.2, e0.1, post', by simp, by simp, rfl, h1,
                    h2, h3, hsok.2.2.2, h5, ?_⟩⟩
                  first | exact hrem' | simp [hrem', List.flatten_append]
        | nil =>
          have hnlt2 : ¬ (it.b.Pos + 1 < it.r.NumBlocks) := by
            rw [hnb]; simp [BlockReader.Pos, hb]
          constructor
          · intro _
            unfold Iterator.Next
            rw [if_neg herr', hm]
            simp only [Bool.false_eq_true, if_false, if_neg hnlt, if_neg hnlt2]
          · intro e0 rem' hr0
            rw [hr0] at hrem; simp at hrem
  · constructor
    · intro _
      have hnlt : ¬ (it.s.Pos + 1 < it.b.NumSections) := hs
      have hnlt2 : ¬ (it.b.Pos + 1 < it.r.NumBlocks) := by rw [hnb]; exact hbp
      unfold Iterator.Next
      rw [if_neg herr', hmore]
      simp only [Bool.false_eq_true, if_false, if_neg hnlt, if_neg hnlt2]
    · intro e0 rem' hr0
      rw [hr0] at hrem; simp at hrem

/-! ## Order facts about the keys of a table -/

theorem dropWhile_append_of_neg {α : Type} (p : α → Bool) (l₁ l₂ : List α)
    (h : ∀ x ∈ l₂, p x = false) : (l₁ ++ l₂).dropWhile p = l₁.dropWhile p ++ l₂ := by
  induction l₁ with
  | nil =>
    cases l₂ with
    | nil => rfl
    | cons x rest =>
      have := h x (by simp)
      simp [List.dropWhile, this]
  | cons a rest ih =>
    simp only [List.cons_append, List.dropWhile_cons]
    split
    · exact ih
    · rfl

theorem lastKey_append (p : Nat) (a b : List Entry) :
    lastKey p (a ++ b) = lastKey (lastKey p a) b := by
  induction a generalizing p with
  | nil => rfl
  | cons e rest ih => exact ih e.1

theorem lastKey_of_ne_nil (p q : Nat) (l : List Entry) (h : l ≠ []) :
    lastKey p l = lastKey q l := by
  cases l with
  | nil => exact absurd rfl h
  | cons e rest => rfl

theorem lastKey_mem (p : Nat) (l : List Entry) (h : l ≠ []) : ∃ e ∈ l, lastKey p l = e.1 := by
  induction l generalizing p with
  | nil => exact absurd rfl h
  | cons e rest ih =>
    cases rest with
    | nil => exact ⟨e, by simp, rfl⟩
    | cons x xs =>
      obtain ⟨y, hy, hk⟩ := ih e.1 (by simp)
      exact ⟨y, by simp [hy], hk⟩

theorem le_lastKey (l : List Entry) : ∀ (p : Nat), l.Pairwise (fun a b => a.1 < b.1) →
    ∀ e ∈ l, e.1 ≤ lastKey p l := by
  induction l with
  | nil => intro p _ e he; simp at he
  | cons x rest ih =>
    intro p hpw e he
    rw [List.pairwise_cons] at hpw
    cases rest with
    | nil =>
      simp only [List.mem_singleton] at he
      rw [he]; exact le_refl _
    | cons y ys =>
      simp only [List.mem_cons] at he
      rcases he with h | h
      · obtain ⟨z, hz, hk⟩ := lastKey_mem x.1 (y :: ys) (by simp)
        show e.1 ≤ lastKey x.1 (y :: ys)
        rw [hk, h]
        exact Nat.le_of_lt (hpw.1 z hz)
      · exact ih x.1 hpw.2 e (by simpa using h)

theorem firstKey_le (h : Entry) (t : List Entry)
    (hpw : (h :: t).Pairwise (fun a b => a.1 < b.1)) : ∀ e ∈ h :: t, h.1 ≤ e.1 := by
  intro e he
  rw [List.pairwise_cons] at hpw
  simp only [List.mem_cons] at he
  rcases he with h1 | h1
  · rw [h1]
  · exact Nat.le_of_lt (hpw.1 e h1)

theorem getD_mono (L : List Nat) (h : L.Pairwise (fun a b => a < b)) (i j : Nat) (hij : i ≤ j)
    (hj : j < L.length) : L.getD i 0 ≤ L.getD j 0 := by
  rw [List.getD_eq_getElem L 0 (by omega), List.getD_eq_getElem L 0 hj]
  rcases Nat.lt_or_eq_of_le hij with h1 | h1
  · exact Nat.le_of_lt ((List.pairwise_iff_getElem.1 h) i j (by omega) hj h1)
  · subst h1; exact le_refl _

theorem maxKeyAt_eq_getD (raw : List (Nat × Bytes)) : ∀ i,
    maxKeyAt raw i = (raw.map Prod.fst).getD i 0 := by
  induction raw with
  | nil => intro i; simp [maxKeyAt]
  | cons b rest ih =>
    intro i
    cases i with
    | zero => simp [maxKeyAt]
    | succ i =>
      have := ih i
      simp only [maxKeyAt, List.drop_succ_cons, List.map_cons, List.getD_cons_succ] at this ⊢
      exact this

theorem firstKeyAt_eq_getD (secs : List (List Entry)) : ∀ i,
    firstKeyAt secs i = (secs.map firstKey).getD i 0 := by
  induction secs with
  | nil => intro i; simp [firstKeyAt]
  | cons s rest ih =>
    intro i
    cases i with
    | zero => cases s <;> simp [firstKeyAt, firstKey]
    | succ i =>
      have := ih i
      simp only [firstKeyAt, List.drop_succ_cons, List.map_cons, List.getD_cons_succ] at this ⊢
      exact this

theorem pairwise_firstKeys (secs : List (List Entry)) (hne : ∀ s ∈ secs, s ≠ [])
    (hpw : secs.flatten.Pairwise (fun a b => a.1 < b.1)) :
    (secs.map firstKey).Pairwise (fun a b => a < b) := by
  induction secs with
  | nil => exact List.Pairwise.nil
  | cons s rest ih =>
    simp only [List.flatten_cons, List.pairwise_append] at hpw
    obtain ⟨hs, hrest, hcross⟩ := hpw
    rw [List.map_cons, List.pairwise_cons]
    refine ⟨?_, ih (fun x hx => hne x (by simp [hx])) hrest⟩
    intro y hy
    obtain ⟨s', hs', hy'⟩ := List.mem_map.1 hy
    have hsne := hne s (by simp)
    have hs'ne := hne s' (by simp [hs'])
    cases s with
    | nil => exact absurd rfl hsne
    | cons e t =>
      cases s' with
      | nil => exact absurd rfl hs'ne
      | cons e' t' =>
        rw [← hy']
        exact hcross e (by simp) e' (List.mem_flatten.2 ⟨_, hs', by simp⟩)

theorem pairwise_lastKeys (secs : List (List Entry)) (hne : ∀ s ∈ secs, s ≠ [])
    (hpw : secs.flatten.Pairwise (fun a b => a.1 < b.1)) :
    (secs.map (lastKey 0)).Pairwise (fun a b => a < b) := by
  induction secs with
  | nil => exact List.Pairwise.nil
  | cons s rest ih =>
    simp only [List.flatten_cons, List.pairwise_append] at hpw
    obtain ⟨hs, hrest, hcross⟩ := hpw
    rw [List.map_cons, List.pairwise_cons]
    refine ⟨?_, ih (fun x hx => hne x (by simp [hx])) hrest⟩
    intro y hy
    obtain ⟨s', hs', hy'⟩ := List.mem_map.1 hy
    obtain ⟨e, he, hk⟩ := lastKey_mem 0 s (hne s (by simp))
    obtain ⟨e', he', hk'⟩ := lastKey_mem 0 s' (hne s' (by simp [hs']))
    rw [← hy', hk, hk']
    exact hcross e he e' (List.mem_flatten.2 ⟨_, hs', he'⟩)

/-! ## Seeking within a block -/

theorem BlockReader.GetSection_neg (b : BlockReader) : b.GetSection (-1) = b.GetSection 0 := by
  unfold BlockReader.GetSection
  simp

theorem firstKeyAt_of_drop (secs : List (List Entry)) (i : Nat) (e : Entry) (t : List Entry)
    (rest : List (List Entry)) (h : secs.drop i = (e :: t) :: rest) : firstKeyAt secs i = e.1 := by
  simp [firstKeyAt, h]

theorem BlockReader.seek_spec (b : BlockReader) (blk : List (List Entry)) (k fuel : Nat)
    (hblock : b.block = blockPayload blk) (hscnt : b.scnt = blk.length)
    (hmaxk : b.maxKey = lastKey 0 blk.flatten) (hbok : blockOk blk)
    (hpw : blk.flatten.Pairwise (fun a b => a.1 < b.1))
    (hbd : ∀ e ∈ blk.flatten, e.1 < 2 ^ 64 ∧ e.2.length < 2 ^ 63)
    (hk : k ≤ lastKey 0 blk.flatten) (hfuel : blk.flatten.length ≤ fuel) :
    ∃ s0 s r spre sec spost pre p post,
      b.SeekSection k = Res.ok s0 ∧ s0.Seek fuel k = Res.ok (s, r) ∧
      blk = spre ++ sec :: spost ∧ s.sec = pre ++ encSec p post ∧
      s.read = (pre.length : Int) ∧ s.key = p ∧ okFrom p post ∧ s.spos = spre.length ∧
      (∀ D : List Entry, (∀ x ∈ D, k ≤ x.1) →
        (blk.flatten ++ D).dropWhile (fun e => decide (e.1 < k)) = post ++ spost.flatten ++ D) := by
  have h64 : ∀ s ∈ blk, ∀ e ∈ s, e.1 < 2 ^ 64 :=
    fun s hs e he => (hbd e (List.mem_flatten.2 ⟨s, hs, he⟩)).1
  have hmono : ∀ i j, i ≤ j → j < blk.length → firstKeyAt blk i ≤ firstKeyAt blk j := by
    intro i j hij hj
    rw [firstKeyAt_eq_getD, firstKeyAt_eq_getD]
    exact getD_mono _ (pairwise_firstKeys blk hbok.2.1 hpw) i j hij (by simpa using hj)
  obtain ⟨j, hjle, hlo, hhi, hss⟩ := BlockReader.SeekSection_spec b blk k hblock hscnt hbok
    (by rw [hmaxk]; exact hk) h64 hmono
  have hlen : 0 < blk.length := List.length_pos.2 hbok.1
  -- the section the search selects, as a split of the block
  obtain ⟨spre, sec, spost, hsplit, hspre, hdrop⟩ := List.split_at blk (j - 1) (by omega)
  have hgs : b.GetSection ((j : Int) - 1) = b.GetSection (spre.length : Int) := by
    by_cases hj0 : j = 0
    · subst hj0
      have : spre.length = 0 := by omega
      rw [this]
      simpa using BlockReader.GetSection_neg b
    · have : ((j : Int) - 1) = ((spre.length : Nat) : Int) := by omega
      rw [this]
  subst hsplit
  have hg := BlockReader.GetSection_split b spre sec spost hblock hscnt hbok
  have hsne : sec ≠ [] := hbok.2.1 sec (by simp)
  simp only [List.flatten_append, List.flatten_cons, List.pairwise_append] at hpw
  obtain ⟨hpw_spre, ⟨hpw_sec, hpw_spost, hcross2⟩, hcross1⟩ := hpw
  have hsok : okFrom 0 sec := okFrom_of_pairwise sec 0 hpw_sec
    (fun e he => hbd e (by simp [he])) (fun e _ => Nat.zero_le _)
  obtain ⟨s, pre, p, hseek, hsec1, hspos1, hsec2, hread, hkey, hpost⟩ :=
    SectionReader.Seek_spec k sec fuel
      { sec := encSec 0 sec, spos := spre.length, read := 0, key := 0, val := [] } [] 0
      (by simp) (by simp) rfl hsok
      (by
        have : sec.length ≤ (spre ++ sec :: spost).flatten.length := by
          simp only [List.flatten_append, List.flatten_cons, List.length_append]; omega
        omega)
  refine ⟨_, s, _, spre, sec, spost, pre, p, sec.dropWhile (fun e => decide (e.1 < k)),
    by rw [hss, hgs, hg], hseek, rfl, ?_, hread, hkey, hpost, hspos1, ?_⟩
  · rw [hsec1]; exact hsec2
  · intro D hD
    -- entries of the sections before the selected one are below `k`
    have hbefore : ∀ x ∈ spre.flatten, (decide (x.1 < k)) = true := by
      intro x hx
      by_cases hj0 : j = 0
      · have : spre.length = 0 := by omega
        have : spre = [] := List.length_eq_zero.1 this
        subst this
        simp at hx
      · cases sec with
        | nil => exact absurd rfl hsne
        | cons h t =>
          have hfk : firstKeyAt (spre ++ (h :: t) :: spost) (j - 1) = h.1 :=
            firstKeyAt_of_drop _ _ h t spost hdrop
          have h1 := hlo (j - 1) (by omega)
          rw [hfk] at h1
          have h2 := hcross1 x hx h (by simp)
          simp only [decide_eq_true_eq]
          omega
    -- entries of the sections after it are at or above `k`
    have hafter : ∀ x ∈ spost.flatten ++ D, (decide (x.1 < k)) = false := by
      intro x hx
      simp only [decide_eq_false_iff_not, not_lt]
      rcases List.mem_append.1 hx with h1 | h1
      · cases spost with
        | nil => simp at h1
        | cons s' rest' =>
          have hs'ne : s' ≠ [] := hbok.2.1 s' (by simp)
          cases s' with
          | nil => exact absurd rfl hs'ne
          | cons h' t' =>
            by_cases hj0 : j = 0
            · -- the search selected no section: every first key is above `k`
              have hsp : spre = [] := List.length_eq_zero.1 (by omega)
              subst hsp
              cases sec with
              | nil => exact absurd rfl hsne
              | cons h t =>
                have hfk : firstKeyAt ([] ++ (h :: t) :: (h' :: t') :: rest') 0 = h.1 := by
                  simp [firstKeyAt]
                have h2 := hhi 0 (by omega) (by simp)
                rw [hfk] at h2
                have h3 := hcross2 h (by simp) x h1
                omega
            · have hd2 : (spre ++ sec :: (h' :: t') :: rest').drop j = (h' :: t') :: rest' := by
                have : j = (spre ++ [sec]).length := by simp; omega
                rw [this, show spre ++ sec :: (h' :: t') :: rest' =
                  (spre ++ [sec]) ++ (h' :: t') :: rest' by simp, List.drop_left]
              have hfk := firstKeyAt_of_drop _ j h' t' rest' hd2
              have h2 := hhi j (le_refl _) (by simp; omega)
              rw [hfk] at h2
              have h3 := firstKey_le h' (t' ++ rest'.flatten) (by simpa using hpw_spost) x
                (by simpa using h1)
              omega
      · exact hD x h1
    by_cases hj0 : j = 0
    · have hsp : spre = [] := List.length_eq_zero.1 (by omega)
      subst hsp
      cases sec with
      | nil => exact absurd rfl hsne
      | cons h t =>
        have hfk : firstKeyAt ([] ++ (h :: t) :: spost) 0 = h.1 := by simp [firstKeyAt]
        have h2 := hhi 0 (by omega) (by simp)
        rw [hfk] at h2
        have e1 : ∀ rest : List Entry,
            List.dropWhile (fun e : Entry => decide (e.1 < k)) (h :: rest) = h :: rest :=
          fun rest => List.dropWhile_cons_of_neg (by simp; omega)
        simp only [List.nil_append, List.flatten_cons, List.cons_append, e1, List.append_assoc]
    · rw [List.flatten_append, List.append_assoc, List.dropWhile_append_of_pos hbefore,
        List.flatten_cons, List.append_assoc,
        dropWhile_append_of_neg _ sec (spost.flatten ++ D) hafter, List.append_assoc]

/-! ## Seeking in a table -/

theorem blockOk_flatten_ne_nil (blk : List (List Entry)) (h : blockOk blk) : blk.flatten ≠ [] := by
  obtain ⟨hne, hsec, -, -⟩ := h
  cases blk with
  | nil => exact absurd rfl hne
  | cons s rest =>
    have := hsec s (by simp)
    cases s with
    | nil => exact absurd rfl this
    | cons e t => simp

theorem maxKeyAt_split (sn : Codec) (c : Compression) (a : List (List (List Entry)))
    (b : List (List Entry)) (rest : List (List (List Entry))) :
    maxKeyAt (tableRaw sn c (a ++ b :: rest)) a.length = lastKey 0 b.flatten := by
  have h : (tableRaw sn c (a ++ b :: rest)).drop a.length =
      (lastKey 0 b.flatten, blockBytes sn c b) :: tableRaw sn c rest := by
    have h1 : tableRaw sn c (a ++ b :: rest) =
        tableRaw sn c a ++ (lastKey 0 b.flatten, blockBytes sn c b) :: tableRaw sn c rest := by
      simp [tableRaw]
    rw [h1, ← tableRaw_length sn c a, List.drop_left]
  simp [maxKeyAt, h]

theorem keys_before (sn : Codec) (c : Compression) (bpre rest : List (List (List Entry)))
    (k : Nat) (hne : ∀ b ∈ bpre, b.flatten ≠ [])
    (hpw : bpre.flatten.flatten.Pairwise (fun a b => a.1 < b.1))
    (h : ∀ i, i < bpre.length → maxKeyAt (tableRaw sn c (bpre ++ rest)) i < k) :
    ∀ e ∈ bpre.flatten.flatten, e.1 < k := by
  rcases List.eq_nil_or_concat bpre with h0 | ⟨L, b0, h0⟩
  · subst h0; intro e he; simp at he
  · rw [List.concat_eq_append] at h0
    subst h0
    intro e he
    have h1 := h L.length (by simp)
    rw [show L ++ [b0] ++ rest = L ++ b0 :: rest by simp, maxKeyAt_split] at h1
    have h2 := le_lastKey _ 0 hpw e he
    have h3 : lastKey 0 (L ++ [b0]).flatten.flatten = lastKey 0 b0.flatten := by
      simp only [List.flatten_append, List.flatten_cons, List.flatten_nil, List.append_nil]
      rw [lastKey_append]
      exact lastKey_of_ne_nil _ _ _ (hne b0 (by simp))
    omega

theorem BlockReader.SeekSection_empty (b : BlockReader) (k : Nat) (hscnt : b.scnt = 0) :
    b.SeekSection k = Res.ok { sec := [], spos := 0, read := 0, key := 0, val := [] } := by
  unfold BlockReader.SeekSection BlockReader.GetSection
  by_cases h : b.maxKey < k
  · simp [h, hscnt]
  · simp [h, hscnt, Search, searchLoop]

theorem SectionReader.Seek_empty (fuel k spos : Nat) :
    SectionReader.Seek fuel { sec := [], spos := spos, read := 0, key := 0, val := [] } k =
      Res.ok ({ sec := [], spos := spos, read := 0, key := 0, val := [] }, false) := by
  cases fuel <;> simp [SectionReader.Seek, SectionReader.More]

theorem tableRaw_mono (sn : Codec) (c : Compression) (blks : List (List (List Entry)))
    (hok : tableOk blks) (i j : Nat) (hij : i ≤ j) (hj : j < (tableRaw sn c blks).length) :
    maxKeyAt (tableRaw sn c blks) i ≤ maxKeyAt (tableRaw sn c blks) j := by
  rw [maxKeyAt_eq_getD, maxKeyAt_eq_getD]
  have hmap : (tableRaw sn c blks).map Prod.fst = (blks.map List.flatten).map (lastKey 0) := by
    simp [tableRaw]
  rw [hmap]
  refine getD_mono _ (pairwise_lastKeys _ ?_ ?_) i j hij (by simpa [tableRaw] using hj)
  · intro s hs
    obtain ⟨b, hb, hbs⟩ := List.mem_map.1 hs
    rw [← hbs]
    exact blockOk_flatten_ne_nil b (hok.1 b hb)
  · rw [← List.flatten_flatten]
    exact hok.2.1

theorem Reader.Seek_table (sn : Codec) (hsn : sn.lawful) (c : Compression)
    (blks : List (List (List Entry))) (hok : tableOk blks) (k fuel : Nat)
    (hfuel : blks.flatten.flatten.length ≤ fuel) :
    ∃ it, (fileReader (tableRaw sn c blks)).Seek sn fuel k = Res.ok it ∧
      IterAt sn c blks it (blks.flatten.flatten.dropWhile (fun e => decide (e.1 < k))) := by
  have hrl : (tableRaw sn c blks).length = blks.length := tableRaw_length sn c blks
  obtain ⟨m, hmle, hlo, hhi, hsb⟩ := Reader.SeekBlock_spec sn (tableRaw sn c blks) k
    (tableRaw_mono sn c blks hok)
  rw [hrl] at hmle
  by_cases hmN : m = blks.length
  · -- every block has a max-key below `k`
    obtain ⟨b, hgb, hscnt, hmaxk, hblock, hbpos⟩ := Reader.GetBlock_end sn (tableRaw sn c blks)
    rw [hrl] at hgb hbpos
    rw [hmN, hgb] at hsb
    have hall : ∀ e ∈ blks.flatten.flatten, e.1 < k := by
      have := keys_before sn c blks [] k
        (fun b hb => blockOk_flatten_ne_nil b (hok.1 b hb)) hok.2.1
        (by
          intro i hi
          rw [List.append_nil]
          exact hlo i (by omega))
      exact this
    refine ⟨{ r := fileReader (tableRaw sn c blks), b := b,
              s := { sec := [], spos := 0, read := 0, key := 0, val := [] }, err := none },
      ?_, rfl, rfl, Or.inr ⟨?_, ?_, hbpos, ?_⟩⟩
    · unfold Reader.Seek
      rw [hsb]
      simp only [BlockReader.SeekSection_empty b k hscnt, SectionReader.Seek_empty]
    · simp [SectionReader.More]
    · simp [hscnt]
    · rw [List.dropWhile_eq_nil_iff]
      intro x hx
      simpa using hall x hx
  · -- block `m` is the first whose max-key is at or above `k`
    obtain ⟨bpre, blk, bpost, hsplit, hbpre, hdrop⟩ := List.split_at blks m (by omega)
    subst hsplit
    have hbok : blockOk blk := hok.1 blk (by simp)
    have hgb := Reader.GetBlock_table sn hsn c bpre blk bpost hbok
    rw [hbpre] at hgb
    rw [hgb] at hsb
    have hkmax : k ≤ lastKey 0 blk.flatten := by
      have := hhi m (le_refl _) (by rw [hrl]; omega)
      rw [← hbpre, maxKeyAt_split] at this
      exact this
    obtain ⟨hblks, hpw, hbd⟩ := hok
    have hpw' := hpw
    simp only [List.flatten_append, List.flatten_cons, List.pairwise_append] at hpw'
    obtain ⟨hpw_pre, ⟨hpw_blk, hpw_post, hcross2⟩, hcross1⟩ := hpw'
    obtain ⟨s0, s, r, spre, sec, spost, pre, p, post, hss, hseek, hblk, hsec, hread, hkey, hpost,
        hspos, hdw⟩ :=
      BlockReader.seek_spec
        { block := blockPayload blk, bpos := m, scnt := blk.length,
          maxKey := lastKey 0 blk.flatten }
        blk k fuel rfl rfl rfl hbok hpw_blk
        (fun e he => hbd e (by simp [he])) hkmax
        (by
          have : blk.flatten.length ≤ (bpre ++ blk :: bpost).flatten.flatten.length := by
            simp only [List.flatten_append, List.flatten_cons, List.length_append]; omega
          omega)
    have hbefore : ∀ x ∈ bpre.flatten.flatten, (decide (x.1 < k)) = true := by
      intro x hx
      have := keys_before sn c bpre (blk :: bpost) k
        (fun b hb => blockOk_flatten_ne_nil b (hblks b (by simp [hb]))) hpw_pre
        (fun i hi => hlo i (by omega)) x hx
      simpa using this
    have hafter : ∀ x ∈ bpost.flatten.flatten, k ≤ x.1 := by
      intro x hx
      obtain ⟨y, hy, hyk⟩ := lastKey_mem 0 blk.flatten (blockOk_flatten_ne_nil blk hbok)
      have := hcross2 y hy x hx
      omega
    refine ⟨{ r := fileReader (tableRaw sn c (bpre ++ blk :: bpost)),
              b := { block := blockPayload blk, bpos := m, scnt := blk.length,
                     maxKey := lastKey 0 blk.flatten },
              s := s, err := none }, ?_, rfl, rfl,
      Or.inl ⟨bpre, blk, bpost, spre, sec, spost, pre, p, post, rfl, hblk, ?_, hsec, hread, hkey,
        hpost, hspos, ?_⟩⟩
    · unfold Reader.Seek
      rw [hsb]
      simp only [hss, hseek]
    · simp only [hbpre]
    · rw [List.flatten_append, List.flatten_append, List.dropWhile_append_of_pos hbefore,
        List.flatten_cons, List.flatten_append, hdw _ hafter]

/-! ## The writer lays out a table -/

theorem encEntry_length_ge (d : Nat) (v : Bytes) : 2 ≤ (encEntry d v).length := by
  rw [encEntry_length]
  have := PutUvarint_length_pos d
  have := PutUvarint_length_pos v.length
  omega

theorem secsBytes_length_ge (secs : List (List Entry)) (h : ∀ s ∈ secs, s ≠ []) :
    2 * secs.length ≤ (secsBytes secs).length := by
  induction secs with
  | nil => simp
  | cons s rest ih =>
    have hs := h s (by simp)
    have := ih (fun x hx => h x (by simp [hx]))
    cases s with
    | nil => exact absurd rfl hs
    | cons e t =>
      have := encEntry_length_ge (e.1 - 0) e.2
      simp only [secsBytes, encSec, List.length_append, List.length_cons]
      omega

theorem blockOk_of_offsets (cur : List (List Entry)) (hne : cur ≠ [])
    (hsec : ∀ s ∈ cur, s ≠ []) (hoff : ∀ o ∈ secOffsets 0 cur, o < 2 ^ 32) : blockOk cur := by
  refine ⟨hne, hsec, hoff, ?_⟩
  rcases List.eq_nil_or_concat cur with h0 | ⟨L, s, h0⟩
  · exact absurd h0 hne
  · rw [List.concat_eq_append] at h0
    subst h0
    have h1 := hoff _ (secsBytes_mem_secOffsets L [s] (by simp))
    have h2 := secsBytes_length_ge L (fun x hx => hsec x (by simp [hx]))
    simp only [List.length_append, List.length_singleton]
    omega

theorem lays_new (sn : Codec) (o : Option WriterOptions) :
    (NewWriter { data := [], script := [] } o).lays sn [] [] := by
  refine ⟨rfl, ?_, rfl, rfl, rfl, rfl, rfl, by simp [NewWriter], rfl, ?_, ?_, ?_⟩
  · intro x hx; simp [NewWriter] at hx
  · intro s hs; simp at hs
  · intro o ho; simp [secOffsets] at ho
  · intro b hb; simp at hb

theorem lays_flush (sn : Codec) (w : Writer) (done : List (List (List Entry)))
    (cur : List (List Entry)) (h : w.lays sn done cur) (hne : w.buf ≠ []) :
    (w.flush sn).2 = none ∧ (w.flush sn).1.lays sn (done ++ [cur]) [] ∧
      (w.flush sn).1.o = w.o := by
  obtain ⟨h1, h2, h3, h4, h5, h6, h7, h8, h9, h10, h11, h12⟩ := h
  have hcur : cur ≠ [] := by
    intro hc; rw [hc] at h6; exact hne h6
  have hbok : blockOk cur := blockOk_of_offsets cur hcur h10 h11
  obtain ⟨ha1, ha2⟩ := flush_accepting sn w h2
  obtain ⟨hd1, hd2⟩ := flush_ok sn w hne ha1
  obtain ⟨f1, f2, f3, f4⟩ := flush_fields sn w
  rcases f4 with ⟨g, _⟩ | ⟨_, g2, g3, g4, g5⟩
  · exact absurd g hne
  · have hraw : tableRaw sn w.o.Compression (done ++ [cur]) =
        tableRaw sn w.o.Compression done ++
          [(lastKey 0 cur.flatten, blockBytes sn w.o.Compression cur)] := by
      simp [tableRaw]
    have hemit : emitted sn w.o.Compression (framed w.buf w.soffs) =
        blockBytes sn w.o.Compression cur := by
      rw [h6, h7]; rfl
    have hmax : w.block.MaxKey = lastKey 0 cur.flatten := by
      rw [h9, lastKey_append]
      exact lastKey_of_ne_nil _ _ _ (blockOk_flatten_ne_nil cur hbok)
    refine ⟨ha1, ⟨?_, ha2, ?_, ?_, ?_, ?_, ?_, ?_, ?_, ?_, ?_, ?_⟩, f1⟩
    · rw [f3]; exact h1
    · rw [hd1, f1, hraw, fileBlocks_append, h3, hemit]
      simp [fileBlocks]
    · rw [g5, f1, hraw, fileIndex_append, h4]
      simp only [fileIndex, Nat.zero_add]
      congr 2
      cases hb : w.block
      rw [hb] at hmax h5
      simp only at hmax h5
      rw [hmax, h5]
    · rw [hd2, f1, hraw, fileBlocks_append, h5, hemit]
      simp [fileBlocks]
    · rw [g4]; rfl
    · rw [g3]; rfl
    · simp [g2]
    · rw [f2, h9]
      simp
    · intro s hs; simp at hs
    · intro o ho; simp [secOffsets] at ho
    · intro b hb
      rcases List.mem_append.1 hb with hb1 | hb1
      · exact h12 b hb1
      · simp only [List.mem_singleton] at hb1
        rw [hb1]; exact hbok

theorem lays_put (sn : Codec) (w : Writer) (done : List (List (List Entry)))
    (cur : List (List Entry)) (key : Nat) (v : Bytes) (h : w.lays sn done cur)
    (hkey : key < 2 ^ 64)
    (hord : done.flatten.flatten ++ cur.flatten ≠ [] → w.block.MaxKey < key)
    (hoff : w.buf.length < 2 ^ 32) :
    ∃ cur', (w.put key v).lays sn done cur' ∧ cur'.flatten = cur.flatten ++ [(key, v)] := by
  obtain ⟨h1, h2, h3, h4, h5, h6, h7, h8, h9, h10, h11, h12⟩ := h
  by_cases hfresh : (w.blen : Int) % w.o.BlockRestartInterval = 0
  · -- the entry opens a section
    refine ⟨cur ++ [[(key, v)]], ⟨h1, h2, h3, h4, h5, ?_, ?_, ?_, ?_, ?_, ?_, h12⟩, by simp⟩
    · simp only [Writer.put, hfresh, decide_True, if_true]
      rw [h6, secsBytes_append]
      simp [secsBytes, encSec, encEntry]
    · simp only [Writer.put, hfresh, decide_True, if_true]
      rw [h7, h6, secOffsets_append]
      simp [secOffsets]
    · simp [Writer.put]
    · simp only [Writer.put]
      rw [List.flatten_append, ← List.append_assoc, lastKey_append]
      simp [lastKey]
    · intro s hs
      rcases List.mem_append.1 hs with hs1 | hs1
      · exact h10 s hs1
      · simp only [List.mem_singleton] at hs1
        rw [hs1]; simp
    · intro o ho
      rw [secOffsets_append] at ho
      rcases List.mem_append.1 ho with ho1 | ho1
      · exact h11 o ho1
      · simp only [secOffsets, Nat.zero_add, List.mem_singleton] at ho1
        rw [ho1, ← h6]; exact hoff
  · -- the entry joins the last section
    have hcur : cur ≠ [] := by
      intro hc
      have : w.blen = 0 := h8.2 hc
      rw [this] at hfresh
      simp at hfresh
    rcases List.eq_nil_or_concat cur with h0 | ⟨L, s, h0⟩
    · exact absurd h0 hcur
    · rw [List.concat_eq_append] at h0
      subst h0
      have hsne : s ≠ [] := h10 s (by simp)
      have hmax : w.block.MaxKey = lastKey 0 s := by
        rw [h9, List.flatten_append, ← List.append_assoc, lastKey_append]
        simp only [List.flatten_cons, List.flatten_nil, List.append_nil]
        exact lastKey_of_ne_nil _ _ _ hsne
      have hlt : w.block.MaxKey < key := by
        apply hord
        cases s with
        | nil => exact absurd rfl hsne
        | cons e t => simp
      have hskey : (key + 2 ^ 64 - w.block.MaxKey) % 2 ^ 64 = key - lastKey 0 s := by
        rw [← hmax]; omega
      refine ⟨L ++ [s ++ [(key, v)]], ⟨h1, h2, h3, h4, h5, ?_, ?_, ?_, ?_, ?_, ?_, h12⟩,
        by simp⟩
      · simp only [Writer.put, hfresh, decide_False, Bool.false_eq_true, if_false]
        rw [h6, hskey, secsBytes_append, secsBytes_append]
        simp [secsBytes, encSec_append, encSec, encEntry]
      · simp only [Writer.put, hfresh, decide_False, Bool.false_eq_true, if_false]
        rw [h7, secOffsets_append, secOffsets_append]
        simp [secOffsets]
      · simp [Writer.put]
      · simp only [Writer.put]
        rw [List.flatten_append, ← List.append_assoc]
        simp only [List.flatten_cons, List.flatten_nil, List.append_nil]
        rw [← List.append_assoc, lastKey_append]
        simp [lastKey]
      · intro x hx
        rcases List.mem_append.1 hx with hx1 | hx1
        · exact h10 x (by simp [hx1])
        · simp only [List.mem_singleton] at hx1
          rw [hx1]; simp
      · intro o ho
        apply h11 o
        rw [secOffsets_append] at ho ⊢
        simpa [secOffsets] using ho

theorem lays_entries_ne_nil (sn : Codec) (w : Writer) (done : List (List (List Entry)))
    (cur : List (List Entry)) (h : w.lays sn done cur)
    (hx : w.blen ≠ 0 ∨ w.index.length ≠ 0) : done.flatten.flatten ++ cur.flatten ≠ [] := by
  obtain ⟨h1, h2, h3, h4, h5, h6, h7, h8, h9, h10, h11, h12⟩ := h
  rcases hx with hb | hi
  · have hcur : cur ≠ [] := fun hc => hb (h8.2 hc)
    cases cur with
    | nil => exact absurd rfl hcur
    | cons s rest =>
      have := h10 s (by simp)
      cases s with
      | nil => exact absurd rfl this
      | cons e t => simp
  · have hdone : done ≠ [] := by
      intro hd
      rw [hd] at h4
      rw [h4] at hi
      simp [tableRaw, fileIndex] at hi
    cases done with
    | nil => exact absurd rfl hdone
    | cons b rest =>
      have := blockOk_flatten_ne_nil b (h12 b (by simp))
      simp [this]

theorem lays_Append (sn : Codec) (w : Writer) (done : List (List (List Entry)))
    (cur : List (List Entry)) (key : Nat) (v : Bytes) (h : w.lays sn done cur)
    (hkey : key < 2 ^ 64)
    (hord : done.flatten.flatten ++ cur.flatten ≠ [] → w.block.MaxKey < key)
    (hbs : w.o.BlockSize < 2 ^ 32 + 20) :
    (w.Append sn key v).2 = none ∧ (w.Append sn key v).1.o = w.o ∧
    ∃ done' cur', (w.Append sn key v).1.lays sn done' cur' ∧
      done'.flatten.flatten ++ cur'.flatten = done.flatten.flatten ++ cur.flatten ++ [(key, v)] := by
  have htmp : ¬ w.tmp = false := by rw [h.1]; simp
  have hoo : ¬ (key ≤ w.block.MaxKey ∧ (w.blen ≠ 0 ∨ w.index.length ≠ 0)) := by
    rintro ⟨hle, hx⟩
    have := hord (lays_entries_ne_nil sn w done cur h hx)
    omega
  rw [Append_eq, if_neg htmp, if_neg hoo]
  by_cases hnf : w.needsFlush v
  · have hne : w.buf ≠ [] := by
      intro hb; have := hnf.1; rw [hb] at this; simp at this
    obtain ⟨hf1, hf2, hf3⟩ := lays_flush sn w done cur h hne
    rw [if_pos hnf, if_pos hf1]
    have hfbuf : (w.flush sn).1.buf = [] := by
      have := hf2.2.2.2.2.2.1
      rw [this]; rfl
    have hcur : cur ≠ [] := by
      intro hc
      have := h.2.2.2.2.2.1
      rw [hc] at this
      exact hne this
    have hent : done.flatten.flatten ++ cur.flatten ≠ [] :=
      lays_entries_ne_nil sn w done cur h (Or.inl (fun hb => hcur (h.2.2.2.2.2.2.2.1.1 hb)))
    obtain ⟨cur', hl, hc'⟩ := lays_put sn (w.flush sn).1 (done ++ [cur]) [] key v hf2 hkey
      (by
        intro _
        rw [(flush_fields sn w).2.1]
        exact hord hent)
      (by rw [hfbuf]; simp)
    refine ⟨rfl, ?_, done ++ [cur], cur', hl, ?_⟩
    · exact hf3
    · rw [hc']; simp
  · rw [if_neg hnf]
    have hoff : w.buf.length < 2 ^ 32 := by
      by_cases hb : w.buf.length = 0
      · omega
      · have : ¬ ((w.buf.length + v.length + 2 * MaxVarintLen64 : Nat) : Int) >
            w.o.BlockSize := fun hgt => hnf ⟨hb, hgt⟩
        simp only [MaxVarintLen64] at this
        push_cast at this
        omega
    obtain ⟨cur', hl, hc'⟩ := lays_put sn w done cur key v h hkey hord hoff
    refine ⟨rfl, rfl, done, cur', hl, ?_⟩
    rw [hc']; simp

theorem lays_run (sn : Codec) (es : List Entry) : ∀ (w : Writer)
    (done : List (List (List Entry))) (cur : List (List Entry)),
    w.lays sn done cur → w.o.BlockSize < 2 ^ 32 + 20 →
    w.block.MaxKey = lastKey 0 (done.flatten.flatten ++ cur.flatten) →
    (done.flatten.flatten ++ cur.flatten ++ es).Pairwise (fun a b => a.1 < b.1) →
    (∀ e ∈ es, e.1 < 2 ^ 64) →
    ∃ done' cur', (Writer.run sn w (appends es)).1.lays sn done' cur' ∧
      (Writer.run sn w (appends es)).1.o = w.o ∧
      done'.flatten.flatten ++ cur'.flatten = done.flatten.flatten ++ cur.flatten ++ es ∧
      ∀ x ∈ (Writer.run sn w (appends es)).2, x.2 = none := by
  induction es with
  | nil =>
    intro w done cur h _ _ _ _
    exact ⟨done, cur, h, rfl, by simp, by simp [appends, Writer.run]⟩
  | cons e rest ih =>
    intro w done cur h hbs hmax hpw h64
    have hord : done.flatten.flatten ++ cur.flatten ≠ [] → w.block.MaxKey < e.1 := by
      intro hne
      obtain ⟨y, hy, hk⟩ := lastKey_mem 0 _ hne
      rw [hmax, hk]
      rw [List.pairwise_append] at hpw
      exact hpw.2.2 y hy e (by simp)
    obtain ⟨ha1, ha2, done1, cur1, hl1, hent1⟩ :=
      lays_Append sn w done cur e.1 e.2 h (h64 e (by simp)) hord hbs
    obtain ⟨done2, cur2, hl2, ho2, hent2, hres2⟩ := ih (w.Append sn e.1 e.2).1 done1 cur1 hl1
      (by rw [ha2]; exact hbs) hl1.2.2.2.2.2.2.2.2.1
      (by rw [hent1]; simpa using hpw)
      (fun x hx => h64 x (by simp [hx]))
    refine ⟨done2, cur2, ?_, ?_, ?_, ?_⟩
    · simpa [appends, Writer.run, Writer.step] using hl2
    · simp only [appends, List.map_cons, Writer.run, Writer.step]
      simp only [appends] at ho2
      rw [ho2, ha2]
    · rw [hent2, hent1]; simp
    · intro x hx
      simp only [appends, List.map_cons, Writer.run, Writer.step, List.mem_cons] at hx
      rcases hx with hx1 | hx1
      · rw [hx1]; exact ha1
      · exact hres2 x (by simpa [appends] using hx1)

theorem writeIndexLoop_accepting (l : List blockInfo) : ∀ (w : Writer) (i : Nat)
    (prev : blockInfo), w.w.accepting →
    (w.writeIndexLoop l i prev).2 = none ∧ (w.writeIndexLoop l i prev).1.w.accepting := by
  induction l with
  | nil => intro w i prev h; exact ⟨rfl, h⟩
  | cons ent rest ih =>
    intro w i prev h
    simp only [Writer.writeIndexLoop]
    have hr := writeRaw_accepting w (PutUvarint (if i ≠ 0 then (ent.MaxKey + 2 ^ 64 - prev.MaxKey) % 2 ^ 64 else ent.MaxKey) ++
        PutUvarint (toUint64 (if i ≠ 0 then ent.Offset - prev.Offset else ent.Offset))) h
    rcases hx : w.writeRaw (PutUvarint (if i ≠ 0 then (ent.MaxKey + 2 ^ 64 - prev.MaxKey) % 2 ^ 64 else ent.MaxKey) ++
        PutUvarint (toUint64 (if i ≠ 0 then ent.Offset - prev.Offset else ent.Offset))) with ⟨w1, _ | e⟩
    · rw [hx] at hr
      exact ih w1 (i + 1) ent hr.2
    · rw [hx] at hr
      exact absurd hr.1 (by simp)

theorem writeFooter_accepting (w : Writer) (off : Int) (h : w.w.accepting) :
    (w.writeFooter off).2 = none := by
  simp only [Writer.writeFooter]
  have hr := writeRaw_accepting w (PutUint64 (toUint64 off)) h
  rcases hx : w.writeRaw (PutUint64 (toUint64 off)) with ⟨w1, _ | e⟩
  · rw [hx] at hr
    simp only
    have hr2 := writeRaw_accepting w1 magic hr.2
    rcases hy : w1.writeRaw magic with ⟨w2, _ | e⟩
    · rfl
    · rw [hy] at hr2; exact absurd hr2.1 (by simp)
  · rw [hx] at hr; exact absurd hr.1 (by simp)

theorem Close_accepting (sn : Codec) (w : Writer) (ht : w.tmp = true) (h : w.w.accepting) :
    (w.Close sn).2 = none := by
  obtain ⟨hf1, hf2⟩ := flush_accepting sn w h
  simp only [Writer.Close, ht, Bool.true_eq_false, if_false]
  rcases hf : w.flush sn with ⟨f, _ | e⟩
  · rw [hf] at hf2
    simp only [Writer.writeIndex]
    obtain ⟨hi1, hi2⟩ := writeIndexLoop_accepting f.index f 0 { MaxKey := 0, Offset := 0 } hf2
    rcases hi : f.writeIndexLoop f.index 0 { MaxKey := 0, Offset := 0 } with ⟨g, _ | e⟩
    · rw [hi] at hi2
      simp only
      have hg := writeFooter_accepting g f.block.Offset hi2
      rcases hz : g.writeFooter f.block.Offset with ⟨k, _ | e⟩
      · rfl
      · rw [hz] at hg; exact absurd hg (by simp)
    · rw [hi] at hi1; exact absurd hi1 (by simp)
  · rw [hf] at hf1; exact absurd hf1 (by simp)

theorem lays_Close (sn : Codec) (w : Writer) (done : List (List (List Entry)))
    (cur : List (List Entry)) (h : w.lays sn done cur) :
    ∃ blks, (w.Close sn).1.w.data = fileBytes (tableRaw sn w.o.Compression blks) ∧
      blks.flatten.flatten = done.flatten.flatten ++ cur.flatten ∧ (∀ b ∈ blks, blockOk b) := by
  have hclose := Close_ok sn w h.1 (Close_accepting sn w h.1 h.2.1)
  have key : ∀ (f : Writer) (blks : List (List (List Entry))), f.lays sn blks [] →
      f.o = w.o → f = (w.flush sn).1 →
      (w.Close sn).1.w.data = fileBytes (tableRaw sn w.o.Compression blks) := by
    intro f blks hl ho hf
    obtain ⟨h1, h2, h3, h4, h5, -⟩ := hl
    rw [hclose.2, ← hf, h3, h4, h5, ho, toUint64_natCast, PutUint64_mod]
    rfl
  by_cases hb : w.buf = []
  · have hcur : cur = [] := by
      have h6 := h.2.2.2.2.2.1
      rw [hb] at h6
      cases cur with
      | nil => rfl
      | cons s rest =>
        have hs := h.2.2.2.2.2.2.2.2.2.1 s (by simp)
        have := encSec_ne_nil 0 s hs
        simp only [secsBytes] at h6
        have h7 := (List.append_eq_nil.1 h6.symm).1
        exact absurd h7 this
    subst hcur
    refine ⟨done, key w done h rfl ?_, by simp, h.2.2.2.2.2.2.2.2.2.2.2⟩
    rw [flush_of_empty sn w hb]
  · obtain ⟨hf1, hf2, hf3⟩ := lays_flush sn w done cur h hb
    refine ⟨done ++ [cur], key _ _ hf2 hf3 rfl, by simp, hf2.2.2.2.2.2.2.2.2.2.2.2⟩

theorem writeTable_eq (sn : Codec) (o : Option WriterOptions) (es : List Entry)
    (hpw : es.Pairwise (fun a b => a.1 < b.1)) (h64 : ∀ e ∈ es, e.1 < 2 ^ 64)
    (hbs : (WriterOptions.norm o).BlockSize < 2 ^ 32 + 20) :
    ∃ blks, writeTable sn o es = fileBytes (tableRaw sn (WriterOptions.norm o).Compression blks) ∧
      blks.flatten.flatten = es ∧ (∀ b ∈ blks, blockOk b) := by
  obtain ⟨done, cur, hl, ho, hent, -⟩ := lays_run sn es (NewWriter { data := [], script := [] } o)
    [] [] (lays_new sn o) hbs rfl (by simpa using hpw) h64
  obtain ⟨blks, hd, hfl, hbok⟩ := lays_Close sn _ done cur hl
  refine ⟨blks, ?_, ?_, hbok⟩
  · unfold writeTable
    rw [run_snoc]
    simp only [Writer.step]
    rw [hd, ho]
    rfl
  · rw [hfl, hent]; simp

/-! ## Tables written by the writer, read by the reader -/

theorem rleCodec_lawful : rleCodec.lawful := by
  intro b
  show rleDecode (rleEncode b) = some b
  induction b with
  | nil => rfl
  | cons x rest ih =>
    rcases hr : rleEncode rest with _ | ⟨n, _ | ⟨c, tail⟩⟩
    · rw [hr] at ih
      have : rest = [] := by simpa [rleDecode] using ih.symm
      subst this
      simp [rleEncode, rleDecode]
    · rw [hr] at ih
      simp [rleDecode] at ih
    · rw [hr] at ih
      simp only [rleEncode, hr]
      by_cases hc : c = x ∧ n.val < 255
      · rw [if_pos hc]
        simp only [rleDecode] at ih ⊢
        rcases ht : rleDecode tail with _ | t
        · rw [ht] at ih; simp at ih
        · rw [ht] at ih
          simp only [Option.some.injEq] at ih ⊢
          have hv : (toByte (n.val + 1)).val = n.val + 1 := by
            rw [toByte_val]; omega
          rw [hv, List.replicate_succ, List.cons_append, ih, hc.1]
      · rw [if_neg hc]
        simp only [rleDecode] at ih ⊢
        rcases ht : rleDecode tail with _ | t
        · rw [ht] at ih; simp at ih
        · rw [ht] at ih
          simp only [Option.some.injEq] at ih ⊢
          simp [ih]

theorem dropWhile_key (k : Nat) (es : List Entry) (hpw : es.Pairwise (fun a b => a.1 < b.1)) :
    (es.dropWhile (fun e => decide (e.1 < k)) = [] ∧ ∀ e ∈ es, e.1 < k) ∨
    (∃ x rest, es.dropWhile (fun e => decide (e.1 < k)) = x :: rest ∧ x ∈ es ∧ k ≤ x.1 ∧
      ∀ y ∈ es, k ≤ y.1 → x.1 ≤ y.1) := by
  induction es with
  | nil => left; simp
  | cons a t ih =>
    rw [List.pairwise_cons] at hpw
    by_cases ha : a.1 < k
    · rw [List.dropWhile_cons_of_pos (by simpa using ha)]
      rcases ih hpw.2 with ⟨h1, h2⟩ | ⟨x, rest, h1, h2, h3, h4⟩
      · left
        refine ⟨h1, ?_⟩
        intro e he
        simp only [List.mem_cons] at he
        rcases he with h | h
        · rw [h]; exact ha
        · exact h2 e h
      · right
        refine ⟨x, rest, h1, by simp [h2], h3, ?_⟩
        intro y hy hky
        simp only [List.mem_cons] at hy
        rcases hy with h | h
        · rw [h] at hky; omega
        · exact h4 y h hky
    · rw [List.dropWhile_cons_of_neg (by simpa using ha)]
      right
      refine ⟨a, t, rfl, by simp, by omega, ?_⟩
      intro y hy _
      simp only [List.mem_cons] at hy
      rcases hy with h | h
      · rw [h]
      · exact Nat.le_of_lt (hpw.1 y h)

theorem eq_of_key_eq (es : List Entry) (hpw : es.Pairwise (fun a b => a.1 < b.1))
    (x y : Entry) (hx : x ∈ es) (hy : y ∈ es) (h : x.1 = y.1) : x = y := by
  induction es with
  | nil => simp at hx
  | cons a t ih =>
    rw [List.pairwise_cons] at hpw
    simp only [List.mem_cons] at hx hy
    rcases hx with hx | hx <;> rcases hy with hy | hy
    · rw [hx, hy]
    · have := hpw.1 y hy; rw [← hx, h] at this; omega
    · have := hpw.1 x hx; rw [← hy, h] at this; omega
    · exact ih hpw.2 hx hy

theorem length_le_flatten (L : List (List Entry)) (h : ∀ l ∈ L, l ≠ []) :
    L.length ≤ L.flatten.length := by
  induction L with
  | nil => simp
  | cons l rest ih =>
    have h1 := List.length_pos.2 (h l (by simp))
    have h2 := ih (fun x hx => h x (by simp [hx]))
    simp only [List.length_cons, List.flatten_cons, List.length_append]
    omega

theorem table_of_write (sn : Codec) (o : Option WriterOptions) (es : List Entry)
    (hpw : es.Pairwise (fun a b => a.1 < b.1))
    (hbd : ∀ e ∈ es, e.1 < 2 ^ 64 ∧ e.2.length < 2 ^ 63)
    (hbs : (WriterOptions.norm o).BlockSize < 2 ^ 32 + 20)
    (hsize : (writeTable sn o es).length < 2 ^ 63) :
    ∃ blks, tableOk blks ∧ blks.flatten.flatten = es ∧
      ∀ fuel, es.length ≤ fuel →
        NewReader fuel (writeTable sn o es) ((writeTable sn o es).length : Int) =
          Res.ok (fileReader (tableRaw sn (WriterOptions.norm o).Compression blks)) := by
  obtain ⟨blks, hfile, hflat, hbok⟩ := writeTable_eq sn o es hpw (fun e he => (hbd e he).1) hbs
  have hok : tableOk blks := ⟨hbok, by rw [hflat]; exact hpw, by rw [hflat]; exact hbd⟩
  refine ⟨blks, hok, hflat, ?_⟩
  intro fuel hfuel
  rw [hfile]
  have hlen : blks.length ≤ es.length := by
    rw [← hflat, List.flatten_flatten]
    have := length_le_flatten (blks.map List.flatten) (by
      intro l hl
      obtain ⟨b, hb, hbl⟩ := List.mem_map.1 hl
      rw [← hbl]; exact blockOk_flatten_ne_nil b (hbok b hb))
    simpa using this
  refine NewReader_fileBytes _ fuel ?_ ?_ (by rw [tableRaw_length]; omega)
  · intro b hb
    obtain ⟨blk, hblk, hbe⟩ := List.mem_map.1 hb
    rw [← hbe]
    obtain ⟨e, he, hk⟩ := lastKey_mem 0 blk.flatten (blockOk_flatten_ne_nil blk (hbok blk hblk))
    simp only
    rw [hk]
    obtain ⟨s, hs, hes⟩ := List.mem_flatten.1 he
    have hmem : e ∈ blks.flatten.flatten :=
      List.mem_flatten.2 ⟨s, List.mem_flatten.2 ⟨blk, hblk, hs⟩, hes⟩
    exact (hbd e (by rw [← hflat]; exact hmem)).1
  · rw [hfile] at hsize
    simp only [fileBytes, List.length_append] at hsize
    omega

theorem seek_next_of_write (sn : Codec) (hsn : sn.lawful) (o : Option WriterOptions)
    (es : List Entry) (hpw : es.Pairwise (fun a b => a.1 < b.1))
    (hbd : ∀ e ∈ es, e.1 < 2 ^ 64 ∧ e.2.length < 2 ^ 63)
    (hbs : (WriterOptions.norm o).BlockSize < 2 ^ 32 + 20)
    (hsize : (writeTable sn o es).length < 2 ^ 63) (fuel : Nat) (hfuel : es.length ≤ fuel) :
    ∃ r, NewReader fuel (writeTable sn o es) ((writeTable sn o es).length : Int) = Res.ok r ∧
      ∀ k, ∃ it it' b, r.Seek sn fuel k = Res.ok it ∧ it.Next sn = Res.ok (it', b) ∧
        ((es.dropWhile (fun e => decide (e.1 < k)) = [] ∧ b = false) ∨
         (∃ x rest, es.dropWhile (fun e => decide (e.1 < k)) = x :: rest ∧ b = true ∧
            it'.Key = x.1 ∧ it'.Value = x.2)) := by
  obtain ⟨blks, hok, hflat, hnr⟩ := table_of_write sn o es hpw hbd hbs hsize
  refine ⟨_, hnr fuel hfuel, ?_⟩
  intro k
  obtain ⟨it, hseek, hat⟩ := Reader.Seek_table sn hsn (WriterOptions.norm o).Compression blks hok
    k fuel (by rw [hflat]; exact hfuel)
  rw [hflat] at hat
  obtain ⟨hn0, hn1⟩ := Iterator.Next_spec sn hsn _ blks hok it _ hat
  rcases hd : es.dropWhile (fun e => decide (e.1 < k)) with _ | ⟨x, rest⟩
  · exact ⟨it, it, false, hseek, hn0 hd, Or.inl ⟨hd, rfl⟩⟩
  · obtain ⟨it', h1, h2, h3, -⟩ := hn1 x rest hd
    exact ⟨it, it', true, hseek, h1, Or.inr ⟨x, rest, hd, rfl, h2, h3⟩⟩

theorem Iterator.drain_spec (sn : Codec) (hsn : sn.lawful) (c : Compression)
    (blks : List (List (List Entry))) (hok : tableOk blks) :
    ∀ (rem : List Entry) (fuel : Nat) (it : Iterator), IterAt sn c blks it rem →
      rem.length < fuel → it.drain sn fuel = Res.ok rem := by
  intro rem
  induction rem with
  | nil =>
    intro fuel it hat hfuel
    obtain ⟨hn0, -⟩ := Iterator.Next_spec sn hsn c blks hok it [] hat
    cases fuel with
    | zero => simp at hfuel
    | succ f => simp [Iterator.drain, hn0 rfl]
  | cons e rest ih =>
    intro fuel it hat hfuel
    obtain ⟨-, hn1⟩ := Iterator.Next_spec sn hsn c blks hok it (e :: rest) hat
    obtain ⟨it', h1, h2, h3, h4⟩ := hn1 e rest rfl
    cases fuel with
    | zero => simp at hfuel
    | succ f =>
      simp only [Iterator.drain, h1]
      rw [ih f it' h4 (by simpa using hfuel), h2, h3]

/-- C1, as amended. Round trip. For a codec whose decoder inverts its encoder, any
options whose normalised `BlockSize` is below `2^32 + 20`, and entries with strictly
increasing `uint64` keys (value lengths fitting an `int`, the file size an `int64`):
after `Append` of each entry in order and `Close` on a sink that accepts every write,
`NewReader` over the bytes written returns a reader on which, for every appended
pair `(k, v)` and every `dst`, `Append(dst, k)` returns `dst` followed by `v` with no
error, and `Get(k)` returns `v`. The entry may be the last of its block or not. -/
theorem C1_round_trip (sn : Codec) (hsn : sn.lawful) (o : Option WriterOptions)
    (es : List Entry) (hpw : es.Pairwise (fun a b => a.1 < b.1))
    (hbd : ∀ e ∈ es, e.1 < 2 ^ 64 ∧ e.2.length < 2 ^ 63)
    (hbs : (WriterOptions.norm o).BlockSize < 2 ^ 32 + 20)
    (hsize : (writeTable sn o es).length < 2 ^ 63) (fuel : Nat) (hfuel : es.length ≤ fuel) :
    ∃ r, NewReader fuel (writeTable sn o es) ((writeTable sn o es).length : Int) = Res.ok r ∧
      ∀ e ∈ es, (∀ dst, r.Append sn fuel dst e.1 = Res.ok (dst ++ e.2, none)) ∧
        r.Get sn fuel e.1 = Res.ok (e.2, none) := by
  obtain ⟨r, hr, hk⟩ := seek_next_of_write sn hsn o es hpw hbd hbs hsize fuel hfuel
  refine ⟨r, hr, ?_⟩
  intro e he
  obtain ⟨it, it', b, hseek, hnext, hcase⟩ := hk e.1
  have happ : ∀ dst, r.Append sn fuel dst e.1 = Res.ok (dst ++ e.2, none) := by
    intro dst
    rcases hcase with ⟨hd, -⟩ | ⟨x, rest, hd, hb, hkey, hval⟩
    · have := (List.dropWhile_eq_nil_iff.1 hd) e he
      simp at this
    · rcases dropWhile_key e.1 es hpw with ⟨h0, -⟩ | ⟨x', rest', h1, h2, h3, h4⟩
      · rw [h0] at hd; simp at hd
      · rw [h1] at hd
        simp only [List.cons.injEq] at hd
        have hxe : x' = e := eq_of_key_eq es hpw x' e h2 he (by have := h4 e he (le_refl _); omega)
        rw [← hd.1, hxe] at hkey hval
        subst hb
        unfold Reader.Append
        simp only [hseek, hnext, hkey, hval, Bool.not_true, Bool.false_or, ne_eq,
          not_true_eq_false, decide_False, Bool.false_eq_true, if_false]
  exact ⟨happ, by simpa [Reader.Get] using happ []⟩

/-- C2, as amended. For a table written as in C1 (normalised `BlockSize` below
`2^32 + 20`) and every key `k` that was not appended, wherever it falls among the
stored keys, `Get(k)` returns `ErrNotFound` and `Append(dst, k)` returns `dst`
unchanged together with `ErrNotFound`. -/
theorem C2_not_found (sn : Codec) (hsn : sn.lawful) (o : Option WriterOptions)
    (es : List Entry) (hpw : es.Pairwise (fun a b => a.1 < b.1))
    (hbd : ∀ e ∈ es, e.1 < 2 ^ 64 ∧ e.2.length < 2 ^ 63)
    (hbs : (WriterOptions.norm o).BlockSize < 2 ^ 32 + 20)
    (hsize : (writeTable sn o es).length < 2 ^ 63) (fuel : Nat) (hfuel : es.length ≤ fuel) :
    ∃ r, NewReader fuel (writeTable sn o es) ((writeTable sn o es).length : Int) = Res.ok r ∧
      ∀ k, (∀ e ∈ es, e.1 ≠ k) →
        (∀ dst, r.Append sn fuel dst k = Res.ok (dst, some Error.ErrNotFound)) ∧
        r.Get sn fuel k = Res.ok ([], some Error.ErrNotFound) := by
  obtain ⟨r, hr, hk⟩ := seek_next_of_write sn hsn o es hpw hbd hbs hsize fuel hfuel
  refine ⟨r, hr, ?_⟩
  intro k hnot
  obtain ⟨it, it', b, hseek, hnext, hcase⟩ := hk k
  have happ : ∀ dst, r.Append sn fuel dst k = Res.ok (dst, some Error.ErrNotFound) := by
    intro dst
    rcases hcase with ⟨-, hb⟩ | ⟨x, rest, hd, hb, hkey, hval⟩
    · subst hb
      unfold Reader.Append
      simp only [hseek, hnext, Bool.not_false, Bool.true_or, if_true]
    · have hx : x ∈ es := by
        have : x ∈ es.dropWhile (fun e => decide (e.1 < k)) := by rw [hd]; simp
        exact (List.dropWhile_sublist _).subset this
      have hne : it'.Key ≠ k := by rw [hkey]; exact hnot x hx
      subst hb
      unfold Reader.Append
      simp only [hseek, hnext, hne, ne_eq, not_false_eq_true, decide_True, Bool.or_true, if_true]
  exact ⟨happ, by simpa [Reader.Get] using happ []⟩

/-- C3, as amended. Seek positioning. For a table written as in C1 (normalised
`BlockSize` below `2^32 + 20`) and every key `k`, `Seek(k)` returns an iterator
whose first `Next()` returns false exactly when no stored key is `>= k`; otherwise
it returns true, `(Key(), Value())` is a stored entry, `Key() >= k`, and no stored
key lies in `[k, Key())`. -/
theorem C3_seek_positioning (sn : Codec) (hsn : sn.lawful) (o : Option WriterOptions)
    (es : List Entry) (hpw : es.Pairwise (fun a b => a.1 < b.1))
    (hbd : ∀ e ∈ es, e.1 < 2 ^ 64 ∧ e.2.length < 2 ^ 63)
    (hbs : (WriterOptions.norm o).BlockSize < 2 ^ 32 + 20)
    (hsize : (writeTable sn o es).length < 2 ^ 63) (fuel : Nat) (hfuel : es.length ≤ fuel) :
    ∃ r, NewReader fuel (writeTable sn o es) ((writeTable sn o es).length : Int) = Res.ok r ∧
      ∀ k, ∃ it it' b, r.Seek sn fuel k = Res.ok it ∧ it.Next sn = Res.ok (it', b) ∧
        (b = false ↔ ∀ e ∈ es, e.1 < k) ∧
        (b = true → (it'.Key, it'.Value) ∈ es ∧ k ≤ it'.Key ∧
          ∀ e ∈ es, k ≤ e.1 → it'.Key ≤ e.1) := by
  obtain ⟨r, hr, hk⟩ := seek_next_of_write sn hsn o es hpw hbd hbs hsize fuel hfuel
  refine ⟨r, hr, ?_⟩
  intro k
  obtain ⟨it, it', b, hseek, hnext, hcase⟩ := hk k
  refine ⟨it, it', b, hseek, hnext, ?_⟩
  rcases dropWhile_key k es hpw with ⟨h0, hall⟩ | ⟨x, rest, h1, h2, h3, h4⟩
  · rcases hcase with ⟨-, hb⟩ | ⟨x, rest, hd, -⟩
    · subst hb
      exact ⟨⟨fun _ => hall, fun _ => rfl⟩, fun h => absurd h (by simp)⟩
    · rw [h0] at hd; simp at hd
  · rcases hcase with ⟨hd, -⟩ | ⟨x', rest', hd, hb, hkey, hval⟩
    · rw [h1] at hd; simp at hd
    · rw [h1] at hd
      simp only [List.cons.injEq] at hd
      rw [← hd.1] at hkey hval
      subst hb
      refine ⟨⟨fun h => absurd h (by simp), fun h => ?_⟩, fun _ => ⟨?_, ?_, ?_⟩⟩
      · have := h x h2; omega
      · rw [hkey, hval]; exact h2
      · rw [hkey]; exact h3
      · rw [hkey]; exact h4

/-- C4, as amended. Iteration completeness and order. For a table written as in C1
(normalised `BlockSize` below `2^32 + 20`) from `n` entries, calling `Next()` on the
iterator returned by `Seek(0)` until it returns false yields true exactly `n` times,
and the pairs `(Key(), Value())` produced are the appended entries in append order;
their keys are strictly ascending. -/
theorem C4_iteration (sn : Codec) (hsn : sn.lawful) (o : Option WriterOptions)
    (es : List Entry) (hpw : es.Pairwise (fun a b => a.1 < b.1))
    (hbd : ∀ e ∈ es, e.1 < 2 ^ 64 ∧ e.2.length < 2 ^ 63)
    (hbs : (WriterOptions.norm o).BlockSize < 2 ^ 32 + 20)
    (hsize : (writeTable sn o es).length < 2 ^ 63) (fuel : Nat) (hfuel : es.length ≤ fuel) :
    ∃ r it out, NewReader fuel (writeTable sn o es) ((writeTable sn o es).length : Int) =
        Res.ok r ∧ r.Seek sn fuel 0 = Res.ok it ∧ it.drain sn (fuel + 1) = Res.ok out ∧
      out = es ∧ out.length = es.length ∧ out.Pairwise (fun a b => a.1 < b.1) := by
  obtain ⟨blks, hok, hflat, hnr⟩ := table_of_write sn o es hpw hbd hbs hsize
  obtain ⟨it, hseek, hat⟩ := Reader.Seek_table sn hsn (WriterOptions.norm o).Compression blks hok
    0 fuel (by rw [hflat]; exact hfuel)
  rw [hflat] at hat
  have hd : es.dropWhile (fun e => decide (e.1 < 0)) = es := by
    cases es with
    | nil => rfl
    | cons a t => exact List.dropWhile_cons_of_neg (by simp)
  rw [hd] at hat
  have hdr := Iterator.drain_spec sn hsn _ blks hok es (fuel + 1) it hat (by omega)
  exact ⟨_, it, es, hnr fuel hfuel, hseek, hdr, rfl, rfl, hpw⟩

theorem C1_round_trip_witness :
    ∃ r, NewReader 3
        (writeTable rleCodec (some ⟨30, 2, SnappyCompression⟩)
          [(3, [7]), (5, [0, 0, 0, 0, 0, 0, 0, 0, 0, 0, 0, 0]), (900, [])])
        ((writeTable rleCodec (some ⟨30, 2, SnappyCompression⟩)
          [(3, [7]), (5, [0, 0, 0, 0, 0, 0, 0, 0, 0, 0, 0, 0]), (900, [])]).length : Int) =
          Res.ok r ∧
      r.Get rleCodec 3 5 = Res.ok ([0, 0, 0, 0, 0, 0, 0, 0, 0, 0, 0, 0], none) ∧
      r.Get rleCodec 3 900 = Res.ok ([], none) := by
  obtain ⟨r, hr, h⟩ := C1_round_trip rleCodec rleCodec_lawful (some ⟨30, 2, SnappyCompression⟩)
    [(3, [7]), (5, [0, 0, 0, 0, 0, 0, 0, 0, 0, 0, 0, 0]), (900, [])]
    (by decide) (by decide) (by decide) (by decide) 3 (by decide)
  exact ⟨r, hr, (h (5, [0, 0, 0, 0, 0, 0, 0, 0, 0, 0, 0, 0]) (by decide)).2,
    (h (900, []) (by decide)).2⟩

theorem C2_not_found_witness :
    ∃ r, NewReader 3
        (writeTable rleCodec (some ⟨30, 2, SnappyCompression⟩)
          [(3, [7]), (5, [0, 0, 0, 0, 0, 0, 0, 0, 0, 0, 0, 0]), (900, [])])
        ((writeTable rleCodec (some ⟨30, 2, SnappyCompression⟩)
          [(3, [7]), (5, [0, 0, 0, 0, 0, 0, 0, 0, 0, 0, 0, 0]), (900, [])]).length : Int) =
          Res.ok r ∧
      r.Get rleCodec 3 4 = Res.ok ([], some Error.ErrNotFound) ∧
      r.Get rleCodec 3 901 = Res.ok ([], some Error.ErrNotFound) := by
  obtain ⟨r, hr, h⟩ := C2_not_found rleCodec rleCodec_lawful (some ⟨30, 2, SnappyCompression⟩)
    [(3, [7]), (5, [0, 0, 0, 0, 0, 0, 0, 0, 0, 0, 0, 0]), (900, [])]
    (by decide) (by decide) (by decide) (by decide) 3 (by decide)
  exact ⟨r, hr, (h 4 (by decide)).2, (h 901 (by decide)).2⟩

theorem C3_seek_positioning_witness :
    ∃ r it it', NewReader 3
        (writeTable rleCodec (some ⟨30, 2, SnappyCompression⟩)
          [(3, [7]), (5, [0, 0, 0, 0, 0, 0, 0, 0, 0, 0, 0, 0]), (900, [])])
        ((writeTable rleCodec (some ⟨30, 2, SnappyCompression⟩)
          [(3, [7]), (5, [0, 0, 0, 0, 0, 0, 0, 0, 0, 0, 0, 0]), (900, [])]).length : Int) =
          Res.ok r ∧
      r.Seek rleCodec 3 6 = Res.ok it ∧ it.Next rleCodec = Res.ok (it', true) ∧
      it'.Key = 900 := by
  obtain ⟨r, hr, h⟩ := C3_seek_positioning rleCodec rleCodec_lawful
    (some ⟨30, 2, SnappyCompression⟩)
    [(3, [7]), (5, [0, 0, 0, 0, 0, 0, 0, 0, 0, 0, 0, 0]), (900, [])]
    (by decide) (by decide) (by decide) (by decide) 3 (by decide)
  obtain ⟨it, it', b, hseek, hnext, hiff, htrue⟩ := h 6
  have hb : b = true := by
    rcases b with _ | _
    · have := hiff.1 rfl (900, []) (by decide)
      simp at this
    · rfl
  subst hb
  obtain ⟨hmem, hge, hmin⟩ := htrue rfl
  refine ⟨r, it, it', hr, hseek, hnext, ?_⟩
  have h1 := hmin (900, []) (by decide) (by decide)
  simp only [List.mem_cons, Prod.mk.injEq, List.mem_singleton, List.not_mem_nil, or_false] at hmem
  rcases hmem with ⟨hk, -⟩ | ⟨hk, -⟩ | ⟨hk, -⟩
  · rw [hk] at hge; omega
  · rw [hk] at hge; omega
  · exact hk

theorem C4_iteration_witness :
    ∃ r it, NewReader 3
        (writeTable rleCodec (some ⟨30, 2, SnappyCompression⟩)
          [(3, [7]), (5, [0, 0, 0, 0, 0, 0, 0, 0, 0, 0, 0, 0]), (900, [])])
        ((writeTable rleCodec (some ⟨30, 2, SnappyCompression⟩)
          [(3, [7]), (5, [0, 0, 0, 0, 0, 0, 0, 0, 0, 0, 0, 0]), (900, [])]).length : Int) =
          Res.ok r ∧
      r.Seek rleCodec 3 0 = Res.ok it ∧
      it.drain rleCodec 4 =
        Res.ok [(3, [7]), (5, [0, 0, 0, 0, 0, 0, 0, 0, 0, 0, 0, 0]), (900, [])] := by
  obtain ⟨r, it, out, hr, hseek, hdrain, hout, -, -⟩ := C4_iteration rleCodec rleCodec_lawful
    (some ⟨30, 2, SnappyCompression⟩)
    [(3, [7]), (5, [0, 0, 0, 0, 0, 0, 0, 0, 0, 0, 0, 0]), (900, [])]
    (by decide) (by decide) (by decide) (by decide) 3 (by decide)
  rw [hout] at hdrain
  exact ⟨r, it, hr, hseek, hdrain⟩

/-! ## A section at offset `2^32`: the stored offset wraps to 0 -/

theorem NewWriter_wide (sink : Sink) :
    NewWriter sink wideOptions =
      { w := sink,
        o := { BlockSize := 2 ^ 32 + 20, BlockRestartInterval := 1, Compression := NoCompression },
        block := { MaxKey := 0, Offset := 0 }, blen := 0, soffs := [], buf := [], snp := [],
        tmp := true, index := [] } := by
  rfl

theorem encEntry_one_length (V : Bytes) (hV : V.length = 2 ^ 32 - 6) :
    (encEntry 1 V).length = 2 ^ 32 := by
  rw [encEntry_length, hV]
  rfl

theorem Append_wide_first (sn : Codec) (sink : Sink) (V : Bytes) :
    Writer.Append sn
      { w := sink,
        o := { BlockSize := 2 ^ 32 + 20, BlockRestartInterval := 1, Compression := NoCompression },
        block := { MaxKey := 0, Offset := 0 }, blen := 0, soffs := [], buf := [], snp := [],
        tmp := true, index := [] } 1 V =
      ({ w := sink,
         o := { BlockSize := 2 ^ 32 + 20, BlockRestartInterval := 1, Compression := NoCompression },
         block := { MaxKey := 1, Offset := 0 }, blen := 1, soffs := [0],
         buf := encEntry 1 V, snp := [], tmp := true, index := [] }, none) := by
  rw [Append_eq]
  simp [Writer.needsFlush, Writer.put, encEntry]

theorem Append_wide_second (sn : Codec) (sink : Sink) (V : Bytes) (hV : V.length = 2 ^ 32 - 6) :
    Writer.Append sn
      { w := sink,
        o := { BlockSize := 2 ^ 32 + 20, BlockRestartInterval := 1, Compression := NoCompression },
        block := { MaxKey := 1, Offset := 0 }, blen := 1, soffs := [0],
        buf := encEntry 1 V, snp := [], tmp := true, index := [] } 2 [] =
      ({ w := sink,
         o := { BlockSize := 2 ^ 32 + 20, BlockRestartInterval := 1, Compression := NoCompression },
         block := { MaxKey := 2, Offset := 0 }, blen := 2, soffs := [0, 2 ^ 32],
         buf := encEntry 1 V ++ encEntry 2 [], snp := [], tmp := true, index := [] }, none) := by
  have hl := encEntry_one_length V hV
  rw [Append_eq]
  have hnf : ¬ Writer.needsFlush
      { w := sink,
        o := { BlockSize := 2 ^ 32 + 20, BlockRestartInterval := 1, Compression := NoCompression },
        block := { MaxKey := 1, Offset := 0 }, blen := 1, soffs := [0],
        buf := encEntry 1 V, snp := [], tmp := true, index := [] } [] := by
    intro h
    have h2 := h.2
    simp only [hl, List.length_nil, MaxVarintLen64] at h2
    norm_num at h2
  rw [if_neg (by simp), if_neg (by simp), if_neg hnf]
  have he : encEntry 2 [] = (PutUvarint 2 ++ PutUvarint ([] : Bytes).length) ++ [] := rfl
  simp [Writer.put, hl, he]

theorem run_wide (sn : Codec) (V : Bytes) (hV : V.length = 2 ^ 32 - 6) :
    (Writer.run sn (NewWriter { data := [], script := [] } wideOptions)
        (appends [(1, V), (2, [])])).1 =
      { w := { data := [], script := [] },
        o := { BlockSize := 2 ^ 32 + 20, BlockRestartInterval := 1, Compression := NoCompression },
        block := { MaxKey := 2, Offset := 0 }, blen := 2, soffs := [0, 2 ^ 32],
        buf := encEntry 1 V ++ encEntry 2 [], snp := [], tmp := true, index := [] } := by
  rw [NewWriter_wide]
  simp only [appends, List.map, Writer.run, Writer.step]
  rw [Append_wide_first, Append_wide_second sn _ V hV]

theorem Close_data (sn : Codec) (w : Writer) (ht : w.tmp = true) (hacc : w.w.accepting)
    (hne : w.buf ≠ []) :
    (w.Close sn).1.w.data =
      w.w.data ++ emitted sn w.o.Compression (framed w.buf w.soffs) ++
        encIndex (w.index ++ [w.block]) ++
        (PutUint64 (toUint64 (w.block.Offset +
          ((emitted sn w.o.Compression (framed w.buf w.soffs)).length : Int))) ++ magic) := by
  have hc := Close_ok sn w ht (Close_accepting sn w ht hacc)
  have hf := flush_ok sn w hne hc.1
  obtain ⟨-, -, -, f4⟩ := flush_fields sn w
  rcases f4 with ⟨g, -⟩ | ⟨-, -, -, -, g5⟩
  · exact absurd g hne
  · rw [hc.2, hf.1, hf.2, g5]

theorem emitted_NoCompression (sn : Codec) (u : Bytes) :
    emitted sn NoCompression u = u ++ [blockNoCompression] := by
  unfold emitted
  rw [if_neg (by decide)]

theorem writeTable_wide (sn : Codec) (V : Bytes) (hV : V.length = 2 ^ 32 - 6) :
    writeTable sn wideOptions [(1, V), (2, [])] =
      fileBytes [(2, ((encEntry 1 V ++ encEntry 2 []) ++ (PutUint32 (2 ^ 32) ++ PutUint32 2)) ++
        [blockNoCompression])] := by
  have hfr : framed (encEntry 1 V ++ encEntry 2 []) [0, 2 ^ 32] =
      (encEntry 1 V ++ encEntry 2 []) ++ (PutUint32 (2 ^ 32) ++ PutUint32 2) := by
    simp [framed, appendSoffs]
  unfold writeTable
  rw [run_snoc, run_wide sn V hV]
  simp only [Writer.step]
  rw [Close_data sn _ rfl (by intro x hx; simp at hx)
    (by intro h; exact encEntry_ne_nil 1 V (List.append_eq_nil.1 h).1)]
  simp only [List.nil_append, emitted_NoCompression, hfr, fileBytes, fileBlocks, fileIndex,
    List.append_nil, zero_add, toUint64_natCast, PutUint64_mod]
  rfl

theorem SeekBlock_single (sn : Codec) (mk : Nat) (B : Bytes) (k : Nat) (hk : k ≤ mk) :
    (fileReader [(mk, B)]).SeekBlock sn k = (fileReader [(mk, B)]).readBlock sn 0 := by
  have hg := Reader.GetBlock_raw sn [] (mk, B) []
  simp only [List.nil_append, List.length_nil, Nat.cast_zero] at hg
  unfold Reader.SeekBlock
  have hs : Search (fileReader [(mk, B)]).index.length ((fileReader [(mk, B)]).seekBlockPred k) =
      Res.ok 0 := by
    simp [fileReader, fileIndex, Search, searchLoop, Reader.seekBlockPred, hk]
  rw [hs]
  exact hg

theorem Iterator.Next_in_section (sn : Codec) (it : Iterator) (pre : Bytes) (p : Nat)
    (e : Entry) (post : List Entry) (herr : it.err = none)
    (hsec : it.s.sec = pre ++ encSec p (e :: post)) (hread : it.s.read = (pre.length : Int))
    (hkey : it.s.key = p) (hok : okFrom p (e :: post)) :
    it.Next sn =
      Res.ok ({ it with s := { it.s with
        read := (((pre ++ encEntry (e.1 - p) e.2).length : Nat) : Int),
        key := e.1, val := e.2 } }, true) := by
  have hm : it.s.More = true :=
    (SectionReader.More_iff it.s pre p (e :: post) hsec hread).2 (by simp)
  obtain ⟨hp, h64, hv, -⟩ := hok
  unfold Iterator.Next
  rw [if_neg (by simp [herr]), if_pos hm,
    SectionReader.Next_cons it.s pre p e post hsec hread hkey hp h64 hv]

theorem seek_next_section (sn : Codec) (fuel : Nat) (r : Reader) (k : Nat) (b : BlockReader)
    (s : SectionReader) (post : List Entry) (hb : r.SeekBlock sn k = Res.ok b)
    (hs : b.SeekSection k = Res.ok s) (hsec : s.sec = encSec 0 post) (hread : s.read = 0)
    (hkey : s.key = 0) (hok : okFrom 0 post) (hfuel : post.length ≤ fuel) (e : Entry)
    (rest : List Entry) (hd : post.dropWhile (fun x => decide (x.1 < k)) = e :: rest) :
    ∃ it it', r.Seek sn fuel k = Res.ok it ∧ it.Next sn = Res.ok (it', true) ∧
      it'.Key = e.1 ∧ it'.Value = e.2 := by
  obtain ⟨s', pre', p', h1, h2, h3, h4, h5, h6, h7⟩ :=
    SectionReader.Seek_spec k post fuel s [] 0 (by simpa using hsec) (by simpa using hread)
      hkey hok hfuel
  rw [hd] at h1 h4 h7
  rw [← h2] at h4
  refine ⟨{ r := r, b := b, s := s', err := none }, _, ?_,
    Iterator.Next_in_section sn { r := r, b := b, s := s', err := none } pre' p' e rest rfl h4
      h5 h6 h7, rfl, rfl⟩
  unfold Reader.Seek
  rw [hb]
  simp only
  rw [hs]
  simp only
  rw [h1]

theorem get_of_seek_next (sn : Codec) (fuel : Nat) (r : Reader) (k : Nat) (it it' : Iterator)
    (h1 : r.Seek sn fuel k = Res.ok it) (h2 : it.Next sn = Res.ok (it', true)) :
    r.Get sn fuel k =
      if it'.Key ≠ k then Res.ok ([], some Error.ErrNotFound) else Res.ok (it'.Value, none) := by
  unfold Reader.Get Reader.Append
  rw [h1]
  simp only
  rw [h2]
  simp


theorem widePayload_length (V : Bytes) (hV : V.length = 2 ^ 32 - 6) :
    (widePayload V).length = 2 ^ 32 + 10 := by
  have hl := encEntry_one_length V hV
  have h2 : (encEntry 2 []).length = 2 := rfl
  have h3 : (PutUint32 (2 ^ 32) ++ PutUint32 2).length = 8 := rfl
  unfold widePayload
  rw [List.length_append, List.length_append, hl, h2, h3]

theorem wideEntries_length (V : Bytes) (hV : V.length = 2 ^ 32 - 6) :
    (encEntry 1 V ++ encEntry 2 []).length = 2 ^ 32 + 2 := by
  have hl := encEntry_one_length V hV
  have h2 : (encEntry 2 []).length = 2 := rfl
  rw [List.length_append, hl, h2]

theorem NewReader_wide (sn : Codec) (V : Bytes) (hV : V.length = 2 ^ 32 - 6) (fuel : Nat)
    (hfuel : 1 ≤ fuel) :
    NewReader fuel (writeTable sn wideOptions [(1, V), (2, [])])
        ((writeTable sn wideOptions [(1, V), (2, [])]).length : Int) =
      Res.ok (fileReader [(2, widePayload V ++ [blockNoCompression])]) := by
  rw [writeTable_wide sn V hV]
  have hp := widePayload_length V hV
  exact NewReader_fileBytes [(2, widePayload V ++ [blockNoCompression])] fuel
    (by intro b hb; simp only [List.mem_singleton] at hb; rw [hb]; norm_num)
    (by
      show ((widePayload V ++ [blockNoCompression]) ++ []).length < 2 ^ 63
      rw [List.append_nil, List.length_append, hp]
      norm_num)
    (by simpa using hfuel)

theorem readBlock_wide (sn : Codec) (V : Bytes) :
    (fileReader [(2, widePayload V ++ [blockNoCompression])]).readBlock sn 0 =
      Res.ok (wideBlock V) :=
  Reader.readBlock_raw sn [] (2, widePayload V ++ [blockNoCompression]) [] (widePayload V)
    blockNoCompression (widePayload V) ((encEntry 1 V ++ encEntry 2 []) ++ PutUint32 (2 ^ 32)) 2
    rfl (Or.inl ⟨rfl, rfl⟩) (by simp [widePayload])

theorem sectionOffset_wide (V : Bytes) :
    (wideBlock V).sectionOffset 1 = Res.ok 0 := by
  unfold BlockReader.sectionOffset
  rw [if_neg (by norm_num), if_neg (by simp [wideBlock])]
  show (match sliceFrom (widePayload V) _ with
    | .ok tail => _
    | .err e => _
    | .panic => _
    | .outOfFuel => _) = _
  rw [sliceFrom_eq (widePayload V) (encEntry 1 V ++ encEntry 2 []) (PutUint32 (2 ^ 32) ++ PutUint32 2) _
    rfl (by
      have h3 : (PutUint32 (2 ^ 32)).length = 4 := rfl
      have h4 : (PutUint32 2).length = 4 := rfl
      simp only [wideBlock, widePayload, List.length_append, h3, h4]
      push_cast
      omega)]
  simp only
  rw [Uint32_PutUint32]
  rfl


theorem GetSection_wide_one (V : Bytes) :
    (wideBlock V).GetSection 1 =
      Res.ok { sec := encEntry 1 V ++ encEntry 2 [], spos := 1, read := 0, key := 0, val := [] } := by
  have h2 : (wideBlock V).sectionOffset (1 + 1) =
      Res.ok (((encEntry 1 V ++ encEntry 2 []).length : Nat) : Int) := by
    unfold BlockReader.sectionOffset
    rw [if_neg (by norm_num), if_pos (by simp [wideBlock])]
    have h3 : (PutUint32 (2 ^ 32)).length = 4 := rfl
    have h4 : (PutUint32 2).length = 4 := rfl
    simp only [wideBlock, widePayload, List.length_append, h3, h4]
    congr 1
    push_cast
    omega
  have h0 : ¬ (1 : Int) < 0 := by norm_num
  have h1 : ¬ ((wideBlock V).scnt : Int) ≤ 1 := by simp [wideBlock]
  unfold BlockReader.GetSection
  simp only [if_neg h0, if_neg h1, sectionOffset_wide, h2]
  rw [slice_eq (wideBlock V).block [] (encEntry 1 V ++ encEntry 2 [])
    (PutUint32 (2 ^ 32) ++ PutUint32 2) 0 _ rfl rfl (by simp)]
  rfl

theorem GetSection_wide_zero (V : Bytes) :
    (wideBlock V).GetSection ((0 : Nat) - 1) =
      Res.ok { sec := [], spos := 0, read := 0, key := 0, val := [] } := by
  have h1 : (wideBlock V).sectionOffset 0 = Res.ok 0 := by
    unfold BlockReader.sectionOffset
    rw [if_pos (by norm_num)]
  have h0 : (((0 : Nat) : Int) - 1) < 0 := by norm_num
  have h3 : ¬ ((wideBlock V).scnt : Int) ≤ 0 := by simp [wideBlock]
  have h4 : ((0 : Int) + 1) = 1 := rfl
  unfold BlockReader.GetSection
  simp only [if_pos h0, if_neg h3, h1, h4, sectionOffset_wide]
  rw [slice_eq (wideBlock V).block [] [] (widePayload V) 0 0 rfl rfl rfl]
  rfl

theorem Uvarint_widePayload (V : Bytes) : (Uvarint (widePayload V)).1 = 1 := by
  have h : widePayload V = PutUvarint 1 ++ ((PutUvarint V.length ++ V) ++ encEntry 2 [] ++
      (PutUint32 (2 ^ 32) ++ PutUint32 2)) := by
    simp [widePayload, encEntry]
  rw [h, Uvarint_PutUvarint 1 _ (by norm_num)]

theorem seekSectionPred_wide (V : Bytes) (k i : Nat) (hi : i < 2) :
    (wideBlock V).seekSectionPred k i = Res.ok (decide (k < 1)) := by
  have hoff : (wideBlock V).sectionOffset (i : Int) = Res.ok 0 := by
    rcases Nat.lt_succ_iff_lt_or_eq.1 hi with h | h
    · have : i = 0 := by omega
      subst this
      unfold BlockReader.sectionOffset
      rw [if_pos (by norm_num)]
    · subst h
      exact sectionOffset_wide V
  unfold BlockReader.seekSectionPred
  rw [hoff]
  simp only
  rw [sliceFrom_eq (wideBlock V).block [] (widePayload V) 0 rfl rfl]
  simp only
  rw [Uvarint_widePayload]

theorem SeekSection_wide (V : Bytes) (k : Nat) (h1 : 1 ≤ k) (h2 : k ≤ 2) :
    (wideBlock V).SeekSection k =
      Res.ok { sec := encEntry 1 V ++ encEntry 2 [], spos := 1, read := 0, key := 0, val := [] } := by
  unfold BlockReader.SeekSection
  rw [if_neg (by simp only [wideBlock]; omega)]
  have hs : Search (wideBlock V).scnt ((wideBlock V).seekSectionPred k) = Res.ok 2 := by
    have hk : k ≠ 0 := by omega
    show Search 2 _ = _
    simp [Search, searchLoop, seekSectionPred_wide V k 1 (by norm_num), hk]
  rw [hs]
  exact GetSection_wide_one V

theorem SeekSection_wide_zero (V : Bytes) :
    (wideBlock V).SeekSection 0 =
      Res.ok { sec := [], spos := 0, read := 0, key := 0, val := [] } := by
  unfold BlockReader.SeekSection
  rw [if_neg (by simp [wideBlock])]
  have hs : Search (wideBlock V).scnt ((wideBlock V).seekSectionPred 0) = Res.ok 0 := by
    show Search 2 _ = _
    simp [Search, searchLoop, seekSectionPred_wide V 0 1 (by norm_num),
      seekSectionPred_wide V 0 0 (by norm_num)]
  rw [hs]
  exact GetSection_wide_zero V


theorem wideValue_length : wideValue.length = 2 ^ 32 - 6 := List.length_replicate _ _

theorem SeekBlock_wide (sn : Codec) (V : Bytes) (k : Nat) (hk : k ≤ 2) :
    (fileReader [(2, widePayload V ++ [blockNoCompression])]).SeekBlock sn k =
      Res.ok (wideBlock V) := by
  rw [SeekBlock_single sn 2 _ k hk]
  exact readBlock_wide sn V

theorem seek_next_wide (sn : Codec) (V : Bytes) (hV : V.length = 2 ^ 32 - 6) (fuel : Nat)
    (hfuel : 2 ≤ fuel) :
    ∃ it it', (fileReader [(2, widePayload V ++ [blockNoCompression])]).Seek sn fuel 2 =
        Res.ok it ∧
      it.Next sn = Res.ok (it', true) ∧ it'.Key = 3 ∧ it'.Value = [] :=
  seek_next_section sn fuel _ 2 (wideBlock V) _ [(1, V), (3, [])] (SeekBlock_wide sn V 2 (le_refl 2))
    (SeekSection_wide V 2 (by norm_num) (le_refl 2)) (by simp [encSec]) rfl rfl
    ⟨Nat.zero_le 1, by norm_num, by rw [hV]; norm_num, by norm_num, by norm_num,
      by simp, trivial⟩
    hfuel (3, []) [] (by simp [List.dropWhile])

theorem drain_wide (sn : Codec) (V : Bytes) (hV : V.length = 2 ^ 32 - 6) (fuel : Nat) :
    ∃ it, (fileReader [(2, widePayload V ++ [blockNoCompression])]).Seek sn fuel 0 = Res.ok it ∧
      it.drain sn 3 = Res.ok [(1, V), (3, [])] := by
  have hseek : (fileReader [(2, widePayload V ++ [blockNoCompression])]).Seek sn fuel 0 =
      Res.ok { r := fileReader [(2, widePayload V ++ [blockNoCompression])], b := wideBlock V,
               s := { sec := [], spos := 0, read := 0, key := 0, val := [] }, err := none } := by
    unfold Reader.Seek
    rw [SeekBlock_wide sn V 0 (by norm_num)]
    simp only
    rw [SeekSection_wide_zero]
    simp only
    rw [SectionReader.Seek_empty]
  have hv : V.length < 2 ^ 63 := by rw [hV]; norm_num
  have hn1 : Iterator.Next sn
      { r := fileReader [(2, widePayload V ++ [blockNoCompression])], b := wideBlock V,
        s := { sec := [], spos := 0, read := 0, key := 0, val := [] }, err := none } =
      Res.ok ({ r := fileReader [(2, widePayload V ++ [blockNoCompression])], b := wideBlock V,
                s := { sec := encEntry 1 V ++ encEntry 2 [], spos := 1,
                       read := (((encEntry 1 V).length : Nat) : Int), key := 1, val := V },
                err := none }, true) := by
    have hnx := SectionReader.Next_cons
      { sec := encEntry 1 V ++ encEntry 2 [], spos := 1, read := 0, key := 0, val := [] }
      [] 0 (1, V) [(3, [])] (by simp [encSec]) rfl rfl (Nat.zero_le 1) (by norm_num) hv
    unfold Iterator.Next
    rw [if_neg (by simp), if_neg (by simp [SectionReader.More]),
      if_pos (by simp [SectionReader.Pos, BlockReader.NumSections, wideBlock])]
    have hg : (wideBlock V).GetSection ((((0 : Nat) : Int)) + 1) = _ := GetSection_wide_one V
    simp only [SectionReader.Pos]
    rw [hg]
    simp only
    rw [hnx]
    simp
  have hn2 := Iterator.Next_in_section sn
      { r := fileReader [(2, widePayload V ++ [blockNoCompression])], b := wideBlock V,
        s := { sec := encEntry 1 V ++ encEntry 2 [], spos := 1,
               read := (((encEntry 1 V).length : Nat) : Int), key := 1, val := V },
        err := none } (encEntry 1 V) 1 (3, []) [] rfl (by simp [encSec]) rfl rfl
      ⟨by norm_num, by norm_num, by simp, trivial⟩
  have hl := wideEntries_length V hV
  have hn3 : Iterator.Next sn
      { r := fileReader [(2, widePayload V ++ [blockNoCompression])], b := wideBlock V,
        s := { sec := encEntry 1 V ++ encEntry 2 [], spos := 1,
               read := (((encEntry 1 V ++ encEntry (3 - 1) []).length : Nat) : Int),
               key := 3, val := [] },
        err := none } =
      Res.ok ({ r := fileReader [(2, widePayload V ++ [blockNoCompression])], b := wideBlock V,
                s := { sec := encEntry 1 V ++ encEntry 2 [], spos := 1,
                       read := (((encEntry 1 V ++ encEntry (3 - 1) []).length : Nat) : Int),
                       key := 3, val := [] },
                err := none }, false) := by
    unfold Iterator.Next
    rw [if_neg (by simp), if_neg (by simp [SectionReader.More]),
      if_neg (by simp [SectionReader.Pos, BlockReader.NumSections, wideBlock]),
      if_neg (by simp [BlockReader.Pos, Reader.NumBlocks, wideBlock, fileReader, fileIndex])]
  refine ⟨_, hseek, ?_⟩
  simp only [Iterator.drain, hn1, hn2, hn3, Iterator.Key, Iterator.Value, SectionReader.Key,
    SectionReader.Value]


/-- C1 fails as stated. Under `wideOptions` (block size `2^32 + 20`, restart interval 1,
no compression) the entries `(1, wideValue)` and `(2, [])` are written with increasing
keys; the second section starts at offset `2^32`, which `flush` stores as the `uint32`
0. The reader opens the file, and `Get(2)` returns `ErrNotFound` although the key 2 was
appended. -/
theorem C1_round_trip_counterexample :
    (WriterOptions.norm wideOptions).BlockSize = 2 ^ 32 + 20 ∧
    wideEntries.Pairwise (fun a b => a.1 < b.1) ∧ ((2, []) : Entry) ∈ wideEntries ∧
    ∃ r, NewReader 2 (writeTable rleCodec wideOptions wideEntries)
        ((writeTable rleCodec wideOptions wideEntries).length : Int) = Res.ok r ∧
      r.Get rleCodec 2 2 = Res.ok ([], some Error.ErrNotFound) := by
  refine ⟨rfl, by simp [wideEntries], by simp [wideEntries], _,
    NewReader_wide rleCodec wideValue wideValue_length 2 (by norm_num), ?_⟩
  obtain ⟨it, it', h1, h2, h3, -⟩ :=
    seek_next_wide rleCodec wideValue wideValue_length 2 (le_refl 2)
  rw [get_of_seek_next rleCodec 2 _ 2 it it' h1 h2, h3]
  rfl

/-- C3 fails as stated. For the table of `wideEntries` written under `wideOptions`,
`Seek(2)` followed by `Next` returns true with `Key() = 3`, although the smallest stored
key at or above 2 is 2 itself. -/
theorem C3_seek_positioning_counterexample :
    ((2, []) : Entry) ∈ wideEntries ∧
    ∃ r it it', NewReader 2 (writeTable rleCodec wideOptions wideEntries)
        ((writeTable rleCodec wideOptions wideEntries).length : Int) = Res.ok r ∧
      r.Seek rleCodec 2 2 = Res.ok it ∧ it.Next rleCodec = Res.ok (it', true) ∧
      it'.Key = 3 := by
  obtain ⟨it, it', h1, h2, h3, -⟩ :=
    seek_next_wide rleCodec wideValue wideValue_length 2 (le_refl 2)
  exact ⟨by simp [wideEntries], _,  it, it',
    NewReader_wide rleCodec wideValue wideValue_length 2 (by norm_num), h1, h2, h3⟩

/-- C4 fails as stated. For the table of `wideEntries` written under `wideOptions`,
calling `Next` from `Seek(0)` until it returns false yields the keys 1 and 3: the
appended entry `(2, [])` is not yielded, and a key that was never appended is. -/
theorem C4_iteration_counterexample :
    ∃ r it, NewReader 2 (writeTable rleCodec wideOptions wideEntries)
        ((writeTable rleCodec wideOptions wideEntries).length : Int) = Res.ok r ∧
      r.Seek rleCodec 2 0 = Res.ok it ∧
      it.drain rleCodec 3 = Res.ok [(1, wideValue), (3, [])] ∧
      [(1, wideValue), (3, [])] ≠ wideEntries := by
  obtain ⟨it, h1, h2⟩ := drain_wide rleCodec wideValue wideValue_length 2
  refine ⟨_, it, NewReader_wide rleCodec wideValue wideValue_length 2 (by norm_num), h1, h2, ?_⟩
  intro h
  simp [wideEntries] at h

/-! ## Sections at the offsets `2^32 + 6` and `2^32 + 8`: a section inside a value -/

theorem NewWriter_wrap (sink : Sink) :
    NewWriter sink wrapOptions =
      { w := sink,
        o := { BlockSize := 2 ^ 32 + 28, BlockRestartInterval := 1, Compression := NoCompression },
        block := { MaxKey := 0, Offset := 0 }, blen := 0, soffs := [], buf := [], snp := [],
        tmp := true, index := [] } := by
  rfl

theorem encEntry_wrap_length (V : Bytes) (hV : V.length = 2 ^ 32) :
    (encEntry 1 V).length = 2 ^ 32 + 6 := by
  rw [encEntry_length, hV]
  rfl

theorem Append_wrap_first (sn : Codec) (sink : Sink) (V : Bytes) :
    Writer.Append sn
      { w := sink,
        o := { BlockSize := 2 ^ 32 + 28, BlockRestartInterval := 1, Compression := NoCompression },
        block := { MaxKey := 0, Offset := 0 }, blen := 0, soffs := [], buf := [], snp := [],
        tmp := true, index := [] } 1 V =
      ({ w := sink,
         o := { BlockSize := 2 ^ 32 + 28, BlockRestartInterval := 1, Compression := NoCompression },
         block := { MaxKey := 1, Offset := 0 }, blen := 1, soffs := [0],
         buf := encEntry 1 V, snp := [], tmp := true, index := [] }, none) := by
  rw [Append_eq]
  simp [Writer.needsFlush, Writer.put, encEntry]

theorem Append_wrap_second (sn : Codec) (sink : Sink) (V : Bytes) (hV : V.length = 2 ^ 32) :
    Writer.Append sn
      { w := sink,
        o := { BlockSize := 2 ^ 32 + 28, BlockRestartInterval := 1, Compression := NoCompression },
        block := { MaxKey := 1, Offset := 0 }, blen := 1, soffs := [0],
        buf := encEntry 1 V, snp := [], tmp := true, index := [] } 7 [] =
      ({ w := sink,
         o := { BlockSize := 2 ^ 32 + 28, BlockRestartInterval := 1, Compression := NoCompression },
         block := { MaxKey := 7, Offset := 0 }, blen := 2, soffs := [0, 2 ^ 32 + 6],
         buf := encEntry 1 V ++ encEntry 7 [], snp := [], tmp := true, index := [] }, none) := by
  have hl := encEntry_wrap_length V hV
  rw [Append_eq]
  have hnf : ¬ Writer.needsFlush
      { w := sink,
        o := { BlockSize := 2 ^ 32 + 28, BlockRestartInterval := 1, Compression := NoCompression },
        block := { MaxKey := 1, Offset := 0 }, blen := 1, soffs := [0],
        buf := encEntry 1 V, snp := [], tmp := true, index := [] } [] := by
    intro h
    have h2 := h.2
    simp only [hl, List.length_nil, MaxVarintLen64] at h2
    norm_num at h2
  rw [if_neg (by simp), if_neg (by simp), if_neg hnf]
  have he : encEntry 7 [] = (PutUvarint 7 ++ PutUvarint ([] : Bytes).length) ++ [] := rfl
  simp [Writer.put, hl, he]

theorem Append_wrap_third (sn : Codec) (sink : Sink) (V : Bytes) (hV : V.length = 2 ^ 32) :
    Writer.Append sn
      { w := sink,
        o := { BlockSize := 2 ^ 32 + 28, BlockRestartInterval := 1, Compression := NoCompression },
        block := { MaxKey := 7, Offset := 0 }, blen := 2, soffs := [0, 2 ^ 32 + 6],
        buf := encEntry 1 V ++ encEntry 7 [], snp := [], tmp := true, index := [] } 9 [] =
      ({ w := sink,
         o := { BlockSize := 2 ^ 32 + 28, BlockRestartInterval := 1, Compression := NoCompression },
         block := { MaxKey := 9, Offset := 0 }, blen := 3,
         soffs := [0, 2 ^ 32 + 6, 2 ^ 32 + 8],
         buf := (encEntry 1 V ++ encEntry 7 []) ++ encEntry 9 [], snp := [], tmp := true,
         index := [] }, none) := by
  have hl := encEntry_wrap_length V hV
  have h7 : (encEntry 7 []).length = 2 := rfl
  rw [Append_eq]
  have hnf : ¬ Writer.needsFlush
      { w := sink,
        o := { BlockSize := 2 ^ 32 + 28, BlockRestartInterval := 1, Compression := NoCompression },
        block := { MaxKey := 7, Offset := 0 }, blen := 2, soffs := [0, 2 ^ 32 + 6],
        buf := encEntry 1 V ++ encEntry 7 [], snp := [], tmp := true, index := [] } [] := by
    intro h
    have h2 := h.2
    simp only [List.length_append, hl, h7, List.length_nil, MaxVarintLen64] at h2
    norm_num at h2
  rw [if_neg (by simp), if_neg (by simp), if_neg hnf]
  have he : encEntry 9 [] = (PutUvarint 9 ++ PutUvarint ([] : Bytes).length) ++ [] := rfl
  simp [Writer.put, hl, h7, he]

theorem run_wrap (sn : Codec) (V : Bytes) (hV : V.length = 2 ^ 32) :
    (Writer.run sn (NewWriter { data := [], script := [] } wrapOptions)
        (appends [(1, V), (7, []), (9, [])])).1 =
      { w := { data := [], script := [] },
        o := { BlockSize := 2 ^ 32 + 28, BlockRestartInterval := 1, Compression := NoCompression },
        block := { MaxKey := 9, Offset := 0 }, blen := 3,
        soffs := [0, 2 ^ 32 + 6, 2 ^ 32 + 8],
        buf := (encEntry 1 V ++ encEntry 7 []) ++ encEntry 9 [], snp := [], tmp := true,
        index := [] } := by
  rw [NewWriter_wrap]
  simp only [appends, List.map, Writer.run, Writer.step]
  rw [Append_wrap_first, Append_wrap_second sn _ V hV, Append_wrap_third sn _ V hV]

theorem writeTable_wrap (sn : Codec) (V : Bytes) (hV : V.length = 2 ^ 32) :
    writeTable sn wrapOptions [(1, V), (7, []), (9, [])] =
      fileBytes [(9, wrapPayload V ++ [blockNoCompression])] := by
  have hfr : framed ((encEntry 1 V ++ encEntry 7 []) ++ encEntry 9 [])
      [0, 2 ^ 32 + 6, 2 ^ 32 + 8] = wrapPayload V := by
    simp [framed, appendSoffs, wrapPayload]
  unfold writeTable
  rw [run_snoc, run_wrap sn V hV]
  simp only [Writer.step]
  rw [Close_data sn _ rfl (by intro x hx; simp at hx)
    (by
      intro h
      exact encEntry_ne_nil 1 V (List.append_eq_nil.1 (List.append_eq_nil.1 h).1).1)]
  simp only [List.nil_append, emitted_NoCompression, hfr, fileBytes, fileBlocks, fileIndex,
    List.append_nil, zero_add, toUint64_natCast, PutUint64_mod]
  rfl

theorem wrapPayload_length (V : Bytes) (hV : V.length = 2 ^ 32) :
    (wrapPayload V).length = 2 ^ 32 + 22 := by
  have hl := encEntry_wrap_length V hV
  have h2 : (encEntry 7 []).length = 2 := rfl
  have h3 : (encEntry 9 []).length = 2 := rfl
  have h4 : ((PutUint32 (2 ^ 32 + 6) ++ PutUint32 (2 ^ 32 + 8)) ++ PutUint32 3).length = 12 := rfl
  unfold wrapPayload
  rw [List.length_append, List.length_append, List.length_append, hl, h2, h3, h4]

theorem NewReader_wrap (sn : Codec) (V : Bytes) (hV : V.length = 2 ^ 32) (fuel : Nat)
    (hfuel : 1 ≤ fuel) :
    NewReader fuel (writeTable sn wrapOptions [(1, V), (7, []), (9, [])])
        ((writeTable sn wrapOptions [(1, V), (7, []), (9, [])]).length : Int) =
      Res.ok (fileReader [(9, wrapPayload V ++ [blockNoCompression])]) := by
  rw [writeTable_wrap sn V hV]
  have hp := wrapPayload_length V hV
  exact NewReader_fileBytes [(9, wrapPayload V ++ [blockNoCompression])] fuel
    (by intro b hb; simp only [List.mem_singleton] at hb; rw [hb]; norm_num)
    (by
      show ((wrapPayload V ++ [blockNoCompression]) ++ []).length < 2 ^ 63
      rw [List.append_nil, List.length_append, hp]
      norm_num)
    (by simpa using hfuel)

theorem SeekBlock_wrap (sn : Codec) (V : Bytes) (k : Nat) (hk : k ≤ 9) :
    (fileReader [(9, wrapPayload V ++ [blockNoCompression])]).SeekBlock sn k =
      Res.ok (wrapBlock V) := by
  rw [SeekBlock_single sn 9 _ k hk]
  exact Reader.readBlock_raw sn [] (9, wrapPayload V ++ [blockNoCompression]) [] (wrapPayload V)
    blockNoCompression (wrapPayload V)
    (((encEntry 1 V ++ encEntry 7 []) ++ encEntry 9 []) ++
      (PutUint32 (2 ^ 32 + 6) ++ PutUint32 (2 ^ 32 + 8))) 3
    rfl (Or.inl ⟨rfl, rfl⟩) (by simp [wrapPayload])

theorem sectionOffset_wrap_one (V : Bytes) :
    (wrapBlock V).sectionOffset 1 = Res.ok 6 := by
  unfold BlockReader.sectionOffset
  rw [if_neg (by norm_num), if_neg (by simp [wrapBlock])]
  show (match sliceFrom (wrapPayload V) _ with
    | .ok tail => _
    | .err e => _
    | .panic => _
    | .outOfFuel => _) = _
  rw [sliceFrom_eq (wrapPayload V) ((encEntry 1 V ++ encEntry 7 []) ++ encEntry 9 [])
    (PutUint32 (2 ^ 32 + 6) ++ (PutUint32 (2 ^ 32 + 8) ++ PutUint32 3)) _
    (by simp [wrapPayload]) (by
      have h3 : (PutUint32 (2 ^ 32 + 6)).length = 4 := rfl
      have h4 : (PutUint32 (2 ^ 32 + 8)).length = 4 := rfl
      have h5 : (PutUint32 3).length = 4 := rfl
      simp only [wrapBlock, wrapPayload, List.length_append, h3, h4, h5]
      push_cast
      omega)]
  simp only
  rw [Uint32_PutUint32]
  rfl

theorem sectionOffset_wrap_two (V : Bytes) :
    (wrapBlock V).sectionOffset 2 = Res.ok 8 := by
  unfold BlockReader.sectionOffset
  rw [if_neg (by norm_num), if_neg (by simp [wrapBlock])]
  show (match sliceFrom (wrapPayload V) _ with
    | .ok tail => _
    | .err e => _
    | .panic => _
    | .outOfFuel => _) = _
  rw [sliceFrom_eq (wrapPayload V)
    (((encEntry 1 V ++ encEntry 7 []) ++ encEntry 9 []) ++ PutUint32 (2 ^ 32 + 6))
    (PutUint32 (2 ^ 32 + 8) ++ PutUint32 3) _
    (by simp [wrapPayload]) (by
      have h3 : (PutUint32 (2 ^ 32 + 6)).length = 4 := rfl
      have h4 : (PutUint32 (2 ^ 32 + 8)).length = 4 := rfl
      have h5 : (PutUint32 3).length = 4 := rfl
      simp only [wrapBlock, wrapPayload, List.length_append, h3, h4, h5]
      push_cast
      omega)]
  simp only
  rw [Uint32_PutUint32]
  rfl


theorem wrapPayload_split (Z : Bytes) :
    wrapPayload (5 :: 0 :: 6 :: Z) =
      (PutUvarint 1 ++ PutUvarint (5 :: 0 :: 6 :: Z : Bytes).length) ++ [5, 0] ++
        (6 :: (Z ++ (encEntry 7 [] ++ (encEntry 9 [] ++
          ((PutUint32 (2 ^ 32 + 6) ++ PutUint32 (2 ^ 32 + 8)) ++ PutUint32 3))))) := by
  simp [wrapPayload, encEntry]

theorem wrap_header_length (Z : Bytes) (hZ : Z.length = 2 ^ 32 - 3) :
    (PutUvarint 1 ++ PutUvarint (5 :: 0 :: 6 :: Z : Bytes).length).length = 6 := by
  have hV : (5 :: 0 :: 6 :: Z : Bytes).length = 2 ^ 32 := by
    rw [List.length_cons, List.length_cons, List.length_cons, hZ]
    norm_num
  rw [hV]
  rfl

theorem GetSection_wrap_one (Z : Bytes) (hZ : Z.length = 2 ^ 32 - 3) :
    (wrapBlock (5 :: 0 :: 6 :: Z)).GetSection ((2 : Nat) - 1) =
      Res.ok { sec := [5, 0], spos := 1, read := 0, key := 0, val := [] } := by
  have hh := wrap_header_length Z hZ
  have h0 : ¬ (((2 : Nat) : Int) - 1) < 0 := by norm_num
  have h1 : ¬ ((wrapBlock (5 :: 0 :: 6 :: Z)).scnt : Int) ≤ ((2 : Nat) : Int) - 1 := by
    simp [wrapBlock]
  have h2 : (((2 : Nat) : Int) - 1) = 1 := by norm_num
  have h3 : ((1 : Int) + 1) = 2 := rfl
  unfold BlockReader.GetSection
  simp only [if_neg h0, if_neg h1]
  simp only [h2, h3, sectionOffset_wrap_one, sectionOffset_wrap_two]
  rw [slice_eq (wrapBlock (5 :: 0 :: 6 :: Z)).block _ [5, 0] _ 6 8 (wrapPayload_split Z)
    (by rw [hh]; rfl) (by rw [hh]; rfl)]
  rfl

theorem seekSectionPred_wrap_one (Z : Bytes) (hZ : Z.length = 2 ^ 32 - 3) (k : Nat) :
    (wrapBlock (5 :: 0 :: 6 :: Z)).seekSectionPred k 1 = Res.ok (decide (k < 5)) := by
  have hh := wrap_header_length Z hZ
  have hu : ∀ rest : Bytes, (Uvarint (5 :: rest)).1 = 5 := by
    intro rest
    have := Uvarint_PutUvarint 5 rest (by norm_num)
    exact congrArg Prod.fst this
  unfold BlockReader.seekSectionPred
  have hoff : (wrapBlock (5 :: 0 :: 6 :: Z)).sectionOffset ((1 : Nat) : Int) = Res.ok 6 :=
    sectionOffset_wrap_one _
  rw [hoff]
  simp only
  rw [sliceFrom_eq (wrapBlock (5 :: 0 :: 6 :: Z)).block
    (PutUvarint 1 ++ PutUvarint (5 :: 0 :: 6 :: Z : Bytes).length) _ 6
    (by
      show wrapPayload _ = _
      rw [wrapPayload_split, List.append_assoc])
    (by rw [hh]; rfl)]
  simp only
  rw [show ([5, 0] ++ (6 :: (Z ++ (encEntry 7 [] ++ (encEntry 9 [] ++
      ((PutUint32 (2 ^ 32 + 6) ++ PutUint32 (2 ^ 32 + 8)) ++ PutUint32 3))))) : Bytes) =
      5 :: ([0] ++ (6 :: (Z ++ (encEntry 7 [] ++ (encEntry 9 [] ++
      ((PutUint32 (2 ^ 32 + 6) ++ PutUint32 (2 ^ 32 + 8)) ++ PutUint32 3)))))) from rfl, hu]

theorem seekSectionPred_wrap_two (Z : Bytes) (hZ : Z.length = 2 ^ 32 - 3) (k : Nat) :
    (wrapBlock (5 :: 0 :: 6 :: Z)).seekSectionPred k 2 = Res.ok (decide (k < 6)) := by
  have hh := wrap_header_length Z hZ
  have hu : ∀ rest : Bytes, (Uvarint (6 :: rest)).1 = 6 := by
    intro rest
    have := Uvarint_PutUvarint 6 rest (by norm_num)
    exact congrArg Prod.fst this
  unfold BlockReader.seekSectionPred
  have hoff : (wrapBlock (5 :: 0 :: 6 :: Z)).sectionOffset ((2 : Nat) : Int) = Res.ok 8 :=
    sectionOffset_wrap_two _
  rw [hoff]
  simp only
  rw [sliceFrom_eq (wrapBlock (5 :: 0 :: 6 :: Z)).block
    ((PutUvarint 1 ++ PutUvarint (5 :: 0 :: 6 :: Z : Bytes).length) ++ [5, 0]) _ 8
    (by
      show wrapPayload _ = _
      rw [wrapPayload_split])
    (by rw [List.length_append, hh]; rfl)]
  simp only
  rw [hu]

theorem SeekSection_wrap (Z : Bytes) (hZ : Z.length = 2 ^ 32 - 3) :
    (wrapBlock (5 :: 0 :: 6 :: Z)).SeekSection 5 =
      Res.ok { sec := [5, 0], spos := 1, read := 0, key := 0, val := [] } := by
  unfold BlockReader.SeekSection
  rw [if_neg (by simp [wrapBlock])]
  have hs : Search (wrapBlock (5 :: 0 :: 6 :: Z)).scnt
      ((wrapBlock (5 :: 0 :: 6 :: Z)).seekSectionPred 5) = Res.ok 2 := by
    show Search 3 _ = _
    simp [Search, searchLoop, seekSectionPred_wrap_one Z hZ, seekSectionPred_wrap_two Z hZ]
  rw [hs]
  exact GetSection_wrap_one Z hZ

theorem seek_next_wrap (sn : Codec) (Z : Bytes) (hZ : Z.length = 2 ^ 32 - 3) (fuel : Nat)
    (hfuel : 1 ≤ fuel) :
    ∃ it it', (fileReader [(9, wrapPayload (5 :: 0 :: 6 :: Z) ++ [blockNoCompression])]).Seek
        sn fuel 5 = Res.ok it ∧
      it.Next sn = Res.ok (it', true) ∧ it'.Key = 5 ∧ it'.Value = [] :=
  seek_next_section sn fuel _ 5 (wrapBlock (5 :: 0 :: 6 :: Z)) _ [(5, [])]
    (SeekBlock_wrap sn _ 5 (by norm_num)) (SeekSection_wrap Z hZ) rfl rfl rfl
    ⟨Nat.zero_le 5, by norm_num, by simp, trivial⟩
    (by simpa using hfuel) (5, []) [] (by simp [List.dropWhile])

theorem wrapValue_tail_length : (List.replicate (2 ^ 32 - 3) (0 : Byte)).length = 2 ^ 32 - 3 :=
  List.length_replicate _ _

theorem wrapValue_length : wrapValue.length = 2 ^ 32 := by
  unfold wrapValue
  rw [List.length_cons, List.length_cons, List.length_cons, List.length_replicate]
  norm_num

/-- C2 fails as stated. Under `wrapOptions` (block size `2^32 + 28`, restart interval 1,
no compression) the entries of `wrapEntries` have the keys 1, 7 and 9. The second and
third section start at the offsets `2^32 + 6` and `2^32 + 8`, which `flush` stores as
the `uint32` values 6 and 8, so the reader takes the bytes 5, 0 of the first value for
a section. `Get(5)` returns an empty value and no error, although the key 5 was never
appended. -/
theorem C2_not_found_counterexample :
    wrapEntries.Pairwise (fun a b => a.1 < b.1) ∧ (∀ e ∈ wrapEntries, e.1 ≠ 5) ∧
    ∃ r, NewReader 3 (writeTable rleCodec wrapOptions wrapEntries)
        ((writeTable rleCodec wrapOptions wrapEntries).length : Int) = Res.ok r ∧
      r.Get rleCodec 3 5 = Res.ok ([], none) := by
  refine ⟨by simp [wrapEntries], by simp [wrapEntries], _,
    NewReader_wrap rleCodec wrapValue wrapValue_length 3 (by norm_num), ?_⟩
  obtain ⟨it, it', h1, h2, h3, h4⟩ :=
    seek_next_wrap rleCodec (List.replicate (2 ^ 32 - 3) 0) wrapValue_tail_length 3
      (by norm_num)
  have hg := get_of_seek_next rleCodec 3 _ 5 it it' h1 h2
  rw [h3, h4] at hg
  exact hg

/-! ## Normalised options: compression and block size -/

theorem norm_Compression (bs ri : Int) (c : Compression) :
    (WriterOptions.norm (some ⟨bs, ri, c⟩)).Compression =
      if c.val ≤ 2 then c else SnappyCompression := by
  have hv : Compression.isValid c = decide (c.val ≤ 2) := by
    unfold Compression.isValid SnappyCompression unknownCompression
    have h0 : ((0 : Byte) ≤ c) = True := eq_true (Fin.zero_le c)
    have h2 : (c ≤ (2 : Byte)) = (c.val ≤ 2) := by
      rw [Fin.le_def]; rfl
    simp only [h0, h2, decide_True, Bool.true_and]
  by_cases h1 : bs < 1 <;> by_cases h2 : ri < 1 <;> by_cases h : c.val ≤ 2 <;>
    simp [WriterOptions.norm, h1, h2, hv, h]

/-- C11. What the code does for the compression option. Every byte value from 3 on is
normalised to snappy, snappy (0, also the unset value and the nil options) and none (1)
are kept, and the value 2 (`unknownCompression`) is kept as well: `isValid` accepts it.
A writer whose option is 2 takes the default branch of `flush` and emits the framed
payload uncompressed with tag 0, whatever the codec would have produced. -/
theorem C11_compression_normalisation :
    (∀ (bs ri : Int) (c : Compression), 3 ≤ c.val →
      (WriterOptions.norm (some ⟨bs, ri, c⟩)).Compression = SnappyCompression) ∧
    (∀ bs ri : Int,
      (WriterOptions.norm (some ⟨bs, ri, SnappyCompression⟩)).Compression = SnappyCompression ∧
      (WriterOptions.norm (some ⟨bs, ri, NoCompression⟩)).Compression = NoCompression) ∧
    (WriterOptions.norm none).Compression = SnappyCompression ∧
    (∀ bs ri : Int,
      (WriterOptions.norm (some ⟨bs, ri, unknownCompression⟩)).Compression =
        unknownCompression) ∧
    unknownCompression ≠ SnappyCompression ∧ unknownCompression ≠ NoCompression ∧
    (∀ (sn : Codec) (w : Writer), w.o.Compression = unknownCompression → w.buf ≠ [] →
      (w.flush sn).1.w.data = (w.w.Write (framed w.buf w.soffs ++ [blockNoCompression])).1.data) ∧
    (((NewWriter ⟨[], []⟩ (some ⟨0, 0, unknownCompression⟩)).Append rleCodec 7
        [0, 0, 0, 0, 0, 0, 0, 0, 0, 0, 0, 0]).1.flush rleCodec).1.w.data =
      [7, 12, 0, 0, 0, 0, 0, 0, 0, 0, 0, 0, 0, 0, 1, 0, 0, 0, 0] := by
  refine ⟨?_, ?_, by decide, ?_, by decide, by decide, ?_, by decide⟩
  · intro bs ri c hc
    rw [norm_Compression, if_neg (by omega)]
  · intro bs ri
    exact ⟨by rw [norm_Compression]; rfl, by rw [norm_Compression]; rfl⟩
  · intro bs ri
    rw [norm_Compression]; rfl
  · intro sn w hc hne
    rw [flush_eq sn w hne]
    have he : emitted sn w.o.Compression (framed w.buf w.soffs) =
        framed w.buf w.soffs ++ [blockNoCompression] := by
      unfold emitted
      rw [hc, if_neg (by decide)]
    rw [he]
    rfl


/-- C12, counterexample. A block the writer emits before `Close` can be far smaller
than `BlockSize`.
With `BlockSize = 30` and no compression, `Append(1, [])` leaves two bytes in the
buffer; `Append(2, v)` with twenty bytes of value finds `2 + 20 + 20 > 30` and flushes
them: the block emitted has a framed payload of 6 bytes (2 of entries, 4 of section
count), below the 30 of `BlockSize`, and the writer goes on with the second entry in
a new block. -/
theorem C12_flush_threshold_counterexample :
    (WriterOptions.norm (some ⟨30, 16, NoCompression⟩)).BlockSize = 30 ∧
    ((NewWriter ⟨[], []⟩ (some ⟨30, 16, NoCompression⟩)).Append rleCodec 1 []).1.buf = [1, 0] ∧
    (Writer.run rleCodec (NewWriter ⟨[], []⟩ (some ⟨30, 16, NoCompression⟩))
      (appends [(1, []), (2, List.replicate 20 0)])).1.w.data = [1, 0, 1, 0, 0, 0, 0] ∧
    (Writer.run rleCodec (NewWriter ⟨[], []⟩ (some ⟨30, 16, NoCompression⟩))
      (appends [(1, []), (2, List.replicate 20 0)])).1.index = [⟨1, 0⟩] ∧
    (Writer.run rleCodec (NewWriter ⟨[], []⟩ (some ⟨30, 16, NoCompression⟩))
      (appends [(1, []), (2, List.replicate 20 0)])).1.buf = 2 :: 20 :: List.replicate 20 0 ∧
    (framed [1, 0] [0]).length = 6 := by
  decide

/-! ## Opening a source: the footer -/

theorem ReadAt_err (src : Bytes) (n : Nat) (off : Int) (e : Error)
    (h : ReadAt src n off = Res.err e) : e = Error.sourceError := by
  unfold ReadAt at h
  split at h
  · injection h with h; exact h.symm
  · split at h
    · injection h with h; exact h.symm
    · split at h
      · injection h with h; exact h.symm
      · cases h

theorem NewReader.loop_err (r : Bytes) (fo : Int) : ∀ (fuel : Nat) (pos : Int) (info : blockInfo)
    (index : List blockInfo) (e : Error),
    NewReader.loop r fo fuel pos info index = Res.err e → e = Error.sourceError := by
  intro fuel
  induction fuel with
  | zero =>
    intro pos info index e h
    unfold NewReader.loop at h
    split at h <;> cases h
  | succ fuel ih =>
    intro pos info index e h
    unfold NewReader.loop at h
    split at h
    · simp only at h
      split at h
      · split at h
        · exact ih _ _ _ _ h
        · rename_i hs
          exfalso
          unfold sliceFrom at hs
          split at hs <;> cases hs
        · cases h
        · cases h
      · rename_i e' he
        injection h with h
        subst h
        exact ReadAt_err _ _ _ _ he
      · cases h
      · cases h
    · cases h

theorem footer_tail (r : Bytes) (h16 : 16 ≤ r.length) :
    ((r.drop (r.length - 16)).take 16).drop 8 = r.drop (r.length - 8) := by
  rw [List.take_of_length_le (by rw [List.length_drop]; omega), List.drop_drop]
  congr 1
  omega

theorem ReadAt_footer (r : Bytes) (h16 : 16 ≤ r.length) :
    ReadAt r 16 ((r.length : Int) - 16) = Res.ok ((r.drop (r.length - 16)).take 16) := by
  have h1 : ((r.length : Int) - 16).toNat = r.length - 16 := by omega
  unfold ReadAt
  rw [if_neg (by omega), if_neg (by omega), if_neg (by rw [h1]; omega), h1]

/-- C18. Magic validation. For every source of at least 16 bytes, opened with its
length as size and with any bound on the rounds of the index loop: when the final 8
bytes differ from the magic, `NewReader` returns the bad-magic error (and so no
reader); when they equal the magic, `NewReader` does not return the bad-magic
error. -/
theorem C18_magic_validation (fuel : Nat) (r : Bytes) (h16 : 16 ≤ r.length) :
    (r.drop (r.length - 8) ≠ magic →
      NewReader fuel r (r.length : Int) = Res.err Error.errBadMagic) ∧
    (r.drop (r.length - 8) = magic →
      NewReader fuel r (r.length : Int) ≠ Res.err Error.errBadMagic) := by
  constructor
  · intro hne
    unfold NewReader
    simp only [ReadAt_footer r h16, footer_tail r h16]
    rw [if_pos hne]
  · intro heq h
    unfold NewReader at h
    simp only [ReadAt_footer r h16, footer_tail r h16] at h
    rw [if_neg (by simp [heq])] at h
    split at h
    · cases h
    · split at h
      · cases h
      · rename_i e he
        injection h with h
        subst h
        have := NewReader.loop_err _ _ _ _ _ _ _ he
        cases this
      · cases h
      · cases h

theorem C18_magic_validation_witness :
    NewReader 1 [0, 0, 0, 0, 0, 0, 0, 0, 71, 39, 134, 190, 31, 122, 101, 218]
        (([0, 0, 0, 0, 0, 0, 0, 0, 71, 39, 134, 190, 31, 122, 101, 218] : Bytes).length : Int) =
      Res.err Error.errBadMagic ∧
    NewReader 1 [0, 0, 0, 0, 0, 0, 0, 0, 71, 39, 134, 190, 31, 122, 101, 219]
        (([0, 0, 0, 0, 0, 0, 0, 0, 71, 39, 134, 190, 31, 122, 101, 219] : Bytes).length : Int) ≠
      Res.err Error.errBadMagic :=
  ⟨(C18_magic_validation 1 [0, 0, 0, 0, 0, 0, 0, 0, 71, 39, 134, 190, 31, 122, 101, 218]
      (by decide)).1 (by decide),
   (C18_magic_validation 1 [0, 0, 0, 0, 0, 0, 0, 0, 71, 39, 134, 190, 31, 122, 101, 219]
      (by decide)).2 (by decide)⟩

/-! ## A block index that ends inside a varint -/

theorem truncatedIndex_loop : ∀ (fuel : Nat) (info : blockInfo) (index : List blockInfo),
    NewReader.loop truncatedIndexFile 1 fuel 0 info index = Res.outOfFuel := by
  intro fuel
  induction fuel with
  | zero =>
    intro info index
    unfold NewReader.loop
    rw [if_pos (by decide)]
  | succ fuel ih =>
    intro info index
    have hr : ReadAt truncatedIndexFile
        (if (1 : Int) - 0 < ((2 * MaxVarintLen64 : Nat) : Int) then ((1 : Int) - 0).toNat
          else 2 * MaxVarintLen64) 0 = Res.ok [0x80] := by decide
    have hu : Uvarint [0x80] = (0, 0) := by decide
    have hs : sliceFrom [0x80] 0 = Res.ok [0x80] := by decide
    unfold NewReader.loop
    rw [if_pos (by decide)]
    simp only [hr, hu, hs, add_zero]
    exact ih _ _

/-- C19. On `truncatedIndexFile` the index loop of `NewReader` never ends: the footer
is valid and the index region is the byte `0x80`; `Uvarint` returns a count of 0 for
it, the position does not move, and the loop goes round again, appending to the index
each time. Whatever the bound on the rounds, the embedding has not finished. -/
theorem C19_truncated_index_loops (fuel : Nat) :
    NewReader fuel truncatedIndexFile 17 = Res.outOfFuel := by
  have hr : ReadAt truncatedIndexFile 16 ((17 : Int) - 16) =
      Res.ok (PutUint64 0 ++ magic) := by decide
  have hm : ¬ (PutUint64 0 ++ magic).drop 8 ≠ magic := by decide
  have hu : Uint64 (PutUint64 0 ++ magic) = some 0 := by decide
  have hi : toInt64 0 = 0 := by decide
  unfold NewReader
  simp only [hr, if_neg hm, hu, hi]
  show (match NewReader.loop truncatedIndexFile 1 fuel 0 { MaxKey := 0, Offset := 0 } [] with
    | .ok index => _
    | .err e => _
    | .panic => _
    | .outOfFuel => _) = _
  rw [truncatedIndex_loop]

/-! ## An iterator that steps into a block it cannot fetch -/

set_option maxRecDepth 100000 in
/-- C20. An iterator whose advance into the next block fails does not latch the
error: it crashes. `badTagFile` differs from the file written for `(1, [])` and
`(2, [])` (one block each, no compression) only in the tag of the second block. The reader opens
it, `Seek(0)` and a first `Next` yield the key 1, the fetch of block 1 fails with the
bad-compression error, and the second `Next`, which makes that fetch, ends in a
run-time panic: `GetSection` is called on the nil block reader. -/
theorem C20_next_panics_on_failed_fetch :
    writeTable rleCodec (some ⟨1, 1, NoCompression⟩) [(1, []), (2, [])] =
      [1, 0, 1, 0, 0, 0, 0] ++ [2, 0, 1, 0, 0, 0, 0] ++ [1, 0, 1, 7] ++
        [14, 0, 0, 0, 0, 0, 0, 0, 71, 39, 134, 190, 31, 122, 101, 219] ∧
    ∃ r it it1, NewReader 2 badTagFile (badTagFile.length : Int) = Res.ok r ∧
      r.Seek rleCodec 2 0 = Res.ok it ∧ it.Next rleCodec = Res.ok (it1, true) ∧
      it1.Key = 1 ∧ it1.Err = none ∧
      r.GetBlock rleCodec 1 = Res.err Error.errBadCompression ∧
      it1.Next rleCodec = Res.panic := by
  refine ⟨by decide, _, _, _, rfl, rfl, rfl, ?_, ?_, ?_, ?_⟩ <;> decide

/-! ## The writer lays out readable blocks for every block size -/

theorem emitted_readable (sn : Codec) (hsn : sn.lawful) (c : Compression) (buf : Bytes)
    (soffs : List Nat) : blockReadable sn (emitted sn c (framed buf soffs)) := by
  rcases emitted_cases sn c (framed buf soffs) with h | h
  · exact ⟨framed buf soffs, blockNoCompression, framed buf soffs, appendSoffs buf soffs,
      soffs.length, h, Or.inl ⟨rfl, rfl⟩, rfl⟩
  · exact ⟨sn.Encode (framed buf soffs), blockSnappyCompression, framed buf soffs,
      appendSoffs buf soffs, soffs.length, h, Or.inr ⟨rfl, hsn _⟩, rfl⟩

theorem laysRaw_new (sn : Codec) (o : Option WriterOptions) :
    (NewWriter { data := [], script := [] } o).laysRaw sn [] 0 := by
  refine ⟨rfl, ?_, rfl, rfl, rfl, ?_, ?_, ?_, ?_, ?_, ?_, ?_⟩
  · intro x hx; simp [NewWriter] at hx
  · intro b hb; simp at hb
  · simp
  · intro b hb; simp at hb
  · intro _ b hb; simp at hb
  · simp [NewWriter]
  · simp [NewWriter]
  · simp [NewWriter]

theorem laysRaw_mono (sn : Codec) (w : Writer) (raw : List (Nat × Bytes)) (cnt cnt' : Nat)
    (h : w.laysRaw sn raw cnt) (hc : cnt ≤ cnt') : w.laysRaw sn raw cnt' := by
  obtain ⟨h1, h2, h3, h4, h5, h6, h7, h8, h9, h10, h11, h12⟩ := h
  exact ⟨h1, h2, h3, h4, h5, h6, h7, h8, h9, h10, le_trans h11 hc, h12⟩

theorem laysRaw_flush (sn : Codec) (hsn : sn.lawful) (w : Writer) (raw : List (Nat × Bytes))
    (cnt : Nat) (h : w.laysRaw sn raw cnt) (hne : w.buf ≠ []) :
    (w.flush sn).2 = none ∧ (w.flush sn).1.o = w.o ∧
    (w.flush sn).1.block.MaxKey = w.block.MaxKey ∧ (w.flush sn).1.buf = [] ∧
    (w.flush sn).1.laysRaw sn
      (raw ++ [(w.block.MaxKey, emitted sn w.o.Compression (framed w.buf w.soffs))]) cnt := by
  obtain ⟨h1, h2, h3, h4, h5, h6, h7, h8, h9, h10, h11, h12⟩ := h
  obtain ⟨ha1, ha2⟩ := flush_accepting sn w h2
  obtain ⟨hd1, hd2⟩ := flush_ok sn w hne ha1
  obtain ⟨f1, f2, f3, f4⟩ := flush_fields sn w
  rcases f4 with ⟨g, _⟩ | ⟨_, g2, g3, g4, g5⟩
  · exact absurd g hne
  · refine ⟨ha1, f1, f2, g4, ?_, ha2, ?_, ?_, ?_, ?_, ?_, ?_, ?_, ?_, ?_, ?_⟩
    · rw [f3]; exact h1
    · rw [hd1, fileBlocks_append, h3]
      simp [fileBlocks]
    · rw [g5, fileIndex_append, h4]
      simp only [fileIndex, Nat.zero_add]
      congr 2
      cases hb : w.block
      rw [hb] at h5
      simp only at h5
      rw [h5]
    · rw [hd2, fileBlocks_append, h5]
      simp [fileBlocks]
    · intro b hb
      rcases List.mem_append.1 hb with hb1 | hb1
      · exact h6 b hb1
      · simp only [List.mem_singleton] at hb1
        rw [hb1]
        exact emitted_readable sn hsn _ _ _
    · rw [List.map_append, List.pairwise_append]
      refine ⟨h7, by simp, ?_⟩
      intro a ha b hb
      simp only [List.map_cons, List.map_nil, List.mem_singleton] at hb
      obtain ⟨x, hx, rfl⟩ := List.mem_map.1 ha
      rw [hb]
      exact h9 hne x hx
    · intro b hb
      rw [f2]
      rcases List.mem_append.1 hb with hb1 | hb1
      · exact h8 b hb1
      · simp only [List.mem_singleton] at hb1
        rw [hb1]
    · intro hbuf
      exact absurd g4 hbuf
    · rw [f2]; exact h10
    · rw [if_neg hne] at h11
      rw [if_pos g4]
      simp only [List.length_append, List.length_singleton]
      omega
    · rw [g4, g2]; simp

theorem laysRaw_put (sn : Codec) (w : Writer) (raw : List (Nat × Bytes)) (cnt : Nat)
    (key : Nat) (v : Bytes) (h : w.laysRaw sn raw cnt) (hkey : key < 2 ^ 64)
    (hord : raw ≠ [] → w.block.MaxKey < key) :
    (w.put key v).laysRaw sn raw (cnt + 1) := by
  obtain ⟨h1, h2, h3, h4, h5, h6, h7, h8, h9, h10, h11, h12⟩ := h
  obtain ⟨p1, p2, p3, p4, p5, p6, p7, p8⟩ := put_fields w key v
  have hlt : ∀ b ∈ raw, b.1 < key := by
    intro b hb
    have := hord (List.ne_nil_of_mem hb)
    exact lt_of_le_of_lt (h8 b hb) this
  refine ⟨by rw [p5]; exact h1, by rw [p7]; exact h2, by rw [p7]; exact h3,
    by rw [p6]; exact h4, by rw [p8]; exact h5, h6, h7, ?_, ?_, by rw [p2]; exact hkey, ?_, ?_⟩
  · intro b hb; rw [p2]; exact le_of_lt (hlt b hb)
  · intro _ b hb; rw [p2]; exact hlt b hb
  · rw [if_neg p4]
    split at h11 <;> omega
  · rw [p3]
    constructor
    · intro hb; exact absurd hb p4
    · intro hb; omega

theorem laysRaw_Append (sn : Codec) (hsn : sn.lawful) (w : Writer) (raw : List (Nat × Bytes))
    (cnt : Nat) (key : Nat) (v : Bytes) (h : w.laysRaw sn raw cnt) (hkey : key < 2 ^ 64) :
    (w.Append sn key v).1.o = w.o ∧
      ∃ raw', (w.Append sn key v).1.laysRaw sn raw' (cnt + 1) := by
  have h1 := h.1
  have h4 := h.2.2.2.1
  have h12 := h.2.2.2.2.2.2.2.2.2.2.2
  rw [Append_eq, if_neg (by simp [h1])]
  by_cases hoo : key ≤ w.block.MaxKey ∧ (w.blen ≠ 0 ∨ w.index.length ≠ 0)
  · rw [if_pos hoo]
    exact ⟨rfl, raw, laysRaw_mono sn w raw cnt (cnt + 1) h (Nat.le_succ cnt)⟩
  · rw [if_neg hoo]
    have hidx : raw ≠ [] → w.index.length ≠ 0 := by
      intro hr
      rw [h4, fileIndex_length]
      intro h0
      exact hr (List.length_eq_zero.1 h0)
    by_cases hnf : w.needsFlush v
    · have hne : w.buf ≠ [] := by
        intro hb
        exact hnf.1 (by rw [hb]; rfl)
      obtain ⟨hf1, hf2, hf3, hf4, hf5⟩ := laysRaw_flush sn hsn w raw cnt h hne
      rw [if_pos hnf, if_pos hf1]
      have hblen : w.blen ≠ 0 := fun hb => hne (h12.2 hb)
      have hord : w.block.MaxKey < key := by
        by_contra hc
        exact hoo ⟨by omega, Or.inl hblen⟩
      refine ⟨by rw [(put_fields _ key v).1, hf2], _, laysRaw_put sn _ _ cnt key v hf5 hkey ?_⟩
      intro _
      rw [hf3]; exact hord
    · rw [if_neg hnf]
      refine ⟨(put_fields w key v).1, raw, laysRaw_put sn w raw cnt key v h hkey ?_⟩
      intro hr
      by_contra hc
      exact hoo ⟨by omega, Or.inr (hidx hr)⟩

theorem laysRaw_run (sn : Codec) (hsn : sn.lawful) (es : List Entry) : ∀ (w : Writer)
    (raw : List (Nat × Bytes)) (cnt : Nat), w.laysRaw sn raw cnt → (∀ e ∈ es, e.1 < 2 ^ 64) →
    (Writer.run sn w (appends es)).1.o = w.o ∧
      ∃ raw', (Writer.run sn w (appends es)).1.laysRaw sn raw' (cnt + es.length) := by
  induction es with
  | nil =>
    intro w raw cnt h _
    exact ⟨rfl, raw, h⟩
  | cons e es ih =>
    intro w raw cnt h h64
    obtain ⟨ho, raw1, h1⟩ := laysRaw_Append sn hsn w raw cnt e.1 e.2 h (h64 e (by simp))
    obtain ⟨ho2, raw2, h2⟩ := ih (w.Append sn e.1 e.2).1 raw1 (cnt + 1) h1
      (fun x hx => h64 x (by simp [hx]))
    refine ⟨?_, raw2, ?_⟩
    · show (Writer.run sn (w.Append sn e.1 e.2).1 (appends es)).1.o = w.o
      rw [ho2, ho]
    · show (Writer.run sn (w.Append sn e.1 e.2).1 (appends es)).1.laysRaw sn raw2 _
      have : cnt + (e :: es).length = cnt + 1 + es.length := by simp; omega
      rw [this]
      exact h2


theorem laysRaw_Close (sn : Codec) (hsn : sn.lawful) (w : Writer) (raw : List (Nat × Bytes))
    (cnt : Nat) (h : w.laysRaw sn raw cnt) :
    ∃ raw', (w.Close sn).1.w.data = fileBytes raw' ∧ (∀ b ∈ raw', blockReadable sn b.2) ∧
      (raw'.map Prod.fst).Pairwise (fun a b => a < b) ∧ (∀ b ∈ raw', b.1 < 2 ^ 64) ∧
      raw'.length ≤ cnt ∧ raw'.length = w.index.length + (if w.buf = [] then 0 else 1) := by
  have hclose := Close_ok sn w h.1 (Close_accepting sn w h.1 h.2.1)
  have key : ∀ (f : Writer) (rawf : List (Nat × Bytes)), f.laysRaw sn rawf cnt →
      f = (w.flush sn).1 → f.buf = [] →
      (w.Close sn).1.w.data = fileBytes rawf ∧ (∀ b ∈ rawf, blockReadable sn b.2) ∧
      (rawf.map Prod.fst).Pairwise (fun a b => a < b) ∧ (∀ b ∈ rawf, b.1 < 2 ^ 64) ∧
      rawf.length ≤ cnt := by
    intro f rawf hl hf hbuf
    obtain ⟨h1, h2, h3, h4, h5, h6, h7, h8, h9, h10, h11, h12⟩ := hl
    refine ⟨?_, h6, h7, fun b hb => lt_of_le_of_lt (h8 b hb) h10, ?_⟩
    · rw [hclose.2, ← hf, h3, h4, h5, toUint64_natCast, PutUint64_mod]
      rfl
    · rw [if_pos hbuf] at h11
      omega
  have hidx : w.index.length = raw.length := by
    rw [h.2.2.2.1, fileIndex_length]
  by_cases hb : w.buf = []
  · obtain ⟨k1, k2, k3, k4, k5⟩ := key w raw h (by rw [flush_of_empty sn w hb]) hb
    exact ⟨raw, k1, k2, k3, k4, k5, by rw [if_pos hb, hidx]; rfl⟩
  · obtain ⟨hf1, hf2, hf3, hf4, hf5⟩ := laysRaw_flush sn hsn w raw cnt h hb
    obtain ⟨k1, k2, k3, k4, k5⟩ := key _ _ hf5 rfl hf4
    exact ⟨_, k1, k2, k3, k4, k5, by rw [if_neg hb, hidx]; simp⟩

theorem raw_of_write (sn : Codec) (hsn : sn.lawful) (o : Option WriterOptions)
    (es : List Entry) (h64 : ∀ e ∈ es, e.1 < 2 ^ 64) :
    ∃ raw, writeTable sn o es = fileBytes raw ∧ (∀ b ∈ raw, blockReadable sn b.2) ∧
      (raw.map Prod.fst).Pairwise (fun a b => a < b) ∧ (∀ b ∈ raw, b.1 < 2 ^ 64) ∧
      raw.length ≤ es.length ∧
      raw.length =
        (Writer.run sn (NewWriter { data := [], script := [] } o) (appends es)).1.index.length +
          (if (Writer.run sn (NewWriter { data := [], script := [] } o) (appends es)).1.buf = []
            then 0 else 1) := by
  obtain ⟨-, raw0, hl⟩ := laysRaw_run sn hsn es (NewWriter { data := [], script := [] } o) [] 0
    (laysRaw_new sn o) h64
  obtain ⟨raw, k1, k2, k3, k4, k5, k6⟩ := laysRaw_Close sn hsn _ raw0 _ hl
  refine ⟨raw, ?_, k2, k3, k4, by simpa using k5, k6⟩
  unfold writeTable
  rw [run_snoc]
  simp only [Writer.step]
  exact k1

theorem fileBlocks_length_le (raw : List (Nat × Bytes)) :
    (fileBlocks raw).length ≤ (fileBytes raw).length := by
  unfold fileBytes
  simp only [List.length_append]
  omega

theorem reader_of_write (sn : Codec) (hsn : sn.lawful) (o : Option WriterOptions)
    (es : List Entry) (h64 : ∀ e ∈ es, e.1 < 2 ^ 64)
    (hsize : (writeTable sn o es).length < 2 ^ 63) (fuel : Nat) (hfuel : es.length ≤ fuel) :
    ∃ raw, NewReader fuel (writeTable sn o es) ((writeTable sn o es).length : Int) =
        Res.ok (fileReader raw) ∧
      (∀ b ∈ raw, blockReadable sn b.2) ∧ (raw.map Prod.fst).Pairwise (fun a b => a < b) ∧
      raw.length =
        (Writer.run sn (NewWriter { data := [], script := [] } o) (appends es)).1.index.length +
          (if (Writer.run sn (NewWriter { data := [], script := [] } o) (appends es)).1.buf = []
            then 0 else 1) := by
  obtain ⟨raw, k1, k2, k3, k4, k5, k6⟩ := raw_of_write sn hsn o es h64
  refine ⟨raw, ?_, k2, k3, k6⟩
  rw [k1] at hsize ⊢
  exact NewReader_fileBytes raw fuel k4 (lt_of_le_of_lt (fileBlocks_length_le raw) hsize)
    (le_trans k5 hfuel)


/-! ## Seeking a block -/

theorem Reader.GetBlock_last (sn : Codec) (raw : List (Nat × Bytes)) :
    (fileReader raw).GetBlock sn (raw.length : Int) =
      Res.ok { block := [], bpos := raw.length, scnt := 0, maxKey := 0 } := by
  have hlen : (fileReader raw).index.length = raw.length := by
    simp [fileReader, fileIndex_length]
  unfold Reader.GetBlock
  rw [hlen]
  by_cases h0 : raw.length = 0
  · rw [if_pos h0, h0]
  · have hb : (if (raw.length : Int) < 0 then 0 else (raw.length : Int)) = raw.length :=
      if_neg (by omega)
    rw [if_neg h0]
    simp only [hb]
    rw [if_pos (le_refl _)]

theorem fileIndex_get_maxKey (raw : List (Nat × Bytes)) (i : Nat) (ent : blockInfo)
    (h : (fileIndex 0 raw).get? i = some ent) : i < raw.length ∧ ent.MaxKey = maxKeyAt raw i := by
  have hi : i < raw.length := by
    have := List.get?_eq_some.1 h
    obtain ⟨hlt, -⟩ := this
    rwa [fileIndex_length] at hlt
  obtain ⟨a, b, c, hraw, hlen, hdrop⟩ := List.split_at raw i hi
  refine ⟨hi, ?_⟩
  subst hraw
  rw [← hlen, fileIndex_get] at h
  injection h with h
  rw [← h]
  unfold maxKeyAt
  rw [← hlen, List.drop_left]

theorem maxKeyAt_mono (raw : List (Nat × Bytes))
    (hpw : (raw.map Prod.fst).Pairwise (fun a b => a < b)) :
    ∀ i j, i ≤ j → j < raw.length → maxKeyAt raw i ≤ maxKeyAt raw j := by
  intro i j hij hj
  rw [maxKeyAt_eq_getD, maxKeyAt_eq_getD]
  exact getD_mono _ hpw i j hij (by simpa using hj)

theorem Reader.GetBlock_readable (sn : Codec) (raw : List (Nat × Bytes)) (m : Nat)
    (hm : m < raw.length) (hr : ∀ b ∈ raw, blockReadable sn b.2) :
    ∃ b, (fileReader raw).GetBlock sn (m : Int) = Res.ok b ∧ b.bpos = m ∧
      b.maxKey = maxKeyAt raw m := by
  obtain ⟨a, b, c, hraw, hlen, hdrop⟩ := List.split_at raw m hm
  subst hraw
  obtain ⟨stored, tag, block, body, n, h1, h2, h3⟩ := hr b (by simp)
  have hk : maxKeyAt (a ++ b :: c) m = b.1 := by
    unfold maxKeyAt
    rw [← hlen, List.drop_left]
  refine ⟨{ block := block, bpos := a.length, scnt := n % 2 ^ 32, maxKey := b.1 }, ?_, hlen,
    hk.symm⟩
  rw [← hlen, Reader.GetBlock_raw]
  exact Reader.readBlock_raw sn a b c stored tag block body n h1 h2 h3

/-! ## Seeking a block in any reader -/

theorem Reader.GetBlock_sentinel (sn : Codec) (r : Reader) :
    r.GetBlock sn (r.index.length : Int) =
      Res.ok { block := [], bpos := r.index.length, scnt := 0, maxKey := 0 } := by
  unfold Reader.GetBlock
  by_cases h0 : r.index.length = 0
  · rw [if_pos h0, h0]
  · have hb : (if (r.index.length : Int) < 0 then 0 else (r.index.length : Int)) =
        r.index.length := if_neg (by omega)
    rw [if_neg h0]
    simp only [hb]
    rw [if_pos (le_refl _)]

theorem Reader.readBlock_pos (sn : Codec) (r : Reader) (bpos : Nat) (b : BlockReader)
    (h : r.readBlock sn bpos = Res.ok b) : b.bpos = bpos := by
  unfold Reader.readBlock at h
  cases hent : r.index.get? bpos with
  | none => rw [hent] at h; cases h
  | some ent =>
    rw [hent] at h
    have key : ∀ (mx : Int), (if mx - ent.Offset < 0 then (Res.panic : Res BlockReader)
        else
          match ReadAt r.r (mx - ent.Offset).toNat ent.Offset with
          | .ok raw =>
            match raw.getLast? with
            | none => .panic
            | some tag =>
              let stored := raw.dropLast
              let decoded : Res Bytes :=
                if tag = blockNoCompression then .ok stored
                else if tag = blockSnappyCompression then
                  match sn.Decode stored with
                  | some plain => .ok plain
                  | none => .err Error.snappyError
                else .err Error.errBadCompression
              match decoded with
              | .ok block =>
                match sliceFrom block ((block.length : Int) - 4) with
                | .ok tail =>
                  match Uint32 tail with
                  | some scnt =>
                    .ok { block := block, bpos := bpos, scnt := scnt, maxKey := ent.MaxKey }
                  | none => .panic
                | .err e => .err e
                | .panic => .panic
                | .outOfFuel => .outOfFuel
              | .err e => .err e
              | .panic => .panic
              | .outOfFuel => .outOfFuel
          | .err e => .err e
          | .panic => .panic
          | .outOfFuel => .outOfFuel) = Res.ok b → b.bpos = bpos := by
      intro mx hx
      by_cases hneg : mx - ent.Offset < 0
      · rw [if_pos hneg] at hx; cases hx
      · rw [if_neg hneg] at hx
        repeat' (first | split at hx | (simp only at hx; split at hx))
        all_goals first
          | (injection hx with hx; rw [← hx])
          | cases hx
    cases hnx : r.index.get? (bpos + 1) with
    | none =>
      rw [hnx] at h
      exact key _ h
    | some nx =>
      rw [hnx] at h
      exact key _ h

theorem Reader.GetBlock_pos (sn : Codec) (r : Reader) (i : Nat) (hi : i ≤ r.index.length)
    (b : BlockReader) (h : r.GetBlock sn (i : Int) = Res.ok b) :
    b.bpos = i ∧ (i = r.index.length → b.scnt = 0) := by
  rcases Nat.lt_or_ge i r.index.length with hlt | hge
  · unfold Reader.GetBlock at h
    have hb : (if (i : Int) < 0 then 0 else (i : Int)) = i := if_neg (by omega)
    rw [if_neg (by omega)] at h
    simp only [hb] at h
    rw [if_neg (by omega), Int.toNat_ofNat] at h
    exact ⟨Reader.readBlock_pos sn r i b h, fun hx => by omega⟩
  · have hie : i = r.index.length := le_antisymm hi hge
    subst hie
    rw [Reader.GetBlock_sentinel] at h
    injection h with h
    rw [← h]
    exact ⟨rfl, fun _ => rfl⟩

theorem Reader.SeekBlock_sorted (sn : Codec) (r : Reader) (k : Nat)
    (hs : r.index.Pairwise (fun a b => a.MaxKey ≤ b.MaxKey)) :
    ∃ i, i ≤ r.index.length ∧
      (∀ j ent, r.index.get? j = some ent →
        (j < i → ent.MaxKey < k) ∧ (i ≤ j → k ≤ ent.MaxKey)) ∧
      r.SeekBlock sn k = r.GetBlock sn (i : Int) := by
  have hf : ∀ j, j < r.index.length → r.seekBlockPred k j =
      Res.ok ((r.index.get? j).elim false (fun ent => decide (k ≤ ent.MaxKey))) := by
    intro j hj
    unfold Reader.seekBlockPred
    rw [List.get?_eq_get hj]
    rfl
  have hmono : ∀ i j, i ≤ j → j < r.index.length →
      (r.index.get? i).elim false (fun ent => decide (k ≤ ent.MaxKey)) = true →
      (r.index.get? j).elim false (fun ent => decide (k ≤ ent.MaxKey)) = true := by
    intro i j hij hj hi
    have hil : i < r.index.length := lt_of_le_of_lt hij hj
    rw [List.get?_eq_get hil] at hi
    rw [List.get?_eq_get hj]
    simp only [Option.elim, decide_eq_true_eq] at hi ⊢
    rcases Nat.eq_or_lt_of_le hij with he | hlt
    · subst he; exact hi
    · exact le_trans hi (List.pairwise_iff_get.1 hs ⟨i, hil⟩ ⟨j, hj⟩ hlt)
  obtain ⟨m, hm, hle, hlow, hhigh⟩ := Search_spec r.index.length (r.seekBlockPred k) _ hf hmono
  refine ⟨m, hle, ?_, ?_⟩
  · intro j ent hget
    have hj : j < r.index.length := (List.get?_eq_some.1 hget).1
    constructor
    · intro hjm
      have := hlow j hjm
      rw [hget] at this
      simp only [Option.elim, decide_eq_false_iff_not] at this
      omega
    · intro hmj
      have := hhigh j hmj hj
      rw [hget] at this
      simpa only [Option.elim, decide_eq_true_eq] using this
  · unfold Reader.SeekBlock
    rw [hm]

/-- C14, as amended. `SeekBlock`. First part: for every reader whose index max-keys do
not decrease and every key `k`, `SeekBlock(k)` is `GetBlock(i)` for the smallest `i`
whose index entry has a max-key of `k` or more, and for `i = N`, the number of blocks,
when every max-key is below `k`. A block reader that `SeekBlock(k)` returns is at
position `i`. For `i = N` the call returns without error the block reader at position
`N` with no bytes and no section. Second part: for the file written by any calls of
`Append` followed by `Close` (any options, a codec whose decoder inverts its encoder),
the reader opens it, and for every key `k` the call `SeekBlock(k)` returns a block reader
without an error. Its position is at most the number of blocks; every index entry before
it has a max-key below `k`, the entry at it (when there is one) has a max-key of `k` or
more; and when the position is the number of blocks the block reader has no section. -/
theorem C14_seek_block :
    (∀ (sn : Codec) (r : Reader) (k : Nat),
      r.index.Pairwise (fun a b => a.MaxKey ≤ b.MaxKey) →
      ∃ i, i ≤ r.NumBlocks ∧
        (∀ j ent, r.index.get? j = some ent →
          (j < i → ent.MaxKey < k) ∧ (i ≤ j → k ≤ ent.MaxKey)) ∧
        r.SeekBlock sn k = r.GetBlock sn (i : Int) ∧
        (∀ b, r.SeekBlock sn k = Res.ok b →
          b.Pos = i ∧ (i = r.NumBlocks → b.NumSections = 0)) ∧
        (i = r.NumBlocks → r.SeekBlock sn k =
          Res.ok { block := [], bpos := r.NumBlocks, scnt := 0, maxKey := 0 })) ∧
    (∀ (sn : Codec), sn.lawful → ∀ (o : Option WriterOptions) (es : List Entry),
      (∀ e ∈ es, e.1 < 2 ^ 64) → (writeTable sn o es).length < 2 ^ 63 →
      ∀ (fuel : Nat), es.length ≤ fuel →
      ∃ r, NewReader fuel (writeTable sn o es) ((writeTable sn o es).length : Int) = Res.ok r ∧
        ∀ k, ∃ b, r.SeekBlock sn k = Res.ok b ∧ b.Pos ≤ r.NumBlocks ∧
          (∀ i ent, r.index.get? i = some ent →
            (i < b.Pos → ent.MaxKey < k) ∧ (i = b.Pos → k ≤ ent.MaxKey)) ∧
          (b.Pos = r.NumBlocks → b.NumSections = 0)) := by
  constructor
  · intro sn r k hs
    obtain ⟨i, hi, hent, hseek⟩ := Reader.SeekBlock_sorted sn r k hs
    refine ⟨i, hi, hent, hseek, ?_, ?_⟩
    · intro b hb
      rw [hseek] at hb
      exact Reader.GetBlock_pos sn r i hi b hb
    · intro hie
      have hie' : i = r.index.length := hie
      rw [hseek, hie']
      exact Reader.GetBlock_sentinel sn r
  · intro sn hsn o es h64 hsize fuel hfuel
    obtain ⟨raw, hr, hread, hpw, -⟩ := reader_of_write sn hsn o es h64 hsize fuel hfuel
    refine ⟨_, hr, ?_⟩
    intro k
    have hnb : (fileReader raw).NumBlocks = raw.length := by
      simp [Reader.NumBlocks, fileReader, fileIndex_length]
    obtain ⟨m, hm, hlow, hhigh, hseek⟩ := Reader.SeekBlock_spec sn raw k (maxKeyAt_mono raw hpw)
    have hent : ∀ (p : Nat), p = m → ∀ i ent, (fileReader raw).index.get? i = some ent →
        (i < p → ent.MaxKey < k) ∧ (i = p → k ≤ ent.MaxKey) := by
      intro p hp i ent hget
      obtain ⟨hi, hmk⟩ := fileIndex_get_maxKey raw i ent hget
      rw [hmk, hp]
      exact ⟨fun h => hlow i h, fun h => hhigh i (le_of_eq h.symm) hi⟩
    rcases Nat.lt_or_ge m raw.length with hlt | hge
    · obtain ⟨b, hb, hpos, -⟩ := Reader.GetBlock_readable sn raw m hlt hread
      refine ⟨b, by rw [hseek, hb], ?_, hent b.Pos hpos, ?_⟩
      · rw [hnb]; show b.bpos ≤ _; omega
      · intro h
        rw [hnb] at h
        have : b.bpos = raw.length := h
        omega
    · have hme : m = raw.length := le_antisymm hm hge
      refine ⟨{ block := [], bpos := raw.length, scnt := 0, maxKey := 0 },
        by rw [hseek, hme, Reader.GetBlock_last], ?_, hent _ hme.symm, fun _ => rfl⟩
      rw [hnb]
      exact le_refl _

set_option maxRecDepth 100000 in
theorem C14_seek_block_witness :
    (∃ i : Nat, i ≤ 2 ∧
      Reader.SeekBlock rleCodec { r := badTagFile, index := [⟨1, 0⟩, ⟨2, 7⟩], maxOffset := 14 } 1 =
        Reader.GetBlock rleCodec
          { r := badTagFile, index := [⟨1, 0⟩, ⟨2, 7⟩], maxOffset := 14 } (i : Int) ∧
      ∀ b, Reader.SeekBlock rleCodec
          { r := badTagFile, index := [⟨1, 0⟩, ⟨2, 7⟩], maxOffset := 14 } 1 = Res.ok b →
        b.Pos = i) ∧
    ∃ r, NewReader 3 (writeTable rleCodec (some ⟨30, 2, NoCompression⟩)
          [(3, [7]), (5, [1, 2, 3, 4, 5, 6, 7, 8, 9, 10]), (900, [])])
        ((writeTable rleCodec (some ⟨30, 2, NoCompression⟩)
          [(3, [7]), (5, [1, 2, 3, 4, 5, 6, 7, 8, 9, 10]), (900, [])]).length : Int) =
          Res.ok r ∧
      ∃ b, r.SeekBlock rleCodec 4 = Res.ok b ∧ b.Pos ≤ r.NumBlocks ∧
        (∀ i ent, r.index.get? i = some ent →
          (i < b.Pos → ent.MaxKey < 4) ∧ (i = b.Pos → 4 ≤ ent.MaxKey)) ∧
        (b.Pos = r.NumBlocks → b.NumSections = 0) := by
  constructor
  · obtain ⟨i, hi, -, hseek, hpos, -⟩ := C14_seek_block.1 rleCodec
      { r := badTagFile, index := [⟨1, 0⟩, ⟨2, 7⟩], maxOffset := 14 } 1 (by decide)
    exact ⟨i, hi, hseek, fun b hb => (hpos b hb).1⟩
  · obtain ⟨r, hr, h⟩ := C14_seek_block.2 rleCodec rleCodec_lawful
      (some ⟨30, 2, NoCompression⟩)
      [(3, [7]), (5, [1, 2, 3, 4, 5, 6, 7, 8, 9, 10]), (900, [])] (by decide) (by decide) 3
      (by decide)
    exact ⟨r, hr, h 4⟩

/-- C14, counterexample. Three readers with one block or more on which the claim fails.
The file `badTagFile` opens to a reader with two blocks whose max-keys are 1 and 2:
`SeekBlock(2)` finds block 1 and returns the error for a bad compression tag. The file
`tagOnlyFile` opens to a reader with one block: `SeekBlock(0)` finds block 0 and panics
on its empty payload. The file `wrappedIndexFile` opens to a reader with three blocks
whose max-keys are 5, 1 and 3: `SeekBlock(2)` returns the block reader at position 2,
although the smallest position with a max-key of 2 or more is 0. -/
theorem C14_seek_block_counterexample :
    (NewReader 2 badTagFile 34 =
        Res.ok { r := badTagFile, index := [⟨1, 0⟩, ⟨2, 7⟩], maxOffset := 14 } ∧
      Reader.NumBlocks { r := badTagFile, index := [⟨1, 0⟩, ⟨2, 7⟩], maxOffset := 14 } = 2 ∧
      Reader.SeekBlock rleCodec
        { r := badTagFile, index := [⟨1, 0⟩, ⟨2, 7⟩], maxOffset := 14 } 2 =
          Res.err Error.errBadCompression) ∧
    (NewReader 1 tagOnlyFile 19 =
        Res.ok { r := tagOnlyFile, index := [⟨5, 0⟩], maxOffset := 1 } ∧
      Reader.NumBlocks { r := tagOnlyFile, index := [⟨5, 0⟩], maxOffset := 1 } = 1 ∧
      Reader.SeekBlock rleCodec { r := tagOnlyFile, index := [⟨5, 0⟩], maxOffset := 1 } 0 =
        Res.panic) ∧
    (wrappedIndexFile.length = 52 ∧
      NewReader 3 wrappedIndexFile 52 =
        Res.ok { r := wrappedIndexFile, index := [⟨5, 0⟩, ⟨1, 7⟩, ⟨3, 14⟩], maxOffset := 21 } ∧
      Reader.SeekBlock rleCodec
        { r := wrappedIndexFile, index := [⟨5, 0⟩, ⟨1, 7⟩, ⟨3, 14⟩], maxOffset := 21 } 2 =
          Res.ok { block := [1, 0, 1, 0, 0, 0], bpos := 2, scnt := 1, maxKey := 3 }) := by
  refine ⟨⟨by decide, by decide, by decide⟩, ⟨by decide, by decide, by decide⟩,
    ⟨by decide, by decide, by decide⟩⟩

/-! ## Where a block ends -/

theorem Append_flush_rule (sn : Codec) (w : Writer) (key : Nat) (value : Bytes)
    (hacc : (w.Append sn key value).2 = none) :
    ((w.buf.length ≠ 0 ∧
        ((w.buf.length + value.length + 2 * MaxVarintLen64 : Nat) : Int) > w.o.BlockSize) →
      (w.flush sn).2 = none ∧ (w.Append sn key value).1 = (w.flush sn).1.put key value ∧
      (w.Append sn key value).1.index = w.index ++ [w.block] ∧
      (w.Append sn key value).1.buf = encEntry key value ∧
      (w.Append sn key value).1.blen = 1) ∧
    (¬ (w.buf.length ≠ 0 ∧
        ((w.buf.length + value.length + 2 * MaxVarintLen64 : Nat) : Int) > w.o.BlockSize) →
      (w.Append sn key value).1 = w.put key value ∧
      (w.Append sn key value).1.index = w.index ∧ (w.Append sn key value).1.w = w.w ∧
      (∃ d, (w.Append sn key value).1.buf = w.buf ++ encEntry d value) ∧
      (w.Append sn key value).1.blen = w.blen + 1) := by
  rw [Append_eq] at hacc ⊢
  by_cases h1 : w.tmp = false
  · rw [if_pos h1] at hacc; cases hacc
  · rw [if_neg h1] at hacc ⊢
    by_cases h2 : key ≤ w.block.MaxKey ∧ (w.blen ≠ 0 ∨ w.index.length ≠ 0)
    · rw [if_pos h2] at hacc; cases hacc
    · rw [if_neg h2] at hacc ⊢
      constructor
      · intro hc
        have hnf : w.needsFlush value := hc
        rw [if_pos hnf] at hacc ⊢
        by_cases h3 : (w.flush sn).2 = none
        · rw [if_pos h3]
          have hne : w.buf ≠ [] := by
            intro hb; exact hc.1 (by rw [hb]; rfl)
          obtain ⟨f1, f2, f3, f4⟩ := flush_fields sn w
          rcases f4 with ⟨g, _⟩ | ⟨_, g2, g3, g4, g5⟩
          · exact absurd g hne
          · refine ⟨h3, rfl, ?_, ?_, ?_⟩
            · rw [(put_fields _ key value).2.2.2.2.2.1, g5]
            · simp [Writer.put, g2, g4, encEntry]
            · rw [(put_fields _ key value).2.2.1, g2]
        · rw [if_neg h3] at hacc
          exact absurd hacc h3
      · intro hc
        have hnf : ¬ w.needsFlush value := hc
        rw [if_neg hnf]
        refine ⟨rfl, (put_fields w key value).2.2.2.2.2.1, (put_fields w key value).2.2.2.2.2.2.1,
          ?_, (put_fields w key value).2.2.1⟩
        by_cases hfresh : (w.blen : Int) % w.o.BlockRestartInterval = 0
        · exact ⟨key, by simp [Writer.put, hfresh, encEntry]⟩
        · exact ⟨(key + 2 ^ 64 - w.block.MaxKey) % 2 ^ 64, by simp [Writer.put, hfresh, encEntry]⟩

theorem flushCount_run (sn : Codec) (hsn : sn.lawful) (es : List Entry) : ∀ (w : Writer)
    (raw : List (Nat × Bytes)) (cnt : Nat), w.laysRaw sn raw cnt → (∀ e ∈ es, e.1 < 2 ^ 64) →
    (Writer.run sn w (appends es)).1.index.length = w.index.length + flushCount sn w es := by
  induction es with
  | nil => intro w raw cnt _ _; rfl
  | cons e es ih =>
    intro w raw cnt h h64
    obtain ⟨-, raw1, h1⟩ := laysRaw_Append sn hsn w raw cnt e.1 e.2 h (h64 e (by simp))
    have hrec := ih (w.Append sn e.1 e.2).1 raw1 (cnt + 1) h1 (fun x hx => h64 x (by simp [hx]))
    show (Writer.run sn (w.Append sn e.1 e.2).1 (appends es)).1.index.length = _
    rw [hrec]
    show _ = w.index.length + ((if _ then 1 else 0) + flushCount sn (w.Append sn e.1 e.2).1 es)
    have hstep : (w.Append sn e.1 e.2).1.index.length =
        w.index.length + (if (w.Append sn e.1 e.2).2 = none ∧ w.buf.length ≠ 0 ∧
          ((w.buf.length + e.2.length + 2 * MaxVarintLen64 : Nat) : Int) > w.o.BlockSize
          then 1 else 0) := by
      by_cases hacc : (w.Append sn e.1 e.2).2 = none
      · obtain ⟨hA, hB⟩ := Append_flush_rule sn w e.1 e.2 hacc
        by_cases hc : w.buf.length ≠ 0 ∧
            ((w.buf.length + e.2.length + 2 * MaxVarintLen64 : Nat) : Int) > w.o.BlockSize
        · rw [if_pos ⟨hacc, hc⟩, (hA hc).2.2.1]
          simp
        · rw [if_neg (fun hh => hc hh.2), (hB hc).2.1]
          rfl
      · rw [if_neg (fun hh => hacc hh.1)]
        rcases Append_err_cases sn w e.1 e.2 with h0 | h0 | h0 | h0
        · exact absurd h0 hacc
        · exfalso
          -- the sink accepts every write, so no sink error can occur
          have hw := h.2.1
          have h1' := h.1
          rw [Append_eq, if_neg (by simp [h1'])] at h0
          by_cases h2 : e.1 ≤ w.block.MaxKey ∧ (w.blen ≠ 0 ∨ w.index.length ≠ 0)
          · rw [if_pos h2] at h0; cases h0
          · rw [if_neg h2] at h0
            by_cases hnf : w.needsFlush e.2
            · rw [if_pos hnf, if_pos (flush_accepting sn w hw).1] at h0
              cases h0
            · rw [if_neg hnf] at h0
              cases h0
        · rw [h0.2]; rfl
        · rw [h0.2.2.2]; rfl
    rw [hstep]
    omega

/-! ## The blocks of a written table, as the reader fetches them -/

theorem tableOk_block (bpre : List (List (List Entry))) (blk : List (List Entry))
    (bpost : List (List (List Entry))) (hok : tableOk (bpre ++ blk :: bpost)) :
    blockOk blk ∧ blk.flatten.Pairwise (fun a b => a.1 < b.1) ∧
      ∀ e ∈ blk.flatten, e.1 < 2 ^ 64 ∧ e.2.length < 2 ^ 63 := by
  obtain ⟨h1, h2, h3⟩ := hok
  refine ⟨h1 blk (by simp), ?_, ?_⟩
  · simp only [List.flatten_append, List.flatten_cons, List.pairwise_append] at h2
    exact h2.2.1.1
  · intro e he
    exact h3 e (by simp [he])

theorem getD_split {α : Type} (a : List α) (s : α) (c : List α) (d : α) :
    (a ++ s :: c).getD a.length d = s := by
  induction a with
  | nil => rfl
  | cons x a ih => simpa using ih

theorem blocks_of_write (sn : Codec) (hsn : sn.lawful) (o : Option WriterOptions)
    (es : List Entry) (hpw : es.Pairwise (fun a b => a.1 < b.1))
    (hbd : ∀ e ∈ es, e.1 < 2 ^ 64 ∧ e.2.length < 2 ^ 63)
    (hbs : (WriterOptions.norm o).BlockSize < 2 ^ 32 + 20)
    (hsize : (writeTable sn o es).length < 2 ^ 63) (fuel : Nat) (hfuel : es.length ≤ fuel) :
    ∃ (r : Reader) (blks : List (List (List Entry))), NewReader fuel (writeTable sn o es) ((writeTable sn o es).length : Int) =
        Res.ok r ∧
      blks.flatten.flatten = es ∧ r.NumBlocks = blks.length ∧
      ∀ n, n < blks.length → ∃ b, r.GetBlock sn (n : Int) = Res.ok b ∧ (b.Pos : Nat) = n ∧
        b.holds (blks.getD n []) := by
  obtain ⟨blks, hok, hfl, hopen⟩ := table_of_write sn o es hpw hbd hbs hsize
  refine ⟨_, blks, hopen fuel hfuel, hfl, ?_, ?_⟩
  · simp [Reader.NumBlocks, fileReader, fileIndex_length, tableRaw_length]
  · intro n hn
    obtain ⟨bpre, blk, bpost, hsplit, hlen, -⟩ := List.split_at blks n hn
    subst hsplit
    obtain ⟨k1, k2, k3⟩ := tableOk_block bpre blk bpost hok
    have hget : (bpre ++ blk :: bpost).getD n [] = blk := by
      rw [← hlen]
      exact getD_split bpre blk bpost []
    rw [hget, ← hlen]
    exact ⟨_, Reader.GetBlock_table sn hsn _ bpre blk bpost k1, rfl, rfl, rfl, rfl, k1, k2, k3⟩

/-! ## Fetching a section -/

theorem BlockReader.GetSection_end (b : BlockReader) (i : Int) (h : (b.scnt : Int) ≤ i) :
    b.GetSection i = Res.ok { sec := [], spos := b.scnt, read := 0, key := 0, val := [] } := by
  have h0 : ¬ i < 0 := by omega
  unfold BlockReader.GetSection
  simp only [if_neg h0, if_pos h]

theorem BlockReader.GetSection_below (b : BlockReader) (i : Int) (h : i < 0) :
    b.GetSection i = b.GetSection 0 := by
  have h0 : ¬ (0 : Int) < 0 := by omega
  unfold BlockReader.GetSection
  simp only [if_pos h, if_neg h0]

theorem BlockReader.GetSection_holds (b : BlockReader) (secs : List (List Entry))
    (h : b.holds secs) (j : Nat) (hj : j < secs.length) :
    b.GetSection (j : Int) =
      Res.ok { sec := encSec 0 (secs.getD j []), spos := j, read := 0, key := 0, val := [] } := by
  obtain ⟨h1, h2, -, h4, -, -⟩ := h
  obtain ⟨a, s, c, hsplit, hlen, -⟩ := List.split_at secs j hj
  subst hsplit
  have hget : (a ++ s :: c).getD j [] = s := by
    rw [← hlen]
    exact getD_split a s c []
  rw [hget, ← hlen]
  exact BlockReader.GetSection_split b a s c h1 h2 h4

theorem BlockReader.GetSection_clamp (b : BlockReader) (secs : List (List Entry))
    (h : b.holds secs) (i : Int) :
    ∃ s, b.GetSection i = Res.ok s ∧
      (s.Pos : Int) = min (max i 0) (b.NumSections : Int) ∧
      (i < 0 → b.GetSection 0 = Res.ok s) ∧
      ((b.NumSections : Int) ≤ i → s.sec = [] ∧ s.More = false ∧ s.Next = Res.ok (s, false)) := by
  have hscnt : b.scnt = secs.length := h.2.1
  have hpos : 0 < secs.length := List.length_pos.2 h.2.2.2.1.1
  rcases lt_or_le i 0 with hneg | hnn
  · have hg := BlockReader.GetSection_holds b secs h 0 hpos
    refine ⟨_, by rw [BlockReader.GetSection_below b i hneg]; exact hg, ?_, fun _ => hg, ?_⟩
    · show ((0 : Nat) : Int) = min (max i 0) ((b.scnt : Nat) : Int)
      rw [max_eq_right (le_of_lt hneg), min_eq_left (by simp)]
      rfl
    · intro hle
      have : (b.NumSections : Int) = secs.length := by
        show ((b.scnt : Nat) : Int) = _
        rw [hscnt]
      omega
  · rcases lt_or_le i (b.scnt : Int) with hlt | hge
    · obtain ⟨j, rfl⟩ := Int.eq_ofNat_of_zero_le hnn
      have hj : j < secs.length := by rw [← hscnt]; exact_mod_cast hlt
      refine ⟨_, BlockReader.GetSection_holds b secs h j hj, ?_, fun hn => by omega, ?_⟩
      · show ((j : Nat) : Int) = min (max (j : Int) 0) ((b.scnt : Nat) : Int)
        rw [max_eq_left hnn, min_eq_left (le_of_lt hlt)]
      · intro hle
        have : (b.NumSections : Int) = b.scnt := rfl
        omega
    · refine ⟨_, BlockReader.GetSection_end b i hge, ?_, fun hn => by omega, ?_⟩
      · show ((b.scnt : Nat) : Int) = min (max i 0) ((b.scnt : Nat) : Int)
        rw [max_eq_left hnn, min_eq_right hge]
      · intro _
        refine ⟨rfl, rfl, ?_⟩
        simp [SectionReader.Next, SectionReader.More]

theorem BlockReader.GetSection_bytes (b : BlockReader) (secs : List (List Entry))
    (h : b.holds secs) (i : Int) :
    ∃ s, b.GetSection i = Res.ok s ∧
      (s.Pos : Int) = min (max i 0) (b.NumSections : Int) ∧
      s.sec = encSec 0 (secs.getD s.Pos []) ∧ s.read = 0 ∧ s.key = 0 ∧
      (s.Pos < b.NumSections → s.sec ≠ [] ∧
        ∃ post, b.block = (secsBytes (secs.take s.Pos) ++ s.sec) ++ post) ∧
      (i < 0 → b.GetSection 0 = Res.ok s) ∧
      ((b.NumSections : Int) ≤ i → s.sec = [] ∧ s.More = false ∧ s.Next = Res.ok (s, false)) := by
  have hscnt : b.scnt = secs.length := h.2.1
  have hpos : 0 < secs.length := List.length_pos.2 h.2.2.2.1.1
  have hinner : ∀ j, j < secs.length →
      encSec 0 (secs.getD j []) ≠ [] ∧
      ∃ post, b.block = (secsBytes (secs.take j) ++ encSec 0 (secs.getD j [])) ++ post := by
    intro j hj
    obtain ⟨a, s, c, hsplit, hlen, -⟩ := List.split_at secs j hj
    have hs : s ≠ [] := h.2.2.2.1.2.1 s (by rw [hsplit]; simp)
    obtain ⟨T, hT⟩ := blockPayload_prefix secs h.2.2.2.1
    have hget : secs.getD j [] = s := by
      rw [hsplit, ← hlen]; exact getD_split a s c []
    have htake : secs.take j = a := by
      rw [hsplit, ← hlen, List.take_left']
      rfl
    rw [hget, htake]
    refine ⟨encSec_ne_nil 0 s hs, secsBytes c ++ T, ?_⟩
    rw [h.1, hT, hsplit, secsBytes_append]
    show (secsBytes a ++ (encSec 0 s ++ secsBytes c)) ++ T = _
    simp only [List.append_assoc]
  rcases lt_or_le i 0 with hneg | hnn
  · have hg := BlockReader.GetSection_holds b secs h 0 hpos
    refine ⟨_, by rw [BlockReader.GetSection_below b i hneg]; exact hg, ?_, rfl, rfl, rfl,
      fun _ => hinner 0 hpos, fun _ => hg, ?_⟩
    · show ((0 : Nat) : Int) = min (max i 0) ((b.scnt : Nat) : Int)
      rw [max_eq_right (le_of_lt hneg), min_eq_left (by simp)]
      rfl
    · intro hle
      have : (b.NumSections : Int) = secs.length := by
        show ((b.scnt : Nat) : Int) = _
        rw [hscnt]
      omega
  · rcases lt_or_le i (b.scnt : Int) with hlt | hge
    · obtain ⟨j, rfl⟩ := Int.eq_ofNat_of_zero_le hnn
      have hj : j < secs.length := by rw [← hscnt]; exact_mod_cast hlt
      refine ⟨_, BlockReader.GetSection_holds b secs h j hj, ?_, rfl, rfl, rfl,
        fun _ => hinner j hj, fun hn => by omega, ?_⟩
      · show ((j : Nat) : Int) = min (max (j : Int) 0) ((b.scnt : Nat) : Int)
        rw [max_eq_left hnn, min_eq_left (le_of_lt hlt)]
      · intro hle
        have : (b.NumSections : Int) = b.scnt := rfl
        omega
    · refine ⟨_, BlockReader.GetSection_end b i hge, ?_, ?_, rfl, rfl, ?_, fun hn => by omega, ?_⟩
      · show ((b.scnt : Nat) : Int) = min (max i 0) ((b.scnt : Nat) : Int)
        rw [max_eq_left hnn, min_eq_right hge]
      · show ([] : Bytes) = encSec 0 (secs.getD b.scnt [])
        rw [List.getD_eq_default _ _ (by omega)]
        rfl
      · intro hlt
        exact absurd hlt (Nat.lt_irrefl _)
      · intro _
        refine ⟨rfl, rfl, ?_⟩
        simp [SectionReader.Next, SectionReader.More]

/-- C17, as amended. `GetSection` clamping. For a table written from entries with
strictly increasing keys under options whose normalised `BlockSize` is below
`2^32 + 20`, the entries split into blocks of sections, `blks`, and every block `n` of
the reader is fetched with the framed sections `blks[n]` as its bytes. For every integer
`i` the call `GetSection(i)` on it returns a section reader at position
`min(max(i, 0), N)`, `N` being the section count, with the cursor at the start and the
bytes of the section at that position: the encoded entries of that section, which are
not empty and lie in the block right after the sections before it. For `i < 0` it is
what `GetSection(0)` returns, section 0 with its bytes; for `i >= N` the section is
empty, `More()` is false and `Next()` returns false. -/
theorem C17_get_section_clamping (sn : Codec) (hsn : sn.lawful) (o : Option WriterOptions)
    (es : List Entry) (hpw : es.Pairwise (fun a b => a.1 < b.1))
    (hbd : ∀ e ∈ es, e.1 < 2 ^ 64 ∧ e.2.length < 2 ^ 63)
    (hbs : (WriterOptions.norm o).BlockSize < 2 ^ 32 + 20)
    (hsize : (writeTable sn o es).length < 2 ^ 63) (fuel : Nat) (hfuel : es.length ≤ fuel) :
    ∃ (r : Reader) (blks : List (List (List Entry))),
      NewReader fuel (writeTable sn o es) ((writeTable sn o es).length : Int) = Res.ok r ∧
      blks.flatten.flatten = es ∧ r.NumBlocks = blks.length ∧
      ∀ n, n < r.NumBlocks → ∃ b, r.GetBlock sn (n : Int) = Res.ok b ∧ (b.Pos : Nat) = n ∧
        b.NumSections = (blks.getD n []).length ∧ 0 < b.NumSections ∧
        b.block = blockPayload (blks.getD n []) ∧
        ∀ i : Int, ∃ s, b.GetSection i = Res.ok s ∧
          (s.Pos : Int) = min (max i 0) (b.NumSections : Int) ∧
          s.sec = encSec 0 ((blks.getD n []).getD s.Pos []) ∧ s.read = 0 ∧ s.key = 0 ∧
          (s.Pos < b.NumSections → s.sec ≠ [] ∧
            ∃ post, b.block = (secsBytes ((blks.getD n []).take s.Pos) ++ s.sec) ++ post) ∧
          (i < 0 → b.GetSection 0 = Res.ok s) ∧
          ((b.NumSections : Int) ≤ i →
            s.sec = [] ∧ s.More = false ∧ s.Next = Res.ok (s, false)) := by
  obtain ⟨r, blks, hr, hfl, hnb, hblk⟩ := blocks_of_write sn hsn o es hpw hbd hbs hsize fuel hfuel
  refine ⟨r, blks, hr, hfl, hnb, ?_⟩
  intro n hn
  obtain ⟨b, hb, hpos, hh⟩ := hblk n (by rw [← hnb]; exact hn)
  have hN : 0 < b.NumSections := by
    show 0 < b.scnt
    rw [hh.2.1]
    exact List.length_pos.2 hh.2.2.2.1.1
  exact ⟨b, hb, hpos, hh.2.1, hN, hh.1, fun i => BlockReader.GetSection_bytes b _ hh i⟩

set_option maxRecDepth 100000 in
theorem C17_get_section_clamping_witness :
    ∃ (r : Reader) (blks : List (List (List Entry))),
      NewReader 3
        (writeTable rleCodec (some ⟨30, 2, SnappyCompression⟩)
          [(3, [7]), (5, [0, 0, 0, 0, 0, 0, 0, 0, 0, 0, 0, 0]), (900, [])])
        ((writeTable rleCodec (some ⟨30, 2, SnappyCompression⟩)
          [(3, [7]), (5, [0, 0, 0, 0, 0, 0, 0, 0, 0, 0, 0, 0]), (900, [])]).length : Int) =
          Res.ok r ∧
      blks.flatten.flatten = [(3, [7]), (5, [0, 0, 0, 0, 0, 0, 0, 0, 0, 0, 0, 0]), (900, [])] ∧
      ∀ n, n < r.NumBlocks → ∃ b, r.GetBlock rleCodec (n : Int) = Res.ok b ∧ (b.Pos : Nat) = n ∧
        ∃ s, b.GetSection (-1) = Res.ok s ∧ b.GetSection 0 = Res.ok s ∧ s.Pos = 0 ∧
          s.sec = encSec 0 ((blks.getD n []).getD 0 []) ∧ s.sec ≠ [] := by
  obtain ⟨r, blks, hr, hfl, hnb, h⟩ := C17_get_section_clamping rleCodec rleCodec_lawful
    (some ⟨30, 2, SnappyCompression⟩)
    [(3, [7]), (5, [0, 0, 0, 0, 0, 0, 0, 0, 0, 0, 0, 0]), (900, [])]
    (by decide) (by decide) (by decide) (by decide) 3 (by decide)
  refine ⟨r, blks, hr, hfl, ?_⟩
  intro n hn
  obtain ⟨b, hb, hpos, -, hN, -, hs⟩ := h n hn
  obtain ⟨s, h1, h2, h3, -, -, h6, h7, -⟩ := hs (-1)
  have hmin : min (max (-1 : Int) 0) (b.NumSections : Int) = 0 := by
    rw [max_eq_right (by decide), min_eq_left (by simp)]
  rw [hmin] at h2
  have hp0 : s.Pos = 0 := by exact_mod_cast h2
  rw [hp0] at h3 h6
  exact ⟨b, hb, hpos, s, h1, h7 (by decide), hp0, h3, (h6 hN).1⟩

/-! ## Seeking a section -/

theorem BlockReader.firstKey_holds (b : BlockReader) (secs : List (List Entry))
    (h : b.holds secs) (j : Nat) (hj : j < secs.length) :
    ∃ t t', b.GetSection (j : Int) = Res.ok t ∧ t.Next = Res.ok (t', true) ∧
      t'.Key = firstKeyAt secs j := by
  obtain ⟨h1, h2, -, h4, h5, h6⟩ := h
  obtain ⟨a, s, c, hsplit, hlen, hdrop⟩ := List.split_at secs j hj
  subst hsplit
  have hsne : s ≠ [] := h4.2.1 s (by simp)
  cases s with
  | nil => exact absurd rfl hsne
  | cons e post =>
    have hpws : (e :: post).Pairwise (fun a b => a.1 < b.1) := by
      simp only [List.flatten_append, List.flatten_cons, List.pairwise_append] at h5
      exact h5.2.1.1
    have hsok : okFrom 0 (e :: post) := okFrom_of_pairwise _ 0 hpws
      (fun x hx => h6 x (List.mem_flatten.2 ⟨e :: post, by simp, hx⟩))
      (fun _ _ => Nat.zero_le _)
    obtain ⟨s0, s', g1, g2, -, -, g5, -, -⟩ := SectionReader.Next_fresh b a e post c h1 h2 h4 hsok
    refine ⟨s0, s', by rw [← hlen]; exact g1, g2, ?_⟩
    rw [firstKeyAt_of_drop _ j e post c hdrop]
    exact g5

theorem BlockReader.SeekSection_pos (b : BlockReader) (secs : List (List Entry))
    (h : b.holds secs) (k : Nat) :
    ∃ s, b.SeekSection k = Res.ok s ∧
      (b.maxKey < k → s.Pos = b.NumSections ∧ s.More = false) ∧
      (k ≤ b.maxKey → s.Pos < b.NumSections ∧
        (∀ j, s.Pos < j → j < b.NumSections → k < firstKeyAt secs j) ∧
        ((∀ j, j ≤ s.Pos → firstKeyAt secs j ≤ k) ∨ (s.Pos = 0 ∧ k < firstKeyAt secs 0)) ∧
        b.GetSection (s.Pos : Int) = Res.ok s) := by
  obtain ⟨h1, h2, h3, h4, h5, h6⟩ := h
  have hpos : 0 < secs.length := List.length_pos.2 h4.1
  rcases Nat.lt_or_ge b.maxKey k with hgt | hle
  · refine ⟨{ sec := [], spos := b.scnt, read := 0, key := 0, val := [] }, ?_,
      fun _ => ⟨rfl, rfl⟩, fun hk => by omega⟩
    unfold BlockReader.SeekSection
    rw [if_pos hgt]
    exact BlockReader.GetSection_end b _ (le_refl _)
  · have h64 : ∀ s ∈ secs, ∀ e ∈ s, e.1 < 2 ^ 64 :=
      fun s hs e he => (h6 e (List.mem_flatten.2 ⟨s, hs, he⟩)).1
    have hmono : ∀ i j, i ≤ j → j < secs.length → firstKeyAt secs i ≤ firstKeyAt secs j := by
      intro i j hij hj
      rw [firstKeyAt_eq_getD, firstKeyAt_eq_getD]
      exact getD_mono _ (pairwise_firstKeys secs h4.2.1 h5) i j hij (by simpa using hj)
    obtain ⟨m, hm, hlo, hhi, hss⟩ := BlockReader.SeekSection_spec b secs k h1 h2 h4 hle h64 hmono
    have hN : b.NumSections = secs.length := h2
    by_cases hm0 : m = 0
    · subst hm0
      have hg := BlockReader.GetSection_holds b secs ⟨h1, h2, h3, h4, h5, h6⟩ 0 hpos
      refine ⟨{ sec := encSec 0 (secs.getD 0 []), spos := 0, read := 0, key := 0, val := [] },
        by rw [hss]; exact (BlockReader.GetSection_below b _ (by decide)).trans hg,
        fun hk => by omega, fun _ => ⟨by rw [hN]; exact hpos, ?_, ?_, hg⟩⟩
      · intro j _ hj
        exact hhi j (Nat.zero_le j) (by rw [← hN]; exact hj)
      · exact Or.inr ⟨rfl, hhi 0 (le_refl 0) hpos⟩
    · have hj : m - 1 < secs.length := by omega
      have hg := BlockReader.GetSection_holds b secs ⟨h1, h2, h3, h4, h5, h6⟩ (m - 1) hj
      have hcast : ((m : Int) - 1) = (((m - 1 : Nat) : Nat) : Int) := by omega
      refine ⟨{ sec := encSec 0 (secs.getD (m - 1) []), spos := m - 1, read := 0, key := 0,
                val := [] }, by rw [hss, hcast]; exact hg, fun hk => by omega,
        fun _ => ⟨by rw [hN]; exact hj, ?_, ?_, hg⟩⟩
      · intro j hj1 hj2
        have hj1' : m - 1 < j := hj1
        exact hhi j (by omega) (by rw [← hN]; exact hj2)
      · left
        intro j hj1
        have hj1' : j ≤ m - 1 := hj1
        exact hlo j (by omega)

/-- C15, as amended. `SeekSection` position. For a table written from entries with
strictly increasing keys under options whose normalised `BlockSize` is below
`2^32 + 20`, take any block `n` of the reader, with `N` sections and max-key `M`, and
let `fk j` be the first key of its section `j` (the key after `GetSection(j)` and one
`Next()`). For every key `k`, `SeekSection(k)` returns a section reader: at position
`N`, with nothing to read, when `k > M`; and when `k <= M` at a position `p < N` such
that every later section has a first key above `k`, and either every section up to `p`
has a first key of at most `k` (so `p` is the largest such index) or `p = 0` and `k` is
below the first key of section 0. -/
theorem C15_seek_section_position (sn : Codec) (hsn : sn.lawful) (o : Option WriterOptions)
    (es : List Entry) (hpw : es.Pairwise (fun a b => a.1 < b.1))
    (hbd : ∀ e ∈ es, e.1 < 2 ^ 64 ∧ e.2.length < 2 ^ 63)
    (hbs : (WriterOptions.norm o).BlockSize < 2 ^ 32 + 20)
    (hsize : (writeTable sn o es).length < 2 ^ 63) (fuel : Nat) (hfuel : es.length ≤ fuel) :
    ∃ r, NewReader fuel (writeTable sn o es) ((writeTable sn o es).length : Int) = Res.ok r ∧
      ∀ n, n < r.NumBlocks → ∃ (b : BlockReader) (fk : Nat → Nat),
        r.GetBlock sn (n : Int) = Res.ok b ∧ (b.Pos : Nat) = n ∧
        (∀ j, j < b.NumSections → ∃ t t', b.GetSection (j : Int) = Res.ok t ∧
          t.Next = Res.ok (t', true) ∧ t'.Key = fk j) ∧
        ∀ k, ∃ s, b.SeekSection k = Res.ok s ∧
          (b.maxKey < k → s.Pos = b.NumSections ∧ s.More = false) ∧
          (k ≤ b.maxKey → s.Pos < b.NumSections ∧
            (∀ j, s.Pos < j → j < b.NumSections → k < fk j) ∧
            ((∀ j, j ≤ s.Pos → fk j ≤ k) ∨ (s.Pos = 0 ∧ k < fk 0))) := by
  obtain ⟨r, blks, hr, -, hnb, hblk⟩ := blocks_of_write sn hsn o es hpw hbd hbs hsize fuel hfuel
  refine ⟨r, hr, ?_⟩
  intro n hn
  obtain ⟨b, hb, hpos, hh⟩ := hblk n (by rw [← hnb]; exact hn)
  refine ⟨b, firstKeyAt (blks.getD n []), hb, hpos, ?_, ?_⟩
  · intro j hj
    exact BlockReader.firstKey_holds b _ hh j (by rw [← hh.2.1]; exact hj)
  · intro k
    obtain ⟨s, g1, g2, g3⟩ := BlockReader.SeekSection_pos b _ hh k
    exact ⟨s, g1, g2, fun hk => ⟨(g3 hk).1, (g3 hk).2.1, (g3 hk).2.2.1⟩⟩

theorem C15_seek_section_position_witness :
    ∃ r, NewReader 3
        (writeTable rleCodec (some ⟨30, 2, SnappyCompression⟩)
          [(3, [7]), (5, [0, 0, 0, 0, 0, 0, 0, 0, 0, 0, 0, 0]), (900, [])])
        ((writeTable rleCodec (some ⟨30, 2, SnappyCompression⟩)
          [(3, [7]), (5, [0, 0, 0, 0, 0, 0, 0, 0, 0, 0, 0, 0]), (900, [])]).length : Int) =
          Res.ok r ∧
      ∀ n, n < r.NumBlocks → ∃ b, r.GetBlock rleCodec (n : Int) = Res.ok b ∧ (b.Pos : Nat) = n ∧
        ∃ s, b.SeekSection (b.maxKey + 1) = Res.ok s ∧ s.Pos = b.NumSections ∧
          s.More = false := by
  obtain ⟨r, hr, h⟩ := C15_seek_section_position rleCodec rleCodec_lawful
    (some ⟨30, 2, SnappyCompression⟩)
    [(3, [7]), (5, [0, 0, 0, 0, 0, 0, 0, 0, 0, 0, 0, 0]), (900, [])]
    (by decide) (by decide) (by decide) (by decide) 3 (by decide)
  refine ⟨r, hr, ?_⟩
  intro n hn
  obtain ⟨b, fk, hb, hpos, -, hs⟩ := h n hn
  obtain ⟨s, h1, h2, -⟩ := hs (b.maxKey + 1)
  exact ⟨b, hb, hpos, s, h1, h2 (Nat.lt_succ_self _)⟩

/-! ## The section a key belongs to -/

theorem SectionReader.drain_entries : ∀ (post : List Entry) (fuel : Nat) (s : SectionReader)
    (pre : Bytes) (p : Nat), s.sec = pre ++ encSec p post → s.read = (pre.length : Int) →
    s.key = p → okFrom p post → post.length < fuel → s.drain fuel = Res.ok post := by
  intro post
  induction post with
  | nil =>
    intro fuel s pre p hsec hread _ _ hfuel
    obtain ⟨f, rfl⟩ : ∃ f, fuel = f + 1 := ⟨fuel - 1, by simp at hfuel; omega⟩
    have hm : s.More = false := by
      have := (SectionReader.More_iff s pre p [] hsec hread)
      cases hM : s.More
      · rfl
      · exact absurd rfl (this.1 hM)
    have hn : s.Next = Res.ok (s, false) := by
      simp [SectionReader.Next, hm]
    simp only [SectionReader.drain, hn]
  | cons e post ih =>
    intro fuel s pre p hsec hread hkey hok hfuel
    obtain ⟨f, rfl⟩ : ∃ f, fuel = f + 1 := ⟨fuel - 1, by simp at hfuel; omega⟩
    obtain ⟨hp, h64, hv, hok'⟩ := hok
    have hn := SectionReader.Next_cons s pre p e post hsec hread hkey hp h64 hv
    have hrec := ih f
      { s with read := (((pre ++ encEntry (e.1 - p) e.2).length : Nat) : Int), key := e.1,
               val := e.2 }
      (pre ++ encEntry (e.1 - p) e.2) e.1
      (by simp only [hsec, encSec, List.append_assoc]) rfl rfl hok'
      (by simp at hfuel; omega)
    simp only [SectionReader.drain, hn, hrec]
    rfl

theorem BlockReader.drain_holds (b : BlockReader) (secs : List (List Entry))
    (h : b.holds secs) (j : Nat) (hj : j < secs.length) (fuel : Nat)
    (hfuel : secs.flatten.length < fuel) :
    ∃ t, b.GetSection (j : Int) = Res.ok t ∧ t.drain fuel = Res.ok (secs.getD j []) := by
  refine ⟨_, BlockReader.GetSection_holds b secs h j hj, ?_⟩
  obtain ⟨-, -, -, h4, h5, h6⟩ := h
  obtain ⟨a, s, c, hsplit, hlen, -⟩ := List.split_at secs j hj
  subst hsplit
  have hget : (a ++ s :: c).getD j [] = s := by
    rw [← hlen]; exact getD_split a s c []
  rw [hget]
  have hpws : s.Pairwise (fun a b => a.1 < b.1) := by
    simp only [List.flatten_append, List.flatten_cons, List.pairwise_append] at h5
    exact h5.2.1.1
  have hsok : okFrom 0 s := okFrom_of_pairwise _ 0 hpws
    (fun x hx => h6 x (List.mem_flatten.2 ⟨s, by simp, hx⟩)) (fun _ _ => Nat.zero_le _)
  refine SectionReader.drain_entries s fuel _ [] 0 (by simp) rfl rfl hsok ?_
  have : s.length ≤ (a ++ s :: c).flatten.length := by
    simp only [List.flatten_append, List.flatten_cons, List.length_append]; omega
  omega

theorem BlockReader.SeekSection_contains (b : BlockReader) (secs : List (List Entry))
    (h : b.holds secs) (k : Nat) (hk : k ≤ b.maxKey) :
    ∃ s, b.SeekSection k = Res.ok s ∧ s.Pos < b.NumSections ∧
      (∀ e ∈ secs.flatten, e.1 = k → e ∈ secs.getD s.Pos []) ∧
      ((∀ e ∈ secs.flatten, e.1 ≠ k) →
        ∃ x ∈ secs.flatten, k ≤ x.1 ∧ (∀ e ∈ secs.flatten, k ≤ e.1 → x.1 ≤ e.1) ∧
          (x ∈ secs.getD s.Pos [] ∨ (secs.getD (s.Pos + 1) []).head? = some x)) := by
  obtain ⟨s, g1, -, g3⟩ := BlockReader.SeekSection_pos b secs h k
  obtain ⟨P1, P2, P3, -⟩ := g3 hk
  obtain ⟨h1, h2, h3, h4, h5, h6⟩ := h
  have hN : b.NumSections = secs.length := h2
  refine ⟨s, g1, P1, ?_⟩
  obtain ⟨spre, sec, spost, hsplit, hlen, hdrop⟩ := List.split_at secs s.Pos (by rw [← hN]; exact P1)
  subst hsplit
  have hget : (spre ++ sec :: spost).getD s.Pos [] = sec := by
    rw [← hlen]; exact getD_split spre sec spost []
  have hsne : sec ≠ [] := h4.2.1 sec (by simp)
  have hfl : (spre ++ sec :: spost).flatten = spre.flatten ++ (sec ++ spost.flatten) := by simp
  rw [hfl] at h5 h3
  rw [List.pairwise_append] at h5
  obtain ⟨hpw_spre, hpw_rest, hcross1⟩ := h5
  rw [List.pairwise_append] at hpw_rest
  obtain ⟨hpw_sec, hpw_spost, hcross2⟩ := hpw_rest
  -- entries before the section are below `k`
  have hB : ∀ e ∈ spre.flatten, e.1 < k := by
    intro e he
    have hp0 : s.Pos ≠ 0 := by
      intro h0
      rw [h0] at hlen
      have : spre = [] := List.length_eq_zero.1 hlen
      subst this
      simp at he
    cases sec with
    | nil => exact absurd rfl hsne
    | cons x0 t0 =>
      have hfk : firstKeyAt (spre ++ (x0 :: t0) :: spost) s.Pos = x0.1 :=
        firstKeyAt_of_drop _ _ x0 t0 spost hdrop
      have hle : x0.1 ≤ k := by
        rcases P3 with hl | ⟨h0, -⟩
        · rw [← hfk]; exact hl s.Pos (le_refl _)
        · exact absurd h0 hp0
      have := hcross1 e he x0 (by simp)
      omega
  -- entries after the section are above `k`
  have hA : ∀ e ∈ spost.flatten, k < e.1 := by
    intro e he
    cases spost with
    | nil => simp at he
    | cons t1 spost' =>
      have ht1 : t1 ≠ [] := h4.2.1 t1 (by simp)
      cases t1 with
      | nil => exact absurd rfl ht1
      | cons x1 r1 =>
        have hd1 : (spre ++ sec :: (x1 :: r1) :: spost').drop (s.Pos + 1) =
            (x1 :: r1) :: spost' := by
          rw [← hlen]
          have : spre ++ sec :: (x1 :: r1) :: spost' = (spre ++ [sec]) ++ (x1 :: r1) :: spost' := by
            simp
          rw [this]
          have hl : spre.length + 1 = (spre ++ [sec]).length := by simp
          rw [hl, List.drop_left]
        have hfk : firstKeyAt (spre ++ sec :: (x1 :: r1) :: spost') (s.Pos + 1) = x1.1 :=
          firstKeyAt_of_drop _ _ x1 r1 spost' hd1
        have hlt : k < x1.1 := by
          rw [← hfk]
          refine P2 (s.Pos + 1) (Nat.lt_succ_self _) ?_
          rw [hN, ← hlen]
          simp
        have hmin := firstKey_le x1 (r1 ++ spost'.flatten)
          (by simpa using hpw_spost) e (by simpa using he)
        omega
  rw [hget]
  constructor
  · intro e he hek
    rw [hfl] at he
    rcases List.mem_append.1 he with he1 | he1
    · have := hB e he1; omega
    · rcases List.mem_append.1 he1 with he2 | he2
      · exact he2
      · have := hA e he2; omega
  · intro _
    rcases dropWhile_key k sec hpw_sec with ⟨-, hall⟩ | ⟨x, rest, -, hx, hkx, hminx⟩
    · -- the whole section is below `k`: the key sought is the first of the next section
      have hne : spre.flatten ++ (sec ++ spost.flatten) ≠ [] := by
        cases sec with
        | nil => exact absurd rfl hsne
        | cons x0 t0 => simp
      obtain ⟨e, he, hek⟩ := lastKey_mem 0 _ hne
      rw [hek] at h3
      have hepost : e ∈ spost.flatten := by
        rcases List.mem_append.1 he with he1 | he1
        · have := hB e he1; omega
        · rcases List.mem_append.1 he1 with he2 | he2
          · have := hall e he2; omega
          · exact he2
      cases spost with
      | nil => simp at hepost
      | cons t1 spost' =>
        have ht1 : t1 ≠ [] := h4.2.1 t1 (by simp)
        cases t1 with
        | nil => exact absurd rfl ht1
        | cons x1 r1 =>
          have hget1 : (spre ++ sec :: (x1 :: r1) :: spost').getD (s.Pos + 1) [] = x1 :: r1 := by
            have : spre ++ sec :: (x1 :: r1) :: spost' =
                (spre ++ [sec]) ++ (x1 :: r1) :: spost' := by simp
            rw [this]
            have hl : s.Pos + 1 = (spre ++ [sec]).length := by simp [hlen]
            rw [hl]
            exact getD_split _ _ _ []
          refine ⟨x1, by rw [hfl]; simp, le_of_lt (hA x1 (by simp)), ?_, Or.inr ?_⟩
          · intro y hy hky
            rw [hfl] at hy
            rcases List.mem_append.1 hy with hy1 | hy1
            · have := hB y hy1; omega
            · rcases List.mem_append.1 hy1 with hy2 | hy2
              · have := hall y hy2; omega
              · exact firstKey_le x1 (r1 ++ spost'.flatten) (by simpa using hpw_spost) y
                  (by simpa using hy2)
          · rw [hget1]; rfl
    · refine ⟨x, by rw [hfl]; simp [hx], hkx, ?_, Or.inl hx⟩
      intro y hy hky
      rw [hfl] at hy
      rcases List.mem_append.1 hy with hy1 | hy1
      · have := hB y hy1; omega
      · rcases List.mem_append.1 hy1 with hy2 | hy2
        · exact hminx y hy2 hky
        · exact le_of_lt (hcross2 x hx y hy2)

theorem getD_flatten_length (L : List (List (List Entry))) (n : Nat) :
    (L.getD n []).flatten.length ≤ L.flatten.flatten.length := by
  rcases Nat.lt_or_ge n L.length with h | h
  · obtain ⟨a, x, c, hsplit, hlen, -⟩ := List.split_at L n h
    subst hsplit
    rw [← hlen, getD_split]
    simp only [List.flatten_append, List.flatten_cons, List.length_append]
    omega
  · rw [List.getD_eq_default _ _ h]
    simp

/-- C16, as amended. For a table written from entries with strictly increasing keys
under options whose normalised `BlockSize` is below `2^32 + 20`, take any block `n` of
the reader and let `secs` be what its sections hold (section `j`, read to its end,
yields `secs[j]`). For every key `k` at or below the block's max-key, `SeekSection(k)`
returns a section of the block. An entry of the block with the key `k` is in that
section. When the block has no entry with the key `k`, the smallest stored key at or
above `k` is in that section or is the first key of the section after it. -/
theorem C16_seek_section_contains (sn : Codec) (hsn : sn.lawful) (o : Option WriterOptions)
    (es : List Entry) (hpw : es.Pairwise (fun a b => a.1 < b.1))
    (hbd : ∀ e ∈ es, e.1 < 2 ^ 64 ∧ e.2.length < 2 ^ 63)
    (hbs : (WriterOptions.norm o).BlockSize < 2 ^ 32 + 20)
    (hsize : (writeTable sn o es).length < 2 ^ 63) (fuel : Nat) (hfuel : es.length ≤ fuel) :
    ∃ r, NewReader fuel (writeTable sn o es) ((writeTable sn o es).length : Int) = Res.ok r ∧
      ∀ n, n < r.NumBlocks → ∃ (b : BlockReader) (secs : List (List Entry)),
        r.GetBlock sn (n : Int) = Res.ok b ∧ (b.Pos : Nat) = n ∧ secs.length = b.NumSections ∧
        (∀ j, j < b.NumSections → ∃ t, b.GetSection (j : Int) = Res.ok t ∧
          t.drain (fuel + 1) = Res.ok (secs.getD j [])) ∧
        ∀ k, k ≤ b.maxKey → ∃ s, b.SeekSection k = Res.ok s ∧ s.Pos < b.NumSections ∧
          (∀ e ∈ secs.flatten, e.1 = k → e ∈ secs.getD s.Pos []) ∧
          ((∀ e ∈ secs.flatten, e.1 ≠ k) →
            ∃ x ∈ secs.flatten, k ≤ x.1 ∧ (∀ e ∈ secs.flatten, k ≤ e.1 → x.1 ≤ e.1) ∧
              (x ∈ secs.getD s.Pos [] ∨ (secs.getD (s.Pos + 1) []).head? = some x)) := by
  obtain ⟨r, blks, hr, hfl, hnb, hblk⟩ :=
    blocks_of_write sn hsn o es hpw hbd hbs hsize fuel hfuel
  refine ⟨r, hr, ?_⟩
  intro n hn
  obtain ⟨b, hb, hpos, hh⟩ := hblk n (by rw [← hnb]; exact hn)
  have hlen : (blks.getD n []).flatten.length < fuel + 1 := by
    have := getD_flatten_length blks n
    rw [hfl] at this
    omega
  refine ⟨b, blks.getD n [], hb, hpos, hh.2.1.symm, ?_, ?_⟩
  · intro j hj
    exact BlockReader.drain_holds b _ hh j (by rw [← hh.2.1]; exact hj) (fuel + 1) hlen
  · intro k hk
    exact BlockReader.SeekSection_contains b _ hh k hk

theorem C16_seek_section_contains_witness :
    ∃ r, NewReader 3
        (writeTable rleCodec (some ⟨30, 2, SnappyCompression⟩)
          [(3, [7]), (5, [0, 0, 0, 0, 0, 0, 0, 0, 0, 0, 0, 0]), (900, [])])
        ((writeTable rleCodec (some ⟨30, 2, SnappyCompression⟩)
          [(3, [7]), (5, [0, 0, 0, 0, 0, 0, 0, 0, 0, 0, 0, 0]), (900, [])]).length : Int) =
          Res.ok r ∧
      ∀ n, n < r.NumBlocks → ∃ (b : BlockReader) (secs : List (List Entry)),
        r.GetBlock rleCodec (n : Int) = Res.ok b ∧ (b.Pos : Nat) = n ∧
        ∃ s, b.SeekSection b.maxKey = Res.ok s ∧ s.Pos < b.NumSections ∧
          ∀ e ∈ secs.flatten, e.1 = b.maxKey → e ∈ secs.getD s.Pos [] := by
  obtain ⟨r, hr, h⟩ := C16_seek_section_contains rleCodec rleCodec_lawful
    (some ⟨30, 2, SnappyCompression⟩)
    [(3, [7]), (5, [0, 0, 0, 0, 0, 0, 0, 0, 0, 0, 0, 0]), (900, [])]
    (by decide) (by decide) (by decide) (by decide) 3 (by decide)
  refine ⟨r, hr, ?_⟩
  intro n hn
  obtain ⟨b, secs, hb, hpos, -, -, hs⟩ := h n hn
  obtain ⟨s, h1, h2, h3, -⟩ := hs b.maxKey (le_refl _)
  exact ⟨b, secs, hb, hpos, s, h1, h2, h3⟩

/-! ## Section offsets that wrap: seeking a section -/

theorem GetBlock_wrap (sn : Codec) (V : Bytes) :
    (fileReader [(9, wrapPayload V ++ [blockNoCompression])]).GetBlock sn 0 =
      Res.ok (wrapBlock V) := by
  have hg := Reader.GetBlock_raw sn [] (9, wrapPayload V ++ [blockNoCompression]) []
  simp only [List.nil_append, List.length_nil, Nat.cast_zero] at hg
  rw [hg]
  exact Reader.readBlock_raw sn [] (9, wrapPayload V ++ [blockNoCompression]) [] (wrapPayload V)
    blockNoCompression (wrapPayload V)
    (((encEntry 1 V ++ encEntry 7 []) ++ encEntry 9 []) ++
      (PutUint32 (2 ^ 32 + 6) ++ PutUint32 (2 ^ 32 + 8))) 3
    rfl (Or.inl ⟨rfl, rfl⟩) (by simp [wrapPayload])

theorem GetSection_wrap_two (Z : Bytes) (hZ : Z.length = 2 ^ 32 - 3) :
    (wrapBlock (5 :: 0 :: 6 :: Z)).GetSection ((3 : Nat) - 1) =
      Res.ok { sec := 6 :: (Z ++ (encEntry 7 [] ++ encEntry 9 [])), spos := 2, read := 0,
               key := 0, val := [] } := by
  have hh := wrap_header_length Z hZ
  have h0 : ¬ (((3 : Nat) : Int) - 1) < 0 := by norm_num
  have h1 : ¬ ((wrapBlock (5 :: 0 :: 6 :: Z)).scnt : Int) ≤ ((3 : Nat) : Int) - 1 := by
    simp [wrapBlock]
  have h2 : (((3 : Nat) : Int) - 1) = 2 := by norm_num
  have h3 : ((2 : Int) + 1) = 3 := rfl
  have h4 : (wrapBlock (5 :: 0 :: 6 :: Z)).sectionOffset 3 =
      Res.ok (((wrapBlock (5 :: 0 :: 6 :: Z)).block.length : Int) - 12) := by
    unfold BlockReader.sectionOffset
    rw [if_neg (by norm_num), if_pos (by simp [wrapBlock])]
    rfl
  have hsplit : (wrapBlock (5 :: 0 :: 6 :: Z)).block =
      ((PutUvarint 1 ++ PutUvarint (5 :: 0 :: 6 :: Z : Bytes).length) ++ [5, 0]) ++
        (6 :: (Z ++ (encEntry 7 [] ++ encEntry 9 []))) ++
        ((PutUint32 (2 ^ 32 + 6) ++ PutUint32 (2 ^ 32 + 8)) ++ PutUint32 3) := by
    show wrapPayload _ = _
    rw [wrapPayload_split]
    simp
  have hl8 : ((PutUvarint 1 ++ PutUvarint (5 :: 0 :: 6 :: Z : Bytes).length) ++ [5, 0]).length
      = 8 := by
    rw [List.length_append, hh]; rfl
  unfold BlockReader.GetSection
  simp only [if_neg h0, if_neg h1]
  simp only [h2, h3, sectionOffset_wrap_two, h4]
  rw [slice_eq (wrapBlock (5 :: 0 :: 6 :: Z)).block _ _ _ 8 _ hsplit (by rw [hl8]; rfl)
    (by
      have h12 : ((PutUint32 (2 ^ 32 + 6) ++ PutUint32 (2 ^ 32 + 8)) ++ PutUint32 3).length
          = 12 := rfl
      rw [hsplit, List.length_append, List.length_append, hl8, h12]
      push_cast
      omega)]
  rfl

theorem SeekSection_wrap_high (Z : Bytes) (hZ : Z.length = 2 ^ 32 - 3) (k : Nat) (h6 : 6 ≤ k)
    (h9 : k ≤ 9) :
    (wrapBlock (5 :: 0 :: 6 :: Z)).SeekSection k =
      Res.ok { sec := 6 :: (Z ++ (encEntry 7 [] ++ encEntry 9 [])), spos := 2, read := 0,
               key := 0, val := [] } := by
  unfold BlockReader.SeekSection
  rw [if_neg (by simp only [wrapBlock]; omega)]
  have hs : Search (wrapBlock (5 :: 0 :: 6 :: Z)).scnt
      ((wrapBlock (5 :: 0 :: 6 :: Z)).seekSectionPred k) = Res.ok 3 := by
    have k5 : ¬ k < 5 := by omega
    have k6 : ¬ k < 6 := by omega
    show Search 3 _ = _
    simp [Search, searchLoop, seekSectionPred_wrap_one Z hZ, seekSectionPred_wrap_two Z hZ, k5, k6]
  rw [hs]
  exact GetSection_wrap_two Z hZ

/-- C15 fails as stated. Under `wrapOptions` (restart interval 1) every entry of
`wrapEntries` opens a section, so the sections of the one block have the first keys
1, 7 and 9, and the largest section index whose first key is at most 8 is 1. The
reader fetches the block, with 3 sections and max-key 9, and `SeekSection(8)` returns
the section at position 2: the stored offsets of the sections 1 and 2 are the wrapped
values 6 and 8, and the search compares 8 with the bytes it finds there. -/
theorem C15_seek_section_position_counterexample :
    (wrapEntries.map Prod.fst = [1, 7, 9]) ∧
    ∃ r b s, NewReader 3 (writeTable rleCodec wrapOptions wrapEntries)
        ((writeTable rleCodec wrapOptions wrapEntries).length : Int) = Res.ok r ∧
      r.GetBlock rleCodec 0 = Res.ok b ∧ b.NumSections = 3 ∧ b.maxKey = 9 ∧
      b.SeekSection 8 = Res.ok s ∧ s.Pos = 2 :=
  ⟨rfl, _, _, _, NewReader_wrap rleCodec wrapValue wrapValue_length 3 (by norm_num),
    GetBlock_wrap rleCodec wrapValue, rfl, rfl,
    SeekSection_wrap_high (List.replicate (2 ^ 32 - 3) 0) wrapValue_tail_length 8 (by norm_num)
      (by norm_num), rfl⟩


set_option maxRecDepth 100000 in
/-- C16 fails as stated, in two ways. First, by design: with a restart interval of 2
the entries with the keys 1, 5, 10, 12 form the sections (1, 5) and (10, 12) of one
block; the key 7 is absent, the smallest stored key at or above it is 10, in section
1, and `SeekSection(7)` returns section 0. Second, under `wrapOptions` the key 7 of
`wrapEntries` is the one entry of section 1 (restart interval 1), and
`SeekSection(7)` returns the section at position 2. -/
theorem C16_seek_section_contains_counterexample :
    (∃ r b s t0 t1,
      NewReader 4
        (writeTable rleCodec (some ⟨0, 2, NoCompression⟩) [(1, []), (5, []), (10, []), (12, [])])
        ((writeTable rleCodec (some ⟨0, 2, NoCompression⟩)
          [(1, []), (5, []), (10, []), (12, [])]).length : Int) = Res.ok r ∧
      r.NumBlocks = 1 ∧ r.GetBlock rleCodec 0 = Res.ok b ∧ b.maxKey = 12 ∧
      b.NumSections = 2 ∧
      b.GetSection 0 = Res.ok t0 ∧ t0.drain 3 = Res.ok [(1, []), (5, [])] ∧
      b.GetSection 1 = Res.ok t1 ∧ t1.drain 3 = Res.ok [(10, []), (12, [])] ∧
      b.SeekSection 7 = Res.ok s ∧ s.Pos = 0) ∧
    (wrapEntries.map Prod.fst = [1, 7, 9] ∧
     ∃ r b s, NewReader 3 (writeTable rleCodec wrapOptions wrapEntries)
        ((writeTable rleCodec wrapOptions wrapEntries).length : Int) = Res.ok r ∧
      r.GetBlock rleCodec 0 = Res.ok b ∧ b.NumSections = 3 ∧ b.maxKey = 9 ∧
      b.SeekSection 7 = Res.ok s ∧ s.Pos = 2) := by
  refine ⟨⟨_, _, _, _, _, rfl, ?_, rfl, ?_, ?_, rfl, ?_, rfl, ?_, rfl, ?_⟩,
    rfl, _, _, _, NewReader_wrap rleCodec wrapValue wrapValue_length 3 (by norm_num),
    GetBlock_wrap rleCodec wrapValue, rfl, rfl,
    SeekSection_wrap_high (List.replicate (2 ^ 32 - 3) 0) wrapValue_tail_length 7 (by norm_num)
      (by norm_num), rfl⟩ <;> decide

/-! ## Section offsets 2 and `2^32`: a section that ends before it starts -/

theorem encEntry_fold_length (V : Bytes) (hV : V.length = 2 ^ 32 - 8) :
    (encEntry 2 V).length = 2 ^ 32 - 2 := by
  rw [encEntry_length, hV]
  rfl

theorem Append_fold_second (sn : Codec) (sink : Sink) (V : Bytes) (hV : V.length = 2 ^ 32 - 8) :
    Writer.Append sn
      { w := sink,
        o := { BlockSize := 2 ^ 32 + 20, BlockRestartInterval := 1, Compression := NoCompression },
        block := { MaxKey := 1, Offset := 0 }, blen := 1, soffs := [0],
        buf := encEntry 1 [], snp := [], tmp := true, index := [] } 2 V =
      ({ w := sink,
         o := { BlockSize := 2 ^ 32 + 20, BlockRestartInterval := 1, Compression := NoCompression },
         block := { MaxKey := 2, Offset := 0 }, blen := 2, soffs := [0, 2],
         buf := encEntry 1 [] ++ encEntry 2 V, snp := [], tmp := true, index := [] }, none) := by
  have h1 : (encEntry 1 ([] : Bytes)).length = 2 := rfl
  rw [Append_eq]
  have hnf : ¬ Writer.needsFlush
      { w := sink,
        o := { BlockSize := 2 ^ 32 + 20, BlockRestartInterval := 1, Compression := NoCompression },
        block := { MaxKey := 1, Offset := 0 }, blen := 1, soffs := [0],
        buf := encEntry 1 [], snp := [], tmp := true, index := [] } V := by
    intro h
    have h2 := h.2
    simp only [h1, hV, MaxVarintLen64] at h2
    norm_num at h2
  rw [if_neg (by simp), if_neg (by simp), if_neg hnf]
  have he : encEntry 2 V = (PutUvarint 2 ++ PutUvarint V.length) ++ V := rfl
  simp [Writer.put, h1, he]

theorem Append_fold_third (sn : Codec) (sink : Sink) (V : Bytes) (hV : V.length = 2 ^ 32 - 8) :
    Writer.Append sn
      { w := sink,
        o := { BlockSize := 2 ^ 32 + 20, BlockRestartInterval := 1, Compression := NoCompression },
        block := { MaxKey := 2, Offset := 0 }, blen := 2, soffs := [0, 2],
        buf := encEntry 1 [] ++ encEntry 2 V, snp := [], tmp := true, index := [] } 3 [] =
      ({ w := sink,
         o := { BlockSize := 2 ^ 32 + 20, BlockRestartInterval := 1, Compression := NoCompression },
         block := { MaxKey := 3, Offset := 0 }, blen := 3, soffs := [0, 2, 2 ^ 32],
         buf := (encEntry 1 [] ++ encEntry 2 V) ++ encEntry 3 [], snp := [], tmp := true,
         index := [] }, none) := by
  have h1 : (encEntry 1 ([] : Bytes)).length = 2 := rfl
  have h2 := encEntry_fold_length V hV
  rw [Append_eq]
  have hnf : ¬ Writer.needsFlush
      { w := sink,
        o := { BlockSize := 2 ^ 32 + 20, BlockRestartInterval := 1, Compression := NoCompression },
        block := { MaxKey := 2, Offset := 0 }, blen := 2, soffs := [0, 2],
        buf := encEntry 1 [] ++ encEntry 2 V, snp := [], tmp := true, index := [] } [] := by
    intro h
    have h3 := h.2
    simp only [List.length_append, h1, h2, List.length_nil, MaxVarintLen64] at h3
    norm_num at h3
  rw [if_neg (by simp), if_neg (by simp), if_neg hnf]
  have he : encEntry 3 [] = (PutUvarint 3 ++ PutUvarint ([] : Bytes).length) ++ [] := rfl
  simp [Writer.put, h1, h2, he]

theorem run_fold (sn : Codec) (V : Bytes) (hV : V.length = 2 ^ 32 - 8) :
    (Writer.run sn (NewWriter { data := [], script := [] } wideOptions)
        (appends [(1, []), (2, V), (3, [])])).1 =
      { w := { data := [], script := [] },
        o := { BlockSize := 2 ^ 32 + 20, BlockRestartInterval := 1, Compression := NoCompression },
        block := { MaxKey := 3, Offset := 0 }, blen := 3, soffs := [0, 2, 2 ^ 32],
        buf := (encEntry 1 [] ++ encEntry 2 V) ++ encEntry 3 [], snp := [], tmp := true,
        index := [] } := by
  rw [NewWriter_wide]
  simp only [appends, List.map, Writer.run, Writer.step]
  rw [Append_wide_first, Append_fold_second sn _ V hV, Append_fold_third sn _ V hV]

theorem writeTable_fold (sn : Codec) (V : Bytes) (hV : V.length = 2 ^ 32 - 8) :
    writeTable sn wideOptions [(1, []), (2, V), (3, [])] =
      fileBytes [(3, foldPayload V ++ [blockNoCompression])] := by
  have hfr : framed ((encEntry 1 [] ++ encEntry 2 V) ++ encEntry 3 []) [0, 2, 2 ^ 32] =
      foldPayload V := by
    simp [framed, appendSoffs, foldPayload]
  unfold writeTable
  rw [run_snoc, run_fold sn V hV]
  simp only [Writer.step]
  rw [Close_data sn _ rfl (by intro x hx; simp at hx)
    (by
      intro h
      exact encEntry_ne_nil 1 [] (List.append_eq_nil.1 (List.append_eq_nil.1 h).1).1)]
  simp only [List.nil_append, emitted_NoCompression, hfr, fileBytes, fileBlocks, fileIndex,
    List.append_nil, zero_add, toUint64_natCast, PutUint64_mod]
  rfl

theorem foldPayload_length (V : Bytes) (hV : V.length = 2 ^ 32 - 8) :
    (foldPayload V).length = 2 ^ 32 + 14 := by
  have h1 : (encEntry 1 ([] : Bytes)).length = 2 := rfl
  have h2 := encEntry_fold_length V hV
  have h3 : (encEntry 3 ([] : Bytes)).length = 2 := rfl
  have h4 : ((PutUint32 2 ++ PutUint32 (2 ^ 32)) ++ PutUint32 3).length = 12 := rfl
  unfold foldPayload
  rw [List.length_append, List.length_append, List.length_append, h1, h2, h3, h4]
  norm_num

theorem NewReader_fold (sn : Codec) (V : Bytes) (hV : V.length = 2 ^ 32 - 8) (fuel : Nat)
    (hfuel : 1 ≤ fuel) :
    NewReader fuel (writeTable sn wideOptions [(1, []), (2, V), (3, [])])
        ((writeTable sn wideOptions [(1, []), (2, V), (3, [])]).length : Int) =
      Res.ok (fileReader [(3, foldPayload V ++ [blockNoCompression])]) := by
  rw [writeTable_fold sn V hV]
  have hp := foldPayload_length V hV
  exact NewReader_fileBytes [(3, foldPayload V ++ [blockNoCompression])] fuel
    (by intro b hb; simp only [List.mem_singleton] at hb; rw [hb]; norm_num)
    (by
      show ((foldPayload V ++ [blockNoCompression]) ++ []).length < 2 ^ 63
      rw [List.append_nil, List.length_append, hp]
      norm_num)
    (by simpa using hfuel)

theorem GetBlock_fold (sn : Codec) (V : Bytes) :
    (fileReader [(3, foldPayload V ++ [blockNoCompression])]).GetBlock sn 0 =
      Res.ok (foldBlock V) := by
  have hg := Reader.GetBlock_raw sn [] (3, foldPayload V ++ [blockNoCompression]) []
  simp only [List.nil_append, List.length_nil, Nat.cast_zero] at hg
  rw [hg]
  exact Reader.readBlock_raw sn [] (3, foldPayload V ++ [blockNoCompression]) [] (foldPayload V)
    blockNoCompression (foldPayload V)
    (((encEntry 1 [] ++ encEntry 2 V) ++ encEntry 3 []) ++ (PutUint32 2 ++ PutUint32 (2 ^ 32))) 3
    rfl (Or.inl ⟨rfl, rfl⟩) (by simp [foldPayload])

theorem sectionOffset_fold_one (V : Bytes) :
    (foldBlock V).sectionOffset 1 = Res.ok 2 := by
  unfold BlockReader.sectionOffset
  rw [if_neg (by norm_num), if_neg (by simp [foldBlock])]
  show (match sliceFrom (foldPayload V) _ with
    | .ok tail => _
    | .err e => _
    | .panic => _
    | .outOfFuel => _) = _
  rw [sliceFrom_eq (foldPayload V) ((encEntry 1 [] ++ encEntry 2 V) ++ encEntry 3 [])
    (PutUint32 2 ++ (PutUint32 (2 ^ 32) ++ PutUint32 3)) _
    (by simp [foldPayload]) (by
      have h3 : (PutUint32 2).length = 4 := rfl
      have h4 : (PutUint32 (2 ^ 32)).length = 4 := rfl
      have h5 : (PutUint32 3).length = 4 := rfl
      simp only [foldBlock, foldPayload, List.length_append, h3, h4, h5]
      push_cast
      omega)]
  simp only
  rw [Uint32_PutUint32]
  rfl

theorem sectionOffset_fold_two (V : Bytes) :
    (foldBlock V).sectionOffset 2 = Res.ok 0 := by
  unfold BlockReader.sectionOffset
  rw [if_neg (by norm_num), if_neg (by simp [foldBlock])]
  show (match sliceFrom (foldPayload V) _ with
    | .ok tail => _
    | .err e => _
    | .panic => _
    | .outOfFuel => _) = _
  rw [sliceFrom_eq (foldPayload V)
    (((encEntry 1 [] ++ encEntry 2 V) ++ encEntry 3 []) ++ PutUint32 2)
    (PutUint32 (2 ^ 32) ++ PutUint32 3) _
    (by simp [foldPayload]) (by
      have h3 : (PutUint32 2).length = 4 := rfl
      have h4 : (PutUint32 (2 ^ 32)).length = 4 := rfl
      have h5 : (PutUint32 3).length = 4 := rfl
      simp only [foldBlock, foldPayload, List.length_append, h3, h4, h5]
      push_cast
      omega)]
  simp only
  rw [Uint32_PutUint32]
  rfl

theorem GetSection_fold (V : Bytes) : (foldBlock V).GetSection 1 = Res.panic := by
  have h0 : ¬ (1 : Int) < 0 := by norm_num
  have h1 : ¬ ((foldBlock V).scnt : Int) ≤ 1 := by simp [foldBlock]
  have h3 : ((1 : Int) + 1) = 2 := rfl
  unfold BlockReader.GetSection
  simp only [if_neg h0, if_neg h1, h3, sectionOffset_fold_one, sectionOffset_fold_two]
  unfold slice
  rw [if_neg (by norm_num)]

theorem foldValue_length : foldValue.length = 2 ^ 32 - 8 := List.length_replicate _ _

/-- C17 fails as stated. Under `wideOptions` (block size `2^32 + 20`, restart interval
1, no compression) the entries of `foldEntries` are written into one block whose
sections start at the offsets 0, 2 and `2^32`; `flush` stores the last as the
`uint32` 0. The reader fetches the block, with 3 sections, and `GetSection(1)` slices
the block from offset 2 to offset 0: the call panics and returns no section. -/
theorem C17_get_section_clamping_counterexample :
    foldEntries.Pairwise (fun a b => a.1 < b.1) ∧
    ∃ r b, NewReader 3 (writeTable rleCodec wideOptions foldEntries)
        ((writeTable rleCodec wideOptions foldEntries).length : Int) = Res.ok r ∧
      r.GetBlock rleCodec 0 = Res.ok b ∧ b.NumSections = 3 ∧
      b.GetSection 1 = Res.panic :=
  ⟨by simp [foldEntries], _, _, NewReader_fold rleCodec foldValue foldValue_length 3 (by norm_num),
    GetBlock_fold rleCodec foldValue, rfl, GetSection_fold foldValue⟩

/-! ## The size of a written file -/

theorem emitted_length_le (sn : Codec) (c : Compression) (u : Bytes) :
    (emitted sn c u).length ≤ u.length + 1 := by
  unfold emitted
  split
  · split
    · rename_i h
      simp only [List.length_append, List.length_singleton]
      have : (0 : Int) ≤ (u.length : Int) / 4 := Int.ediv_nonneg (by omega) (by norm_num)
      omega
    · simp
  · simp

theorem appendSoffs_length_le (l : List Nat) : ∀ (buf : Bytes),
    (appendSoffs buf l).length ≤ buf.length + 4 * l.length := by
  induction l with
  | nil => intro buf; simp [appendSoffs]
  | cons o rest ih =>
    intro buf
    simp only [appendSoffs]
    have h4 : (PutUint32 o).length = 4 := rfl
    by_cases ho : 0 < o
    · rw [if_pos ho]
      have := ih (buf ++ PutUint32 o)
      simp only [List.length_append, List.length_cons, h4] at this ⊢
      omega
    · rw [if_neg ho]
      have := ih buf
      simp only [List.length_cons]
      omega

theorem encIndexLoop_length_le (l : List blockInfo) : ∀ (i : Nat) (prev : blockInfo),
    (encIndexLoop l i prev).length ≤ 20 * l.length := by
  induction l with
  | nil => intro i prev; simp [encIndexLoop]
  | cons ent rest ih =>
    intro i prev
    simp only [encIndexLoop, List.length_append, List.length_cons]
    have h1 := PutUvarint_length_le
      (if i ≠ 0 then (ent.MaxKey + 2 ^ 64 - prev.MaxKey) % 2 ^ 64 else ent.MaxKey)
    have h2 := PutUvarint_length_le
      (toUint64 (if i ≠ 0 then ent.Offset - prev.Offset else ent.Offset))
    have h3 := ih (i + 1) ent
    omega

theorem fileIndex_map_MaxKey (raw : List (Nat × Bytes)) : ∀ off,
    (fileIndex off raw).map (fun e => e.MaxKey) = raw.map Prod.fst := by
  induction raw with
  | nil => intro off; rfl
  | cons b rest ih => intro off; simp [fileIndex, ih]

theorem flush_potential (sn : Codec) (w : Writer) (hacc : w.w.accepting) (hne : w.buf ≠ []) :
    (w.flush sn).1.block.Offset ≤
      w.block.Offset + (w.buf.length : Int) + 4 * (w.soffs.length : Int) + 5 := by
  obtain ⟨ha1, -⟩ := flush_accepting sn w hacc
  obtain ⟨-, hd2⟩ := flush_ok sn w hne ha1
  rw [hd2]
  have h1 := emitted_length_le sn w.o.Compression (framed w.buf w.soffs)
  have h2 := appendSoffs_length_le w.soffs w.buf
  have h3 : (framed w.buf w.soffs).length = (appendSoffs w.buf w.soffs).length + 4 := by
    unfold framed
    rw [List.length_append]
    rfl
  omega

theorem put_potential (w : Writer) (key : Nat) (v : Bytes) :
    (w.put key v).buf.length ≤ w.buf.length + v.length + 20 ∧
      (w.put key v).soffs.length ≤ w.soffs.length + 1 := by
  constructor
  · simp only [Writer.put, List.length_append]
    have h1 := PutUvarint_length_le
      (if decide ((w.blen : Int) % w.o.BlockRestartInterval = 0) = true then key
        else (key + 2 ^ 64 - w.block.MaxKey) % 2 ^ 64)
    have h2 := PutUvarint_length_le v.length
    omega
  · simp only [Writer.put]
    split <;> simp

theorem Append_potential (sn : Codec) (hsn : sn.lawful) (w : Writer) (raw : List (Nat × Bytes))
    (cnt : Nat) (key : Nat) (v : Bytes) (h : w.laysRaw sn raw cnt) :
    (w.Append sn key v).1.block.Offset + ((w.Append sn key v).1.buf.length : Int) +
        4 * ((w.Append sn key v).1.soffs.length : Int) ≤
      w.block.Offset + (w.buf.length : Int) + 4 * (w.soffs.length : Int) +
        (v.length : Int) + 29 := by
  have h1 := h.1
  rw [Append_eq, if_neg (by simp [h1])]
  by_cases hoo : key ≤ w.block.MaxKey ∧ (w.blen ≠ 0 ∨ w.index.length ≠ 0)
  · rw [if_pos hoo]
    simp only
    omega
  · rw [if_neg hoo]
    by_cases hnf : w.needsFlush v
    · have hne : w.buf ≠ [] := by
        intro hb
        exact hnf.1 (by rw [hb]; rfl)
      obtain ⟨hf1, -, -, hf4, -⟩ := laysRaw_flush sn hsn w raw cnt h hne
      rw [if_pos hnf, if_pos hf1]
      simp only
      have hp := flush_potential sn w h.2.1 hne
      obtain ⟨p1, p2⟩ := put_potential (w.flush sn).1 key v
      have p8 := (put_fields (w.flush sn).1 key v).2.2.2.2.2.2.2
      obtain ⟨-, -, -, f4⟩ := flush_fields sn w
      rcases f4 with ⟨g, _⟩ | ⟨_, g2, g3, g4, g5⟩
      · exact absurd g hne
      · rw [g4] at p1
        rw [g3] at p2
        simp only [List.length_nil, Nat.zero_add] at p1 p2
        rw [p8]
        omega
    · rw [if_neg hnf]
      simp only
      obtain ⟨p1, p2⟩ := put_potential w key v
      have p8 := (put_fields w key v).2.2.2.2.2.2.2
      rw [p8]
      omega

theorem run_potential (sn : Codec) (hsn : sn.lawful) (es : List Entry) : ∀ (w : Writer)
    (raw : List (Nat × Bytes)) (cnt : Nat), w.laysRaw sn raw cnt → (∀ e ∈ es, e.1 < 2 ^ 64) →
    (Writer.run sn w (appends es)).1.block.Offset +
        ((Writer.run sn w (appends es)).1.buf.length : Int) +
        4 * ((Writer.run sn w (appends es)).1.soffs.length : Int) ≤
      w.block.Offset + (w.buf.length : Int) + 4 * (w.soffs.length : Int) +
        (((es.map (fun e => e.2.length + 29)).sum : Nat) : Int) := by
  induction es with
  | nil => intro w raw cnt _ _; simp [appends, Writer.run]
  | cons e es ih =>
    intro w raw cnt h h64
    obtain ⟨-, raw1, h1⟩ := laysRaw_Append sn hsn w raw cnt e.1 e.2 h (h64 e (by simp))
    have hrec := ih (w.Append sn e.1 e.2).1 raw1 (cnt + 1) h1 (fun x hx => h64 x (by simp [hx]))
    have hstep := Append_potential sn hsn w raw cnt e.1 e.2 h
    show (Writer.run sn (w.Append sn e.1 e.2).1 (appends es)).1.block.Offset +
        ((Writer.run sn (w.Append sn e.1 e.2).1 (appends es)).1.buf.length : Int) +
        4 * ((Writer.run sn (w.Append sn e.1 e.2).1 (appends es)).1.soffs.length : Int) ≤ _
    simp only [List.map_cons, List.sum_cons]
    push_cast
    push_cast at hrec
    omega

theorem laysRaw_Close_full (sn : Codec) (hsn : sn.lawful) (w : Writer)
    (raw : List (Nat × Bytes)) (cnt : Nat) (h : w.laysRaw sn raw cnt) :
    ∃ raw', (w.Close sn).1.w.data = fileBytes raw' ∧ (∀ b ∈ raw', blockReadable sn b.2) ∧
      (raw'.map Prod.fst).Pairwise (fun a b => a < b) ∧ (∀ b ∈ raw', b.1 < 2 ^ 64) ∧
      raw'.length ≤ cnt ∧
      raw'.map Prod.fst =
        w.index.map (fun e => e.MaxKey) ++ (if w.buf = [] then [] else [w.block.MaxKey]) ∧
      ((fileBlocks raw').length : Int) ≤
        w.block.Offset + (w.buf.length : Int) + 4 * (w.soffs.length : Int) + 5 := by
  have hclose := Close_ok sn w h.1 (Close_accepting sn w h.1 h.2.1)
  have key : ∀ (f : Writer) (rawf : List (Nat × Bytes)), f.laysRaw sn rawf cnt →
      f = (w.flush sn).1 → f.buf = [] →
      (w.Close sn).1.w.data = fileBytes rawf ∧ (∀ b ∈ rawf, blockReadable sn b.2) ∧
      (rawf.map Prod.fst).Pairwise (fun a b => a < b) ∧ (∀ b ∈ rawf, b.1 < 2 ^ 64) ∧
      rawf.length ≤ cnt ∧ rawf.map Prod.fst = f.index.map (fun e => e.MaxKey) ∧
      ((fileBlocks rawf).length : Int) = f.block.Offset := by
    intro f rawf hl hf hbuf
    obtain ⟨h1, h2, h3, h4, h5, h6, h7, h8, h9, h10, h11, h12⟩ := hl
    refine ⟨?_, h6, h7, fun b hb => lt_of_le_of_lt (h8 b hb) h10, ?_, ?_, h5.symm⟩
    · rw [hclose.2, ← hf, h3, h4, h5, toUint64_natCast, PutUint64_mod]
      rfl
    · rw [if_pos hbuf] at h11
      omega
    · rw [h4, fileIndex_map_MaxKey]
  by_cases hb : w.buf = []
  · obtain ⟨k1, k2, k3, k4, k5, k6, k7⟩ := key w raw h (by rw [flush_of_empty sn w hb]) hb
    refine ⟨raw, k1, k2, k3, k4, k5, by rw [k6, if_pos hb, List.append_nil], ?_⟩
    rw [k7]
    omega
  · obtain ⟨hf1, hf2, hf3, hf4, hf5⟩ := laysRaw_flush sn hsn w raw cnt h hb
    obtain ⟨k1, k2, k3, k4, k5, k6, k7⟩ := key _ _ hf5 rfl hf4
    refine ⟨_, k1, k2, k3, k4, k5, ?_, ?_⟩
    · rw [k6, if_neg hb]
      obtain ⟨-, -, -, f4⟩ := flush_fields sn w
      rcases f4 with ⟨g, _⟩ | ⟨_, -, -, -, g5⟩
      · exact absurd g hb
      · rw [g5]; simp
    · rw [k7]
      exact flush_potential sn w h.2.1 hb

theorem writeTable_full (sn : Codec) (hsn : sn.lawful) (o : Option WriterOptions)
    (es : List Entry) (h64 : ∀ e ∈ es, e.1 < 2 ^ 64) :
    ∃ raw, writeTable sn o es = fileBytes raw ∧ (∀ b ∈ raw, blockReadable sn b.2) ∧
      (raw.map Prod.fst).Pairwise (fun a b => a < b) ∧ (∀ b ∈ raw, b.1 < 2 ^ 64) ∧
      raw.length ≤ es.length ∧
      raw.map Prod.fst =
        (Writer.run sn (NewWriter { data := [], script := [] } o)
            (appends es)).1.index.map (fun e => e.MaxKey) ++
          (if (Writer.run sn (NewWriter { data := [], script := [] } o) (appends es)).1.buf = []
            then []
            else [(Writer.run sn (NewWriter { data := [], script := [] } o)
              (appends es)).1.block.MaxKey]) ∧
      (writeTable sn o es).length ≤ (es.map (fun e => e.2.length + 29)).sum +
        20 * es.length + 21 := by
  obtain ⟨-, raw0, hl⟩ := laysRaw_run sn hsn es (NewWriter { data := [], script := [] } o) [] 0
    (laysRaw_new sn o) h64
  have hpot := run_potential sn hsn es (NewWriter { data := [], script := [] } o) [] 0
    (laysRaw_new sn o) h64
  obtain ⟨raw, k1, k2, k3, k4, k5, k6, k7⟩ := laysRaw_Close_full sn hsn _ raw0 _ hl
  have hw : writeTable sn o es = fileBytes raw := by
    unfold writeTable
    rw [run_snoc]
    simp only [Writer.step]
    exact k1
  refine ⟨raw, hw, k2, k3, k4, by simpa using k5, k6, ?_⟩
  rw [hw]
  have hidx : (encIndex (fileIndex 0 raw)).length ≤ 20 * raw.length := by
    rw [encIndex_eq]
    have := encIndexLoop_length_le (fileIndex 0 raw) 1 { MaxKey := 0, Offset := 0 }
    rwa [fileIndex_length] at this
  have hfoot : (PutUint64 (fileBlocks raw).length ++ magic).length = 16 := rfl
  have hk5 : raw.length ≤ es.length := by simpa using k5
  have h0 : (NewWriter { data := [], script := [] } o).block.Offset +
      ((NewWriter { data := [], script := [] } o).buf.length : Int) +
      4 * ((NewWriter { data := [], script := [] } o).soffs.length : Int) = 0 := rfl
  rw [h0] at hpot
  unfold fileBytes
  rw [List.length_append, List.length_append, hfoot]
  have : ((fileBlocks raw).length : Int) ≤
      (((es.map (fun e => e.2.length + 29)).sum : Nat) : Int) + 5 := by omega
  have h2 : (fileBlocks raw).length ≤ (es.map (fun e => e.2.length + 29)).sum + 5 := by
    exact_mod_cast this
  omega

/-! ## The blocks of the tests' table -/

theorem putUvarintLoop_small (fuel x : Nat) (hx : x < 0x80) :
    (putUvarintLoop (fuel + 1) x).length = 1 := by
  simp only [putUvarintLoop]
  rw [if_neg (by omega)]
  rfl

theorem putUvarintLoop_length_bound : ∀ (fuel k x : Nat), x < 0x80 ^ k → 0 < k → k ≤ fuel →
    (putUvarintLoop fuel x).length ≤ k := by
  intro fuel
  induction fuel with
  | zero => intro k x _ hk hf; omega
  | succ fuel ih =>
    intro k x hx hk hf
    simp only [putUvarintLoop]
    split
    · rename_i hge
      have hk2 : 2 ≤ k := by
        by_contra hc
        have : k = 1 := by omega
        rw [this] at hx
        simp at hx
        omega
      have hx' : x / 0x80 < 0x80 ^ (k - 1) := by
        rw [Nat.div_lt_iff_lt_mul (by norm_num)]
        have : 0x80 ^ k = 0x80 ^ (k - 1) * 0x80 := by
          rw [← pow_succ]
          congr 1
          omega
        rw [← this]
        exact hx
      have := ih (k - 1) (x / 0x80) hx' (by omega) (by omega)
      simp only [List.length_cons]
      omega
    · simp only [List.length_singleton]
      omega

theorem PutUvarint_length_le_three (x : Nat) (hx : x < 2 ^ 21) :
    (PutUvarint x).length ≤ 3 := by
  unfold PutUvarint MaxVarintLen64
  have hm : x % 2 ^ 64 = x := Nat.mod_eq_of_lt (lt_of_lt_of_le hx (by norm_num))
  rw [hm]
  exact putUvarintLoop_length_bound 10 3 x (by norm_num; exact hx) (by norm_num) (by norm_num)

theorem put_buf_length (w : Writer) (key : Nat) (v : Bytes) :
    (w.put key v).buf.length =
      w.buf.length +
        (PutUvarint (if (w.blen : Int) % w.o.BlockRestartInterval = 0 then key
          else (key + 2 ^ 64 - w.block.MaxKey) % 2 ^ 64)).length +
        (PutUvarint v.length).length + v.length := by
  by_cases hfresh : (w.blen : Int) % w.o.BlockRestartInterval = 0
  · rw [if_pos hfresh]
    simp only [Writer.put, hfresh, decide_True, if_true, List.length_append]
    omega
  · rw [if_neg hfresh]
    simp only [Writer.put, hfresh, decide_False, List.length_append]
    simp only [Bool.false_eq_true, if_false]
    omega

theorem seeded_first (sn : Codec) (v : Bytes) (hv : v.length = 128) :
    ((NewWriter { data := [], script := [] } seedOptions).Append sn (4 * 0) v).1.seeded 0 := by
  have hw : NewWriter { data := [], script := [] } seedOptions =
      { w := { data := [], script := [] },
        o := { BlockSize := 2 ^ 12, BlockRestartInterval := 16, Compression := NoCompression },
        block := { MaxKey := 0, Offset := 0 }, blen := 0, soffs := [], buf := [], snp := [],
        tmp := true, index := [] } := rfl
  have h128 : (PutUvarint 128).length = 2 := rfl
  have h0 : (PutUvarint 0).length = 1 := rfl
  rw [hw, Append_eq]
  simp [Writer.needsFlush, Writer.put, Writer.seeded, hv, h128, h0]

theorem seeded_step (sn : Codec) (hsn : sn.lawful) (w : Writer) (raw : List (Nat × Bytes))
    (cnt i : Nat) (v : Bytes) (hl : w.laysRaw sn raw cnt) (hs : w.seeded i)
    (hv : v.length = 128) (hi : 4 * (i + 1) < 2 ^ 21) :
    (w.Append sn (4 * (i + 1)) v).1.seeded (i + 1) := by
  obtain ⟨s1, s2, s3, s4, s5, s6⟩ := hs
  have h128 : (PutUvarint 128).length = 2 := rfl
  have h4 : (PutUvarint 4).length = 1 := rfl
  have hk1 := PutUvarint_length_pos (4 * (i + 1))
  have hk3 := PutUvarint_length_le_three (4 * (i + 1)) hi
  have hdelta : (4 * (i + 1) + 2 ^ 64 - w.block.MaxKey) % 2 ^ 64 = 4 := by
    rw [s2]
    have : 4 * (i + 1) + 2 ^ 64 - 4 * i = 4 + 2 ^ 64 := by omega
    rw [this]
    norm_num
  have hmod : i % 31 < 31 := Nat.mod_lt _ (by norm_num)
  rw [Append_eq, if_neg (by simp [hl.1]), if_neg (by rw [s2]; omega)]
  by_cases hb : i % 31 = 30
  · -- the buffer holds 31 entries: the block is flushed
    have hblen : w.blen = 31 := by omega
    have hlen : 4061 ≤ w.buf.length := by rw [hblen] at s5; omega
    have hne : w.buf ≠ [] := by
      intro h0; rw [h0] at hlen; simp at hlen
    have hnf : w.needsFlush v := by
      refine ⟨by omega, ?_⟩
      rw [s1, hv]
      simp only [MaxVarintLen64]
      push_cast
      omega
    obtain ⟨hf1, hf2, hf3, hf4, -⟩ := laysRaw_flush sn hsn w raw cnt hl hne
    obtain ⟨-, -, -, f4⟩ := flush_fields sn w
    rcases f4 with ⟨g, _⟩ | ⟨_, g2, g3, g4, g5⟩
    · exact absurd g hne
    · rw [if_pos hnf, if_pos hf1]
      have hq : (i + 1) / 31 = i / 31 + 1 := by omega
      have hr : (i + 1) % 31 = 0 := by omega
      have hkey : 124 * (i / 31) + 120 = 4 * i := by omega
      refine ⟨?_, ?_, ?_, ?_, ?_, ?_⟩
      · rw [(put_fields _ _ v).1, hf2]; exact s1
      · exact (put_fields _ _ v).2.1
      · rw [(put_fields _ _ v).2.2.1, g2, hr]
      · rw [(put_fields _ _ v).2.2.2.2.2.1, g5, hq, List.range_succ, List.map_append,
          List.map_append, s4]
        simp only [List.map_cons, List.map_nil, List.append_cancel_left_eq, s2, hkey]
      · rw [(put_fields _ _ v).2.2.1, g2, put_buf_length, g2, g4, if_pos (by simp), hv, h128]
        simp only [List.length_nil]
        omega
      · rw [(put_fields _ _ v).2.2.1, g2, put_buf_length, g2, g4, if_pos (by simp), hv, h128]
        simp only [List.length_nil]
        norm_num
        omega
  · -- the entry joins the block
    have hblen : w.blen ≤ 30 := by omega
    have hlen : w.buf.length ≤ 3934 := by
      have : w.buf.length ≤ 131 * w.blen + 4 := by
        split at s6 <;> omega
      omega
    have hnf : ¬ w.needsFlush v := by
      intro h
      have h2 := h.2
      rw [s1, hv] at h2
      simp only [MaxVarintLen64] at h2
      push_cast at h2
      omega
    rw [if_neg hnf]
    have hq : (i + 1) / 31 = i / 31 := by omega
    have hr : (i + 1) % 31 = i % 31 + 1 := by omega
    refine ⟨?_, (put_fields _ _ v).2.1, ?_, ?_, ?_, ?_⟩
    · rw [(put_fields _ _ v).1]; exact s1
    · rw [(put_fields _ _ v).2.2.1, s3, hr]
    · rw [(put_fields _ _ v).2.2.2.2.2.1, hq]; exact s4
    · rw [(put_fields _ _ v).2.2.1, put_buf_length, hv, h128]
      by_cases hfresh : (w.blen : Int) % w.o.BlockRestartInterval = 0
      · rw [if_pos hfresh]
        omega
      · rw [if_neg hfresh, hdelta, h4]
        omega
    · rw [(put_fields _ _ v).2.2.1, put_buf_length, hv, h128]
      by_cases hfresh : (w.blen : Int) % w.o.BlockRestartInterval = 0
      · have h16 : w.blen = 16 := by
          rw [s1] at hfresh
          simp only at hfresh
          omega
        rw [if_pos hfresh, h16]
        rw [h16] at s6
        simp only [le_refl, if_true] at s6
        norm_num
        omega
      · rw [if_neg hfresh, hdelta, h4]
        split at s6 <;> split <;> omega

theorem seedEntries_succ (vals : Nat → Bytes) (n : Nat) :
    seedEntries vals (n + 1) = seedEntries vals n ++ [(4 * n, vals n)] := by
  simp [seedEntries, List.range_succ]

theorem seedEntries_length (vals : Nat → Bytes) (n : Nat) : (seedEntries vals n).length = n := by
  simp [seedEntries]

theorem seedEntries_mem (vals : Nat → Bytes) (n : Nat) (e : Entry)
    (he : e ∈ seedEntries vals n) : ∃ i, i < n ∧ e = (4 * i, vals i) := by
  simp only [seedEntries, List.mem_map, List.mem_range] at he
  obtain ⟨i, hi, rfl⟩ := he
  exact ⟨i, hi, rfl⟩

theorem appends_snoc (a : List Entry) (e : Entry) :
    appends (a ++ [e]) = appends a ++ [Op.append e.1 e.2] := by
  simp [appends]

theorem seed_run (sn : Codec) (hsn : sn.lawful) (vals : Nat → Bytes)
    (hvals : ∀ i, (vals i).length = 128) : ∀ n, 4 * n < 2 ^ 21 →
    (Writer.run sn (NewWriter { data := [], script := [] } seedOptions)
        (appends (seedEntries vals (n + 1)))).1.seeded n ∧
    ∃ raw, (Writer.run sn (NewWriter { data := [], script := [] } seedOptions)
        (appends (seedEntries vals (n + 1)))).1.laysRaw sn raw (n + 1) := by
  intro n
  induction n with
  | zero =>
    intro _
    have h1 : seedEntries vals 1 = [(4 * 0, vals 0)] := rfl
    rw [h1]
    refine ⟨seeded_first sn (vals 0) (hvals 0), ?_⟩
    obtain ⟨-, raw, h⟩ := laysRaw_Append sn hsn _ [] 0 (4 * 0) (vals 0) (laysRaw_new sn seedOptions)
      (by norm_num)
    exact ⟨raw, h⟩
  | succ n ih =>
    intro hn
    obtain ⟨hs, raw, hl⟩ := ih (by omega)
    rw [seedEntries_succ vals (n + 1), appends_snoc, run_snoc]
    simp only [Writer.step]
    refine ⟨seeded_step sn hsn _ raw (n + 1) n (vals (n + 1)) hl hs (hvals _) hn, ?_⟩
    obtain ⟨-, raw', h'⟩ := laysRaw_Append sn hsn _ raw (n + 1) (4 * (n + 1)) (vals (n + 1)) hl
      (by omega)
    exact ⟨raw', h'⟩

theorem seed_sum (l : List Entry) (h : ∀ e ∈ l, e.2.length = 128) :
    (l.map (fun e => e.2.length + 29)).sum = 157 * l.length := by
  induction l with
  | nil => rfl
  | cons e l ih =>
    simp only [List.map_cons, List.sum_cons, List.length_cons]
    rw [ih (fun x hx => h x (by simp [hx])), h e (by simp)]
    omega

theorem seed_table (sn : Codec) (hsn : sn.lawful) (vals : Nat → Bytes)
    (hvals : ∀ i, (vals i).length = 128) (n : Nat) (hn : 4 * n < 2 ^ 21) (fuel : Nat)
    (hfuel : n + 1 ≤ fuel) :
    ∃ r, NewReader fuel (writeTable sn seedOptions (seedEntries vals (n + 1)))
        ((writeTable sn seedOptions (seedEntries vals (n + 1))).length : Int) = Res.ok r ∧
      r.NumBlocks = n / 31 + 1 ∧
      r.index.map (fun e => e.MaxKey) =
        (List.range (n / 31)).map (fun q => 124 * q + 120) ++ [4 * n] := by
  have h64 : ∀ e ∈ seedEntries vals (n + 1), e.1 < 2 ^ 64 := by
    intro e he
    obtain ⟨i, hi, rfl⟩ := seedEntries_mem vals _ e he
    show 4 * i < 2 ^ 64
    omega
  have h128 : ∀ e ∈ seedEntries vals (n + 1), e.2.length = 128 := by
    intro e he
    obtain ⟨i, hi, rfl⟩ := seedEntries_mem vals _ e he
    exact hvals i
  obtain ⟨raw, k1, k2, k3, k4, k5, k6, k7⟩ :=
    writeTable_full sn hsn seedOptions (seedEntries vals (n + 1)) h64
  obtain ⟨⟨s1, s2, s3, s4, s5, s6⟩, -⟩ := seed_run sn hsn vals hvals n hn
  rw [seed_sum _ h128, seedEntries_length] at k7
  rw [seedEntries_length] at k5
  have hne : (Writer.run sn (NewWriter { data := [], script := [] } seedOptions)
      (appends (seedEntries vals (n + 1)))).1.buf ≠ [] := by
    intro h0
    rw [h0] at s5
    simp at s5
    omega
  rw [if_neg hne, s4, s2] at k6
  have hsize : (fileBlocks raw).length < 2 ^ 63 := by
    have := fileBlocks_length_le raw
    rw [← k1] at this
    omega
  have hlen : raw.length = n / 31 + 1 := by
    have := congrArg List.length k6
    simpa using this
  refine ⟨fileReader raw, ?_, ?_, ?_⟩
  · rw [k1]
    exact NewReader_fileBytes raw fuel k4 hsize (le_trans k5 hfuel)
  · simp [Reader.NumBlocks, fileReader, fileIndex_length, hlen]
  · show (fileIndex 0 raw).map (fun e => e.MaxKey) = _
    rw [fileIndex_map_MaxKey, k6]

/-- C13. Block boundary selection. (1) A call of `Append` that is accepted, in any state
of the writer: when the buffer is not empty and `len(buf) + len(value) + 20` exceeds
the block size, the buffer is flushed first (the block joins the index and the sink,
and the buffer then holds the new entry alone, the first of its block); otherwise
nothing is written, the index is unchanged, and the entry is added to the buffer.
(2) For the file written by any calls of `Append` followed by `Close`, the reader
counts as many blocks as there were accepted calls that met the condition, plus one
when the buffer is not empty at `Close`. (3) For the table of the tests (default block
size and restart interval, no compression, keys 0, 4, 8, ... and any values of 128
bytes): 100 entries give 4 blocks with the max-keys 120, 244, 368, 396, and 10000
entries give 323 blocks. -/
theorem C13_block_boundaries (sn : Codec) (hsn : sn.lawful) (o : Option WriterOptions)
    (es : List Entry) (h64 : ∀ e ∈ es, e.1 < 2 ^ 64)
    (hsize : (writeTable sn o es).length < 2 ^ 63) (fuel : Nat) (hfuel : es.length ≤ fuel)
    (vals : Nat → Bytes) (hvals : ∀ i, (vals i).length = 128) :
    (∀ (w : Writer) (key : Nat) (value : Bytes), (w.Append sn key value).2 = none →
      ((w.buf.length ≠ 0 ∧ ((w.buf.length + value.length + 20 : Nat) : Int) > w.o.BlockSize) →
        (w.flush sn).2 = none ∧ (w.Append sn key value).1 = (w.flush sn).1.put key value ∧
        (w.Append sn key value).1.index = w.index ++ [w.block] ∧
        (w.Append sn key value).1.buf = encEntry key value ∧
        (w.Append sn key value).1.blen = 1) ∧
      (¬ (w.buf.length ≠ 0 ∧
          ((w.buf.length + value.length + 20 : Nat) : Int) > w.o.BlockSize) →
        (w.Append sn key value).1 = w.put key value ∧
        (w.Append sn key value).1.index = w.index ∧ (w.Append sn key value).1.w = w.w ∧
        (∃ d, (w.Append sn key value).1.buf = w.buf ++ encEntry d value) ∧
        (w.Append sn key value).1.blen = w.blen + 1)) ∧
    (∃ r, NewReader fuel (writeTable sn o es) ((writeTable sn o es).length : Int) = Res.ok r ∧
      r.NumBlocks =
        flushCount sn (NewWriter { data := [], script := [] } o) es +
          (if (Writer.run sn (NewWriter { data := [], script := [] } o) (appends es)).1.buf = []
            then 0 else 1)) ∧
    (∃ r, NewReader 100 (writeTable sn seedOptions (seedEntries vals 100))
        ((writeTable sn seedOptions (seedEntries vals 100)).length : Int) = Res.ok r ∧
      r.NumBlocks = 4 ∧ r.index.map (fun e => e.MaxKey) = [120, 244, 368, 396]) ∧
    (∃ r, NewReader 10000 (writeTable sn seedOptions (seedEntries vals 10000))
        ((writeTable sn seedOptions (seedEntries vals 10000)).length : Int) = Res.ok r ∧
      r.NumBlocks = 323) := by
  refine ⟨fun w key value h => Append_flush_rule sn w key value h, ?_, ?_, ?_⟩
  · obtain ⟨raw, hr, -, -, hlen⟩ := reader_of_write sn hsn o es h64 hsize fuel hfuel
    refine ⟨_, hr, ?_⟩
    have hc := flushCount_run sn hsn es (NewWriter { data := [], script := [] } o) [] 0
      (laysRaw_new sn o) h64
    have h0 : (NewWriter { data := [], script := [] } o).index.length = 0 := rfl
    rw [h0, Nat.zero_add] at hc
    rw [← hc, ← hlen]
    simp [Reader.NumBlocks, fileReader, fileIndex_length]
  · obtain ⟨r, h1, h2, h3⟩ := seed_table sn hsn vals hvals 99 (by norm_num) 100 (by norm_num)
    exact ⟨r, h1, h2, by rw [h3]; decide⟩
  · obtain ⟨r, h1, h2, -⟩ := seed_table sn hsn vals hvals 9999 (by norm_num) 10000 (by norm_num)
    exact ⟨r, h1, h2⟩

set_option maxRecDepth 100000 in
theorem C13_block_boundaries_witness :
    ∃ r, NewReader 3 (writeTable rleCodec (some ⟨30, 2, NoCompression⟩)
          [(3, [7]), (5, [1, 2, 3, 4, 5, 6, 7, 8, 9, 10]), (900, [])])
        ((writeTable rleCodec (some ⟨30, 2, NoCompression⟩)
          [(3, [7]), (5, [1, 2, 3, 4, 5, 6, 7, 8, 9, 10]), (900, [])]).length : Int) =
          Res.ok r ∧
      r.NumBlocks = 3 := by
  obtain ⟨-, ⟨r, hr, hn⟩, -, -⟩ := C13_block_boundaries rleCodec rleCodec_lawful
    (some ⟨30, 2, NoCompression⟩)
    [(3, [7]), (5, [1, 2, 3, 4, 5, 6, 7, 8, 9, 10]), (900, [])] (by decide) (by decide) 3
    (by decide) (fun _ => List.replicate 128 0) (fun _ => List.length_replicate _ _)
  refine ⟨r, hr, ?_⟩
  rw [hn]
  decide

/-! ## Seeking within a section -/

theorem okFrom_lastKey (done rest : List Entry)
    (hinc : (done ++ rest).Pairwise (fun a b => a.1 < b.1))
    (hfit : ∀ e ∈ done ++ rest, e.1 < 2 ^ 64 ∧ e.2.length < 2 ^ 63) :
    okFrom (lastKey 0 done) rest := by
  have hpw := List.pairwise_append.1 hinc
  refine okFrom_of_pairwise rest _ hpw.2.1 (fun e he => hfit e (by simp [he])) ?_
  intro e he
  rcases List.eq_nil_or_concat done with h | ⟨l, x, h⟩
  · subst h; exact Nat.zero_le _
  · rw [List.concat_eq_append] at h
    subst h
    have hl : lastKey 0 (l ++ [x]) = x.1 := by
      rw [lastKey_append]; rfl
    rw [hl]
    exact Nat.le_of_lt (hpw.2.2 x (by simp) e he)

/-- C24. Take a section with strictly increasing keys and a section reader that
stands at an entry boundary of it: the entries `done` are consumed, the entries `rest`
are not. For every target `t`, `Seek(t)` returns, and it returns true exactly when some
entry of `rest` has a key at or above `t`. When it returns true, `rest` splits into
entries with keys below `t`, an entry `e` with a key at or above `t`, and what follows;
the next `Next()` returns true with `Key() = e.1` and `Value() = e.2`. When it returns
false, `More()` is false. -/
theorem C24_section_seek (done rest : List Entry) (s : SectionReader) (t fuel : Nat)
    (hinc : (done ++ rest).Pairwise (fun a b => a.1 < b.1))
    (hfit : ∀ e ∈ done ++ rest, e.1 < 2 ^ 64 ∧ e.2.length < 2 ^ 63)
    (hsec : s.sec = encSec 0 (done ++ rest))
    (hread : s.read = ((encSec 0 done).length : Int)) (hkey : s.key = lastKey 0 done)
    (hfuel : rest.length ≤ fuel) :
    ∃ s' found, s.Seek fuel t = Res.ok (s', found) ∧
      (found = true ↔ ∃ e ∈ rest, t ≤ e.1) ∧
      (found = true → ∃ skipped e after s'', rest = skipped ++ e :: after ∧
        (∀ x ∈ skipped, x.1 < t) ∧ t ≤ e.1 ∧
        s'.Next = Res.ok (s'', true) ∧ s''.Key = e.1 ∧ s''.Value = e.2) ∧
      (found = false → s'.More = false) := by
  have hok := okFrom_lastKey done rest hinc hfit
  have hsec' : s.sec = encSec 0 done ++ encSec (lastKey 0 done) rest := by
    rw [hsec, encSec_append]
  obtain ⟨s', pre', p', h1, h2, -, h4, h5, h6, h7⟩ :=
    SectionReader.Seek_spec t rest fuel s (encSec 0 done) (lastKey 0 done) hsec' hread hkey hok
      hfuel
  refine ⟨s', _, h1, ?_, ?_, ?_⟩
  · rw [decide_eq_true_eq, ne_eq, List.dropWhile_eq_nil_iff]
    constructor
    · intro h
      by_contra hc
      apply h
      intro x hx
      by_contra hx'
      exact hc ⟨x, hx, by simpa using hx'⟩
    · rintro ⟨e, he, hte⟩ h
      have := h e he
      simp at this
      omega
  · intro hf
    rw [decide_eq_true_eq] at hf
    cases hdw : rest.dropWhile (fun e => decide (e.1 < t)) with
    | nil => exact absurd hdw hf
    | cons e after =>
      rw [hdw] at h4 h7
      have hsplit := List.takeWhile_append_dropWhile (fun e => decide (e.1 < t)) rest
      rw [hdw] at hsplit
      have hte : t ≤ e.1 := by
        have := List.head_dropWhile_not (fun e => decide (e.1 < t)) rest
          (by rw [hdw]; simp)
        simp only [hdw, List.head_cons] at this
        simpa using this
      have hnext := SectionReader.Next_cons s' pre' p' e after (by rw [h2]; exact h4) h5 h6
        h7.1 h7.2.1 h7.2.2.1
      refine ⟨_, e, after, _, hsplit.symm, ?_, hte, hnext, rfl, rfl⟩
      intro x hx
      have := List.mem_takeWhile_imp hx
      simpa using this
  · intro hf
    have hnil : rest.dropWhile (fun e => decide (e.1 < t)) = [] := by
      by_contra hc
      have : decide (rest.dropWhile (fun e => decide (e.1 < t)) ≠ []) = true := by
        simpa using hc
      rw [this] at hf
      exact absurd hf (by simp)
    rw [hnil] at h4
    have := SectionReader.More_iff s' pre' p' [] (by rw [h2]; exact h4) h5
    simpa using this

theorem C24_section_seek_witness :
    ∃ s' found,
      SectionReader.Seek 2
        { sec := encSec 0 [(1, [9]), (5, []), (10, [7])], spos := 0, read := 3, key := 1,
          val := [9] } 7 = Res.ok (s', found) ∧
      (found = true ↔ ∃ e ∈ [((5 : Nat), ([] : Bytes)), (10, [7])], 7 ≤ e.1) ∧
      (found = true → ∃ s'', s'.Next = Res.ok (s'', true) ∧ s''.Key = 10 ∧ s''.Value = [7]) := by
  obtain ⟨s', found, h1, h2, h3, -⟩ := C24_section_seek [(1, [9])] [(5, []), (10, [7])]
    { sec := encSec 0 [(1, [9]), (5, []), (10, [7])], spos := 0, read := 3, key := 1,
      val := [9] } 7 2 (by decide) (by decide) rfl (by decide) rfl (by decide)
  refine ⟨s', found, h1, h2, ?_⟩
  intro hf
  obtain ⟨skipped, e, after, s'', hsplit, hlt, hte, hn, hk, hv⟩ := h3 hf
  have he : e = (10, [7]) := by
    rcases skipped with _ | ⟨a, _ | ⟨b, _ | ⟨c, l⟩⟩⟩
    · simp only [List.nil_append, List.cons.injEq] at hsplit
      rw [← hsplit.1] at hte
      exact absurd hte (by decide)
    · simp only [List.cons_append, List.nil_append, List.cons.injEq] at hsplit
      exact hsplit.2.1.symm
    · simp only [List.cons_append, List.nil_append, List.cons.injEq] at hsplit
      exact absurd hsplit.2.2 (by simp)
    · simp only [List.cons_append, List.cons.injEq] at hsplit
      exact absurd hsplit.2.2 (by simp)
  subst he
  exact ⟨s'', hn, hk, hv⟩

/-! ## The compression tag of a block -/

theorem Reader.GetBlock_stored (sn : Codec) (r : Reader) (bpos : Nat) (ent : blockInfo)
    (pre stored post : Bytes) (tag : Byte)
    (hent : r.index.get? bpos = some ent)
    (hfile : r.r = pre ++ (stored ++ [tag]) ++ post)
    (hmin : ent.Offset = (pre.length : Int))
    (hmax : ((r.index.get? (bpos + 1)).map (fun next => next.Offset)).getD r.maxOffset =
      ((pre.length + (stored.length + 1) : Nat) : Int)) :
    (tag ≠ blockNoCompression → tag ≠ blockSnappyCompression →
      r.GetBlock sn (bpos : Int) = Res.err Error.errBadCompression) ∧
    (tag = blockNoCompression → ∀ body cnt, stored = body ++ cnt → cnt.length = 4 →
      ∃ n, Uint32 cnt = some n ∧ r.GetBlock sn (bpos : Int) =
        Res.ok { block := stored, bpos := bpos, scnt := n, maxKey := ent.MaxKey }) ∧
    (tag = blockNoCompression → stored.length < 4 → r.GetBlock sn (bpos : Int) = Res.panic) := by
  have hlt : bpos < r.index.length := by
    rcases Nat.lt_or_ge bpos r.index.length with h | h
    · exact h
    · rw [List.get?_eq_none.2 h] at hent; cases hent
  have hne : r.index.length ≠ 0 := by omega
  have h0 : ¬ ((bpos : Int) < 0) := by omega
  have h1 : ¬ ((r.index.length : Int) ≤ (bpos : Int)) := by omega
  have hd : ((pre.length + (stored.length + 1) : Nat) : Int) - (pre.length : Int) =
      ((stored.length + 1 : Nat) : Int) := by
    push_cast; ring
  have hneg : ¬ (((stored.length + 1 : Nat) : Int) < 0) := by omega
  have hread : ReadAt r.r (stored.length + 1) (pre.length : Int) = Res.ok (stored ++ [tag]) :=
    ReadAt_eq r.r pre (stored ++ [tag]) post _ _ hfile rfl (by simp) (by simp)
  have hget : r.GetBlock sn (bpos : Int) = r.readBlock sn bpos := by
    unfold Reader.GetBlock
    rw [if_neg hne]
    simp only [if_neg h0, if_neg h1, Int.toNat_ofNat]
  rw [hget]
  unfold Reader.readBlock
  rw [hent]
  cases hnx : r.index.get? (bpos + 1) <;>
  · rw [hnx] at hmax
    simp only [Option.map, Option.getD] at hmax
    simp only []
    rw [hmax, hmin, hd, if_neg hneg, Int.toNat_ofNat, hread]
    have hlast : (stored ++ [tag]).getLast? = some tag := by simp
    have hdrop : (stored ++ [tag]).dropLast = stored := by simp
    simp only [hlast, hdrop]
    refine ⟨?_, ?_, ?_⟩
    · intro ht0 ht1
      simp only [if_neg ht0, if_neg ht1]
    · intro ht0 body cnt hst hcnt
      simp only [if_pos ht0]
      rw [sliceFrom_eq stored body cnt _ hst (by rw [hst, List.length_append]; push_cast; omega)]
      match cnt, hcnt with
      | [a, b, c, d], _ => exact ⟨_, rfl, rfl⟩
    · intro ht0 hshort
      simp only [if_pos ht0]
      have : sliceFrom stored ((stored.length : Int) - 4) = Res.panic := by
        unfold sliceFrom
        rw [if_neg (by omega)]
      rw [this]

/-- C21, as amended. Take a reader and a block of its index whose bytes on disk, from
the block's offset to the offset of the next block (or to the index offset for the last
block), are `stored` followed by the byte `tag`. When `tag` is neither 0x00 nor 0x01,
`GetBlock` returns the bad-compression error and no block reader. When `tag` is 0x00
and `stored` has at least four bytes, `GetBlock` returns a block reader whose payload is
`stored`, the bytes on disk minus the tag, with the section count read from its last
four bytes. -/
theorem C21_bad_compression_tag (sn : Codec) (r : Reader) (bpos : Nat) (ent : blockInfo)
    (pre stored post : Bytes) (tag : Byte)
    (hent : r.index.get? bpos = some ent)
    (hfile : r.r = pre ++ (stored ++ [tag]) ++ post)
    (hmin : ent.Offset = (pre.length : Int))
    (hmax : ((r.index.get? (bpos + 1)).map (fun next => next.Offset)).getD r.maxOffset =
      ((pre.length + (stored.length + 1) : Nat) : Int)) :
    (tag ≠ 0 → tag ≠ 1 → r.GetBlock sn (bpos : Int) = Res.err Error.errBadCompression) ∧
    (tag = 0 → 4 ≤ stored.length →
      ∃ b, r.GetBlock sn (bpos : Int) = Res.ok b ∧ b.block = stored ∧ b.Pos = bpos ∧
        b.maxKey = ent.MaxKey ∧
        Uint32 (stored.drop (stored.length - 4)) = some b.NumSections) := by
  obtain ⟨h1, h2, -⟩ := Reader.GetBlock_stored sn r bpos ent pre stored post tag hent hfile
    hmin hmax
  refine ⟨h1, ?_⟩
  intro ht hlen
  obtain ⟨n, hn, hb⟩ := h2 ht (stored.take (stored.length - 4))
    (stored.drop (stored.length - 4)) (List.take_append_drop _ _).symm
    (by rw [List.length_drop]; omega)
  exact ⟨_, hb, rfl, rfl, rfl, hn⟩

theorem C21_bad_compression_tag_witness :
    Reader.GetBlock rleCodec { r := badTagFile, index := [⟨1, 0⟩, ⟨2, 7⟩], maxOffset := 14 }
        ((1 : Nat) : Int) = Res.err Error.errBadCompression ∧
    ∃ b, Reader.GetBlock rleCodec { r := badTagFile, index := [⟨1, 0⟩, ⟨2, 7⟩], maxOffset := 14 }
        ((0 : Nat) : Int) = Res.ok b ∧ b.block = [1, 0, 1, 0, 0, 0] :=
  ⟨(C21_bad_compression_tag rleCodec
      { r := badTagFile, index := [⟨1, 0⟩, ⟨2, 7⟩], maxOffset := 14 } 1 ⟨2, 7⟩
      [1, 0, 1, 0, 0, 0, 0] [2, 0, 1, 0, 0, 0]
      [1, 0, 1, 7, 14, 0, 0, 0, 0, 0, 0, 0, 71, 39, 134, 190, 31, 122, 101, 219] 7
      rfl rfl rfl rfl).1 (by decide) (by decide),
    by
      obtain ⟨b, h1, h2, -⟩ := (C21_bad_compression_tag rleCodec
        { r := badTagFile, index := [⟨1, 0⟩, ⟨2, 7⟩], maxOffset := 14 } 0 ⟨1, 0⟩
        [] [1, 0, 1, 0, 0, 0]
        ([2, 0, 1, 0, 0, 0, 7] ++
          [1, 0, 1, 7, 14, 0, 0, 0, 0, 0, 0, 0, 71, 39, 134, 190, 31, 122, 101, 219]) 0
        rfl (by decide) rfl rfl).2 rfl (by decide)
      exact ⟨b, h1, h2⟩⟩

/-- C21, counterexample. The file `tagOnlyFile` opens to a reader with one block, at
offset 0 and one byte long: the byte 0x00. The last byte of the block on disk is 0x00,
yet `GetBlock(0)` yields no payload: it panics when it reads the section count from the
last four bytes of an empty payload. -/
theorem C21_bad_compression_tag_counterexample :
    NewReader 1 tagOnlyFile 19 =
      Res.ok { r := tagOnlyFile, index := [⟨5, 0⟩], maxOffset := 1 } ∧
    tagOnlyFile.take 1 = [0] ∧
    Reader.GetBlock rleCodec { r := tagOnlyFile, index := [⟨5, 0⟩], maxOffset := 1 } 0 =
      Res.panic := by
  refine ⟨by decide, by decide, by decide⟩

/-! ## The blocks of a run, for every block size -/

theorem encStep_ne_nil (R : Int) (i prev : Nat) (e : Entry) : encStep R i prev e ≠ [] :=
  encEntry_ne_nil _ _

theorem encStep_length_le (R : Int) (i prev : Nat) (e : Entry) :
    (encStep R i prev e).length ≤ e.2.length + 20 := by
  unfold encStep
  rw [encEntry_length]
  have h1 := PutUvarint_length_le (if (i : Int) % R = 0 then e.1 else (e.1 + 2 ^ 64 - prev) % 2 ^ 64)
  have h2 := PutUvarint_length_le e.2.length
  omega

theorem encRun_snoc (R : Int) (es : List Entry) (e : Entry) : ∀ (i prev : Nat),
    encRun R i prev (es ++ [e]) =
      encRun R i prev es ++ encStep R (i + es.length) (lastKey prev es) e := by
  induction es with
  | nil => intro i prev; simp [encRun, lastKey]
  | cons x rest ih =>
    intro i prev
    show encStep R i prev x ++ encRun R (i + 1) x.1 (rest ++ [e]) =
      (encStep R i prev x ++ encRun R (i + 1) x.1 rest) ++
        encStep R (i + (rest.length + 1)) (lastKey x.1 rest) e
    rw [ih, List.append_assoc, show i + 1 + rest.length = i + (rest.length + 1) by omega]

theorem runOffs_snoc (R : Int) (es : List Entry) (e : Entry) : ∀ (i prev base : Nat),
    runOffs R i prev base (es ++ [e]) =
      runOffs R i prev base es ++
        (if ((i + es.length : Nat) : Int) % R = 0 then [base + (encRun R i prev es).length]
          else []) := by
  induction es with
  | nil => intro i prev base; simp [runOffs, encRun]
  | cons x rest ih =>
    intro i prev base
    show (if (i : Int) % R = 0 then [base] else []) ++
        runOffs R (i + 1) x.1 (base + (encStep R i prev x).length) (rest ++ [e]) =
      ((if (i : Int) % R = 0 then [base] else []) ++
        runOffs R (i + 1) x.1 (base + (encStep R i prev x).length) rest) ++
        (if ((i + (rest.length + 1) : Nat) : Int) % R = 0 then
          [base + (encStep R i prev x ++ encRun R (i + 1) x.1 rest).length] else [])
    rw [ih, List.append_assoc, show i + 1 + rest.length = i + (rest.length + 1) by omega,
      List.length_append, Nat.add_assoc]

theorem encRun_eq_nil (R : Int) (i prev : Nat) (es : List Entry) :
    encRun R i prev es = [] ↔ es = [] := by
  cases es with
  | nil => simp [encRun]
  | cons e rest =>
    simp only [encRun, List.append_eq_nil, reduceCtorEq, iff_false, not_and]
    intro h
    exact absurd h (encStep_ne_nil R i prev e)

theorem diskBlock_ne_nil (sn : Codec) (o : WriterOptions) (b : List Entry) :
    diskBlock sn o b ≠ [] := by
  unfold diskBlock
  rcases emitted_cases sn o.Compression
    (framed (encRun o.BlockRestartInterval 0 0 b) (runOffs o.BlockRestartInterval 0 0 0 b))
    with h | h <;> rw [h] <;> simp

theorem diskBlocks_append (sn : Codec) (o : WriterOptions) (a b : List (List Entry)) :
    diskBlocks sn o (a ++ b) = diskBlocks sn o a ++ diskBlocks sn o b := by
  simp [diskBlocks]

theorem diskBlocks_length (sn : Codec) (o : WriterOptions) (a : List (List Entry)) :
    (diskBlocks sn o a).length = a.length := by
  simp [diskBlocks]

theorem blockFits_nil (o : WriterOptions) : blockFits o [] := by
  intro pre e post h
  exact absurd h (by simp)

theorem blockFits_snoc (o : WriterOptions) (b : List Entry) (e : Entry) (hb : blockFits o b)
    (hroom : b = [] ∨
      (((encRun o.BlockRestartInterval 0 0 b).length + e.2.length + 20 : Nat) : Int) ≤
        o.BlockSize) :
    blockFits o (b ++ [e]) := by
  intro pre x post hsplit hpre
  rcases List.eq_nil_or_concat post with hp | ⟨post', y, hp⟩
  · subst hp
    have hh := List.append_inj' hsplit rfl
    have h1 : b = pre := hh.1
    have h2 : e = x := by simpa using hh.2
    subst h1; subst h2
    rcases hroom with hr | hr
    · exact absurd hr hpre
    · exact hr
  · rw [List.concat_eq_append] at hp
    subst hp
    have hsplit' : b ++ [e] = (pre ++ x :: post') ++ [y] := by
      rw [hsplit]; simp
    have hh := List.append_inj' hsplit' rfl
    exact hb pre x post' hh.1 hpre

theorem blockFits_init (o : WriterOptions) (b : List Entry) (e : Entry)
    (h : blockFits o (b ++ [e])) : blockFits o b := by
  intro pre x post hsplit hpre
  exact h pre x (post ++ [e]) (by rw [hsplit]; simp) hpre

theorem blockFits_bound (o : WriterOptions) (b : List Entry) (h : blockFits o b) :
    b.length ≤ 1 ∨ ((encRun o.BlockRestartInterval 0 0 b).length : Int) ≤ o.BlockSize := by
  rcases List.eq_nil_or_concat b with hb | ⟨pre, e, hb⟩
  · left; rw [hb]; simp
  · rw [List.concat_eq_append] at hb
    by_cases hpre : pre = []
    · left; rw [hb, hpre]; simp
    · right
      have := h pre e [] hb hpre
      rw [hb, encRun_snoc, List.length_append]
      have hl := encStep_length_le o.BlockRestartInterval (0 + pre.length) (lastKey 0 pre) e
      omega

theorem carries_new (sn : Codec) (sink : Sink) (o : Option WriterOptions)
    (hacc : sink.accepting) : (NewWriter sink o).carries sn sink.data [] [] := by
  refine ⟨rfl, ?_, ?_, ?_, ?_, ?_, ?_⟩
  · intro b hb; simp at hb
  · simp
  · intro e he; simp at he
  · intro b hb
    simp only [List.nil_append, List.mem_singleton] at hb
    rw [hb]; exact blockFits_nil _
  · intro _
    refine ⟨hacc, ?_, rfl, rfl, rfl, rfl, rfl⟩
    simp [NewWriter, diskBlocks, fileBlocks]
  · intro h
    simp [NewWriter] at h

theorem carries_flush (sn : Codec) (w : Writer) (d0 : Bytes) (done : List (List Entry))
    (cur : List Entry) (h : w.carries sn d0 done cur) (ht : w.tmp = true) (hne : w.buf ≠ []) :
    (w.flush sn).2 = none ∧ (w.flush sn).1.o = w.o ∧ (w.flush sn).1.tmp = true ∧
    (w.flush sn).1.block.MaxKey = w.block.MaxKey ∧ (w.flush sn).1.buf = [] ∧ cur ≠ [] ∧
    (w.flush sn).1.carries sn d0 (done ++ [cur]) [] := by
  obtain ⟨h1, h2, h3, h4, h5, h6, h7⟩ := h
  obtain ⟨a1, a2, a3, a4, a5, a6, a7⟩ := h6 ht
  obtain ⟨ha1, ha2⟩ := flush_accepting sn w a1
  obtain ⟨hd1, hd2⟩ := flush_ok sn w hne ha1
  obtain ⟨f1, f2, f3, f4⟩ := flush_fields sn w
  have hcur : cur ≠ [] := by
    intro hc
    apply hne
    rw [a5, hc]; rfl
  have hblk : emitted sn w.o.Compression (framed w.buf w.soffs) = diskBlock sn w.o cur := by
    unfold diskBlock
    rw [a5, a6]
  have hlk : lastKey 0 (done.flatten ++ cur) = lastKey 0 cur := by
    rw [lastKey_append]
    exact lastKey_of_ne_nil _ _ _ hcur
  rcases f4 with ⟨g, _⟩ | ⟨_, g2, g3, g4, g5⟩
  · exact absurd g hne
  · refine ⟨ha1, f1, by rw [f3]; exact ht, f2, g4, hcur, ?_, ?_, ?_, ?_, ?_, ?_, ?_⟩
    · rw [g5, f1, diskBlocks_append, fileIndex_append, h1]
      simp only [diskBlocks, List.map_cons, List.map_nil, fileIndex, Nat.zero_add]
      congr 2
      cases hb : w.block
      rw [hb] at a3 a4
      simp only at a3 a4
      rw [a3, a4, hlk]
      rfl
    · intro b hb
      rcases List.mem_append.1 hb with hb1 | hb1
      · exact h2 b hb1
      · simp only [List.mem_singleton] at hb1
        rw [hb1]; exact hcur
    · simpa using h3
    · simpa using h4
    · rw [f1]
      intro b hb
      rcases List.mem_append.1 hb with hb1 | hb1
      · exact h5 b hb1
      · simp only [List.mem_singleton] at hb1
        rw [hb1]; exact blockFits_nil _
    · intro _
      rw [f1]
      refine ⟨ha2, ?_, ?_, ?_, ?_, ?_, ?_⟩
      · rw [hd1, a2, hblk, diskBlocks_append, fileBlocks_append]
        simp [diskBlocks, fileBlocks]
      · rw [hd2, a3, hblk, diskBlocks_append, fileBlocks_append]
        simp [diskBlocks, fileBlocks]
      · rw [f2, a4]; simp
      · rw [g4]; rfl
      · rw [g3]; rfl
      · rw [g2]; rfl
    · intro hf
      rw [f3, ht] at hf
      cases hf

theorem carries_put (sn : Codec) (w : Writer) (d0 : Bytes) (done : List (List Entry))
    (cur : List Entry) (key : Nat) (v : Bytes) (h : w.carries sn d0 done cur)
    (ht : w.tmp = true) (hkey : key < 2 ^ 64)
    (hord : done.flatten ++ cur ≠ [] → w.block.MaxKey < key)
    (hroom : cur = [] ∨ ((w.buf.length + v.length + 20 : Nat) : Int) ≤ w.o.BlockSize) :
    (w.put key v).carries sn d0 done (cur ++ [(key, v)]) := by
  obtain ⟨h1, h2, h3, h4, h5, h6, h7⟩ := h
  obtain ⟨a1, a2, a3, a4, a5, a6, a7⟩ := h6 ht
  obtain ⟨p1, p2, p3, p4, p5, p6, p7, p8⟩ := put_fields w key v
  have hlast : ∀ x ∈ done.flatten ++ cur, x.1 < key := by
    intro x hx
    have := hord (List.ne_nil_of_mem hx)
    rw [a4] at this
    exact lt_of_le_of_lt (le_lastKey _ 0 h3 x hx) this
  have hprev : cur ≠ [] → lastKey 0 cur = w.block.MaxKey := by
    intro hc
    rw [a4, lastKey_append]
    exact lastKey_of_ne_nil _ _ _ hc
  have hbuf : (w.put key v).buf =
      encRun w.o.BlockRestartInterval 0 0 cur ++
        encStep w.o.BlockRestartInterval cur.length (lastKey 0 cur) (key, v) := by
    unfold Writer.put encStep encEntry
    simp only [a5, a7, List.append_assoc]
    by_cases hf : (cur.length : Int) % w.o.BlockRestartInterval = 0
    · simp only [hf, decide_True, if_true]
    · simp only [hf, decide_False, if_false, Bool.false_eq_true]
      have hc : cur ≠ [] := by
        intro hc
        apply hf
        rw [hc]; simp
      rw [hprev hc]
  have hsoffs : (w.put key v).soffs =
      runOffs w.o.BlockRestartInterval 0 0 0 cur ++
        (if ((0 + cur.length : Nat) : Int) % w.o.BlockRestartInterval = 0 then
          [0 + (encRun w.o.BlockRestartInterval 0 0 cur).length] else []) := by
    unfold Writer.put
    simp only [a5, a6, a7, Nat.zero_add]
    by_cases hf : (cur.length : Int) % w.o.BlockRestartInterval = 0
    · simp only [hf, decide_True, if_true]
    · simp only [hf, decide_False, if_false, Bool.false_eq_true, List.append_nil]
  refine ⟨by rw [p6, p1]; exact h1, h2, ?_, ?_, ?_, ?_, ?_⟩
  · rw [← List.append_assoc, List.pairwise_append]
    refine ⟨h3, by simp, ?_⟩
    intro a ha b hb
    simp only [List.mem_singleton] at hb
    rw [hb]
    exact hlast a ha
  · intro e he
    rw [← List.append_assoc] at he
    rcases List.mem_append.1 he with he1 | he1
    · exact h4 e he1
    · simp only [List.mem_singleton] at he1
      rw [he1]; exact hkey
  · rw [p1]
    intro b hb
    rcases List.mem_append.1 hb with hb1 | hb1
    · exact h5 b (List.mem_append.2 (Or.inl hb1))
    · simp only [List.mem_singleton] at hb1
      rw [hb1]
      refine blockFits_snoc w.o cur (key, v) (h5 cur (by simp)) ?_
      rcases hroom with hc | hr
      · exact Or.inl hc
      · right
        rw [← a5]; exact hr
  · intro _
    rw [p1]
    refine ⟨by rw [p7]; exact a1, by rw [p7]; exact a2, by rw [p8]; exact a3, ?_, ?_, ?_, ?_⟩
    · rw [p2, ← List.append_assoc, lastKey_append]; rfl
    · rw [hbuf, encRun_snoc, Nat.zero_add]
    · rw [hsoffs, runOffs_snoc]
    · rw [p3, a7]; simp
  · intro hf
    rw [p5, ht] at hf
    cases hf

theorem carries_Append (sn : Codec) (w : Writer) (d0 : Bytes) (done : List (List Entry))
    (cur : List Entry) (key : Nat) (v : Bytes) (h : w.carries sn d0 done cur)
    (hkey : key < 2 ^ 64) :
    (w.Append sn key v).1.o = w.o ∧
    ∃ done' cur', (w.Append sn key v).1.carries sn d0 done' cur' ∧
      done'.flatten ++ cur' =
        (done.flatten ++ cur) ++ (if (w.Append sn key v).2 = none then [(key, v)] else []) := by
  rw [Append_eq]
  by_cases ht : w.tmp = false
  · rw [if_pos ht]
    exact ⟨rfl, done, cur, h, by simp⟩
  · rw [if_neg ht]
    have ht' : w.tmp = true := by simpa using ht
    by_cases hoo : key ≤ w.block.MaxKey ∧ (w.blen ≠ 0 ∨ w.index.length ≠ 0)
    · rw [if_pos hoo]
      exact ⟨rfl, done, cur, h, by simp⟩
    · rw [if_neg hoo]
      obtain ⟨a1, a2, a3, a4, a5, a6, a7⟩ := h.2.2.2.2.2.1 ht'
      have hidx : w.index.length = done.length := by
        rw [h.1, fileIndex_length, diskBlocks_length]
      by_cases hnf : w.needsFlush v
      · have hne : w.buf ≠ [] := by
          intro hb
          exact hnf.1 (by rw [hb]; rfl)
        obtain ⟨hf1, hf2, hf3, hf4, hf5, hf6, hf7⟩ := carries_flush sn w d0 done cur h ht' hne
        rw [if_pos hnf, if_pos hf1]
        have hblen : w.blen ≠ 0 := by
          rw [a7]
          intro h0
          exact hf6 (List.length_eq_zero.1 h0)
        have hord : w.block.MaxKey < key := by
          by_contra hc
          exact hoo ⟨by omega, Or.inl hblen⟩
        refine ⟨by rw [(put_fields _ key v).1, hf2], done ++ [cur], [] ++ [(key, v)],
          carries_put sn _ d0 _ [] key v hf7 hf3 hkey ?_ (Or.inl rfl), by simp⟩
        intro _
        rw [hf4]; exact hord
      · rw [if_neg hnf]
        refine ⟨(put_fields w key v).1, done, cur ++ [(key, v)],
          carries_put sn w d0 done cur key v h ht' hkey ?_ ?_, by simp⟩
        · intro hr
          by_contra hc
          apply hoo
          refine ⟨by omega, ?_⟩
          by_cases hcur : cur = []
          · right
            rw [hidx]
            intro h0
            apply hr
            rw [List.length_eq_zero.1 h0, hcur]; rfl
          · left
            rw [a7]
            intro h0
            exact hcur (List.length_eq_zero.1 h0)
        · by_cases hcur : cur = []
          · exact Or.inl hcur
          · right
            have hb : w.buf.length ≠ 0 := by
              rw [a5]
              intro h0
              exact hcur ((encRun_eq_nil _ _ _ _).1 (List.length_eq_zero.1 h0))
            unfold Writer.needsFlush at hnf
            simp only [MaxVarintLen64] at hnf
            by_contra hc
            exact hnf ⟨hb, by omega⟩

theorem carries_Close (sn : Codec) (w : Writer) (d0 : Bytes) (done : List (List Entry))
    (cur : List Entry) (h : w.carries sn d0 done cur) :
    (w.Close sn).1.o = w.o ∧
    ∃ done', (w.Close sn).1.carries sn d0 done' [] ∧ done'.flatten = done.flatten ++ cur := by
  rcases Close_fields sn w with ⟨ht, hc⟩ | ⟨ht, -, c1, c2, c3, c4, c5, c6⟩
  · rw [hc]
    have hcur := (h.2.2.2.2.2.2 ht).1
    subst hcur
    exact ⟨rfl, done, h, by simp⟩
  · have hok := Close_accepting sn w ht (h.2.2.2.2.2.1 ht).1
    have hclose := Close_ok sn w ht hok
    have htf : (w.Close sn).1.tmp = false := by
      by_contra hc
      have : (w.Close sn).1.tmp = true := by simpa using hc
      exact (c6.1 this) hok
    have key : ∀ (dn : List (List Entry)), (w.flush sn).1.carries sn d0 dn [] →
        (w.flush sn).1.o = w.o → (w.flush sn).1.tmp = true →
        (w.Close sn).1.carries sn d0 dn [] := by
      intro dn hd ho htt
      obtain ⟨h1, h2, h3, h4, h5, h6, h7⟩ := hd
      obtain ⟨a1, a2, a3, a4, a5, a6, a7⟩ := h6 htt
      rw [ho] at h1 h5 a2 a3
      refine ⟨by rw [c5, c1]; exact h1, h2, h3, h4, by rw [c1]; exact h5, ?_, ?_⟩
      · intro hx
        rw [htf] at hx
        cases hx
      · intro _
        refine ⟨rfl, ?_⟩
        rw [hclose.2, a2, a3, h1, c1, toUint64_natCast, PutUint64_mod]
        simp [fileBytes, List.append_assoc]
    by_cases hb : w.buf = []
    · have hcur : cur = [] := by
        have := (h.2.2.2.2.2.1 ht).2.2.2.2.1
        rw [hb] at this
        exact (encRun_eq_nil _ _ _ _).1 this.symm
      subst hcur
      have hfl : w.flush sn = (w, none) := flush_of_empty sn w hb
      refine ⟨c1, done, key done (by rw [hfl]; exact h) (by rw [hfl]) (by rw [hfl]; exact ht),
        by simp⟩
    · obtain ⟨hf1, hf2, hf3, hf4, hf5, hf6, hf7⟩ := carries_flush sn w d0 done cur h ht hb
      exact ⟨c1, done ++ [cur], key _ hf7 hf2 hf3, by simp⟩

theorem carries_run (sn : Codec) (d0 : Bytes) (ops : List Op) : ∀ (w : Writer)
    (done : List (List Entry)) (cur : List Entry), w.carries sn d0 done cur →
    (∀ k v, Op.append k v ∈ ops → k < 2 ^ 64) →
    (Writer.run sn w ops).1.o = w.o ∧
    ∃ done' cur', (Writer.run sn w ops).1.carries sn d0 done' cur' ∧
      done'.flatten ++ cur' = (done.flatten ++ cur) ++ accepted (Writer.run sn w ops).2 := by
  induction ops with
  | nil =>
    intro w done cur h _
    exact ⟨rfl, done, cur, h, by simp [Writer.run, accepted]⟩
  | cons op ops ih =>
    intro w done cur h h64
    cases op with
    | append k v =>
      obtain ⟨ho, d1, c1, h1, hfl⟩ := carries_Append sn w d0 done cur k v h
        (h64 k v (by simp))
      obtain ⟨ho2, d2, c2, h2, hfl2⟩ := ih (w.Append sn k v).1 d1 c1 h1
        (fun k' v' hm => h64 k' v' (by simp [hm]))
      refine ⟨?_, d2, c2, ?_, ?_⟩
      · show (Writer.run sn (w.Append sn k v).1 ops).1.o = w.o
        rw [ho2, ho]
      · exact h2
      · show d2.flatten ++ c2 = (done.flatten ++ cur) ++
          accepted ((Op.append k v, (w.Append sn k v).2) ::
            (Writer.run sn (w.Append sn k v).1 ops).2)
        rw [hfl2, hfl]
        cases hr : (w.Append sn k v).2 with
        | none => simp [accepted]
        | some e => simp [accepted]
    | close =>
      obtain ⟨ho, d1, h1, hfl⟩ := carries_Close sn w d0 done cur h
      obtain ⟨ho2, d2, c2, h2, hfl2⟩ := ih (w.Close sn).1 d1 [] h1
        (fun k' v' hm => h64 k' v' (by simp [hm]))
      refine ⟨?_, d2, c2, ?_, ?_⟩
      · show (Writer.run sn (w.Close sn).1 ops).1.o = w.o
        rw [ho2, ho]
      · exact h2
      · show d2.flatten ++ c2 = (done.flatten ++ cur) ++
          accepted ((Op.close, (w.Close sn).2) :: (Writer.run sn (w.Close sn).1 ops).2)
        rw [hfl2, List.append_nil, hfl]
        cases hr : (w.Close sn).2 with
        | none => simp [accepted]
        | some e => simp [accepted]

theorem fileBlocks_diskBlocks (sn : Codec) (o : WriterOptions) (blocks : List (List Entry)) :
    fileBlocks (diskBlocks sn o blocks) = (blocks.map (diskBlock sn o)).flatten := by
  induction blocks with
  | nil => rfl
  | cons b rest ih =>
    show diskBlock sn o b ++ fileBlocks (diskBlocks sn o rest) = _
    rw [ih]; rfl

theorem diskBlocks_length_sum (sn : Codec) (o : WriterOptions) (blocks : List (List Entry)) :
    (fileBlocks (diskBlocks sn o blocks)).length =
      (blocks.map (fun b => (diskBlock sn o b).length)).sum := by
  induction blocks with
  | nil => rfl
  | cons b rest ih =>
    show (diskBlock sn o b ++ fileBlocks (diskBlocks sn o rest)).length = _
    rw [List.length_append, ih]; rfl

theorem diskIndex_get (sn : Codec) (o : WriterOptions) (blocks : List (List Entry)) (i : Nat)
    (ent : blockInfo) (h : (fileIndex 0 (diskBlocks sn o blocks)).get? i = some ent) :
    ∃ pre b post, blocks = pre ++ b :: post ∧ pre.length = i ∧ blocks.getD i [] = b ∧
      blocks.take i = pre ∧ blocks.getD (i + 1) [] = post.headD [] ∧
      ent = { MaxKey := lastKey 0 b,
              Offset := ((fileBlocks (diskBlocks sn o pre)).length : Int) } := by
  have hlt : i < blocks.length := by
    rcases Nat.lt_or_ge i blocks.length with hl | hl
    · exact hl
    · rw [List.get?_eq_none.2 (by rw [fileIndex_length, diskBlocks_length]; exact hl)] at h
      cases h
  obtain ⟨pre, b, post, hsplit, hlen, -⟩ := List.split_at blocks i hlt
  refine ⟨pre, b, post, hsplit, hlen, ?_, ?_, ?_, ?_⟩
  · rw [hsplit, ← hlen, getD_split]
  · rw [hsplit, ← hlen, List.take_left']
    rfl
  · rw [hsplit, ← hlen]
    cases post with
    | nil =>
      rw [List.getD_eq_default _ _ (by simp)]
      rfl
    | cons c rest =>
      have : pre ++ b :: c :: rest = (pre ++ [b]) ++ c :: rest := by simp
      rw [this, show pre.length + 1 = (pre ++ [b]).length by simp, getD_split]
      rfl
  · have hg : (fileIndex 0 (diskBlocks sn o blocks)).get? i =
        some { MaxKey := lastKey 0 b,
               Offset := ((fileBlocks (diskBlocks sn o pre)).length : Int) } := by
      rw [hsplit, diskBlocks_append, ← hlen, ← diskBlocks_length sn o pre]
      exact fileIndex_get (diskBlocks sn o pre) (lastKey 0 b, diskBlock sn o b)
        (diskBlocks sn o post)
    rw [hg] at h
    exact (Option.some.inj h).symm

theorem fileIndex_offsets (raw : List (Nat × Bytes)) (hne : ∀ b ∈ raw, b.2 ≠ []) : ∀ off,
    ((fileIndex off raw).map (fun e => e.Offset)).Pairwise (fun a b => a < b) ∧
    ∀ x ∈ (fileIndex off raw).map (fun e => e.Offset), (off : Int) ≤ x := by
  induction raw with
  | nil => intro off; simp [fileIndex]
  | cons b rest ih =>
    intro off
    obtain ⟨h1, h2⟩ := ih (fun x hx => hne x (by simp [hx])) (off + b.2.length)
    have hb : 0 < b.2.length := List.length_pos.2 (hne b (by simp))
    constructor
    · simp only [fileIndex, List.map_cons, List.pairwise_cons]
      refine ⟨?_, h1⟩
      intro x hx
      have := h2 x hx
      push_cast at this
      omega
    · intro x hx
      simp only [fileIndex, List.map_cons, List.mem_cons] at hx
      rcases hx with hx | hx
      · rw [hx]
      · have := h2 x hx
        push_cast at this
        omega

theorem carries_blocks_pairwise (sn : Codec) (w : Writer) (d0 : Bytes)
    (done : List (List Entry)) (cur : List Entry) (h : w.carries sn d0 done cur) :
    (w.index.map (fun e => e.MaxKey)).Pairwise (fun a b => a < b) ∧
    (w.index.map (fun e => e.Offset)).Pairwise (fun a b => a < b) := by
  obtain ⟨h1, h2, h3, -⟩ := h
  constructor
  · rw [h1, fileIndex_map_MaxKey]
    have : (diskBlocks sn w.o done).map Prod.fst = done.map (lastKey 0) := by
      simp [diskBlocks]
    rw [this]
    exact pairwise_lastKeys done h2 (List.pairwise_append.1 h3).1
  · rw [h1]
    refine (fileIndex_offsets _ ?_ 0).1
    intro b hb
    obtain ⟨x, -, rfl⟩ := List.mem_map.1 hb
    exact diskBlock_ne_nil sn w.o x

theorem carries_of_run (sn : Codec) (sink : Sink) (o : Option WriterOptions) (ops : List Op)
    (hacc : sink.accepting) (h64 : ∀ k v, Op.append k v ∈ ops → k < 2 ^ 64) :
    (Writer.run sn (NewWriter sink o) ops).1.o = WriterOptions.norm o ∧
    ∃ done cur, (Writer.run sn (NewWriter sink o) ops).1.carries sn sink.data done cur ∧
      done.flatten ++ cur = accepted (Writer.run sn (NewWriter sink o) ops).2 := by
  obtain ⟨ho, done, cur, h, hfl⟩ := carries_run sn sink.data ops (NewWriter sink o) [] []
    (carries_new sn sink o hacc) h64
  exact ⟨ho, done, cur, h, by simpa using hfl⟩

/-- C25. After any sequence of `Append` and `Close` calls on a fresh writer over a sink
that accepts every write, the accepted entries split into the flushed blocks `blocks`
and the current block `cur`; the sink holds, after what it held at the start, the bytes
of the flushed blocks (followed by the index and the footer once the writer is closed).
The index has one entry per flushed block. Its max-keys increase strictly and its
offsets increase strictly. Entry `i` holds the key of the last entry of block `i`, which
is the greatest key of the block, and the sum of the on-disk lengths of the blocks
before it. Every key of block `i + 1`, and every key of the current block, is greater
than the max-key of entry `i`. -/
theorem C25_index_ordering (sn : Codec) (sink : Sink) (o : Option WriterOptions)
    (ops : List Op) (hacc : sink.accepting) (h64 : ∀ k v, Op.append k v ∈ ops → k < 2 ^ 64) :
    ∃ (blocks : List (List Entry)) (cur : List Entry) (rest : Bytes),
      blocks.flatten ++ cur = accepted (Writer.run sn (NewWriter sink o) ops).2 ∧
      (∀ b ∈ blocks, b ≠ []) ∧
      (Writer.run sn (NewWriter sink o) ops).1.w.data =
        sink.data ++ (blocks.map (diskBlock sn (WriterOptions.norm o))).flatten ++ rest ∧
      ((Writer.run sn (NewWriter sink o) ops).1.tmp = true → rest = []) ∧
      (Writer.run sn (NewWriter sink o) ops).1.index.length = blocks.length ∧
      ((Writer.run sn (NewWriter sink o) ops).1.index.map (fun e => e.MaxKey)).Pairwise
        (fun a b => a < b) ∧
      ((Writer.run sn (NewWriter sink o) ops).1.index.map (fun e => e.Offset)).Pairwise
        (fun a b => a < b) ∧
      ∀ i ent, (Writer.run sn (NewWriter sink o) ops).1.index.get? i = some ent →
        (∃ e ∈ blocks.getD i [], ent.MaxKey = e.1) ∧
        (∀ e ∈ blocks.getD i [], e.1 ≤ ent.MaxKey) ∧
        ent.Offset = (((blocks.take i).map
          (fun b => (diskBlock sn (WriterOptions.norm o) b).length)).sum : Nat) ∧
        (∀ e ∈ blocks.getD (i + 1) [], ent.MaxKey < e.1) ∧
        (∀ e ∈ cur, ent.MaxKey < e.1) := by
  obtain ⟨ho, blocks, cur, h, hfl⟩ := carries_of_run sn sink o ops hacc h64
  obtain ⟨hp1, hp2⟩ := carries_blocks_pairwise sn _ _ _ _ h
  obtain ⟨h1, h2, h3, h4, h5, h6, h7⟩ := h
  rw [ho] at h1 h6 h7
  have hdata : ∃ rest, (Writer.run sn (NewWriter sink o) ops).1.w.data =
      sink.data ++ (blocks.map (diskBlock sn (WriterOptions.norm o))).flatten ++ rest ∧
      ((Writer.run sn (NewWriter sink o) ops).1.tmp = true → rest = []) := by
    cases ht : (Writer.run sn (NewWriter sink o) ops).1.tmp with
    | true =>
      refine ⟨[], ?_, fun _ => rfl⟩
      rw [(h6 ht).2.1, fileBlocks_diskBlocks, List.append_nil]
    | false =>
      refine ⟨encIndex (fileIndex 0 (diskBlocks sn (WriterOptions.norm o) blocks)) ++
        (PutUint64 (fileBlocks (diskBlocks sn (WriterOptions.norm o) blocks)).length ++ magic),
        ?_, fun hx => by cases hx⟩
      rw [(h7 ht).2, fileBytes, fileBlocks_diskBlocks]
      simp only [List.append_assoc]
  obtain ⟨rest, hd1, hd2⟩ := hdata
  refine ⟨blocks, cur, rest, hfl, h2, hd1, hd2, ?_, hp1, hp2, ?_⟩
  · rw [h1, fileIndex_length, diskBlocks_length]
  · intro i ent hent
    rw [h1] at hent
    obtain ⟨pre, b, post, hsplit, hlen, hgi, htake, hnext, hentq⟩ :=
      diskIndex_get sn _ blocks i ent hent
    have hb : b ≠ [] := h2 b (by rw [hsplit]; simp)
    have hpw : (pre.flatten ++ (b ++ (post.flatten ++ cur))).Pairwise
        (fun a b => a.1 < b.1) := by
      have := h3
      rw [hsplit] at this
      simpa using this
    have hpw2 := (List.pairwise_append.1 hpw).2.1
    have hpwb := (List.pairwise_append.1 hpw2).1
    have hcross := (List.pairwise_append.1 hpw2).2.2
    obtain ⟨x, hx, hxk⟩ := lastKey_mem 0 b hb
    have hmk : ent.MaxKey = lastKey 0 b := by rw [hentq]
    refine ⟨?_, ?_, ?_, ?_, ?_⟩
    · rw [hgi]; exact ⟨x, hx, by rw [hmk, hxk]⟩
    · rw [hgi, hmk]
      exact le_lastKey b 0 hpwb
    · rw [hentq, htake, diskBlocks_length_sum]
    · rw [hnext, hmk, hxk]
      intro e he
      apply hcross x hx e
      cases post with
      | nil => simp at he
      | cons c rest' =>
        simp only [List.headD_cons] at he
        simp [he]
    · rw [hmk, hxk]
      intro e he
      exact hcross x hx e (by simp [he])

theorem C25_index_ordering_witness :
    ((Writer.run rleCodec (NewWriter ⟨[], []⟩ (some ⟨30, 2, NoCompression⟩))
        [Op.append 1 [], Op.append 2 [0, 0, 0, 0, 0, 0, 0, 0, 0, 0, 0, 0, 0, 0, 0, 0, 0, 0, 0, 0],
          Op.append 2 [], Op.close, Op.append 9 []]).1.index.map
      (fun e => e.MaxKey)).Pairwise (fun a b => a < b) ∧
    ((Writer.run rleCodec (NewWriter ⟨[], []⟩ (some ⟨30, 2, NoCompression⟩))
        [Op.append 1 [], Op.append 2 [0, 0, 0, 0, 0, 0, 0, 0, 0, 0, 0, 0, 0, 0, 0, 0, 0, 0, 0, 0],
          Op.append 2 [], Op.close, Op.append 9 []]).1.index.map
      (fun e => e.Offset)).Pairwise (fun a b => a < b) := by
  obtain ⟨blocks, cur, rest, -, -, -, -, -, h1, h2, -⟩ :=
    C25_index_ordering rleCodec ⟨[], []⟩ (some ⟨30, 2, NoCompression⟩)
      [Op.append 1 [], Op.append 2 [0, 0, 0, 0, 0, 0, 0, 0, 0, 0, 0, 0, 0, 0, 0, 0, 0, 0, 0, 0],
        Op.append 2 [], Op.close, Op.append 9 []] (by decide)
      (by
        intro k v hm
        simp only [List.mem_cons, Op.append.injEq, List.mem_singleton, reduceCtorEq,
          List.not_mem_nil, or_false, false_or] at hm
        rcases hm with ⟨h, -⟩ | ⟨h, -⟩ | ⟨h, -⟩ | ⟨h, -⟩ <;> rw [h] <;> norm_num)
  exact ⟨h1, h2⟩

/-! ## The size of the current block -/

theorem room_step (sn : Codec) (w : Writer) (op : Op)
    (h : (w.blen ≤ 1 ∨ (w.buf.length : Int) ≤ w.o.BlockSize) ∧ (w.buf = [] ↔ w.blen = 0)) :
    (((w.step sn op).1.blen ≤ 1 ∨
        ((w.step sn op).1.buf.length : Int) ≤ (w.step sn op).1.o.BlockSize) ∧
      ((w.step sn op).1.buf = [] ↔ (w.step sn op).1.blen = 0)) := by
  obtain ⟨h1, h2⟩ := h
  have hflush : (w.flush sn).1.o = w.o ∧
      ((w.flush sn).1.blen ≤ 1 ∨ ((w.flush sn).1.buf.length : Int) ≤ w.o.BlockSize) ∧
      ((w.flush sn).1.buf = [] ↔ (w.flush sn).1.blen = 0) ∧
      (w.buf ≠ [] → (w.flush sn).1.blen = 0) := by
    obtain ⟨f1, -, -, f4⟩ := flush_fields sn w
    rcases f4 with ⟨g, g1⟩ | ⟨g, g2, -, g4, -⟩
    · rw [g1]
      exact ⟨rfl, h1, h2, fun hx => absurd g hx⟩
    · exact ⟨f1, Or.inl (by omega), by rw [g4, g2]; simp, fun _ => g2⟩
  have hput : ∀ (u : Writer) (key : Nat) (v : Bytes), (u.buf = [] ↔ u.blen = 0) →
      (u.blen = 0 ∨ ((u.buf.length + v.length + 20 : Nat) : Int) ≤ u.o.BlockSize) →
      ((u.put key v).blen ≤ 1 ∨ ((u.put key v).buf.length : Int) ≤ (u.put key v).o.BlockSize) ∧
      ((u.put key v).buf = [] ↔ (u.put key v).blen = 0) := by
    intro u key v hu hr
    obtain ⟨p1, -, p3, p4, -⟩ := put_fields u key v
    refine ⟨?_, ?_⟩
    · rcases hr with hr | hr
      · left; rw [p3, hr]
      · right
        rw [p1]
        have hl := put_buf_length u key v
        have a1 := PutUvarint_length_le (if (u.blen : Int) % u.o.BlockRestartInterval = 0 then key
          else (key + 2 ^ 64 - u.block.MaxKey) % 2 ^ 64)
        have a2 := PutUvarint_length_le v.length
        omega
    · rw [p3]
      constructor
      · intro hb; exact absurd hb p4
      · intro hb; omega
  cases op with
  | append key v =>
    have hstep : w.step sn (Op.append key v) = w.Append sn key v := rfl
    rw [hstep, Append_eq]
    by_cases ht : w.tmp = false
    · rw [if_pos ht]; exact ⟨h1, h2⟩
    · rw [if_neg ht]
      by_cases hoo : key ≤ w.block.MaxKey ∧ (w.blen ≠ 0 ∨ w.index.length ≠ 0)
      · rw [if_pos hoo]; exact ⟨h1, h2⟩
      · rw [if_neg hoo]
        obtain ⟨f1, f2, f3, f4⟩ := hflush
        by_cases hnf : w.needsFlush v
        · rw [if_pos hnf]
          have hne : w.buf ≠ [] := by
            intro hb
            exact hnf.1 (by rw [hb]; rfl)
          by_cases hok : (w.flush sn).2 = none
          · rw [if_pos hok]
            exact hput _ key v f3 (Or.inl (f4 hne))
          · rw [if_neg hok]
            exact ⟨by rw [f1]; exact f2, f3⟩
        · rw [if_neg hnf]
          refine hput w key v h2 ?_
          by_cases hb : w.blen = 0
          · exact Or.inl hb
          · right
            have hbuf : w.buf.length ≠ 0 := by
              intro h0
              exact hb (h2.1 (List.length_eq_zero.1 h0))
            unfold Writer.needsFlush at hnf
            simp only [MaxVarintLen64] at hnf
            by_contra hc
            exact hnf ⟨hbuf, by omega⟩
  | close =>
    have hstep : w.step sn Op.close = w.Close sn := rfl
    rw [hstep]
    rcases Close_fields sn w with ⟨-, hc⟩ | ⟨-, -, c1, -, c3, c4, -, -⟩
    · rw [hc]; exact ⟨h1, h2⟩
    · obtain ⟨f1, f2, f3, f4⟩ := hflush
      rw [c1, c3, c4]
      exact ⟨f2, f3⟩

theorem room_run (sn : Codec) (ops : List Op) : ∀ (w : Writer),
    ((w.blen ≤ 1 ∨ (w.buf.length : Int) ≤ w.o.BlockSize) ∧ (w.buf = [] ↔ w.blen = 0)) →
    (((Writer.run sn w ops).1.blen ≤ 1 ∨
        ((Writer.run sn w ops).1.buf.length : Int) ≤ (Writer.run sn w ops).1.o.BlockSize) ∧
      ((Writer.run sn w ops).1.buf = [] ↔ (Writer.run sn w ops).1.blen = 0)) := by
  induction ops with
  | nil => intro w h; exact h
  | cons op ops ih =>
    intro w h
    exact ih (w.step sn op).1 (room_step sn w op h)

theorem appendSoffs_head (l : List Nat) : ∀ (buf : Bytes),
    ∃ t, appendSoffs buf l = buf ++ t := by
  induction l with
  | nil => intro buf; exact ⟨[], by simp [appendSoffs]⟩
  | cons o rest ih =>
    intro buf
    simp only [appendSoffs]
    by_cases ho : 0 < o
    · rw [if_pos ho]
      obtain ⟨t, ht⟩ := ih (buf ++ PutUint32 o)
      exact ⟨PutUint32 o ++ t, by rw [ht, List.append_assoc]⟩
    · rw [if_neg ho]
      exact ih buf

/-- C27. After any sequence of `Append` and `Close` calls on a fresh writer, whatever
its sink does, the current block holds at most one entry (`blen <= 1`) or its buffer of
encoded entries has at most `BlockSize` bytes. When the sink accepts every write, the
accepted entries split into the flushed blocks `blocks` and the current block `cur`,
the sink holds the bytes of the flushed blocks, and the buffer of an open writer holds
the encoded entries of `cur`. The bytes `flush` wrote for a block start with its encoded
entries (the entries region), followed by the section offsets, the section count and,
when the block is stored uncompressed, the tag. Every flushed block of two or more
entries has an entries region of at most `BlockSize` bytes; a flushed block whose
entries region exceeds `BlockSize` has exactly one entry. -/
theorem C27_block_size_bound (sn : Codec) (sink : Sink) (o : Option WriterOptions)
    (ops : List Op) :
    ((Writer.run sn (NewWriter sink o) ops).1.blen ≤ 1 ∨
      ((Writer.run sn (NewWriter sink o) ops).1.buf.length : Int) ≤
        (WriterOptions.norm o).BlockSize) ∧
    (sink.accepting → (∀ k v, Op.append k v ∈ ops → k < 2 ^ 64) →
      ∃ (blocks : List (List Entry)) (cur : List Entry) (rest : Bytes),
        blocks.flatten ++ cur = accepted (Writer.run sn (NewWriter sink o) ops).2 ∧
        (Writer.run sn (NewWriter sink o) ops).1.w.data =
          sink.data ++ (blocks.map (diskBlock sn (WriterOptions.norm o))).flatten ++ rest ∧
        ((Writer.run sn (NewWriter sink o) ops).1.tmp = true → rest = [] ∧
          (Writer.run sn (NewWriter sink o) ops).1.blen = cur.length ∧
          (Writer.run sn (NewWriter sink o) ops).1.buf =
            encRun (WriterOptions.norm o).BlockRestartInterval 0 0 cur) ∧
        (cur.length ≤ 1 ∨
          ((encRun (WriterOptions.norm o).BlockRestartInterval 0 0 cur).length : Int) ≤
            (WriterOptions.norm o).BlockSize) ∧
        ∀ b ∈ blocks,
          (∃ t, diskBlock sn (WriterOptions.norm o) b =
            emitted sn (WriterOptions.norm o).Compression
              (encRun (WriterOptions.norm o).BlockRestartInterval 0 0 b ++ t)) ∧
          (2 ≤ b.length →
            ((encRun (WriterOptions.norm o).BlockRestartInterval 0 0 b).length : Int) ≤
              (WriterOptions.norm o).BlockSize) ∧
          ((WriterOptions.norm o).BlockSize <
              ((encRun (WriterOptions.norm o).BlockRestartInterval 0 0 b).length : Int) →
            b.length = 1)) := by
  constructor
  · have hr := room_run sn ops (NewWriter sink o) ⟨Or.inl (Nat.zero_le _), by simp [NewWriter]⟩
    have ho : (Writer.run sn (NewWriter sink o) ops).1.o = WriterOptions.norm o := by
      have : ∀ (l : List Op) (w : Writer), (Writer.run sn w l).1.o = w.o := by
        intro l
        induction l with
        | nil => intro w; rfl
        | cons op l ih =>
          intro w
          show (Writer.run sn (w.step sn op).1 l).1.o = w.o
          rw [ih]
          cases op with
          | append k v =>
            show (w.Append sn k v).1.o = w.o
            rw [Append_eq]
            obtain ⟨f1, -⟩ := flush_fields sn w
            split
            · rfl
            · split
              · rfl
              · split
                · split
                  · rw [(put_fields _ k v).1, f1]
                  · exact f1
                · exact (put_fields w k v).1
          | close =>
            show (w.Close sn).1.o = w.o
            rcases Close_fields sn w with ⟨-, hc⟩ | ⟨-, -, c1, -⟩
            · rw [hc]
            · exact c1
      exact this ops _
    rw [ho] at hr
    exact hr.1
  · intro hacc h64
    obtain ⟨ho, blocks, cur, h, hfl⟩ := carries_of_run sn sink o ops hacc h64
    obtain ⟨h1, h2, h3, h4, h5, h6, h7⟩ := h
    rw [ho] at h1 h5 h6 h7
    have hdata : ∃ rest, (Writer.run sn (NewWriter sink o) ops).1.w.data =
        sink.data ++ (blocks.map (diskBlock sn (WriterOptions.norm o))).flatten ++ rest ∧
        ((Writer.run sn (NewWriter sink o) ops).1.tmp = true → rest = [] ∧
          (Writer.run sn (NewWriter sink o) ops).1.blen = cur.length ∧
          (Writer.run sn (NewWriter sink o) ops).1.buf =
            encRun (WriterOptions.norm o).BlockRestartInterval 0 0 cur) := by
      cases ht : (Writer.run sn (NewWriter sink o) ops).1.tmp with
      | true =>
        obtain ⟨-, a2, -, -, a5, -, a7⟩ := h6 ht
        refine ⟨[], ?_, fun _ => ⟨rfl, a7, a5⟩⟩
        rw [a2, fileBlocks_diskBlocks, List.append_nil]
      | false =>
        refine ⟨encIndex (fileIndex 0 (diskBlocks sn (WriterOptions.norm o) blocks)) ++
          (PutUint64 (fileBlocks (diskBlocks sn (WriterOptions.norm o) blocks)).length ++ magic),
          ?_, fun hx => by cases hx⟩
        rw [(h7 ht).2, fileBytes, fileBlocks_diskBlocks]
        simp only [List.append_assoc]
    obtain ⟨rest, hd1, hd2⟩ := hdata
    refine ⟨blocks, cur, rest, hfl, hd1, hd2, blockFits_bound _ cur (h5 cur (by simp)), ?_⟩
    intro b hb
    have hsz := blockFits_bound _ b (h5 b (by simp [hb]))
    have hne := h2 b hb
    have hlen : 0 < b.length := List.length_pos.2 hne
    refine ⟨?_, ?_, ?_⟩
    · obtain ⟨t, ht⟩ := appendSoffs_head
        (runOffs (WriterOptions.norm o).BlockRestartInterval 0 0 0 b)
        (encRun (WriterOptions.norm o).BlockRestartInterval 0 0 b)
      refine ⟨t ++ PutUint32
        (runOffs (WriterOptions.norm o).BlockRestartInterval 0 0 0 b).length, ?_⟩
      unfold diskBlock framed
      rw [ht, List.append_assoc]
    · intro h2'
      rcases hsz with hs | hs
      · omega
      · exact hs
    · intro hbig
      rcases hsz with hs | hs
      · omega
      · omega

theorem C27_block_size_bound_witness :
    ((Writer.run rleCodec (NewWriter ⟨[], []⟩ (some ⟨5, 2, NoCompression⟩))
        [Op.append 1 [0, 0, 0, 0], Op.append 2 [], Op.close]).1.blen ≤ 1 ∨
      ((Writer.run rleCodec (NewWriter ⟨[], []⟩ (some ⟨5, 2, NoCompression⟩))
        [Op.append 1 [0, 0, 0, 0], Op.append 2 [], Op.close]).1.buf.length : Int) ≤
        (WriterOptions.norm (some ⟨5, 2, NoCompression⟩)).BlockSize) ∧
    ∃ (blocks : List (List Entry)) (cur : List Entry),
      blocks.flatten ++ cur =
        accepted (Writer.run rleCodec (NewWriter ⟨[], []⟩ (some ⟨5, 2, NoCompression⟩))
          [Op.append 1 [0, 0, 0, 0], Op.append 2 [], Op.close]).2 ∧
      ∀ b ∈ blocks, 2 ≤ b.length →
        ((encRun (WriterOptions.norm (some ⟨5, 2, NoCompression⟩)).BlockRestartInterval 0 0
          b).length : Int) ≤ (WriterOptions.norm (some ⟨5, 2, NoCompression⟩)).BlockSize := by
  have h := C27_block_size_bound rleCodec ⟨[], []⟩ (some ⟨5, 2, NoCompression⟩)
    [Op.append 1 [0, 0, 0, 0], Op.append 2 [], Op.close]
  refine ⟨h.1, ?_⟩
  obtain ⟨blocks, cur, rest, h1, -, -, -, h5⟩ := h.2 (by decide)
    (by
      intro k v hm
      simp only [List.mem_cons, Op.append.injEq, List.mem_singleton, reduceCtorEq,
        List.not_mem_nil, or_false] at hm
      rcases hm with ⟨h, -⟩ | ⟨h, -⟩ <;> rw [h] <;> norm_num)
  exact ⟨blocks, cur, h1, fun b hb => (h5 b hb).2.1⟩

/-! ## The block index, written and read back -/

theorem Append_tmp (sn : Codec) (w : Writer) (key : Nat) (v : Bytes) :
    (w.Append sn key v).1.tmp = w.tmp := by
  rw [Append_eq]
  obtain ⟨-, -, f3, -⟩ := flush_fields sn w
  split
  · rfl
  · split
    · rfl
    · split
      · split
        · rw [(put_fields _ key v).2.2.2.2.1, f3]
        · exact f3
      · exact (put_fields w key v).2.2.2.2.1

theorem run_appends_tmp (sn : Codec) (es : List Entry) : ∀ (w : Writer),
    (Writer.run sn w (appends es)).1.tmp = w.tmp := by
  induction es with
  | nil => intro w; rfl
  | cons e es ih =>
    intro w
    show (Writer.run sn (w.Append sn e.1 e.2).1 (appends es)).1.tmp = w.tmp
    rw [ih, Append_tmp]

theorem accepted_length_le (sn : Codec) (es : List Entry) : ∀ (w : Writer),
    (accepted (Writer.run sn w (appends es)).2).length ≤ es.length := by
  induction es with
  | nil => intro w; simp [appends, Writer.run, accepted]
  | cons e es ih =>
    intro w
    have h := ih (w.Append sn e.1 e.2).1
    show (accepted ((Op.append e.1 e.2, (w.Append sn e.1 e.2).2) ::
      (Writer.run sn (w.Append sn e.1 e.2).1 (appends es)).2)).length ≤ (e :: es).length
    cases (w.Append sn e.1 e.2).2 with
    | none => simp only [accepted, List.length_cons]; omega
    | some x => simp only [accepted, List.length_cons]; omega

theorem mem_appends (es : List Entry) (k : Nat) (v : Bytes) (h : Op.append k v ∈ appends es) :
    (k, v) ∈ es := by
  unfold appends at h
  obtain ⟨e, he, heq⟩ := List.mem_map.1 h
  simp only [Op.append.injEq] at heq
  have : e = (k, v) := Prod.ext heq.1 heq.2
  rw [← this]; exact he

theorem closed_of_write (sn : Codec) (o : Option WriterOptions) (es : List Entry)
    (h64 : ∀ e ∈ es, e.1 < 2 ^ 64) :
    ∃ blocks : List (List Entry),
      blocks.flatten = accepted (Writer.run sn (NewWriter ⟨[], []⟩ o) (appends es)).2 ∧
      (Writer.run sn (NewWriter ⟨[], []⟩ o) (appends es ++ [Op.close])).1.carries sn []
        blocks [] ∧
      (Writer.run sn (NewWriter ⟨[], []⟩ o) (appends es ++ [Op.close])).1.o =
        WriterOptions.norm o ∧
      writeTable sn o es = fileBytes (diskBlocks sn (WriterOptions.norm o) blocks) := by
  obtain ⟨ho, done, cur, hc, hfl⟩ := carries_of_run sn ⟨[], []⟩ o (appends es)
    (by intro x hx; simp at hx) (fun k v hm => h64 (k, v) (mem_appends es k v hm))
  have ht : (Writer.run sn (NewWriter ⟨[], []⟩ o) (appends es)).1.tmp = true := by
    rw [run_appends_tmp]; rfl
  obtain ⟨ho2, done', hc', hfl'⟩ := carries_Close sn _ [] done cur hc
  have hok := Close_accepting sn _ ht (hc.2.2.2.2.2.1 ht).1
  have htf : ((Writer.run sn (NewWriter ⟨[], []⟩ o) (appends es)).1.Close sn).1.tmp = false := by
    rcases Close_fields sn (Writer.run sn (NewWriter ⟨[], []⟩ o) (appends es)).1 with
      ⟨h1, -⟩ | ⟨-, -, -, -, -, -, -, c6⟩
    · rw [ht] at h1; cases h1
    · by_contra hx
      have : ((Writer.run sn (NewWriter ⟨[], []⟩ o) (appends es)).1.Close sn).1.tmp = true := by
        simpa using hx
      exact (c6.1 this) hok
  have hrun : (Writer.run sn (NewWriter ⟨[], []⟩ o) (appends es ++ [Op.close])).1 =
      ((Writer.run sn (NewWriter ⟨[], []⟩ o) (appends es)).1.Close sn).1 := by
    rw [run_snoc]; rfl
  have hoo : ((Writer.run sn (NewWriter ⟨[], []⟩ o) (appends es)).1.Close sn).1.o =
      WriterOptions.norm o := by rw [ho2, ho]
  refine ⟨done', by rw [hfl', hfl], by rw [hrun]; exact hc', by rw [hrun]; exact hoo, ?_⟩
  have hd := (hc'.2.2.2.2.2.2 htf).2
  rw [hoo] at hd
  unfold writeTable
  rw [hrun, hd]
  rfl

/-- C22. Write a table: `Append` for each of the entries `es` (out-of-order ones are
rejected), then `Close`. The accepted entries split into the blocks the writer flushed,
`blocks`, and the file is the bytes of these blocks, the encoded index and the footer.
`NewReader` opens the file. Its index is the index the writer recorded: one entry per
block, so `NumBlocks()` is the number of blocks, and entry `i` holds the greatest key of
block `i` and the file offset at which block `i` starts. Its `maxOffset` is the total
length of the blocks, which is the index offset the footer stores. -/
theorem C22_index_round_trip (sn : Codec) (o : Option WriterOptions) (es : List Entry)
    (h64 : ∀ e ∈ es, e.1 < 2 ^ 64) (hsize : (writeTable sn o es).length < 2 ^ 63)
    (fuel : Nat) (hfuel : es.length ≤ fuel) :
    ∃ (blocks : List (List Entry)) (r : Reader),
      blocks.flatten = accepted (Writer.run sn (NewWriter ⟨[], []⟩ o) (appends es)).2 ∧
      (∀ b ∈ blocks, b ≠ []) ∧
      NewReader fuel (writeTable sn o es) ((writeTable sn o es).length : Int) = Res.ok r ∧
      r.index = (Writer.run sn (NewWriter ⟨[], []⟩ o) (appends es ++ [Op.close])).1.index ∧
      r.NumBlocks = blocks.length ∧
      writeTable sn o es =
        (blocks.map (diskBlock sn (WriterOptions.norm o))).flatten ++ encIndex r.index ++
          (PutUint64 r.maxOffset.toNat ++ magic) ∧
      r.maxOffset = (((blocks.map (diskBlock sn (WriterOptions.norm o))).flatten.length : Nat) :
        Int) ∧
      Uint64 ((writeTable sn o es).drop ((writeTable sn o es).length - 16)) =
        some r.maxOffset.toNat ∧
      ∀ i ent, r.index.get? i = some ent →
        (∃ e ∈ blocks.getD i [], ent.MaxKey = e.1) ∧
        (∀ e ∈ blocks.getD i [], e.1 ≤ ent.MaxKey) ∧
        ent.Offset = ((((blocks.take i).map
          (diskBlock sn (WriterOptions.norm o))).flatten.length : Nat) : Int) := by
  obtain ⟨blocks, hfl, hc, ho, hfile⟩ := closed_of_write sn o es h64
  obtain ⟨h1, h2, h3, h4, -⟩ := hc
  rw [ho] at h1
  have hkeys : ∀ b ∈ diskBlocks sn (WriterOptions.norm o) blocks, b.1 < 2 ^ 64 := by
    intro b hb
    obtain ⟨x, hx, rfl⟩ := List.mem_map.1 hb
    obtain ⟨e, he, hek⟩ := lastKey_mem 0 x (h2 x hx)
    show lastKey 0 x < 2 ^ 64
    rw [hek]
    exact h4 e (by
      rw [List.append_nil]
      exact List.mem_flatten.2 ⟨x, hx, he⟩)
  have hsz : (fileBlocks (diskBlocks sn (WriterOptions.norm o) blocks)).length < 2 ^ 63 := by
    have := fileBlocks_length_le (diskBlocks sn (WriterOptions.norm o) blocks)
    rw [hfile] at hsize
    omega
  have hlen : (diskBlocks sn (WriterOptions.norm o) blocks).length ≤ fuel := by
    rw [diskBlocks_length]
    have a1 := length_le_flatten blocks h2
    have a2 := accepted_length_le sn es (NewWriter ⟨[], []⟩ o)
    rw [← hfl] at a2
    omega
  have hr := NewReader_fileBytes (diskBlocks sn (WriterOptions.norm o) blocks) fuel hkeys hsz hlen
  rw [← hfile] at hr
  have hpw : (blocks.flatten).Pairwise (fun a b => a.1 < b.1) := by
    simpa using h3
  refine ⟨blocks, _, hfl, h2, hr, h1.symm, ?_, ?_, ?_, ?_, ?_⟩
  · show (fileIndex 0 (diskBlocks sn (WriterOptions.norm o) blocks)).length = blocks.length
    rw [fileIndex_length, diskBlocks_length]
  · rw [hfile, fileBytes, fileBlocks_diskBlocks]
    simp only [Int.toNat_ofNat]
  · show ((fileBlocks (diskBlocks sn (WriterOptions.norm o) blocks)).length : Int) = _
    rw [fileBlocks_diskBlocks]
  · have hdrop : (writeTable sn o es).drop ((writeTable sn o es).length - 16) =
        PutUint64 (fileBlocks (diskBlocks sn (WriterOptions.norm o) blocks)).length ++ magic := by
      rw [hfile, fileBytes]
      apply List.drop_left'
      simp only [List.length_append, PutUint64_length, magic_length]
      omega
    rw [hdrop, Uint64_PutUint64]
    simp only [Int.toNat_ofNat]
    rw [Nat.mod_eq_of_lt (by omega)]
  · intro i ent hent
    obtain ⟨pre, b, post, hsplit, hlen', hgi, htake, -, hentq⟩ :=
      diskIndex_get sn _ blocks i ent hent
    have hb : b ≠ [] := h2 b (by rw [hsplit]; simp)
    have hpwb : b.Pairwise (fun a b => a.1 < b.1) := by
      rw [hsplit] at hpw
      simp only [List.flatten_append, List.flatten_cons] at hpw
      exact (List.pairwise_append.1 (List.pairwise_append.1 hpw).2.1).1
    obtain ⟨x, hx, hxk⟩ := lastKey_mem 0 b hb
    have hmk : ent.MaxKey = lastKey 0 b := by rw [hentq]
    refine ⟨?_, ?_, ?_⟩
    · rw [hgi]; exact ⟨x, hx, by rw [hmk, hxk]⟩
    · rw [hgi, hmk]
      exact le_lastKey b 0 hpwb
    · rw [hentq, htake, fileBlocks_diskBlocks]

set_option maxRecDepth 100000 in
theorem C22_index_round_trip_witness :
    ∃ r, NewReader 4
        (writeTable rleCodec (some ⟨30, 2, SnappyCompression⟩)
          [(3, [7]), (5, [0, 0, 0, 0, 0, 0, 0, 0, 0, 0, 0, 0]), (4, [1]), (900, [])])
        ((writeTable rleCodec (some ⟨30, 2, SnappyCompression⟩)
          [(3, [7]), (5, [0, 0, 0, 0, 0, 0, 0, 0, 0, 0, 0, 0]), (4, [1]), (900, [])]).length :
            Int) = Res.ok r ∧
      r.index = (Writer.run rleCodec (NewWriter ⟨[], []⟩ (some ⟨30, 2, SnappyCompression⟩))
        (appends [(3, [7]), (5, [0, 0, 0, 0, 0, 0, 0, 0, 0, 0, 0, 0]), (4, [1]), (900, [])] ++
          [Op.close])).1.index := by
  obtain ⟨blocks, r, -, -, h3, h4, -⟩ := C22_index_round_trip rleCodec
    (some ⟨30, 2, SnappyCompression⟩)
    [(3, [7]), (5, [0, 0, 0, 0, 0, 0, 0, 0, 0, 0, 0, 0]), (4, [1]), (900, [])]
    (by decide) (by decide) 4 (by decide)
  exact ⟨r, h3, h4⟩

/-! ## The layout of a block: the writer against the specification -/

theorem encRun_append (R : Int) (a b : List Entry) : ∀ (i prev : Nat),
    encRun R i prev (a ++ b) =
      encRun R i prev a ++ encRun R (i + a.length) (lastKey prev a) b := by
  induction a with
  | nil => intro i prev; simp [encRun, lastKey]
  | cons x rest ih =>
    intro i prev
    show encStep R i prev x ++ encRun R (i + 1) x.1 (rest ++ b) =
      (encStep R i prev x ++ encRun R (i + 1) x.1 rest) ++
        encRun R (i + (rest.length + 1)) (lastKey x.1 rest) b
    rw [ih, List.append_assoc, show i + 1 + rest.length = i + (rest.length + 1) by omega]

theorem runOffs_append (R : Int) (a b : List Entry) : ∀ (i prev base : Nat),
    runOffs R i prev base (a ++ b) =
      runOffs R i prev base a ++
        runOffs R (i + a.length) (lastKey prev a) (base + (encRun R i prev a).length) b := by
  induction a with
  | nil => intro i prev base; simp [runOffs, encRun, lastKey]
  | cons x rest ih =>
    intro i prev base
    show (if (i : Int) % R = 0 then [base] else []) ++
        runOffs R (i + 1) x.1 (base + (encStep R i prev x).length) (rest ++ b) =
      ((if (i : Int) % R = 0 then [base] else []) ++
        runOffs R (i + 1) x.1 (base + (encStep R i prev x).length) rest) ++
        runOffs R (i + (rest.length + 1)) (lastKey x.1 rest)
          (base + (encStep R i prev x ++ encRun R (i + 1) x.1 rest).length) b
    rw [ih, List.append_assoc, show i + 1 + rest.length = i + (rest.length + 1) by omega,
      List.length_append, Nat.add_assoc]

theorem specSections_nil (R : Nat) : specSections R [] = [] := by
  unfold specSections
  have : ([] : List Entry).length + R - 1 = R - 1 := by simp
  rw [this]
  rcases Nat.eq_zero_or_pos R with h | h
  · subst h; rfl
  · rw [Nat.div_eq_of_lt (by omega)]; rfl

theorem specSections_cons (R : Nat) (hR : 0 < R) (es : List Entry) (hne : es ≠ []) :
    specSections R es = es.take R :: specSections R (es.drop R) := by
  unfold specSections
  have hm : 0 < es.length := List.length_pos.2 hne
  have hcnt : (es.length + R - 1) / R = ((es.drop R).length + R - 1) / R + 1 := by
    rw [List.length_drop]
    rcases Nat.lt_or_ge R es.length with h | h
    · have : es.length + R - 1 = (es.length - R + R - 1) + R := by omega
      rw [this, Nat.add_div_right _ hR]
    · have h0 : es.length - R = 0 := by omega
      rw [h0]
      have h1 : (0 + R - 1) / R = 0 := Nat.div_eq_of_lt (by omega)
      rw [h1]
      have h2 : es.length + R - 1 = (es.length - 1) + R := by omega
      rw [h2, Nat.add_div_right _ hR, Nat.div_eq_of_lt (by omega)]
  rw [hcnt, List.range_succ_eq_map, List.map_cons, List.map_map]
  congr 1
  · simp
  · apply List.map_congr_left
    intro j _
    simp only [Function.comp, List.drop_drop]
    congr 2
    rw [Nat.succ_mul]; omega

theorem encRun_plain (n : Nat) (s : List Entry) : ∀ (i prev base : Nat),
    (∀ t, t < s.length → (i + t) % n ≠ 0) → s.Pairwise (fun a b => a.1 < b.1) →
    (∀ e ∈ s, prev ≤ e.1 ∧ e.1 < 2 ^ 64) →
    encRun (n : Int) i prev s = encSec prev s ∧ runOffs (n : Int) i prev base s = [] := by
  induction s with
  | nil => intro i prev base _ _ _; exact ⟨rfl, rfl⟩
  | cons e rest ih =>
    intro i prev base hpos hpw hb
    rw [List.pairwise_cons] at hpw
    have h0 : ¬ ((i : Int) % (n : Int) = 0) := by
      have := hpos 0 (by simp)
      rw [Nat.add_zero] at this
      intro hc
      apply this
      exact_mod_cast hc
    obtain ⟨hp, h64⟩ := hb e (by simp)
    have hstep : encStep (n : Int) i prev e = encEntry (e.1 - prev) e.2 := by
      unfold encStep
      rw [if_neg h0]
      congr 1
      have : e.1 + 2 ^ 64 - prev = (e.1 - prev) + 2 ^ 64 := by omega
      rw [this, Nat.add_mod_right, Nat.mod_eq_of_lt (by omega)]
    obtain ⟨ih1, ih2⟩ := ih (i + 1) e.1 (base + (encStep (n : Int) i prev e).length)
      (by
        intro t ht
        have := hpos (t + 1) (by simp; omega)
        rw [show i + 1 + t = i + (t + 1) by omega]
        exact this)
      hpw.2
      (fun x hx => ⟨Nat.le_of_lt (hpw.1 x hx), (hb x (by simp [hx])).2⟩)
    constructor
    · show encStep (n : Int) i prev e ++ encRun (n : Int) (i + 1) e.1 rest =
        encEntry (e.1 - prev) e.2 ++ encSec e.1 rest
      rw [hstep, ih1]
    · show (if (i : Int) % (n : Int) = 0 then [base] else []) ++
        runOffs (n : Int) (i + 1) e.1 (base + (encStep (n : Int) i prev e).length) rest = []
      rw [if_neg h0, ih2]
      rfl

theorem encRun_section (n : Nat) (s : List Entry) (i prev base : Nat)
    (hs : s ≠ []) (hlen : s.length ≤ n) (hi : i % n = 0)
    (hpw : s.Pairwise (fun a b => a.1 < b.1)) (hb : ∀ e ∈ s, e.1 < 2 ^ 64) :
    encRun (n : Int) i prev s = encSec 0 s ∧ runOffs (n : Int) i prev base s = [base] := by
  cases s with
  | nil => exact absurd rfl hs
  | cons e rest =>
    rw [List.pairwise_cons] at hpw
    have h0 : (i : Int) % (n : Int) = 0 := by exact_mod_cast hi
    have hstep : encStep (n : Int) i prev e = encEntry (e.1 - 0) e.2 := by
      unfold encStep
      rw [if_pos h0]
      rfl
    obtain ⟨ih1, ih2⟩ := encRun_plain n rest (i + 1) e.1
      (base + (encStep (n : Int) i prev e).length)
      (by
        intro t ht
        simp only [List.length_cons] at hlen
        rw [show i + 1 + t = i + (t + 1) by omega, Nat.add_mod, hi, Nat.zero_add,
          Nat.mod_mod, Nat.mod_eq_of_lt (by omega)]
        omega)
      hpw.2
      (fun x hx => ⟨Nat.le_of_lt (hpw.1 x hx), hb x (by simp [hx])⟩)
    constructor
    · show encStep (n : Int) i prev e ++ encRun (n : Int) (i + 1) e.1 rest =
        encEntry (e.1 - 0) e.2 ++ encSec e.1 rest
      rw [hstep, ih1]
    · show (if (i : Int) % (n : Int) = 0 then [base] else []) ++
        runOffs (n : Int) (i + 1) e.1 (base + (encStep (n : Int) i prev e).length) rest = [base]
      rw [if_pos h0, ih2]
      rfl

theorem encRun_sections (n : Nat) (hn : 0 < n) : ∀ (m : Nat) (es : List Entry),
    es.length ≤ m → ∀ (i prev base : Nat), (es ≠ [] → i % n = 0) →
    es.Pairwise (fun a b => a.1 < b.1) → (∀ e ∈ es, e.1 < 2 ^ 64) →
    encRun (n : Int) i prev es = secsBytes (specSections n es) ∧
    runOffs (n : Int) i prev base es = secOffsets base (specSections n es) := by
  intro m
  induction m with
  | zero =>
    intro es hlen i prev base _ _ _
    have : es = [] := List.length_eq_zero.1 (by omega)
    subst this
    rw [specSections_nil]
    exact ⟨rfl, rfl⟩
  | succ m ih =>
    intro es hlen i prev base hi hpw hb
    by_cases hne : es = []
    · subst hne
      rw [specSections_nil]
      exact ⟨rfl, rfl⟩
    · have hm : 0 < es.length := List.length_pos.2 hne
      have hsplit : es = es.take n ++ es.drop n := (List.take_append_drop n es).symm
      have hpw' : (es.take n ++ es.drop n).Pairwise (fun a b => a.1 < b.1) := by
        rw [← hsplit]; exact hpw
      have hpa := List.pairwise_append.1 hpw'
      have htake_ne : es.take n ≠ [] := by
        intro h
        have := congrArg List.length h
        rw [List.length_take] at this
        simp only [List.length_nil] at this
        omega
      have htl : (es.take n).length ≤ n := by rw [List.length_take]; omega
      obtain ⟨s1, s2⟩ := encRun_section n (es.take n) i prev base htake_ne htl (hi hne)
        hpa.1 (fun e he => hb e (List.mem_of_mem_take he))
      obtain ⟨r1, r2⟩ := ih (es.drop n) (by rw [List.length_drop]; omega)
        (i + (es.take n).length) (lastKey prev (es.take n))
        (base + (encRun (n : Int) i prev (es.take n)).length)
        (by
          intro hd
          have hlt : n < es.length := by
            by_contra hc
            apply hd
            exact List.drop_eq_nil_of_le (by omega)
          rw [List.length_take, Nat.min_eq_left (by omega), Nat.add_mod, hi hne,
            Nat.mod_self]
          simp)
        hpa.2.1 (fun e he => hb e (List.mem_of_mem_drop he))
      rw [specSections_cons n hn es hne]
      constructor
      · conv_lhs => rw [hsplit]
        rw [encRun_append, s1, r1]
        rfl
      · conv_lhs => rw [hsplit]
        rw [runOffs_append, s2, r2, s1]
        rfl

theorem blockFits_offsets (o : WriterOptions) (b : List Entry) (h : blockFits o b) :
    ∀ x ∈ runOffs o.BlockRestartInterval 0 0 0 b, x = 0 ∨ ((x + 20 : Nat) : Int) ≤ o.BlockSize := by
  induction b using List.reverseRecOn with
  | nil => intro x hx; simp [runOffs] at hx
  | append_singleton es e ih =>
    intro x hx
    rw [runOffs_snoc] at hx
    rcases List.mem_append.1 hx with hx1 | hx1
    · exact ih (blockFits_init o es e h) x hx1
    · by_cases hf : ((0 + es.length : Nat) : Int) % o.BlockRestartInterval = 0
      · rw [if_pos hf] at hx1
        simp only [List.mem_singleton, Nat.zero_add] at hx1
        by_cases hes : es = []
        · left; rw [hx1, hes]; rfl
        · right
          have := h es e [] rfl hes
          rw [hx1]
          omega
      · rw [if_neg hf] at hx1
        simp at hx1

theorem encRun_length_ge (R : Int) (es : List Entry) : ∀ (i prev : Nat),
    2 * es.length ≤ (encRun R i prev es).length := by
  induction es with
  | nil => intro i prev; simp
  | cons e rest ih =>
    intro i prev
    have h1 := ih (i + 1) e.1
    have h2 : 2 ≤ (encStep R i prev e).length := encEntry_length_ge _ _
    simp only [encRun, List.length_append, List.length_cons]
    omega

theorem specSections_length_le (n : Nat) (hn : 0 < n) (es : List Entry) :
    (specSections n es).length ≤ es.length := by
  unfold specSections
  rw [List.length_map, List.length_range]
  rcases Nat.eq_zero_or_pos es.length with h | h
  · rw [h, Nat.zero_add, Nat.div_eq_of_lt (by omega)]
  · apply Nat.div_le_of_le_mul
    obtain ⟨a, ha⟩ : ∃ a, n = a + 1 := ⟨n - 1, by omega⟩
    obtain ⟨c, hc⟩ : ∃ c, es.length = c + 1 := ⟨es.length - 1, by omega⟩
    rw [hc, ha]
    have : (a + 1) * (c + 1) = a * c + a + c + 1 := by ring
    omega

theorem norm_interval (o : Option WriterOptions) :
    1 ≤ (WriterOptions.norm o).BlockRestartInterval := by
  unfold WriterOptions.norm
  simp only
  split_ifs <;> simp_all

theorem specBlock_eq (sn : Codec) (o : WriterOptions) (b : List Entry)
    (hnc : o.Compression = NoCompression) (hR : 1 ≤ o.BlockRestartInterval)
    (hbs : o.BlockSize < 2 ^ 32 + 20) (hne : b ≠ [])
    (hpw : b.Pairwise (fun a b => a.1 < b.1)) (h64 : ∀ e ∈ b, e.1 < 2 ^ 64)
    (hfit : blockFits o b) :
    specBlock o.BlockRestartInterval.toNat b = some (diskBlock sn o b) := by
  have hn : ((o.BlockRestartInterval.toNat : Nat) : Int) = o.BlockRestartInterval :=
    Int.toNat_of_nonneg (by omega)
  have hn0 : 0 < o.BlockRestartInterval.toNat := by omega
  obtain ⟨e1, e2⟩ := encRun_sections o.BlockRestartInterval.toNat hn0 b.length b (le_refl _)
    0 0 0 (fun _ => Nat.zero_mod _) hpw h64
  rw [hn] at e1 e2
  have hsec := specSections_cons o.BlockRestartInterval.toNat hn0 b hne
  have hs : b.take o.BlockRestartInterval.toNat ≠ [] := by
    intro h
    have := congrArg List.length h
    rw [List.length_take] at this
    have hm : 0 < b.length := List.length_pos.2 hne
    simp only [List.length_nil] at this
    omega
  have hoff : ∀ x ∈ (secOffsets 0 (specSections o.BlockRestartInterval.toNat b)).tail,
      x < 2 ^ 32 := by
    intro x hx
    have hx' := List.mem_of_mem_tail hx
    rw [← e2] at hx'
    rcases blockFits_offsets o b hfit x hx' with h | h
    · rw [h]; norm_num
    · omega
  have hN : (specSections o.BlockRestartInterval.toNat b).length < 2 ^ 32 := by
    have h1 := specSections_length_le o.BlockRestartInterval.toNat hn0 b
    have h2 := encRun_length_ge o.BlockRestartInterval b 0 0
    rcases blockFits_bound o b hfit with h | h
    · omega
    · omega
  simp only [specBlock]
  rw [if_pos ⟨hoff, hN⟩]
  congr 1
  unfold diskBlock
  rw [hnc, emitted_NoCompression, e1, e2]
  have hbp : framed (secsBytes (specSections o.BlockRestartInterval.toNat b))
      (secOffsets 0 (specSections o.BlockRestartInterval.toNat b)) =
      blockPayload (specSections o.BlockRestartInterval.toNat b) := rfl
  rw [hbp, hsec, blockPayload_eq _ _ hs]
  simp only [secOffsets, List.tail_cons, Nat.zero_add]
  rfl

/-- C23, as amended. Write a table without compression under options whose normalised
`BlockSize` is below `2^32 + 20`: `Append` for each of the entries `es`, then `Close`.
The accepted entries split into the blocks the writer flushed, and the file is, block
after block, the bytes the specification gives for a block holding these entries under
the restart interval (`specBlock`: the sections of up to `R` entries, the `u32` start
offsets of the sections after the first, the `u32` section count, the tag 0x00),
followed by the index and the footer. -/
theorem C23_block_layout (sn : Codec) (o : Option WriterOptions) (es : List Entry)
    (h64 : ∀ e ∈ es, e.1 < 2 ^ 64)
    (hnc : (WriterOptions.norm o).Compression = NoCompression)
    (hbs : (WriterOptions.norm o).BlockSize < 2 ^ 32 + 20) :
    ∃ (blocks : List (List Entry)) (layouts : List Bytes),
      blocks.flatten = accepted (Writer.run sn (NewWriter ⟨[], []⟩ o) (appends es)).2 ∧
      (∀ b ∈ blocks, b ≠ []) ∧
      blocks.map (specBlock (WriterOptions.norm o).BlockRestartInterval.toNat) =
        layouts.map some ∧
      writeTable sn o es =
        layouts.flatten ++
          (encIndex (Writer.run sn (NewWriter ⟨[], []⟩ o) (appends es ++ [Op.close])).1.index ++
            (PutUint64 layouts.flatten.length ++ magic)) := by
  obtain ⟨blocks, hfl, hc, ho, hfile⟩ := closed_of_write sn o es h64
  obtain ⟨h1, h2, h3, h4, h5, -⟩ := hc
  rw [ho] at h1 h5
  have hpw : (blocks.flatten).Pairwise (fun a b => a.1 < b.1) := by
    simpa using h3
  refine ⟨blocks, blocks.map (diskBlock sn (WriterOptions.norm o)), hfl, h2, ?_, ?_⟩
  · rw [List.map_map]
    apply List.map_congr_left
    intro b hb
    obtain ⟨pre, post, hsplit⟩ := List.append_of_mem hb
    have hpwb : b.Pairwise (fun a b => a.1 < b.1) := by
      rw [hsplit] at hpw
      simp only [List.flatten_append, List.flatten_cons] at hpw
      exact (List.pairwise_append.1 (List.pairwise_append.1 hpw).2.1).1
    exact specBlock_eq sn (WriterOptions.norm o) b hnc (norm_interval o) hbs (h2 b hb) hpwb
      (fun e he => h4 e (by
        rw [List.append_nil]
        exact List.mem_flatten.2 ⟨b, hb, he⟩))
      (h5 b (by simp [hb]))
  · rw [hfile, fileBytes, h1, fileBlocks_diskBlocks, List.append_assoc]

set_option maxRecDepth 100000 in
theorem C23_block_layout_witness :
    ∃ (blocks : List (List Entry)) (layouts : List Bytes),
      blocks.flatten = accepted (Writer.run rleCodec
        (NewWriter ⟨[], []⟩ (some ⟨30, 2, NoCompression⟩))
        (appends [(3, [7]), (5, [0, 0, 0, 0, 0, 0, 0, 0, 0, 0, 0, 0]), (4, [1]), (900, [])])).2 ∧
      blocks.map (specBlock 2) = layouts.map some ∧
      writeTable rleCodec (some ⟨30, 2, NoCompression⟩)
          [(3, [7]), (5, [0, 0, 0, 0, 0, 0, 0, 0, 0, 0, 0, 0]), (4, [1]), (900, [])] =
        layouts.flatten ++
          (encIndex (Writer.run rleCodec (NewWriter ⟨[], []⟩ (some ⟨30, 2, NoCompression⟩))
            (appends [(3, [7]), (5, [0, 0, 0, 0, 0, 0, 0, 0, 0, 0, 0, 0]), (4, [1]), (900, [])] ++
              [Op.close])).1.index ++
            (PutUint64 layouts.flatten.length ++ magic)) := by
  obtain ⟨blocks, layouts, h1, -, h3, h4⟩ := C23_block_layout rleCodec
    (some ⟨30, 2, NoCompression⟩)
    [(3, [7]), (5, [0, 0, 0, 0, 0, 0, 0, 0, 0, 0, 0, 0]), (4, [1]), (900, [])]
    (by decide) (by decide) (by decide)
  exact ⟨blocks, layouts, h1, h3, h4⟩

theorem specBlock_wide (V : Bytes) (hV : V.length = 2 ^ 32 - 6) :
    specBlock 1 [(1, V), (2, [])] = none := by
  have hs : specSections 1 [(1, V), (2, [])] = [[(1, V)], [(2, [])]] := by
    rw [specSections_cons 1 (by decide) _ (by simp)]
    simp only [List.take, List.drop]
    rw [specSections_cons 1 (by decide) _ (by simp)]
    simp only [List.take, List.drop]
    rw [specSections_nil]
  have hl : (encSec 0 [((1 : Nat), V)]).length = 2 ^ 32 := by
    show (encEntry (1 - 0) V ++ []).length = 2 ^ 32
    rw [List.append_nil]
    exact encEntry_one_length V hV
  simp only [specBlock, hs]
  rw [if_neg]
  rintro ⟨h, -⟩
  have := h (2 ^ 32) (by
    simp only [secOffsets, List.tail_cons, Nat.zero_add, hl]
    exact List.mem_cons_self _ _)
  omega

/-- C23 fails as stated. Under `wideOptions` (block size `2^32 + 20`, restart interval 1,
no compression) the entries `(1, wideValue)` and `(2, [])` are accepted and written as
one block. Its second section starts at offset `2^32`, the length of the first section.
The specification gives no bytes for this block, since the start offset does not fit a
`u32`; the writer wrote the block with the four bytes of the `uint32` 0 in the place of
the start offset. -/
theorem C23_block_layout_counterexample :
    (WriterOptions.norm wideOptions).Compression = NoCompression ∧
    (WriterOptions.norm wideOptions).BlockRestartInterval = 1 ∧
    wideEntries.Pairwise (fun a b => a.1 < b.1) ∧
    writeTable rleCodec wideOptions wideEntries =
      fileBytes [(2, ((encSec 0 [(1, wideValue)] ++ encSec 0 [(2, [])]) ++
        (PutUint32 (2 ^ 32) ++ PutUint32 2)) ++ [0x00])] ∧
    (encSec 0 [(1, wideValue)]).length = 2 ^ 32 ∧
    Uint32 (PutUint32 (2 ^ 32)) = some 0 ∧
    specBlock 1 wideEntries = none := by
  refine ⟨rfl, rfl, by simp [wideEntries], ?_, ?_, rfl, ?_⟩
  · have := writeTable_wide rleCodec wideValue wideValue_length
    rw [show wideEntries = [(1, wideValue), (2, [])] from rfl, this]
    simp only [encSec, List.append_nil, Nat.sub_zero]
    rfl
  · show (encEntry (1 - 0) wideValue ++ []).length = 2 ^ 32
    rw [List.append_nil]
    exact encEntry_one_length wideValue wideValue_length
  · exact specBlock_wide wideValue wideValue_length

/-! ## The sections of a written table, whatever the order of the appends -/

theorem specSections_flatten (n : Nat) (hn : 0 < n) : ∀ (m : Nat) (es : List Entry),
    es.length ≤ m → (specSections n es).flatten = es ∧ ∀ s ∈ specSections n es, s ≠ [] := by
  intro m
  induction m with
  | zero =>
    intro es hlen
    have : es = [] := List.length_eq_zero.1 (by omega)
    subst this
    rw [specSections_nil]
    exact ⟨rfl, by intro s hs; simp at hs⟩
  | succ m ih =>
    intro es hlen
    by_cases hne : es = []
    · subst hne
      rw [specSections_nil]
      exact ⟨rfl, by intro s hs; simp at hs⟩
    · have hm : 0 < es.length := List.length_pos.2 hne
      obtain ⟨i1, i2⟩ := ih (es.drop n) (by rw [List.length_drop]; omega)
      rw [specSections_cons n hn es hne]
      constructor
      · rw [List.flatten_cons, i1, List.take_append_drop]
      · intro s hs
        rcases List.mem_cons.1 hs with h | h
        · rw [h]
          intro hc
          have := congrArg List.length hc
          rw [List.length_take] at this
          simp only [List.length_nil] at this
          omega
        · exact i2 s h

theorem diskBlock_eq_blockBytes (sn : Codec) (o : WriterOptions) (b : List Entry)
    (hR : 1 ≤ o.BlockRestartInterval) (hpw : b.Pairwise (fun a b => a.1 < b.1))
    (h64 : ∀ e ∈ b, e.1 < 2 ^ 64) :
    diskBlock sn o b = blockBytes sn o.Compression (specSections o.BlockRestartInterval.toNat b) ∧
    runOffs o.BlockRestartInterval 0 0 0 b =
      secOffsets 0 (specSections o.BlockRestartInterval.toNat b) := by
  have hn : ((o.BlockRestartInterval.toNat : Nat) : Int) = o.BlockRestartInterval :=
    Int.toNat_of_nonneg (by omega)
  have hn0 : 0 < o.BlockRestartInterval.toNat := by omega
  obtain ⟨e1, e2⟩ := encRun_sections o.BlockRestartInterval.toNat hn0 b.length b (le_refl _)
    0 0 0 (fun _ => Nat.zero_mod _) hpw h64
  rw [hn] at e1 e2
  refine ⟨?_, e2⟩
  unfold diskBlock blockBytes blockPayload
  rw [e1, e2]

theorem accepted_mem (sn : Codec) (es : List Entry) : ∀ (w : Writer),
    ∀ e ∈ accepted (Writer.run sn w (appends es)).2, e ∈ es := by
  induction es with
  | nil => intro w e he; simp [appends, Writer.run, accepted] at he
  | cons x es ih =>
    intro w e he
    have h := ih (w.Append sn x.1 x.2).1 e
    have he' : e ∈ accepted ((Op.append x.1 x.2, (w.Append sn x.1 x.2).2) ::
        (Writer.run sn (w.Append sn x.1 x.2).1 (appends es)).2) := he
    cases hr : (w.Append sn x.1 x.2).2 with
    | none =>
      rw [hr] at he'
      simp only [accepted, List.mem_cons] at he'
      rcases he' with h1 | h1
      · rw [h1]; simp
      · simp [h h1]
    | some err =>
      rw [hr] at he'
      simp only [accepted] at he'
      simp [h he']

theorem map_sections_flatten (n : Nat) (hn : 0 < n) (blocks : List (List Entry)) :
    ((blocks.map (specSections n)).flatten).flatten = blocks.flatten := by
  induction blocks with
  | nil => rfl
  | cons b rest ih =>
    simp only [List.map_cons, List.flatten_cons, List.flatten_append, ih]
    rw [(specSections_flatten n hn b.length b (le_refl _)).1]

theorem table_of_run (sn : Codec) (o : Option WriterOptions) (es : List Entry)
    (hbd : ∀ e ∈ es, e.1 < 2 ^ 64 ∧ e.2.length < 2 ^ 63)
    (hbs : (WriterOptions.norm o).BlockSize < 2 ^ 32 + 20) :
    ∃ blks, tableOk blks ∧
      blks.flatten.flatten = accepted (Writer.run sn (NewWriter ⟨[], []⟩ o) (appends es)).2 ∧
      writeTable sn o es = fileBytes (tableRaw sn (WriterOptions.norm o).Compression blks) := by
  obtain ⟨blocks, hfl, hc, ho, hfile⟩ := closed_of_write sn o es (fun e he => (hbd e he).1)
  obtain ⟨h1, h2, h3, h4, h5, -⟩ := hc
  rw [ho] at h5
  have hR := norm_interval o
  have hn0 : 0 < (WriterOptions.norm o).BlockRestartInterval.toNat := by omega
  have hpw : (blocks.flatten).Pairwise (fun a b => a.1 < b.1) := by
    simpa using h3
  have hpwb : ∀ b ∈ blocks, b.Pairwise (fun a b => a.1 < b.1) := by
    intro b hb
    obtain ⟨pre, post, hsplit⟩ := List.append_of_mem hb
    rw [hsplit] at hpw
    simp only [List.flatten_append, List.flatten_cons] at hpw
    exact (List.pairwise_append.1 (List.pairwise_append.1 hpw).2.1).1
  have h64b : ∀ b ∈ blocks, ∀ e ∈ b, e.1 < 2 ^ 64 := by
    intro b hb e he
    exact h4 e (by rw [List.append_nil]; exact List.mem_flatten.2 ⟨b, hb, he⟩)
  have hflat := map_sections_flatten (WriterOptions.norm o).BlockRestartInterval.toNat hn0 blocks
  refine ⟨blocks.map (specSections (WriterOptions.norm o).BlockRestartInterval.toNat),
    ⟨?_, ?_, ?_⟩, ?_, ?_⟩
  · intro secs hsecs
    obtain ⟨b, hb, rfl⟩ := List.mem_map.1 hsecs
    obtain ⟨-, hoffs⟩ := diskBlock_eq_blockBytes sn (WriterOptions.norm o) b hR (hpwb b hb)
      (h64b b hb)
    obtain ⟨f1, f2⟩ := specSections_flatten (WriterOptions.norm o).BlockRestartInterval.toNat
      hn0 b.length b (le_refl _)
    refine blockOk_of_offsets _ ?_ f2 ?_
    · intro hnil
      rw [hnil] at f1
      exact h2 b hb f1.symm
    · intro x hx
      rw [← hoffs] at hx
      rcases blockFits_offsets (WriterOptions.norm o) b (h5 b (by simp [hb])) x hx with h | h
      · rw [h]; norm_num
      · omega
  · rw [hflat]; exact hpw
  · intro e he
    rw [hflat, hfl] at he
    exact hbd e (accepted_mem sn es _ e he)
  · rw [hflat, hfl]
  · rw [hfile]
    congr 1
    unfold diskBlocks tableRaw
    rw [List.map_map]
    apply List.map_congr_left
    intro b hb
    simp only [Function.comp]
    rw [(specSections_flatten (WriterOptions.norm o).BlockRestartInterval.toNat hn0 b.length b
      (le_refl _)).1,
      (diskBlock_eq_blockBytes sn (WriterOptions.norm o) b hR (hpwb b hb) (h64b b hb)).1]

theorem reader_of_run (sn : Codec) (o : Option WriterOptions) (es : List Entry)
    (hbd : ∀ e ∈ es, e.1 < 2 ^ 64 ∧ e.2.length < 2 ^ 63)
    (hbs : (WriterOptions.norm o).BlockSize < 2 ^ 32 + 20)
    (hsize : (writeTable sn o es).length < 2 ^ 63) (fuel : Nat) (hfuel : es.length ≤ fuel) :
    ∃ blks, tableOk blks ∧
      blks.flatten.flatten = accepted (Writer.run sn (NewWriter ⟨[], []⟩ o) (appends es)).2 ∧
      blks.flatten.flatten.length ≤ fuel ∧
      NewReader fuel (writeTable sn o es) ((writeTable sn o es).length : Int) =
        Res.ok (fileReader (tableRaw sn (WriterOptions.norm o).Compression blks)) := by
  obtain ⟨blks, hok, hflat, hfile⟩ := table_of_run sn o es hbd hbs
  have hacc := accepted_length_le sn es (NewWriter ⟨[], []⟩ o)
  refine ⟨blks, hok, hflat, by rw [hflat]; omega, ?_⟩
  rw [hfile]
  have hlen : blks.length ≤ es.length := by
    have h1 : blks.length ≤ blks.flatten.flatten.length := by
      rw [List.flatten_flatten]
      have := length_le_flatten (blks.map List.flatten) (by
        intro l hl
        obtain ⟨b, hb, hbl⟩ := List.mem_map.1 hl
        rw [← hbl]; exact blockOk_flatten_ne_nil b (hok.1 b hb))
      simpa using this
    rw [hflat] at h1
    omega
  refine NewReader_fileBytes _ fuel ?_ ?_ (by rw [tableRaw_length]; omega)
  · intro b hb
    obtain ⟨blk, hblk, hbe⟩ := List.mem_map.1 hb
    rw [← hbe]
    obtain ⟨e, he, hk⟩ := lastKey_mem 0 blk.flatten (blockOk_flatten_ne_nil blk (hok.1 blk hblk))
    simp only
    rw [hk]
    obtain ⟨s, hs, hes⟩ := List.mem_flatten.1 he
    have hmem : e ∈ blks.flatten.flatten :=
      List.mem_flatten.2 ⟨s, List.mem_flatten.2 ⟨blk, hblk, hs⟩, hes⟩
    exact (hok.2.2 e hmem).1
  · rw [hfile] at hsize
    simp only [fileBytes, List.length_append] at hsize
    omega

/-! ## `More` against `Next` -/

theorem IterAt_More (sn : Codec) (c : Compression) (blks : List (List (List Entry)))
    (hok : tableOk blks) (it : Iterator) (rem : List Entry) (h : IterAt sn c blks it rem) :
    it.More = decide (rem ≠ []) := by
  obtain ⟨hr, herr, hcase⟩ := h
  have hnb : it.r.NumBlocks = blks.length := by
    rw [hr]
    show (fileIndex 0 (tableRaw sn c blks)).length = blks.length
    rw [fileIndex_length, tableRaw_length]
  unfold Iterator.More
  rw [if_neg (by rw [herr]; simp)]
  rcases hcase with ⟨bpre, blk, bpost, spre, sec, spost, pre, p, post, hb, hs, hbr, hsec, hread,
    hkey, hokf, hspos, hrem⟩ | ⟨hm, hs, hb, hrem⟩
  · have hmore := SectionReader.More_iff it.s pre p post hsec hread
    have hpos : it.s.Pos = spre.length := hspos
    have hns : it.b.NumSections = spre.length + 1 + spost.length := by
      rw [hbr]
      show blk.length = _
      rw [hs]; simp; omega
    have hbp : it.b.Pos = bpre.length := by rw [hbr]; rfl
    have hnb' : it.r.NumBlocks = bpre.length + 1 + bpost.length := by
      rw [hnb, hb]; simp; omega
    have hblk : blockOk blk := hok.1 blk (by rw [hb]; simp)
    have hsp : spost ≠ [] → spost.flatten ≠ [] := by
      intro hne
      cases spost with
      | nil => exact absurd rfl hne
      | cons s rest =>
        have : s ≠ [] := hblk.2.1 s (by rw [hs]; simp)
        simp [this]
    have hbpost : bpost ≠ [] → bpost.flatten.flatten ≠ [] := by
      intro hne
      cases bpost with
      | nil => exact absurd rfl hne
      | cons b rest =>
        have := blockOk_flatten_ne_nil b (hok.1 b (by rw [hb]; simp))
        simp [this]
    rw [hpos, hns, hbp, hnb', hrem]
    by_cases hp : post = []
    · have hm : it.s.More = false := by
        cases hx : it.s.More with
        | false => rfl
        | true => exact absurd (hmore.1 hx) (by simp [hp])
      rw [hm, hp]
      by_cases hsq : spost = []
      · rw [hsq]
        by_cases hbq : bpost = []
        · rw [hbq]; simp
        · have h1 := hbpost hbq
          have h2 : 0 < bpost.length := List.length_pos.2 hbq
          simp only [List.flatten_nil, List.nil_append, List.length_nil, Nat.add_zero,
            Nat.lt_irrefl, decide_False, Bool.false_or, ne_eq, h1, not_false_eq_true,
            decide_True, decide_eq_true_eq]
          omega
      · have h1 := hsp hsq
        have h2 : 0 < spost.length := List.length_pos.2 hsq
        have h3 : spre.length + 1 < spre.length + 1 + spost.length := by omega
        simp [h1, h3]
    · have hm : it.s.More = true := hmore.2 hp
      rw [hm]
      simp [hp]
  · have h1 : decide (it.s.Pos + 1 < it.b.NumSections) = false := by
      simpa [SectionReader.Pos, BlockReader.NumSections] using hs
    have h2 : decide (it.b.Pos + 1 < it.r.NumBlocks) = false := by
      rw [hnb]
      simpa [BlockReader.Pos] using hb
    rw [hm, h1, h2, hrem]
    simp

theorem IterAt_nexts (sn : Codec) (hsn : sn.lawful) (c : Compression)
    (blks : List (List (List Entry))) (hok : tableOk blks) : ∀ (n : Nat) (it : Iterator)
    (rem : List Entry), IterAt sn c blks it rem →
    ∃ it', Iterator.nexts sn n it = Res.ok it' ∧ IterAt sn c blks it' (rem.drop n) := by
  intro n
  induction n with
  | zero => intro it rem h; exact ⟨it, rfl, h⟩
  | succ n ih =>
    intro it rem h
    obtain ⟨h1, h2⟩ := Iterator.Next_spec sn hsn c blks hok it rem h
    cases rem with
    | nil =>
      obtain ⟨it', hn, hat⟩ := ih it [] h
      refine ⟨it', ?_, by simpa using hat⟩
      simp only [Iterator.nexts, h1 rfl]
      exact hn
    | cons e rem' =>
      obtain ⟨it1, hnx, -, -, hat1⟩ := h2 e rem' rfl
      obtain ⟨it', hn, hat⟩ := ih it1 rem' hat1
      refine ⟨it', ?_, by simpa using hat⟩
      simp only [Iterator.nexts, hnx]
      exact hn

/-- C26, as amended. Write a table under options whose normalised `BlockSize` is below
`2^32 + 20` (`Append` for each of the entries `es`, then `Close`), and open it. For
every key `k` and every number `n`, `Seek(k)` followed by `n` calls of `Next` leaves an
iterator with no error on which `More()` returns what the next call of `Next()`
returns. When `k` is above every key of the table, `Seek(k)` gives an iterator on which
`More()` is false, `Next()` returns false and `Err()` is nil. -/
theorem C26_more_agrees_with_next (sn : Codec) (hsn : sn.lawful) (o : Option WriterOptions)
    (es : List Entry) (hbd : ∀ e ∈ es, e.1 < 2 ^ 64 ∧ e.2.length < 2 ^ 63)
    (hbs : (WriterOptions.norm o).BlockSize < 2 ^ 32 + 20)
    (hsize : (writeTable sn o es).length < 2 ^ 63) (fuel : Nat) (hfuel : es.length ≤ fuel) :
    ∃ r, NewReader fuel (writeTable sn o es) ((writeTable sn o es).length : Int) = Res.ok r ∧
      (∀ k n, ∃ it0 it it' b, r.Seek sn fuel k = Res.ok it0 ∧
        Iterator.nexts sn n it0 = Res.ok it ∧ it.Err = none ∧
        it.Next sn = Res.ok (it', b) ∧ it.More = b) ∧
      (∀ k, (∀ e ∈ es, e.1 < k) → ∃ it, r.Seek sn fuel k = Res.ok it ∧ it.More = false ∧
        it.Next sn = Res.ok (it, false) ∧ it.Err = none) := by
  obtain ⟨blks, hok, hflat, hlen, hr⟩ := reader_of_run sn o es hbd hbs hsize fuel hfuel
  refine ⟨_, hr, ?_, ?_⟩
  · intro k n
    obtain ⟨it0, hseek, hat0⟩ := Reader.Seek_table sn hsn _ blks hok k fuel hlen
    obtain ⟨it, hn, hat⟩ := IterAt_nexts sn hsn _ blks hok n it0 _ hat0
    have hm := IterAt_More sn _ blks hok it _ hat
    obtain ⟨h1, h2⟩ := Iterator.Next_spec sn hsn _ blks hok it _ hat
    cases hrem : List.drop n (List.dropWhile (fun e => decide (e.1 < k)) blks.flatten.flatten) with
    | nil =>
      refine ⟨it0, it, it, false, hseek, hn, hat.2.1, h1 hrem, ?_⟩
      rw [hm, hrem]; simp
    | cons e rem' =>
      obtain ⟨it', hnx, -⟩ := h2 e rem' hrem
      refine ⟨it0, it, it', true, hseek, hn, hat.2.1, hnx, ?_⟩
      rw [hm, hrem]; simp
  · intro k hk
    obtain ⟨it, hseek, hat⟩ := Reader.Seek_table sn hsn _ blks hok k fuel hlen
    have hnil : List.dropWhile (fun e => decide (e.1 < k)) blks.flatten.flatten = [] := by
      rw [List.dropWhile_eq_nil_iff]
      intro x hx
      rw [hflat] at hx
      simpa using hk x (accepted_mem sn es _ x hx)
    rw [hnil] at hat
    have hm := IterAt_More sn _ blks hok it _ hat
    obtain ⟨h1, -⟩ := Iterator.Next_spec sn hsn _ blks hok it _ hat
    exact ⟨it, hseek, by rw [hm]; simp, h1 rfl, hat.2.1⟩

set_option maxRecDepth 100000 in
theorem C26_more_agrees_with_next_witness :
    ∃ r, NewReader 4
        (writeTable rleCodec (some ⟨30, 2, SnappyCompression⟩)
          [(3, [7]), (5, [0, 0, 0, 0, 0, 0, 0, 0, 0, 0, 0, 0]), (4, [1]), (900, [])])
        ((writeTable rleCodec (some ⟨30, 2, SnappyCompression⟩)
          [(3, [7]), (5, [0, 0, 0, 0, 0, 0, 0, 0, 0, 0, 0, 0]), (4, [1]), (900, [])]).length :
            Int) = Res.ok r ∧
      ∃ it0 it it' b, r.Seek rleCodec 4 4 = Res.ok it0 ∧
        Iterator.nexts rleCodec 2 it0 = Res.ok it ∧ it.Err = none ∧
        it.Next rleCodec = Res.ok (it', b) ∧ it.More = b := by
  obtain ⟨r, hr, h, -⟩ := C26_more_agrees_with_next rleCodec rleCodec_lawful
    (some ⟨30, 2, SnappyCompression⟩)
    [(3, [7]), (5, [0, 0, 0, 0, 0, 0, 0, 0, 0, 0, 0, 0]), (4, [1]), (900, [])]
    (by decide) (by decide) (by decide) 4 (by decide)
  exact ⟨r, hr, h 4 2⟩

/-! ## Section offsets 2 and `2^32 + 2`: an empty section between two entries -/

theorem encEntry_gap_length (V : Bytes) (hV : V.length = 2 ^ 32 - 6) :
    (encEntry 2 V).length = 2 ^ 32 := by
  rw [encEntry_length, hV]
  rfl

theorem Append_gap_second (sn : Codec) (sink : Sink) (V : Bytes) (hV : V.length = 2 ^ 32 - 6) :
    Writer.Append sn
      { w := sink,
        o := { BlockSize := 2 ^ 32 + 28, BlockRestartInterval := 1, Compression := NoCompression },
        block := { MaxKey := 1, Offset := 0 }, blen := 1, soffs := [0],
        buf := encEntry 1 [], snp := [], tmp := true, index := [] } 2 V =
      ({ w := sink,
         o := { BlockSize := 2 ^ 32 + 28, BlockRestartInterval := 1, Compression := NoCompression },
         block := { MaxKey := 2, Offset := 0 }, blen := 2, soffs := [0, 2],
         buf := encEntry 1 [] ++ encEntry 2 V, snp := [], tmp := true, index := [] }, none) := by
  have h1 : (encEntry 1 ([] : Bytes)).length = 2 := rfl
  rw [Append_eq]
  have hnf : ¬ Writer.needsFlush
      { w := sink,
        o := { BlockSize := 2 ^ 32 + 28, BlockRestartInterval := 1, Compression := NoCompression },
        block := { MaxKey := 1, Offset := 0 }, blen := 1, soffs := [0],
        buf := encEntry 1 [], snp := [], tmp := true, index := [] } V := by
    intro h
    have h2 := h.2
    simp only [h1, hV, MaxVarintLen64] at h2
    norm_num at h2
  rw [if_neg (by simp), if_neg (by simp), if_neg hnf]
  have he : encEntry 2 V = (PutUvarint 2 ++ PutUvarint V.length) ++ V := rfl
  simp [Writer.put, h1, he]

theorem Append_gap_third (sn : Codec) (sink : Sink) (V : Bytes) (hV : V.length = 2 ^ 32 - 6) :
    Writer.Append sn
      { w := sink,
        o := { BlockSize := 2 ^ 32 + 28, BlockRestartInterval := 1, Compression := NoCompression },
        block := { MaxKey := 2, Offset := 0 }, blen := 2, soffs := [0, 2],
        buf := encEntry 1 [] ++ encEntry 2 V, snp := [], tmp := true, index := [] } 3 [] =
      ({ w := sink,
         o := { BlockSize := 2 ^ 32 + 28, BlockRestartInterval := 1, Compression := NoCompression },
         block := { MaxKey := 3, Offset := 0 }, blen := 3, soffs := [0, 2, 2 ^ 32 + 2],
         buf := (encEntry 1 [] ++ encEntry 2 V) ++ encEntry 3 [], snp := [], tmp := true,
         index := [] }, none) := by
  have h1 : (encEntry 1 ([] : Bytes)).length = 2 := rfl
  have h2 := encEntry_gap_length V hV
  rw [Append_eq]
  have hnf : ¬ Writer.needsFlush
      { w := sink,
        o := { BlockSize := 2 ^ 32 + 28, BlockRestartInterval := 1, Compression := NoCompression },
        block := { MaxKey := 2, Offset := 0 }, blen := 2, soffs := [0, 2],
        buf := encEntry 1 [] ++ encEntry 2 V, snp := [], tmp := true, index := [] } [] := by
    intro h
    have h3 := h.2
    simp only [List.length_append, h1, h2, List.length_nil, MaxVarintLen64] at h3
    norm_num at h3
  rw [if_neg (by simp), if_neg (by simp), if_neg hnf]
  have he : encEntry 3 [] = (PutUvarint 3 ++ PutUvarint ([] : Bytes).length) ++ [] := rfl
  simp [Writer.put, h1, h2, he]

theorem run_gap (sn : Codec) (V : Bytes) (hV : V.length = 2 ^ 32 - 6) :
    (Writer.run sn (NewWriter { data := [], script := [] } wrapOptions)
        (appends [(1, []), (2, V), (3, [])])).1 =
      { w := { data := [], script := [] },
        o := { BlockSize := 2 ^ 32 + 28, BlockRestartInterval := 1, Compression := NoCompression },
        block := { MaxKey := 3, Offset := 0 }, blen := 3, soffs := [0, 2, 2 ^ 32 + 2],
        buf := (encEntry 1 [] ++ encEntry 2 V) ++ encEntry 3 [], snp := [], tmp := true,
        index := [] } := by
  rw [NewWriter_wrap]
  simp only [appends, List.map, Writer.run, Writer.step]
  rw [Append_wrap_first, Append_gap_second sn _ V hV, Append_gap_third sn _ V hV]

theorem writeTable_gap (sn : Codec) (V : Bytes) (hV : V.length = 2 ^ 32 - 6) :
    writeTable sn wrapOptions [(1, []), (2, V), (3, [])] =
      fileBytes [(3, gapPayload V ++ [blockNoCompression])] := by
  have hfr : framed ((encEntry 1 [] ++ encEntry 2 V) ++ encEntry 3 []) [0, 2, 2 ^ 32 + 2] =
      gapPayload V := by
    simp [framed, appendSoffs, gapPayload]
  unfold writeTable
  rw [run_snoc, run_gap sn V hV]
  simp only [Writer.step]
  rw [Close_data sn _ rfl (by intro x hx; simp at hx)
    (by
      intro h
      exact encEntry_ne_nil 1 [] (List.append_eq_nil.1 (List.append_eq_nil.1 h).1).1)]
  simp only [List.nil_append, emitted_NoCompression, hfr, fileBytes, fileBlocks, fileIndex,
    List.append_nil, zero_add, toUint64_natCast, PutUint64_mod]
  rfl

theorem gapPayload_length (V : Bytes) (hV : V.length = 2 ^ 32 - 6) :
    (gapPayload V).length = 2 ^ 32 + 16 := by
  have h1 : (encEntry 1 ([] : Bytes)).length = 2 := rfl
  have h2 := encEntry_gap_length V hV
  have h3 : (encEntry 3 ([] : Bytes)).length = 2 := rfl
  have h4 : ((PutUint32 2 ++ PutUint32 (2 ^ 32 + 2)) ++ PutUint32 3).length = 12 := rfl
  unfold gapPayload
  rw [List.length_append, List.length_append, List.length_append, h1, h2, h3, h4]
  norm_num

theorem NewReader_gap (sn : Codec) (V : Bytes) (hV : V.length = 2 ^ 32 - 6) (fuel : Nat)
    (hfuel : 1 ≤ fuel) :
    NewReader fuel (writeTable sn wrapOptions [(1, []), (2, V), (3, [])])
        ((writeTable sn wrapOptions [(1, []), (2, V), (3, [])]).length : Int) =
      Res.ok (fileReader [(3, gapPayload V ++ [blockNoCompression])]) := by
  rw [writeTable_gap sn V hV]
  have hp := gapPayload_length V hV
  exact NewReader_fileBytes [(3, gapPayload V ++ [blockNoCompression])] fuel
    (by intro b hb; simp only [List.mem_singleton] at hb; rw [hb]; norm_num)
    (by
      show ((gapPayload V ++ [blockNoCompression]) ++ []).length < 2 ^ 63
      rw [List.append_nil, List.length_append, hp]
      norm_num)
    (by simpa using hfuel)

theorem readBlock_gap (sn : Codec) (V : Bytes) :
    (fileReader [(3, gapPayload V ++ [blockNoCompression])]).readBlock sn 0 =
      Res.ok (gapBlock V) :=
  Reader.readBlock_raw sn [] (3, gapPayload V ++ [blockNoCompression]) [] (gapPayload V)
    blockNoCompression (gapPayload V)
    (((encEntry 1 [] ++ encEntry 2 V) ++ encEntry 3 []) ++ (PutUint32 2 ++ PutUint32 (2 ^ 32 + 2))) 3
    rfl (Or.inl ⟨rfl, rfl⟩) (by simp [gapPayload])

theorem sectionOffset_gap_zero (V : Bytes) : (gapBlock V).sectionOffset 0 = Res.ok 0 := by
  unfold BlockReader.sectionOffset
  rw [if_pos (by norm_num)]

theorem sectionOffset_gap_one (V : Bytes) :
    (gapBlock V).sectionOffset 1 = Res.ok 2 := by
  unfold BlockReader.sectionOffset
  rw [if_neg (by norm_num), if_neg (by simp [gapBlock])]
  show (match sliceFrom (gapPayload V) _ with
    | .ok tail => _
    | .err e => _
    | .panic => _
    | .outOfFuel => _) = _
  rw [sliceFrom_eq (gapPayload V) ((encEntry 1 [] ++ encEntry 2 V) ++ encEntry 3 [])
    (PutUint32 2 ++ (PutUint32 (2 ^ 32 + 2) ++ PutUint32 3)) _
    (by simp [gapPayload]) (by
      have h3 : (PutUint32 2).length = 4 := rfl
      have h4 : (PutUint32 (2 ^ 32 + 2)).length = 4 := rfl
      have h5 : (PutUint32 3).length = 4 := rfl
      simp only [gapBlock, gapPayload, List.length_append, h3, h4, h5]
      push_cast
      omega)]
  simp only
  rw [Uint32_PutUint32]
  rfl

theorem sectionOffset_gap_two (V : Bytes) :
    (gapBlock V).sectionOffset 2 = Res.ok 2 := by
  unfold BlockReader.sectionOffset
  rw [if_neg (by norm_num), if_neg (by simp [gapBlock])]
  show (match sliceFrom (gapPayload V) _ with
    | .ok tail => _
    | .err e => _
    | .panic => _
    | .outOfFuel => _) = _
  rw [sliceFrom_eq (gapPayload V)
    (((encEntry 1 [] ++ encEntry 2 V) ++ encEntry 3 []) ++ PutUint32 2)
    (PutUint32 (2 ^ 32 + 2) ++ PutUint32 3) _
    (by simp [gapPayload]) (by
      have h3 : (PutUint32 2).length = 4 := rfl
      have h4 : (PutUint32 (2 ^ 32 + 2)).length = 4 := rfl
      have h5 : (PutUint32 3).length = 4 := rfl
      simp only [gapBlock, gapPayload, List.length_append, h3, h4, h5]
      push_cast
      omega)]
  simp only
  rw [Uint32_PutUint32]
  rfl

theorem gapPayload_split (V : Bytes) :
    gapPayload V = [] ++ encEntry 1 [] ++ (encEntry 2 V ++ (encEntry 3 [] ++
      ((PutUint32 2 ++ PutUint32 (2 ^ 32 + 2)) ++ PutUint32 3))) := by
  simp [gapPayload]

theorem GetSection_gap_zero (V : Bytes) :
    (gapBlock V).GetSection ((1 : Nat) - 1) =
      Res.ok { sec := encEntry 1 [], spos := 0, read := 0, key := 0, val := [] } := by
  have h0 : ¬ (((1 : Nat) : Int) - 1) < 0 := by norm_num
  have h1 : ¬ ((gapBlock V).scnt : Int) ≤ ((1 : Nat) : Int) - 1 := by simp [gapBlock]
  have h2 : (((1 : Nat) : Int) - 1) = 0 := by norm_num
  have h3 : ((0 : Int) + 1) = 1 := rfl
  unfold BlockReader.GetSection
  simp only [if_neg h0, if_neg h1]
  simp only [h2, h3, sectionOffset_gap_zero, sectionOffset_gap_one]
  rw [slice_eq (gapBlock V).block [] (encEntry 1 []) _ 0 2 (gapPayload_split V) rfl rfl]
  rfl

theorem GetSection_gap_one (V : Bytes) :
    (gapBlock V).GetSection (((0 : Nat) : Int) + 1) =
      Res.ok { sec := [], spos := 1, read := 0, key := 0, val := [] } := by
  have h0 : ¬ (((0 : Nat) : Int) + 1) < 0 := by norm_num
  have h1 : ¬ ((gapBlock V).scnt : Int) ≤ ((0 : Nat) : Int) + 1 := by simp [gapBlock]
  have h2 : (((0 : Nat) : Int) + 1) = 1 := by norm_num
  have h3 : ((1 : Int) + 1) = 2 := rfl
  unfold BlockReader.GetSection
  simp only [if_neg h0, if_neg h1]
  simp only [h2, h3, sectionOffset_gap_one, sectionOffset_gap_two]
  rw [slice_eq (gapBlock V).block (encEntry 1 []) []
    (encEntry 2 V ++ (encEntry 3 [] ++ ((PutUint32 2 ++ PutUint32 (2 ^ 32 + 2)) ++ PutUint32 3)))
    2 2 (by rw [List.append_nil]; exact gapPayload_split V) rfl rfl]
  rfl

theorem seekSectionPred_gap_zero (V : Bytes) (k : Nat) :
    (gapBlock V).seekSectionPred k 0 = Res.ok (decide (k < 1)) := by
  have hoff : (gapBlock V).sectionOffset ((0 : Nat) : Int) = Res.ok 0 := sectionOffset_gap_zero V
  unfold BlockReader.seekSectionPred
  rw [hoff]
  simp only
  rw [sliceFrom_eq (gapBlock V).block [] (gapPayload V) 0 rfl rfl]
  simp only
  have hu : (Uvarint (gapPayload V)).1 = 1 := by
    have hp : gapPayload V = PutUvarint 1 ++ (PutUvarint ([] : Bytes).length ++
        (encEntry 2 V ++ (encEntry 3 [] ++
          ((PutUint32 2 ++ PutUint32 (2 ^ 32 + 2)) ++ PutUint32 3)))) := by
      have he : encEntry 1 [] = (PutUvarint 1 ++ PutUvarint ([] : Bytes).length) ++ [] := rfl
      unfold gapPayload
      rw [he]
      simp only [List.append_assoc, List.append_nil, List.nil_append]
    rw [hp, Uvarint_PutUvarint 1 _ (by norm_num)]
  rw [hu]

theorem seekSectionPred_gap_one (V : Bytes) (k : Nat) :
    (gapBlock V).seekSectionPred k 1 = Res.ok (decide (k < 2)) := by
  have hoff : (gapBlock V).sectionOffset ((1 : Nat) : Int) = Res.ok 2 := sectionOffset_gap_one V
  unfold BlockReader.seekSectionPred
  rw [hoff]
  simp only
  have he : encEntry 2 V = PutUvarint 2 ++ (PutUvarint V.length ++ V) := by
    unfold encEntry
    rw [List.append_assoc]
  rw [sliceFrom_eq (gapBlock V).block (encEntry 1 [])
    (PutUvarint 2 ++ ((PutUvarint V.length ++ V) ++ (encEntry 3 [] ++
      ((PutUint32 2 ++ PutUint32 (2 ^ 32 + 2)) ++ PutUint32 3)))) 2
    (by
      show gapPayload V = _
      unfold gapPayload
      rw [he]
      simp only [List.append_assoc])
    rfl]
  simp only
  rw [Uvarint_PutUvarint 2 _ (by norm_num)]

theorem SeekSection_gap (V : Bytes) :
    (gapBlock V).SeekSection 1 =
      Res.ok { sec := encEntry 1 [], spos := 0, read := 0, key := 0, val := [] } := by
  unfold BlockReader.SeekSection
  rw [if_neg (by simp [gapBlock])]
  have hs : Search (gapBlock V).scnt ((gapBlock V).seekSectionPred 1) = Res.ok 1 := by
    show Search 3 _ = _
    simp [Search, searchLoop, seekSectionPred_gap_zero V, seekSectionPred_gap_one V]
  rw [hs]
  exact GetSection_gap_zero V

theorem seek_next_single (sn : Codec) (fuel : Nat) (r : Reader) (k : Nat) (b : BlockReader)
    (s : SectionReader) (e : Entry) (hb : r.SeekBlock sn k = Res.ok b)
    (hs : b.SeekSection k = Res.ok s) (hsec : s.sec = encSec 0 [e]) (hread : s.read = 0)
    (hkey : s.key = 0) (hok : okFrom 0 [e]) (hfuel : 1 ≤ fuel) (hk : k ≤ e.1) :
    ∃ it it', r.Seek sn fuel k = Res.ok it ∧ it.Next sn = Res.ok (it', true) ∧
      it'.Key = e.1 ∧ it'.r = r ∧ it'.b = b ∧ it'.err = none ∧ it'.s.spos = s.spos ∧
      it'.s.More = false := by
  obtain ⟨s', pre', p', h1, h2, h3, h4, h5, h6, h7⟩ :=
    SectionReader.Seek_spec k [e] fuel s [] 0 (by simpa using hsec) (by simpa using hread)
      hkey hok (by simpa using hfuel)
  have hd : [e].dropWhile (fun x => decide (x.1 < k)) = [e] :=
    List.dropWhile_cons_of_neg (by simpa using hk)
  rw [hd] at h1 h4 h7
  have h4' : s'.sec = pre' ++ encSec p' [e] := by rw [h2]; exact h4
  refine ⟨{ r := r, b := b, s := s', err := none }, _, ?_,
    Iterator.Next_in_section sn { r := r, b := b, s := s', err := none } pre' p' e [] rfl h4'
      h5 h6 h7, rfl, rfl, rfl, rfl, h3, ?_⟩
  · unfold Reader.Seek
    rw [hb]
    simp only
    rw [hs]
    simp only
    rw [h1]
  · show decide (_ < _) = false
    simp only [h4', encSec, List.append_nil, List.length_append, decide_eq_false_iff_not,
      not_lt]
    exact le_refl _

/-- C26 fails as stated. Under `wrapOptions` (block size `2^32 + 28`, restart interval 1,
no compression) the entries of `gapEntries` are written into one block whose sections
start at the offsets 0, 2 and `2^32 + 2`; `flush` stores the last as the `uint32` 2, so
the reader finds the second section empty. After `Seek(1)` and one call of `Next`, which
returns true with the key 1, `More()` returns true, since the block has more sections,
and the next call of `Next()` returns false with no error. -/
theorem C26_more_agrees_with_next_counterexample :
    gapEntries.Pairwise (fun a b => a.1 < b.1) ∧
    ∃ r it0 it1 it2, NewReader 3 (writeTable rleCodec wrapOptions gapEntries)
        ((writeTable rleCodec wrapOptions gapEntries).length : Int) = Res.ok r ∧
      r.Seek rleCodec 3 1 = Res.ok it0 ∧ it0.Next rleCodec = Res.ok (it1, true) ∧
      it1.Key = 1 ∧ it1.Err = none ∧ it1.More = true ∧
      it1.Next rleCodec = Res.ok (it2, false) ∧ it2.Err = none := by
  refine ⟨by simp [gapEntries], ?_⟩
  have hb : (fileReader [(3, gapPayload wideValue ++ [blockNoCompression])]).SeekBlock
      rleCodec 1 = Res.ok (gapBlock wideValue) := by
    rw [SeekBlock_single rleCodec 3 _ 1 (by norm_num)]
    exact readBlock_gap rleCodec wideValue
  obtain ⟨it0, it1, h1, h2, h3, h4, h5, h6, h7, h8⟩ := seek_next_single rleCodec 3 _ 1
    (gapBlock wideValue) _ (1, []) hb (SeekSection_gap wideValue) rfl rfl rfl
    ⟨Nat.zero_le 1, by norm_num, by simp, trivial⟩ (by norm_num) (le_refl 1)
  have hpos : it1.s.Pos = 0 := h7
  have hns : it1.b.NumSections = 3 := by rw [h5]; rfl
  have hmore : it1.More = true := by
    unfold Iterator.More
    rw [if_neg (by rw [h6]; simp), h8, hpos, hns]
    rfl
  have hnext : it1.Next rleCodec =
      Res.ok ({ it1 with s := { sec := [], spos := 1, read := 0, key := 0, val := [] } },
        false) := by
    unfold Iterator.Next
    rw [if_neg (by rw [h6]; simp), h8]
    simp only [Bool.false_eq_true, if_false]
    rw [if_pos (by rw [hpos, hns]; norm_num), hpos, h5, GetSection_gap_one wideValue]
    rfl
  exact ⟨_, it0, it1, _, NewReader_gap rleCodec wideValue wideValue_length 3 (by norm_num),
    h1, h2, h3, h6, hmore, hnext, h6⟩

/-! ## The flush threshold -/

theorem flushedLate_nil (o : WriterOptions) (cur : List Entry) : flushedLate o [] cur := by
  intro pre b post e tl hd _
  exact absurd hd (by simp)

theorem flushedLate_snoc (o : WriterOptions) (done : List (List Entry)) (cur : List Entry)
    (x : Entry) (h : flushedLate o done cur) (hne : done ≠ [] → cur ≠ []) :
    flushedLate o done (cur ++ [x]) := by
  intro pre b post e tl hd hc
  have hcur : cur ≠ [] := hne (by rw [hd]; simp)
  cases hpf : post.flatten ++ cur with
  | nil =>
    have := (List.append_eq_nil.1 hpf).2
    exact absurd this hcur
  | cons e' tl' =>
    rw [← List.append_assoc, hpf] at hc
    injection hc with he _
    subst he
    exact h pre b post e' tl' hd hpf

theorem flushedLate_flush (o : WriterOptions) (done : List (List Entry)) (cur nxt : List Entry)
    (h : flushedLate o done cur) (hcur : cur ≠ [])
    (hfull : ∀ e tl, nxt = e :: tl → o.BlockSize <
      (((encRun o.BlockRestartInterval 0 0 cur).length + e.2.length + 20 : Nat) : Int)) :
    flushedLate o (done ++ [cur]) nxt := by
  intro pre b post e tl hd hc
  rcases List.eq_nil_or_concat post with hp | ⟨L, y, hp⟩
  · subst hp
    obtain ⟨-, hb⟩ := List.append_inj' hd rfl
    injection hb with hb _
    subst hb
    exact hfull e tl (by simpa using hc)
  · rw [List.concat_eq_append] at hp
    subst hp
    have hd' : done ++ [cur] = (pre ++ b :: L) ++ [y] := by
      rw [hd]; simp
    obtain ⟨hdone, hy⟩ := List.append_inj' hd' rfl
    injection hy with hy _
    subst hy
    cases hpf : L.flatten ++ cur with
    | nil =>
      have := (List.append_eq_nil.1 hpf).2
      exact absurd this hcur
    | cons e' tl' =>
      have hc' : (L.flatten ++ cur) ++ nxt = e :: tl := by
        rw [← hc]; simp
      rw [hpf] at hc'
      injection hc' with he _
      subst he
      exact h pre b L e' tl' hdone hpf

theorem late_Append (sn : Codec) (w : Writer) (d0 : Bytes) (done : List (List Entry))
    (cur : List Entry) (key : Nat) (v : Bytes) (h : w.carries sn d0 done cur)
    (hl : flushedLate w.o done cur) (hne : w.tmp = true → done ≠ [] → cur ≠ [])
    (hkey : key < 2 ^ 64) :
    (w.Append sn key v).1.o = w.o ∧
    ∃ done' cur', (w.Append sn key v).1.carries sn d0 done' cur' ∧
      flushedLate w.o done' cur' ∧
      ((w.Append sn key v).1.tmp = true → done' ≠ [] → cur' ≠ []) ∧
      done'.flatten ++ cur' =
        (done.flatten ++ cur) ++ (if (w.Append sn key v).2 = none then [(key, v)] else []) := by
  have htmp := Append_tmp sn w key v
  rw [htmp]
  rw [Append_eq]
  by_cases ht : w.tmp = false
  · rw [if_pos ht]
    exact ⟨rfl, done, cur, h, hl, hne, by simp⟩
  · rw [if_neg ht]
    have ht' : w.tmp = true := by simpa using ht
    by_cases hoo : key ≤ w.block.MaxKey ∧ (w.blen ≠ 0 ∨ w.index.length ≠ 0)
    · rw [if_pos hoo]
      exact ⟨rfl, done, cur, h, hl, hne, by simp⟩
    · rw [if_neg hoo]
      obtain ⟨a1, a2, a3, a4, a5, a6, a7⟩ := h.2.2.2.2.2.1 ht'
      have hidx : w.index.length = done.length := by
        rw [h.1, fileIndex_length, diskBlocks_length]
      by_cases hnf : w.needsFlush v
      · have hne' : w.buf ≠ [] := by
          intro hb
          exact hnf.1 (by rw [hb]; rfl)
        obtain ⟨hf1, hf2, hf3, hf4, hf5, hf6, hf7⟩ := carries_flush sn w d0 done cur h ht' hne'
        rw [if_pos hnf, if_pos hf1]
        have hblen : w.blen ≠ 0 := by
          rw [a7]
          intro h0
          exact hf6 (List.length_eq_zero.1 h0)
        have hord : w.block.MaxKey < key := by
          by_contra hc
          exact hoo ⟨by omega, Or.inl hblen⟩
        refine ⟨by rw [(put_fields _ key v).1, hf2], done ++ [cur], [] ++ [(key, v)],
          carries_put sn _ d0 _ [] key v hf7 hf3 hkey ?_ (Or.inl rfl), ?_,
          fun _ _ => by simp, by simp⟩
        · intro _
          rw [hf4]; exact hord
        · refine flushedLate_flush w.o done cur _ hl hf6 ?_
          intro e tl he
          have hev : e = (key, v) := by
            simp only [List.nil_append, List.cons.injEq] at he
            exact he.1.symm
          subst hev
          have hgt := hnf.2
          rw [a5] at hgt
          simp only [MaxVarintLen64] at hgt
          have : (((encRun w.o.BlockRestartInterval 0 0 cur).length + v.length + 20 : Nat) : Int)
              > w.o.BlockSize := by
            have e2 : (encRun w.o.BlockRestartInterval 0 0 cur).length + v.length + 2 * 10 =
                (encRun w.o.BlockRestartInterval 0 0 cur).length + v.length + 20 := by omega
            rw [← e2]; exact hgt
          exact this
      · rw [if_neg hnf]
        refine ⟨(put_fields w key v).1, done, cur ++ [(key, v)],
          carries_put sn w d0 done cur key v h ht' hkey ?_ ?_,
          flushedLate_snoc w.o done cur _ hl (hne ht'), fun _ _ => by simp, by simp⟩
        · intro hr
          by_contra hc
          apply hoo
          refine ⟨by omega, ?_⟩
          by_cases hcur : cur = []
          · right
            rw [hidx]
            intro h0
            apply hr
            rw [List.length_eq_zero.1 h0, hcur]; rfl
          · left
            rw [a7]
            intro h0
            exact hcur (List.length_eq_zero.1 h0)
        · by_cases hcur : cur = []
          · exact Or.inl hcur
          · right
            have hb : w.buf.length ≠ 0 := by
              rw [a5]
              intro h0
              exact hcur ((encRun_eq_nil _ _ _ _).1 (List.length_eq_zero.1 h0))
            unfold Writer.needsFlush at hnf
            simp only [MaxVarintLen64] at hnf
            by_contra hc
            exact hnf ⟨hb, by omega⟩

theorem late_Close (sn : Codec) (w : Writer) (d0 : Bytes) (done : List (List Entry))
    (cur : List Entry) (h : w.carries sn d0 done cur) (hl : flushedLate w.o done cur) :
    (w.Close sn).1.o = w.o ∧
    ∃ done', (w.Close sn).1.carries sn d0 done' [] ∧ flushedLate w.o done' [] ∧
      ((w.Close sn).1.tmp = true → done' ≠ [] → ([] : List Entry) ≠ []) ∧
      done'.flatten = done.flatten ++ cur := by
  rcases Close_fields sn w with ⟨ht, hc⟩ | ⟨ht, -, c1, c2, c3, c4, c5, c6⟩
  · rw [hc]
    have hcur := (h.2.2.2.2.2.2 ht).1
    subst hcur
    refine ⟨rfl, done, h, hl, ?_, by simp⟩
    intro hx
    rw [ht] at hx
    cases hx
  · have hok := Close_accepting sn w ht (h.2.2.2.2.2.1 ht).1
    have hclose := Close_ok sn w ht hok
    have htf : (w.Close sn).1.tmp = false := by
      by_contra hc
      have : (w.Close sn).1.tmp = true := by simpa using hc
      exact (c6.1 this) hok
    have hopen : ∀ (dn : List (List Entry)),
        (w.Close sn).1.tmp = true → dn ≠ [] → ([] : List Entry) ≠ [] := by
      intro dn hx
      rw [htf] at hx
      cases hx
    have key : ∀ (dn : List (List Entry)), (w.flush sn).1.carries sn d0 dn [] →
        (w.flush sn).1.o = w.o → (w.flush sn).1.tmp = true →
        (w.Close sn).1.carries sn d0 dn [] := by
      intro dn hd ho htt
      obtain ⟨h1, h2, h3, h4, h5, h6, h7⟩ := hd
      obtain ⟨a1, a2, a3, a4, a5, a6, a7⟩ := h6 htt
      rw [ho] at h1 h5 a2 a3
      refine ⟨by rw [c5, c1]; exact h1, h2, h3, h4, by rw [c1]; exact h5, ?_, ?_⟩
      · intro hx
        rw [htf] at hx
        cases hx
      · intro _
        refine ⟨rfl, ?_⟩
        rw [hclose.2, a2, a3, h1, c1, toUint64_natCast, PutUint64_mod]
        simp [fileBytes, List.append_assoc]
    by_cases hb : w.buf = []
    · have hcur : cur = [] := by
        have := (h.2.2.2.2.2.1 ht).2.2.2.2.1
        rw [hb] at this
        exact (encRun_eq_nil _ _ _ _).1 this.symm
      subst hcur
      have hfl : w.flush sn = (w, none) := flush_of_empty sn w hb
      refine ⟨c1, done, key done (by rw [hfl]; exact h) (by rw [hfl]) (by rw [hfl]; exact ht),
        hl, hopen done, by simp⟩
    · obtain ⟨hf1, hf2, hf3, hf4, hf5, hf6, hf7⟩ := carries_flush sn w d0 done cur h ht hb
      refine ⟨c1, done ++ [cur], key _ hf7 hf2 hf3,
        flushedLate_flush w.o done cur [] hl hf6 ?_, hopen _, by simp⟩
      intro e tl he
      cases he

theorem late_run (sn : Codec) (d0 : Bytes) (ops : List Op) : ∀ (w : Writer)
    (done : List (List Entry)) (cur : List Entry), w.carries sn d0 done cur →
    flushedLate w.o done cur → (w.tmp = true → done ≠ [] → cur ≠ []) →
    (∀ k v, Op.append k v ∈ ops → k < 2 ^ 64) →
    (Writer.run sn w ops).1.o = w.o ∧
    ∃ done' cur', (Writer.run sn w ops).1.carries sn d0 done' cur' ∧
      flushedLate w.o done' cur' ∧
      ((Writer.run sn w ops).1.tmp = true → done' ≠ [] → cur' ≠ []) ∧
      done'.flatten ++ cur' = (done.flatten ++ cur) ++ accepted (Writer.run sn w ops).2 := by
  induction ops with
  | nil =>
    intro w done cur h hl hne _
    exact ⟨rfl, done, cur, h, hl, hne, by simp [Writer.run, accepted]⟩
  | cons op ops ih =>
    intro w done cur h hl hne h64
    cases op with
    | append k v =>
      obtain ⟨ho, d1, c1, h1, hl1, hne1, hfl⟩ := late_Append sn w d0 done cur k v h hl hne
        (h64 k v (by simp))
      obtain ⟨ho2, d2, c2, h2, hl2, hne2, hfl2⟩ := ih (w.Append sn k v).1 d1 c1 h1
        (by rw [ho]; exact hl1) hne1 (fun k' v' hm => h64 k' v' (by simp [hm]))
      refine ⟨?_, d2, c2, ?_, ?_, ?_, ?_⟩
      · show (Writer.run sn (w.Append sn k v).1 ops).1.o = w.o
        rw [ho2, ho]
      · exact h2
      · rw [ho] at hl2; exact hl2
      · exact hne2
      · show d2.flatten ++ c2 = (done.flatten ++ cur) ++
          accepted ((Op.append k v, (w.Append sn k v).2) ::
            (Writer.run sn (w.Append sn k v).1 ops).2)
        rw [hfl2, hfl]
        cases hr : (w.Append sn k v).2 with
        | none => simp [accepted]
        | some e => simp [accepted]
    | close =>
      obtain ⟨ho, d1, h1, hl1, hne1, hfl⟩ := late_Close sn w d0 done cur h hl
      obtain ⟨ho2, d2, c2, h2, hl2, hne2, hfl2⟩ := ih (w.Close sn).1 d1 [] h1
        (by rw [ho]; exact hl1) hne1 (fun k' v' hm => h64 k' v' (by simp [hm]))
      refine ⟨?_, d2, c2, ?_, ?_, ?_, ?_⟩
      · show (Writer.run sn (w.Close sn).1 ops).1.o = w.o
        rw [ho2, ho]
      · exact h2
      · rw [ho] at hl2; exact hl2
      · exact hne2
      · show d2.flatten ++ c2 = (done.flatten ++ cur) ++
          accepted ((Op.close, (w.Close sn).2) :: (Writer.run sn (w.Close sn).1 ops).2)
        rw [hfl2, List.append_nil, hfl]
        cases hr : (w.Close sn).2 with
        | none => simp [accepted]
        | some e => simp [accepted]

theorem framed_length_ge (buf : Bytes) (soffs : List Nat) :
    buf.length + 4 ≤ (framed buf soffs).length := by
  obtain ⟨t, ht⟩ := appendSoffs_head soffs buf
  unfold framed
  rw [ht, List.length_append, List.length_append, PutUint32_length]
  omega

/-- C12, as amended. `BlockSize` is a flush threshold. After any sequence of `Append`
and `Close` calls on a fresh writer over a sink that accepts every write, the accepted
entries split into the emitted blocks `blocks`, none of them empty, and the current
block `cur`; the sink holds, after what it held at the start, the bytes written for the
emitted blocks (followed by the index and the footer once the writer is closed). While
the writer is open its buffer holds the encoded entries of `cur`, and `cur` is not empty
when a block was emitted; once it is closed `cur` is empty. Every emitted block other
than the last block of a closed writer (the block `Close` wrote) is followed by an
accepted entry `e`, the first entry of the next block or of `cur`, and the encoded
entries of the block, the value of `e` and `2 * MaxVarintLen64 = 20` together exceed
`BlockSize`; hence the uncompressed size of the block (entries, section offsets and
section count), the value of `e` and 16 together exceed `BlockSize`. -/
theorem C12_flush_threshold (sn : Codec) (sink : Sink) (o : Option WriterOptions)
    (ops : List Op) (hacc : sink.accepting) (h64 : ∀ k v, Op.append k v ∈ ops → k < 2 ^ 64) :
    ∃ (blocks : List (List Entry)) (cur : List Entry) (rest : Bytes),
      blocks.flatten ++ cur = accepted (Writer.run sn (NewWriter sink o) ops).2 ∧
      (∀ b ∈ blocks, b ≠ []) ∧
      (Writer.run sn (NewWriter sink o) ops).1.w.data =
        sink.data ++ (blocks.map (diskBlock sn (WriterOptions.norm o))).flatten ++ rest ∧
      ((Writer.run sn (NewWriter sink o) ops).1.tmp = true → rest = [] ∧
        (Writer.run sn (NewWriter sink o) ops).1.buf =
          encRun (WriterOptions.norm o).BlockRestartInterval 0 0 cur ∧
        (blocks ≠ [] → cur ≠ [])) ∧
      ((Writer.run sn (NewWriter sink o) ops).1.tmp = false → cur = []) ∧
      ∀ pre b post, blocks = pre ++ b :: post →
        (post ≠ [] ∨ (Writer.run sn (NewWriter sink o) ops).1.tmp = true) →
        ∃ e tl, post.flatten ++ cur = e :: tl ∧
          (WriterOptions.norm o).BlockSize <
            (((encRun (WriterOptions.norm o).BlockRestartInterval 0 0 b).length +
              e.2.length + 20 : Nat) : Int) ∧
          (WriterOptions.norm o).BlockSize <
            (((framed (encRun (WriterOptions.norm o).BlockRestartInterval 0 0 b)
                (runOffs (WriterOptions.norm o).BlockRestartInterval 0 0 0 b)).length +
              e.2.length + 16 : Nat) : Int) := by
  obtain ⟨ho, blocks, cur, h, hl, hne, hfl⟩ := late_run sn sink.data ops (NewWriter sink o) [] []
    (carries_new sn sink o hacc) (flushedLate_nil _ _) (fun _ hx => absurd rfl hx) h64
  have hon : (NewWriter sink o).o = WriterOptions.norm o := rfl
  rw [hon] at ho hl
  obtain ⟨h1, h2, h3, h4, h5, h6, h7⟩ := h
  rw [ho] at h1 h5 h6 h7
  have hdata : ∃ rest, (Writer.run sn (NewWriter sink o) ops).1.w.data =
      sink.data ++ (blocks.map (diskBlock sn (WriterOptions.norm o))).flatten ++ rest ∧
      ((Writer.run sn (NewWriter sink o) ops).1.tmp = true → rest = [] ∧
        (Writer.run sn (NewWriter sink o) ops).1.buf =
          encRun (WriterOptions.norm o).BlockRestartInterval 0 0 cur) := by
    cases ht : (Writer.run sn (NewWriter sink o) ops).1.tmp with
    | true =>
      obtain ⟨-, a2, -, -, a5, -, a7⟩ := h6 ht
      refine ⟨[], ?_, fun _ => ⟨rfl, a5⟩⟩
      rw [a2, fileBlocks_diskBlocks, List.append_nil]
    | false =>
      refine ⟨encIndex (fileIndex 0 (diskBlocks sn (WriterOptions.norm o) blocks)) ++
        (PutUint64 (fileBlocks (diskBlocks sn (WriterOptions.norm o) blocks)).length ++ magic),
        ?_, fun hx => by cases hx⟩
      rw [(h7 ht).2, fileBytes, fileBlocks_diskBlocks]
      simp only [List.append_assoc]
  obtain ⟨rest, hd1, hd2⟩ := hdata
  refine ⟨blocks, cur, rest, by simpa using hfl, h2, hd1,
    fun ht => ⟨(hd2 ht).1, (hd2 ht).2, hne ht⟩, fun ht => (h7 ht).1, ?_⟩
  intro pre b post hsplit hnext
  have hnonempty : post.flatten ++ cur ≠ [] := by
    intro hnil
    obtain ⟨hp, hc⟩ := List.append_eq_nil.1 hnil
    rcases hnext with hpost | ht
    · obtain ⟨x, xs, hx⟩ := List.exists_cons_of_ne_nil hpost
      have hxm : x ∈ blocks := by rw [hsplit, hx]; simp
      have hxne := h2 x hxm
      rw [hx, List.flatten_cons] at hp
      exact hxne (List.append_eq_nil.1 hp).1
    · exact hne ht (by rw [hsplit]; simp) hc
  obtain ⟨e, tl, he⟩ := List.exists_cons_of_ne_nil hnonempty
  have hb := hl pre b post e tl hsplit he
  refine ⟨e, tl, he, hb, ?_⟩
  have hfr := framed_length_ge (encRun (WriterOptions.norm o).BlockRestartInterval 0 0 b)
    (runOffs (WriterOptions.norm o).BlockRestartInterval 0 0 0 b)
  omega

set_option maxRecDepth 100000 in
theorem C12_flush_threshold_witness :
    ∃ (blocks : List (List Entry)) (cur : List Entry),
      blocks.flatten ++ cur =
        accepted (Writer.run rleCodec (NewWriter ⟨[], []⟩ (some ⟨30, 16, NoCompression⟩))
          [Op.append 1 [], Op.append 2 (List.replicate 20 0)]).2 ∧
      (blocks ≠ [] → cur ≠ []) ∧
      ∀ pre b post, blocks = pre ++ b :: post →
        ∃ e tl, post.flatten ++ cur = e :: tl ∧
          (WriterOptions.norm (some ⟨30, 16, NoCompression⟩)).BlockSize <
            (((encRun (WriterOptions.norm (some ⟨30, 16, NoCompression⟩)).BlockRestartInterval
              0 0 b).length + e.2.length + 20 : Nat) : Int) := by
  obtain ⟨blocks, cur, rest, h1, -, -, h4, -, h6⟩ := C12_flush_threshold rleCodec ⟨[], []⟩
    (some ⟨30, 16, NoCompression⟩) [Op.append 1 [], Op.append 2 (List.replicate 20 0)]
    (by decide)
    (by
      intro k v hm
      simp only [List.mem_cons, Op.append.injEq, List.mem_singleton,
        List.not_mem_nil, or_false] at hm
      rcases hm with ⟨h, -⟩ | ⟨h, -⟩ <;> rw [h] <;> norm_num)
  have ht : (Writer.run rleCodec (NewWriter ⟨[], []⟩ (some ⟨30, 16, NoCompression⟩))
      [Op.append 1 [], Op.append 2 (List.replicate 20 0)]).1.tmp = true := by decide
  refine ⟨blocks, cur, h1, (h4 ht).2.2, ?_⟩
  intro pre b post hsplit
  obtain ⟨e, tl, he, hb, -⟩ := h6 pre b post hsplit (Or.inr ht)
  exact ⟨e, tl, he, hb⟩

end Sntable
